import Mathlib

/-! Kent mixture model: the bookkeeping steps of `Mixture.cpp`.

Shallow embedding of the bookkeeping part of `Mixture` (weights, effective
sample sizes, responsibility matrix) and of the structural operators
`split`, `kill` and `join`.

Modelling conventions.

* `long double` is modelled by an arbitrary linear ordered field `α`
  (exact arithmetic, no rounding, no NaN or infinity).  The definitions are
  computable for `α = ℚ`; statements involving `exp` are made for `α = ℝ`.
* `std::vector<T>` is a `List T`.  `v[i]` is a checked access: reading or
  writing outside the vector is the fault `outOfBounds` (undefined behaviour
  in the C++ code).
* A division whose divisor is zero has no value in exact arithmetic and is the
  fault `divByZero`; a failing `assert` is the fault `assertion`; constructing
  a vector with a negative size is the fault `lengthError`; the logarithm of a
  number that is not positive is the fault `domainError`; leaving a function
  that returns a value without a `return` is the fault `noReturn`.
* Loops and recursions that need not end carry a fuel argument; running out
  of it is the fault `outOfFuel`.
* `K`, `N` and component indices are natural numbers (the `int` members are
  never negative in a constructed mixture).
* The structural operators are modelled up to the construction of the mixture
  they hand to `EM()`; the child mixtures they fit with `estimateParameters()`
  are parameters.
* `for (int i = lo; i < hi; i++)` loops are `forLoop lo hi body`, threading
  the variables the loop body updates.
* `Kent` components are an abstract type `κ` with a default value (the
  default constructor); `Kent::log_density` is a parameter.
* A file is the list of its lines, a line a list of characters; the
  extraction of a number from a token and the construction of a component
  are parameters.
* Matrices are lists of rows with checked access; a validation that ends the
  program with `exit(1)` is the fault `assertion`.
-/

namespace FisherBingham

/-- Ways in which a run of the C++ code leaves the exact-arithmetic model. -/
inductive Fault where
  | outOfBounds
  | divByZero
  | assertion
  | lengthError
  | domainError
  | noReturn
  | outOfFuel
  deriving DecidableEq

/-- Result of running a piece of the program. -/
abbrev Exec (β : Type) := Except Fault β

/-- Checked `v[i]` used as an rvalue. -/
def read {β : Type} (v : List β) (i : Nat) : Exec β :=
  match v[i]? with
  | some x => .ok x
  | none => .error .outOfBounds

/-- Checked `v[i] = x`. -/
def write {β : Type} (v : List β) (i : Nat) (x : β) : Exec (List β) :=
  if i < v.length then .ok (v.set i x) else .error .outOfBounds

/-- Division `x / y` of two `long double` values in exact arithmetic. -/
def fdiv {α : Type} [LinearOrderedField α] (x y : α) : Exec α :=
  if y = 0 then .error .divByZero else .ok (x / y)

/-- Run of `assert(b)`. -/
def assert (b : Bool) : Exec Unit :=
  if b then .ok () else .error .assertion

/-- Loop `for (int i = lo; i < hi; i++) body`, where `s` collects the
variables updated by the body. -/
def forLoop {σ : Type} (lo : Nat) : Nat → (Nat → σ → Exec σ) → σ → Exec σ
  | 0, _, s => .ok s
  | hi + 1, body, s =>
    if lo ≤ hi then forLoop lo hi body s >>= body hi else .ok s

/-- Data members of `class Mixture` (`Mixture.h`) that the structural steps
use; `id`, `msglens` and the cached message lengths are left out. -/
structure Mixture (κ α : Type) where
  N : Nat
  K : Nat
  components : List κ
  data : List (List α)
  data_weights : List α
  responsibility : List (List α)
  sample_size : List α
  weights : List α

/-- The seven-argument constructor `Mixture::Mixture(K, components, weights,
sample_size, responsibility, data, data_weights)` with its assertions. -/
def Mixture.ofFullState {κ α : Type} (K : Nat) (components : List κ)
    (weights sample_size : List α) (responsibility data : List (List α))
    (data_weights : List α) : Exec (Mixture κ α) := do
  assert (components.length == K)
  assert (weights.length == K)
  assert (sample_size.length == K)
  assert (responsibility.length == K)
  let N := data.length
  assert (data_weights.length == N)
  pure { N := N, K := K, components := components, data := data,
         data_weights := data_weights, responsibility := responsibility,
         sample_size := sample_size, weights := weights }

/-- `Mixture::updateEffectiveSampleSize`. -/
def updateEffectiveSampleSize {κ α : Type} [LinearOrderedField α]
    (m : Mixture κ α) : Exec (Mixture κ α) := do
  let sample_size ← forLoop 0 m.K (fun i sample_size => do
    let count ← forLoop 0 m.N (fun j count => do
      let row ← read m.responsibility i
      let r ← read row j
      pure (count + r)) (0 : α)
    write sample_size i count) m.sample_size
  pure { m with sample_size := sample_size }

/-- `Mixture::updateWeights`. -/
def updateWeights {κ α : Type} [LinearOrderedField α]
    (m : Mixture κ α) : Exec (Mixture κ α) := do
  let normalization_constant : α := (m.N : α) + (m.K : α) / 2
  let weights ← forLoop 0 m.K (fun i weights => do
    let s ← read m.sample_size i
    let w ← fdiv (s + 0.5) normalization_constant
    write weights i w) m.weights
  pure { m with weights := weights }

/-- Sum of column `j` of a matrix stored as a list of rows. -/
def columnSum {α : Type} [LinearOrderedField α] (rows : List (List α)) (j : Nat) : α :=
  (rows.map (fun row => row.getD j 0)).sum

/-- `maximumIndex` (`Support.cpp`): index of the first greatest entry. -/
def maximumIndex {α : Type} [LinearOrder α] (values : List α) : Exec Nat := do
  let max_index := 0
  let max_val ← read values 0
  let s ← forLoop 1 values.length (fun i (s : Nat × α) => do
    let v ← read values i
    if v > s.2 then pure (i, v) else pure s) (max_index, max_val)
  pure s.1

/-- Body of the loop over data points in `Mixture::updateResponsibilityMatrix`:
the posterior of data point `i`, written into column `i` of the matrix.
`exp` is the exponential and `log_density c x` stands for `c.log_density(x)`.
The assertion that the quotient is not NaN never fails in exact arithmetic; a
zero divisor `px` is the fault `divByZero`. -/
def responsibilityOfPoint {κ α : Type} [LinearOrderedField α]
    (exp : α → α) (log_density : κ → List α → α) (m : Mixture κ α)
    (i : Nat) (responsibility : List (List α)) : Exec (List (List α)) := do
  let log_densities ← forLoop 0 m.K (fun j log_densities => do
    let c ← read m.components j
    let x ← read m.data i
    write log_densities j (log_density c x)) (List.replicate m.K (0 : α))
  let max_index ← maximumIndex log_densities
  let max_log_density ← read log_densities max_index
  let log_densities ← forLoop 0 m.K (fun j log_densities => do
    let l ← read log_densities j
    write log_densities j (l - max_log_density)) log_densities
  let s ← forLoop 0 m.K (fun j (s : α × List α) => do
    let w ← read m.weights j
    let l ← read log_densities j
    let probabilities ← write s.2 j (w * exp l)
    let p ← read probabilities j
    pure (s.1 + p, probabilities)) ((0 : α), List.replicate m.K (0 : α))
  let px := s.1
  let probabilities := s.2
  forLoop 0 m.K (fun j responsibility => do
    let p ← read probabilities j
    let r ← fdiv p px
    let row ← read responsibility j
    let row ← write row i r
    write responsibility j row) responsibility

/-- `Mixture::updateResponsibilityMatrix` (the E-step). -/
def updateResponsibilityMatrix {κ α : Type} [LinearOrderedField α]
    (exp : α → α) (log_density : κ → List α → α)
    (m : Mixture κ α) : Exec (Mixture κ α) := do
  let responsibility ←
    forLoop 0 m.N (responsibilityOfPoint exp log_density m) m.responsibility
  pure { m with responsibility := responsibility }

/-- Entry `j` of a vector, `0` outside it (used to state results only). -/
def entry {α : Type} [LinearOrderedField α] (v : List α) (j : Nat) : α := v.getD j 0

/-- The vector `log_densities` the E-step computes for data point `i`. -/
def pointLogDensities {κ α : Type} [Inhabited κ]
    (log_density : κ → List α → α) (m : Mixture κ α) (i : Nat) : List α :=
  (List.range m.K).map (fun j => log_density (m.components.getD j default) (m.data.getD i []))

/-- The value `max_log_density` the E-step subtracts for data point `i`. -/
def maxLogDensity {κ α : Type} [Inhabited κ] [LinearOrderedField α]
    (log_density : κ → List α → α) (m : Mixture κ α) (i : Nat) : α :=
  match maximumIndex (pointLogDensities log_density m i) with
  | .ok k => entry (pointLogDensities log_density m i) k
  | .error _ => 0

/-- The value `probabilities[j]` the E-step computes for data point `i`. -/
def pointProbability {κ α : Type} [Inhabited κ] [LinearOrderedField α]
    (exp : α → α) (log_density : κ → List α → α) (m : Mixture κ α) (i j : Nat) : α :=
  entry m.weights j
    * exp (entry (pointLogDensities log_density m i) j - maxLogDensity log_density m i)

/-- The divisor `px` the E-step computes for data point `i`. -/
def pointTotal {κ α : Type} [Inhabited κ] [LinearOrderedField α]
    (exp : α → α) (log_density : κ → List α → α) (m : Mixture κ α) (i : Nat) : α :=
  ((List.range m.K).map (pointProbability exp log_density m i)).sum


/-- Constructor `std::vector<T> v(n, x)` for an `int` size `n`. -/
def allocate {β : Type} (n : Int) (x : β) : Exec (List β) :=
  if n < 0 then .error .lengthError else .ok (List.replicate n.toNat x)

/-- Well-formed mixture state: every vector has the length `K` or `N` it is
indexed with. -/
structure Mixture.WF {κ α : Type} (m : Mixture κ α) : Prop where
  components_length : m.components.length = m.K
  weights_length : m.weights.length = m.K
  sample_size_length : m.sample_size.length = m.K
  responsibility_length : m.responsibility.length = m.K
  rows_length : ∀ row ∈ m.responsibility, row.length = m.N
  data_length : m.data.length = m.N
  data_weights_length : m.data_weights.length = m.N

/-! ### `Mixture::kill` -/

/-- Part "adjust weights" of `Mixture::kill(c, log)`. -/
def killWeights {κ α : Type} [LinearOrderedField α] (m : Mixture κ α) (c : Nat) :
    Exec (List α) := do
  let K_m : Int := (m.K : Int) - 1
  let weights_m ← allocate K_m (0 : α)
  let wc ← read m.weights c
  let residual_sum := 1 - wc
  let s ← forLoop 0 m.K (fun i (s : Nat × List α) =>
    if i ≠ c then do
      let w ← read m.weights i
      let q ← fdiv w residual_sum
      let weights_m ← write s.2 s.1 q
      pure (s.1 + 1, weights_m)
    else pure s) (0, weights_m)
  pure s.2

/-- Part "adjust responsibility matrix" of `Mixture::kill(c, log)`. -/
def killResponsibility {κ α : Type} [LinearOrderedField α] (m : Mixture κ α) (c : Nat) :
    Exec (List (List α)) := do
  let K_m : Int := (m.K : Int) - 1
  let resp := List.replicate m.N (0 : α)
  let responsibility_m ← allocate K_m resp
  let s ← forLoop 0 m.K (fun i (s : Nat × List (List α)) =>
    if i ≠ c then do
      let responsibility_m ← forLoop 0 m.N (fun j responsibility_m => do
        let rc ← read m.responsibility c
        let rcj ← read rc j
        let residual_sum := 1 - rcj
        let ri ← read m.responsibility i
        let rij ← read ri j
        let q ← fdiv rij residual_sum
        let row ← read responsibility_m s.1
        let row ← write row j q
        write responsibility_m s.1 row) s.2
      pure (s.1 + 1, responsibility_m)
    else pure s) (0, responsibility_m)
  pure s.2

/-- Part "adjust effective sample size" of `Mixture::kill(c, log)`. -/
def killSampleSize {κ α : Type} [LinearOrderedField α] (m : Mixture κ α)
    (responsibility_m : List (List α)) : Exec (List α) := do
  let K_m : Int := (m.K : Int) - 1
  let sample_size_m ← allocate K_m (0 : α)
  forLoop 0 (m.K - 1) (fun i sample_size_m => do
    let sum ← forLoop 0 m.N (fun j sum => do
      let row ← read responsibility_m i
      let r ← read row j
      pure (sum + r)) (0 : α)
    write sample_size_m i sum) sample_size_m

/-- Part "child components" of `Mixture::kill(c, log)`. -/
def killComponents {κ α : Type} [Inhabited κ] (m : Mixture κ α) (c : Nat) :
    Exec (List κ) := do
  let K_m : Int := (m.K : Int) - 1
  let components_m ← allocate K_m (default : κ)
  let s ← forLoop 0 m.K (fun i (s : Nat × List κ) =>
    if i ≠ c then do
      let x ← read m.components i
      let components_m ← write s.2 s.1 x
      pure (s.1 + 1, components_m)
    else pure s) (0, components_m)
  pure s.2

/-- `Mixture::kill(c, log)` up to the construction of `modified`. -/
def kill {κ α : Type} [Inhabited κ] [LinearOrderedField α] (m : Mixture κ α) (c : Nat) :
    Exec (Mixture κ α) := do
  let weights_m ← killWeights m c
  let responsibility_m ← killResponsibility m c
  let sample_size_m ← killSampleSize m responsibility_m
  let components_m ← killComponents m c
  let data_weights_m := List.replicate m.N (1 : α)
  Mixture.ofFullState (m.K - 1) components_m weights_m sample_size_m responsibility_m
    m.data data_weights_m

/-! ### `Mixture::join` -/

/-- Part "adjust weights" of `Mixture::join(c1, c2, log)`. -/
def joinWeights {κ α : Type} [LinearOrderedField α] (m : Mixture κ α) (c1 c2 : Nat) :
    Exec (List α) := do
  let K_m : Int := (m.K : Int) - 1
  let weights_m ← allocate K_m (0 : α)
  let s ← forLoop 0 m.K (fun i (s : Nat × List α) =>
    if i ≠ c1 ∧ i ≠ c2 then do
      let w ← read m.weights i
      let weights_m ← write s.2 s.1 w
      pure (s.1 + 1, weights_m)
    else pure s) (0, weights_m)
  let w1 ← read m.weights c1
  let w2 ← read m.weights c2
  write s.2 s.1 (w1 + w2)

/-- Part "adjust responsibility matrix" of `Mixture::join(c1, c2, log)`;
returns `responsibility_m` and the merged row `resp`. -/
def joinResponsibility {κ α : Type} [LinearOrderedField α] (m : Mixture κ α) (c1 c2 : Nat) :
    Exec (List (List α) × List α) := do
  let K_m : Int := (m.K : Int) - 1
  let responsibility_m ← allocate K_m ([] : List α)
  let s ← forLoop 0 m.K (fun i (s : Nat × List (List α)) =>
    if i ≠ c1 ∧ i ≠ c2 then do
      let row ← read m.responsibility i
      let responsibility_m ← write s.2 s.1 row
      pure (s.1 + 1, responsibility_m)
    else pure s) (0, responsibility_m)
  let resp ← forLoop 0 m.N (fun i resp => do
    let r1 ← read m.responsibility c1
    let x1 ← read r1 i
    let r2 ← read m.responsibility c2
    let x2 ← read r2 i
    write resp i (x1 + x2)) (List.replicate m.N (0 : α))
  let responsibility_m ← write s.2 s.1 resp
  pure (responsibility_m, resp)

/-- Part "adjust effective sample size" of `Mixture::join(c1, c2, log)`. -/
def joinSampleSize {κ α : Type} [LinearOrderedField α] (m : Mixture κ α) (c1 c2 : Nat) :
    Exec (List α) := do
  let K_m : Int := (m.K : Int) - 1
  let sample_size_m ← allocate K_m (0 : α)
  let s ← forLoop 0 m.K (fun i (s : Nat × List α) =>
    if i ≠ c1 ∧ i ≠ c2 then do
      let n ← read m.sample_size i
      let sample_size_m ← write s.2 s.1 n
      pure (s.1 + 1, sample_size_m)
    else pure s) (0, sample_size_m)
  let n1 ← read m.sample_size c1
  let n2 ← read m.sample_size c2
  write s.2 s.1 (n1 + n2)

/-- Part "child components" of `Mixture::join(c1, c2, log)`.  The mixture
`joined(1, data, resp)` is constructed (its constructor asserts that `resp`
has one entry per data point) and fitted; `joined_comp` stands for the
components `joined.getComponents()` of the fitted mixture. -/
def joinComponents {κ α : Type} [Inhabited κ] (m : Mixture κ α) (c1 c2 : Nat)
    (resp : List α) (joined_comp : List κ) : Exec (List κ) := do
  let K_m : Int := (m.K : Int) - 1
  let components_m ← allocate K_m (default : κ)
  let s ← forLoop 0 m.K (fun i (s : Nat × List κ) =>
    if i ≠ c1 ∧ i ≠ c2 then do
      let x ← read m.components i
      let components_m ← write s.2 s.1 x
      pure (s.1 + 1, components_m)
    else pure s) (0, components_m)
  assert (resp.length == m.data.length)
  let x ← read joined_comp 0
  write s.2 s.1 x

/-- `Mixture::join(c1, c2, log)` up to the construction of `modified`. -/
def join {κ α : Type} [Inhabited κ] [LinearOrderedField α] (m : Mixture κ α) (c1 c2 : Nat)
    (joined_comp : List κ) : Exec (Mixture κ α) := do
  let weights_m ← joinWeights m c1 c2
  let r ← joinResponsibility m c1 c2
  let responsibility_m := r.1
  let resp := r.2
  let sample_size_m ← joinSampleSize m c1 c2
  let components_m ← joinComponents m c1 c2 resp joined_comp
  let data_weights_m := List.replicate m.N (1 : α)
  Mixture.ofFullState (m.K - 1) components_m weights_m sample_size_m responsibility_m
    m.data data_weights_m

/-! ### `Mixture::split` -/

/-- Variables updated by the loop "merge with the remaining components" of
`Mixture::split`. -/
structure MergeState (κ α : Type) where
  index : Nat
  weights_m : List α
  sample_size_m : List α
  responsibility_m : List (List α)
  components_m : List κ

/-- Body `weights_m[index] = w; sample_size_m[index] = n;
responsibility_m[index] = r; components_m[index] = x; index++` used twice in
the merge loop of `Mixture::split`. -/
def MergeState.push {κ α : Type} (s : MergeState κ α) (w n : α) (r : List α) (x : κ) :
    Exec (MergeState κ α) := do
  let weights_m ← write s.weights_m s.index w
  let sample_size_m ← write s.sample_size_m s.index n
  let responsibility_m ← write s.responsibility_m s.index r
  let components_m ← write s.components_m s.index x
  pure { index := s.index + 1, weights_m := weights_m, sample_size_m := sample_size_m,
         responsibility_m := responsibility_m, components_m := components_m }

/-- Part "adjust weights" of `Mixture::split(c, log)`: the child weights
scaled by `weights[c]`. -/
def splitWeights {κ α : Type} [LinearOrderedField α] (m : Mixture κ α) (c : Nat)
    (child : Mixture κ α) : Exec (List α) := do
  let weights_c := child.weights
  let x ← read weights_c 0
  let wc ← read m.weights c
  let weights_c ← write weights_c 0 (x * wc)
  let x ← read weights_c 1
  let wc ← read m.weights c
  write weights_c 1 (x * wc)

/-- Part "adjust responsibility matrix" of `Mixture::split(c, log)`: the child
responsibilities scaled point-wise by `responsibility[c]`. -/
def splitResponsibility {κ α : Type} [LinearOrderedField α] (m : Mixture κ α) (c : Nat)
    (child : Mixture κ α) : Exec (List (List α)) :=
  forLoop 0 2 (fun i responsibility_c =>
    forLoop 0 m.N (fun j responsibility_c => do
      let row ← read responsibility_c i
      let x ← read row j
      let rc ← read m.responsibility c
      let y ← read rc j
      let row ← write row j (x * y)
      write responsibility_c i row) responsibility_c) child.responsibility

/-- Part "adjust effective sample size" of `Mixture::split(c, log)`. -/
def splitSampleSize {κ α : Type} [LinearOrderedField α] (m : Mixture κ α)
    (responsibility_c : List (List α)) : Exec (List α) :=
  forLoop 0 2 (fun i sample_size_c => do
    let sum ← forLoop 0 m.N (fun j sum => do
      let row ← read responsibility_c i
      let r ← read row j
      pure (sum + r)) (0 : α)
    write sample_size_c i sum) (List.replicate 2 (0 : α))

/-- `Mixture::split(c, log)` up to the construction of `merged`.  The mixture
`m(2, data, responsibility[c])` is constructed (its constructor asserts that
`responsibility[c]` has one entry per data point) and fitted; `child` stands
for the fitted two-component mixture. -/
def split {κ α : Type} [Inhabited κ] [LinearOrderedField α] (m : Mixture κ α) (c : Nat)
    (child : Mixture κ α) : Exec (Mixture κ α) := do
  let rc ← read m.responsibility c
  assert (rc.length == m.data.length)
  let weights_c ← splitWeights m c child
  let responsibility_c ← splitResponsibility m c child
  let sample_size_c ← splitSampleSize m responsibility_c
  let components_c := child.components
  let K_m := m.K + 1
  let s ← forLoop 0 m.K (fun i (s : MergeState κ α) =>
    if i ≠ c then do
      let w ← read m.weights i
      let n ← read m.sample_size i
      let r ← read m.responsibility i
      let x ← read m.components i
      s.push w n r x
    else if i = c then
      forLoop 0 2 (fun j (s : MergeState κ α) => do
        let w ← read weights_c j
        let n ← read sample_size_c j
        let r ← read responsibility_c j
        let x ← read components_c j
        s.push w n r x) s
    else pure s)
    { index := 0, weights_m := List.replicate K_m (0 : α),
      sample_size_m := List.replicate K_m (0 : α),
      responsibility_m := List.replicate K_m ([] : List α),
      components_m := List.replicate K_m (default : κ) }
  let data_weights_m := List.replicate m.N (1 : α)
  Mixture.ofFullState K_m s.components_m s.weights_m s.sample_size_m s.responsibility_m
    m.data data_weights_m


/-- Output of the first `i` passes of the merge loop of `Mixture::split` for
one of the four vectors: the entries of `v` with index below `i`, entry `c`
being replaced by the two entries `x`, `y` of the children. -/
def mergedOutput {β : Type} (v : List β) (d : β) (c : Nat) (x y : β) (i : Nat) : List β :=
  (List.range i).flatMap (fun t => if t ≠ c then [v.getD t d] else [x, y])

/-- Value of `index` after the first `i` passes of the merge loop of
`Mixture::split`. -/
def mergeIndex (c i : Nat) : Nat := if i ≤ c then i else i + 1

/-- Row of a child's responsibilities scaled point-wise by the parent's row
`responsibility[c]`, as computed by `Mixture::split`. -/
def scaledRow {α : Type} [LinearOrderedField α] (N : Nat) (parent row : List α) : List α :=
  (List.range N).map (fun j => entry row j * entry parent j)


/-- Variables of the merge loop of `Mixture::split` after its first `i`
passes, for child vectors `weights_c`, `sample_size_c`, `responsibility_c`
and `components_c`. -/
def mergeStateAt {κ α : Type} [Inhabited κ] [LinearOrderedField α] (m : Mixture κ α) (c : Nat)
    (weights_c sample_size_c : List α) (responsibility_c : List (List α))
    (components_c : List κ) (i : Nat) : MergeState κ α :=
  { index := mergeIndex c i,
    weights_m := mergedOutput m.weights 0 c (weights_c.getD 0 0) (weights_c.getD 1 0) i
      ++ (List.replicate (m.K + 1) (0 : α)).drop (mergeIndex c i),
    sample_size_m :=
      mergedOutput m.sample_size 0 c (sample_size_c.getD 0 0) (sample_size_c.getD 1 0) i
      ++ (List.replicate (m.K + 1) (0 : α)).drop (mergeIndex c i),
    responsibility_m :=
      mergedOutput m.responsibility [] c (responsibility_c.getD 0 [])
        (responsibility_c.getD 1 []) i
      ++ (List.replicate (m.K + 1) ([] : List α)).drop (mergeIndex c i),
    components_m :=
      mergedOutput m.components default c (components_c.getD 0 default)
        (components_c.getD 1 default) i
      ++ (List.replicate (m.K + 1) (default : κ)).drop (mergeIndex c i) }


/-! ### `Mixture::initialize` -/

/-- The assignment loop of `Mixture::initialize()`: every data point `i` gets
responsibility 1 for component `rand() % K`; `draws i` is the value `rand()`
returns for data point `i`.  The remainder by `K = 0` is the fault
`divByZero`. -/
def initialAssignment {α : Type} [LinearOrderedField α] (K N : Nat) (draws : Nat → Nat) :
    Exec (List (List α)) :=
  forLoop 0 N (fun i responsibility => do
    let index ← if K = 0 then Except.error Fault.divByZero else pure (draws i % K)
    let row ← read responsibility index
    let row ← write row i 1
    write responsibility index row) (List.replicate K (List.replicate N (0 : α)))

/-- `Mixture::initialize()` up to the call of `updateComponents()` (the
re-estimation of the `Kent` components is not modelled). -/
def initialise {κ α : Type} [Inhabited κ] [LinearOrderedField α] (m : Mixture κ α)
    (draws : Nat → Nat) : Exec (Mixture κ α) := do
  let N := m.data.length
  let responsibility ← initialAssignment m.K N draws
  let m1 : Mixture κ α :=
    { m with N := N, responsibility := responsibility,
             sample_size := List.replicate m.K (0 : α) }
  let m2 ← updateEffectiveSampleSize m1
  let m3 ← updateWeights { m2 with weights := List.replicate m.K (0 : α) }
  pure { m3 with components := List.replicate m.K (default : κ) }

/-- Number of data points among the first `N` that the draws assign to
component `j`. -/
def assignedCount (K N : Nat) (draws : Nat → Nat) (j : Nat) : Nat :=
  ((List.range N).filter (fun i => decide (draws i % K = j))).length

/-! ### `Mixture::randomComponent` -/

/-- The loop of `Mixture::randomComponent()` from index `i` on, with `n`
weights left to inspect; falling off its end leaves the function without a
`return`. -/
def randomComponentFrom {α : Type} [LinearOrderedField α] (weights : List α) (random : α) :
    Nat → Nat → α → Exec Nat
  | 0, _, _ => .error .noReturn
  | n + 1, i, previous => do
    let w ← read weights i
    if random ≤ w + previous then pure i
    else randomComponentFrom weights random n (i + 1) (previous + w)

/-- `Mixture::randomComponent()`, where `random` is the uniform draw
`rand() / RAND_MAX`. -/
def randomComponent {α : Type} [LinearOrderedField α] (weights : List α) (random : α) :
    Exec Nat :=
  randomComponentFrom weights random weights.length 0 0


/-! ### `generateFromSimplex` -/

/-- Call `log(x)` of the natural logarithm, which has a value only for
`x > 0`; `log` is the logarithm on positive numbers. -/
def flog {α : Type} [LinearOrderedField α] (log : α → α) (x : α) : Exec α :=
  if 0 < x then .ok (log x) else .error .domainError

/-- `generateFromSimplex(K)` (`Support.cpp`); `draws i` is the `i`-th uniform
draw `rand() / RAND_MAX`. -/
def generateFromSimplex {α : Type} [LinearOrderedField α] (log : α → α) (K : Nat)
    (draws : Nat → α) : Exec (List α) := do
  let s ← forLoop 0 K (fun i (s : α × List α) => do
    let random := draws i
    assert (decide (random > 0) && decide (random < 1))
    let l ← flog log (1 - random)
    let values ← write s.2 i (-l)
    let v ← read values i
    pure (s.1 + v, values)) ((0 : α), List.replicate K (0 : α))
  let sum := s.1
  forLoop 0 K (fun i values => do
    let v ← read values i
    let q ← fdiv v sum
    write values i q) s.2


/-! ### `Mixture::EM` -/

/-- A `long double` result that may be one of the IEEE special values; the
finite values are exact. -/
inductive LongDouble (α : Type) where
  | finite (x : α)
  | posInf
  | negInf
  | nan

/-- The test `fabs(x) >= INFINITY`: false for a NaN. -/
def LongDouble.isInfinite {α : Type} : LongDouble α → Bool
  | .posInf => true
  | .negInf => true
  | _ => false

/-- The test `x > 0`: false for a NaN. -/
def LongDouble.gtZero {α : Type} [LinearOrderedField α] : LongDouble α → Bool
  | .finite x => decide (0 < x)
  | .posInf => true
  | _ => false

/-- The difference `x - y`. -/
def LongDouble.sub {α : Type} [LinearOrderedField α] : LongDouble α → LongDouble α → LongDouble α
  | .nan, _ => .nan
  | _, .nan => .nan
  | .finite x, .finite y => .finite (x - y)
  | .finite _, .posInf => .negInf
  | .finite _, .negInf => .posInf
  | .posInf, .posInf => .nan
  | .posInf, _ => .posInf
  | .negInf, .negInf => .nan
  | .negInf, _ => .negInf

/-- The product `r * x` for a finite factor `r`. -/
def LongDouble.scale {α : Type} [LinearOrderedField α] (r : α) : LongDouble α → LongDouble α
  | .finite x => .finite (r * x)
  | .posInf => if 0 < r then .posInf else if r < 0 then .negInf else .nan
  | .negInf => if 0 < r then .negInf else if r < 0 then .posInf else .nan
  | .nan => .nan

/-- The test `x <= y`: false when either side is a NaN. -/
def LongDouble.le {α : Type} [LinearOrderedField α] : LongDouble α → LongDouble α → Bool
  | .nan, _ => false
  | _, .nan => false
  | .finite x, .finite y => decide (x ≤ y)
  | .negInf, _ => true
  | _, .posInf => true
  | _, _ => false

/-- Local variables `prev`, `iter` of `Mixture::EM()` and the member `msglens`. -/
structure EMState (α : Type) where
  prev : LongDouble α
  iter : Nat
  msglens : List (LongDouble α)

/-- One pass of the `while (1)` loop of `Mixture::EM()` in MML mode, for the
value `current` that `computeMinimumMessageLength()` returned in this pass;
the flag tells whether the pass left the loop with `break`. -/
def emPass {α : Type} [LinearOrderedField α] (IMPROVEMENT_RATE : α) (current : LongDouble α)
    (s : EMState α) : Exec (Bool × EMState α) :=
  if current.isInfinite then pure (true, s)
  else
    let s1 : EMState α := { s with msglens := s.msglens ++ [current] }
    let s2 : EMState α := { s1 with prev := current, iter := s.iter + 1 }
    if s.iter ≠ 1 then do
      assert current.gtZero
      if decide (s.iter > 10)
          && (s.prev.sub current).le (LongDouble.scale IMPROVEMENT_RATE s.prev) then
        pure (true, s1)
      else pure (false, s2)
    else pure (false, s2)

/-- The `while (1)` loop of `Mixture::EM()` in MML mode; `msglen iter` is the
value `computeMinimumMessageLength()` returns in pass `iter`, after the E-step
and the M-step of that pass. -/
def emLoop {α : Type} [LinearOrderedField α] (IMPROVEMENT_RATE : α)
    (msglen : Nat → LongDouble α) : Nat → EMState α → Exec (EMState α)
  | 0, _ => .error .outOfFuel
  | fuel + 1, s => do
    let r ← emPass IMPROVEMENT_RATE (msglen s.iter) s
    if r.1 then pure r.2 else emLoop IMPROVEMENT_RATE msglen fuel r.2

/-- `Mixture::EM()` in MML mode, started with the recorded message lengths
`msglens`: `prev = 0`, `iter = 1`, then the loop. -/
def EM {α : Type} [LinearOrderedField α] (IMPROVEMENT_RATE : α)
    (msglen : Nat → LongDouble α) (fuel : Nat) (msglens : List (LongDouble α)) :
    Exec (EMState α) :=
  emLoop IMPROVEMENT_RATE msglen fuel { prev := .finite 0, iter := 1, msglens := msglens }

/-- State of the loop of `Mixture::EM()` after `k` passes none of which left
the loop. -/
def emStateAfter {α : Type} [LinearOrderedField α] (msglen : Nat → LongDouble α)
    (msglens : List (LongDouble α)) (k : Nat) : EMState α :=
  { prev := if k = 0 then .finite 0 else msglen k,
    iter := k + 1,
    msglens := msglens ++ (List.range k).map (fun i => msglen (i + 1)) }


/-! ### `Mixture::computeMinimumMessageLength` -/

/-- `computeConstantTerm(d)` (`Support.cpp`); `PI` is the constant of that
name. -/
def computeConstantTerm {α : Type} [LinearOrderedField α] (log : α → α) (PI : α) (d : Int) :
    Exec α := do
  let ad : α := 0
  let l ← flog log (2 * PI)
  let ad := ad - 0.5 * (d : α) * l
  let l ← flog log ((d : α) * PI)
  let ad := ad + 0.5 * l
  pure ad

/-- `Mixture::log_probability(x)`. -/
def log_probability {κ α : Type} [LinearOrderedField α] (exp log : α → α)
    (log_density : κ → List α → α) (m : Mixture κ α) (x : List α) : Exec α := do
  let log_densities ← forLoop 0 m.K (fun j log_densities => do
    let c ← read m.components j
    write log_densities j (log_density c x)) (List.replicate m.K (0 : α))
  let max_index ← maximumIndex log_densities
  let max_log_density ← read log_densities max_index
  let log_densities ← forLoop 0 m.K (fun j log_densities => do
    let l ← read log_densities j
    write log_densities j (l - max_log_density)) log_densities
  let density ← forLoop 0 m.K (fun j density => do
    let w ← read m.weights j
    let l ← read log_densities j
    pure (density + w * exp l)) (0 : α)
  let l ← flog log density
  pure (max_log_density + l)

/-- `Mixture::negativeLogLikelihood(sample)`. -/
def negativeLogLikelihood {κ α : Type} [LinearOrderedField α] (exp log : α → α)
    (log_density : κ → List α → α) (m : Mixture κ α) (sample : List (List α)) : Exec α :=
  forLoop 0 sample.length (fun i value => do
    let x ← read sample i
    let log_density ← log_probability exp log log_density m x
    pure (value - log_density)) (0 : α)

/-- The weight-encoding term `Iw` of `Mixture::computeMinimumMessageLength()`:
the statements from `Iw = ((K-1)/2.0) * log(N)` to the end of the loop over
the weights.  `lgamma` stands for `boost::math::lgamma`. -/
def msglenIw {κ α : Type} [LinearOrderedField α] (log lgamma : α → α) (m : Mixture κ α) :
    Exec α := do
  let l ← flog log (m.N : α)
  let Iw : α := (((m.K : α) - 1) / 2) * l
  let Iw := Iw - lgamma (m.K : α)
  forLoop 0 m.K (fun i Iw => do
    let w ← read m.weights i
    let l ← flog log w
    pure (Iw - 0.5 * l)) Iw

/-- `Mixture::computeMinimumMessageLength()`.  `lgamma` stands for
`boost::math::lgamma`, `log_prior c` for `c.computeLogPriorProbability()`, and
`MAX_COMPONENTS`, `AOM`, `PI` for the constants of these names.  The members
`part1` and `part2` are not modelled. -/
def computeMinimumMessageLength {κ α : Type} [LinearOrderedField α] (exp log lgamma : α → α)
    (log_density : κ → List α → α) (log_prior : κ → α) (MAX_COMPONENTS : Nat) (AOM PI : α)
    (m : Mixture κ α) : Exec α := do
  let Ik ← flog log (MAX_COMPONENTS : α)
  assert (decide (Ik > 0))
  let Iw ← msglenIw log lgamma m
  assert (decide (Iw ≥ 0))
  let Il ← negativeLogLikelihood exp log log_density m m.data
  let l ← flog log AOM
  let Il := Il - 2 * (m.N : α) * l
  assert (decide (Il > 0))
  let It ← forLoop 0 m.K (fun i It => do
    let c ← read m.components i
    let logp := log_prior c
    pure (It + logp)) (0 : α)
  let num_free_params : Int := 4 * (m.K : Int) - 1
  let cd ← computeConstantTerm log PI num_free_params
  let l ← flog log 2
  fdiv (Ik + Iw + Il + It + cd) l


/-- A two-component mixture over one data point that belongs to component 0
with responsibility 1. -/
def certainMixture (α : Type) [LinearOrderedField α] : Mixture Nat α :=
  { N := 1, K := 2, components := [10, 11], data := [[1, 0, 0]],
    data_weights := [1],
    responsibility := [[1], [0]],
    sample_size := [1, 0],
    weights := [3 / 4, 1 / 4] }

/-- A one-component mixture over one data point. -/
def singleMixture (α : Type) [LinearOrderedField α] : Mixture Nat α :=
  { N := 1, K := 1, components := [10], data := [[1, 0, 0]],
    data_weights := [1],
    responsibility := [[1]],
    sample_size := [1],
    weights := [1] }

/-- Ten components fitted to a single data point, which belongs to
component 0. -/
def crowdedMixture (α : Type) [LinearOrderedField α] : Mixture Nat α :=
  { N := 1, K := 10, components := List.replicate 10 0, data := [[1, 0, 0]],
    data_weights := [1],
    responsibility := [1] :: List.replicate 9 [0],
    sample_size := 1 :: List.replicate 9 0,
    weights := List.replicate 10 0 }

/-! ### `logModifiedBesselFirstKind` -/

/-- Variables of the loop of `logModifiedBesselFirstKind`: the running term
`R`, the sum `I` and the counter `m`. -/
structure BesselState (α : Type) where
  R : α
  I : α
  m : α

/-- One pass of the `do ... while` loop of `logModifiedBesselFirstKind`.  The
test `R >= INFINITY || I >= INFINITY` is never true of the numbers of the
model and is left out. -/
def besselPass {α : Type} [LinearOrderedField α] (x2_4 alpha : α) (s : BesselState α) :
    Exec (BesselState α) := do
  let tmp ← fdiv x2_4 (s.m * (alpha + s.m))
  let R := s.R * tmp
  let I := s.I + R
  pure { R := R, I := I, m := s.m + 1 }

/-- The `do ... while (R >= I * ZERO)` loop of `logModifiedBesselFirstKind`. -/
def besselLoop {α : Type} [LinearOrderedField α] (ZERO x2_4 alpha : α) :
    Nat → BesselState α → Exec (BesselState α)
  | 0, _ => .error .outOfFuel
  | fuel + 1, s => do
    let s ← besselPass x2_4 alpha s
    if s.R ≥ s.I * ZERO then besselLoop ZERO x2_4 alpha fuel s else pure s

/-- `logModifiedBesselFirstKind(alpha, x)` (`Support.cpp`).  The first `if`
only prints a message.  `lgamma` stands for `boost::math::lgamma`, and
`TOLERANCE`, `ZERO` for the constants of these names. -/
def logModifiedBesselFirstKind {α : Type} [LinearOrderedField α] (log lgamma : α → α)
    (TOLERANCE ZERO : α) (alpha x : α) (fuel : Nat) : Exec α :=
  if alpha = 0 then do
    let x2_4 := x * x * 0.25
    let s ← besselLoop ZERO x2_4 alpha fuel { R := 1, I := 1, m := 1 }
    let l ← flog log s.I
    let lx ← flog log (x / 2.0)
    pure (l + alpha * lx - lgamma (alpha + 1))
  else if |x| ≤ TOLERANCE then pure 0
  else do
    let x2_4 := x * x * 0.25
    let s ← besselLoop ZERO x2_4 alpha fuel { R := 1, I := 1, m := 1 }
    let l ← flog log s.I
    let lx ← flog log (x / 2.0)
    pure (l + alpha * lx - lgamma (alpha + 1))

/-- Term `k` of the power series of `I_alpha(x) * Gamma(alpha+1) / (x/2)^alpha`
(used to state results only). -/
def besselTerm {α : Type} [LinearOrderedField α] (alpha x : α) (k : Nat) : α :=
  (x ^ 2 / 4) ^ k
    / ((k.factorial : α) * ((List.range k).map (fun (j : Nat) => alpha + ((j : α) + 1))).prod)

/-- Partial sum of the terms `0..k` of the power series. -/
def besselPartialSum {α : Type} [LinearOrderedField α] (alpha x : α) (k : Nat) : α :=
  ((List.range (k + 1)).map (besselTerm alpha x)).sum

/-! ### Vectors on the sphere (`Support.cpp`) -/

/-- `norm(v)`; `sqrt` is the square root. -/
def norm {α : Type} [LinearOrderedField α] (sqrt : α → α) (v : List α) : Exec α := do
  let normsq ← forLoop 0 v.length (fun i normsq => do
    let x ← read v i
    pure (normsq + x * x)) (0 : α)
  pure (sqrt normsq)

/-- `normalize(x, unit)`: returns the norm and the updated `unit`. -/
def normalize {α : Type} [LinearOrderedField α] (sqrt : α → α) (x unit : List α) :
    Exec (α × List α) := do
  let l2norm ← norm sqrt x
  let unit ← forLoop 0 x.length (fun i unit => do
    let xi ← read x i
    let q ← fdiv xi l2norm
    write unit i q) unit
  pure (l2norm, unit)

/-- `cartesian2spherical(cartesian, spherical)`: returns the updated
`spherical`.  `acos`, `sin` are the functions of these names and `PI` the
constant.  The quotient `x / sin(theta)` and its arc cosine are used only when
`x` and `y` are not both zero (a floating-point division does not trap), so
the model computes them there. -/
def cartesian2spherical {α : Type} [LinearOrderedField α] (sqrt acos sin : α → α) (PI : α)
    (cartesian spherical : List α) : Exec (List α) := do
  let unit := List.replicate 3 (0 : α)
  let n ← normalize sqrt cartesian unit
  let r := n.1
  let unit := n.2
  let x ← read unit 0
  let y ← read unit 1
  let z ← read unit 2
  let theta := acos z
  let phi ←
    if x = 0 ∧ y = 0 then pure (0 : α)
    else do
      let ratio ← fdiv x (sin theta)
      let ratio := if ratio > 1 then 1 else if ratio < -1 then -1 else ratio
      let angle := acos ratio
      if x = 0 then
        if y > 0 then pure angle else pure (2 * PI - angle)
      else if y ≥ 0 then pure angle
      else if y < 0 then pure (2 * PI - angle)
      else pure 0
  let spherical ← write spherical 0 r
  let spherical ← write spherical 1 theta
  write spherical 2 phi

/-- `spherical2cartesian(spherical, cartesian)`: returns the updated
`cartesian`. -/
def spherical2cartesian {α : Type} [LinearOrderedField α] (sin cos : α → α)
    (spherical cartesian : List α) : Exec (List α) := do
  let r ← read spherical 0
  let theta ← read spherical 1
  let phi ← read spherical 2
  let cartesian ← write cartesian 0 (r * sin theta * cos phi)
  let cartesian ← write cartesian 1 (r * sin theta * sin phi)
  write cartesian 2 (r * cos theta)

/-- `computeDotProduct(v1, v2)`. -/
def computeDotProduct {α : Type} [LinearOrderedField α] (v1 v2 : List α) : Exec α := do
  assert (v1.length == v2.length)
  forLoop 0 v1.length (fun i dot_product => do
    let a ← read v1 i
    let b ← read v2 i
    pure (dot_product + a * b)) (0 : α)

/-- `crossProduct(v1, v2)`. -/
def crossProduct {α : Type} [LinearOrderedField α] (v1 v2 : List α) : Exec (List α) := do
  let ans := List.replicate 3 (0 : α)
  let a1 ← read v1 1
  let b2 ← read v2 2
  let a2 ← read v1 2
  let b1 ← read v2 1
  let ans ← write ans 0 (a1 * b2 - a2 * b1)
  let a2 ← read v1 2
  let b0 ← read v2 0
  let a0 ← read v1 0
  let b2 ← read v2 2
  let ans ← write ans 1 (a2 * b0 - a0 * b2)
  let a0 ← read v1 0
  let b1 ← read v2 1
  let a1 ← read v1 1
  let b0 ← read v2 0
  write ans 2 (a0 * b1 - a1 * b0)


/-! ### Rotations (`Support.cpp`) -/

/-- Checked `m(i,j)` used as an rvalue, for a matrix stored as a list of rows. -/
def mread {β : Type} (m : List (List β)) (i j : Nat) : Exec β := do
  let row ← read m i
  read row j

/-- Checked `m(i,j) = x`. -/
def mwrite {β : Type} (m : List (List β)) (i j : Nat) (x : β) : Exec (List (List β)) := do
  let row ← read m i
  let row ← write row j x
  write m i row

/-- Number of columns `m.size2()` of a matrix stored as a list of rows. -/
def size2 {β : Type} (m : List (List β)) : Nat := (m.headD []).length

/-- `IdentityMatrix(n, n)` of boost ublas. -/
def IdentityMatrix {α : Type} [LinearOrderedField α] (n : Nat) : List (List α) :=
  (List.range n).map (fun i => (List.range n).map (fun j => if i = j then 1 else 0))

/-- `trans(m)` of boost ublas. -/
def trans {α : Type} [LinearOrderedField α] (m : List (List α)) : List (List α) :=
  (List.range (size2 m)).map (fun j => m.map (fun row => row.getD j 0))

/-- `prod(a, b)` of boost ublas for two matrices. -/
def matrixProd {α : Type} [LinearOrderedField α] (a b : List (List α)) : List (List α) :=
  a.map (fun row => (List.range (size2 b)).map (fun j =>
    ((List.range row.length).map (fun k => row.getD k 0 * (b.getD k []).getD j 0)).sum))

/-- `prod(m, v)` of `Support.cpp`: matrix times column vector. -/
def prod {α : Type} [LinearOrderedField α] (m : List (List α)) (v : List α) :
    Exec (List α) := do
  assert (size2 m == v.length)
  forLoop 0 m.length (fun i ans =>
    forLoop 0 (size2 m) (fun j ans => do
      let x ← mread m i j
      let vj ← read v j
      let a ← read ans i
      write ans i (a + x * vj)) ans) (List.replicate m.length (0 : α))

/-- `rotate_about_zaxis(theta)`. -/
def rotate_about_zaxis {α : Type} [LinearOrderedField α] (sin cos : α → α) (theta : α) :
    Exec (List (List α)) := do
  let r := IdentityMatrix 3
  let r ← mwrite r 0 0 (cos theta)
  let r ← mwrite r 0 1 (-sin theta)
  let x ← mread r 0 1
  let r ← mwrite r 1 0 (-x)
  let x ← mread r 0 0
  mwrite r 1 1 x

/-- `align_zaxis_with_vector(y)`. -/
def align_zaxis_with_vector {α : Type} [LinearOrderedField α] (sqrt acos sin cos : α → α)
    (PI : α) (y : List α) : Exec (List (List α)) := do
  let spherical := List.replicate 3 (0 : α)
  let spherical ← cartesian2spherical sqrt acos sin PI y spherical
  let theta ← read spherical 1
  let phi ← read spherical 2
  let r1 := IdentityMatrix 3
  let r1 ← mwrite r1 0 0 (cos theta)
  let r1 ← mwrite r1 0 2 (sin theta)
  let x ← mread r1 0 2
  let r1 ← mwrite r1 2 0 (-x)
  let x ← mread r1 0 0
  let r1 ← mwrite r1 2 2 x
  let r2 := IdentityMatrix 3
  let r2 ← mwrite r2 0 0 (cos phi)
  let r2 ← mwrite r2 0 1 (-sin phi)
  let x ← mread r2 0 1
  let r2 ← mwrite r2 1 0 (-x)
  let x ← mread r2 0 0
  let r2 ← mwrite r2 1 1 x
  pure (matrixProd r2 r1)

/-- `computeOrthogonalTransformation(mean, major_axis)`. -/
def computeOrthogonalTransformation {α : Type} [LinearOrderedField α]
    (sqrt acos sin cos : α → α) (PI : α) (mean major_axis : List α) :
    Exec (List (List α)) := do
  let r1 ← align_zaxis_with_vector sqrt acos sin cos PI mean
  let r_inv := trans r1
  let mj_xy ← prod r_inv major_axis
  let spherical := List.replicate 3 (0 : α)
  let spherical ← cartesian2spherical sqrt acos sin PI mj_xy spherical
  let psi ← read spherical 2
  let r2 ← rotate_about_zaxis sin cos psi
  pure (matrixProd r1 r2)

/-- `generateRandomOrthogonalVectors(mean, major_axis, minor_axis)`: returns
the three vectors.  `rand i` is the result of the `i`-th call of `rand()` and
`RAND_MAX` the constant of that name; the products `rand()*2` are taken in the
integers (an overflow of `int` is undefined behaviour and is not modelled). -/
def generateRandomOrthogonalVectors {α : Type} [LinearOrderedField α]
    (sqrt acos sin cos : α → α) (PI : α) (rand : Nat → Int) (RAND_MAX : Int) :
    Exec (List α × List α × List α) := do
  let phi ← fdiv (((rand 0 * 2 : Int) : α) * PI) (RAND_MAX : α)
  let spherical := List.replicate 3 (1 : α)
  let major1 := List.replicate 3 (0 : α)
  let spherical ← write spherical 1 (PI / 2)
  let spherical ← write spherical 2 phi
  let major1 ← spherical2cartesian sin cos spherical major1
  let theta ← fdiv (((rand 1 : Int) : α) * PI) (RAND_MAX : α)
  let phi ← fdiv (((rand 2 * 2 : Int) : α) * PI) (RAND_MAX : α)
  let spherical ← write spherical 1 theta
  let spherical ← write spherical 2 phi
  let mean := List.replicate 3 (0 : α)
  let mean ← spherical2cartesian sin cos spherical mean
  let r ← align_zaxis_with_vector sqrt acos sin cos PI mean
  let major_axis ← prod r major1
  let minor_axis ← crossProduct mean major_axis
  pure (mean, major_axis, minor_axis)

/-- Modelled from the spec: the global `XAXIS` is declared in `Support.cpp`
and assigned outside the given sources; the first of the spec's "three
orthonormal axes (1,0,0)/(0,1,0)/(0,0,1)". -/
def XAXIS {α : Type} [LinearOrderedField α] : List α := [1, 0, 0]

/-- Modelled from the spec: the global `YAXIS`, the second of the spec's
three orthonormal axes. -/
def YAXIS {α : Type} [LinearOrderedField α] : List α := [0, 1, 0]

/-- Modelled from the spec: the global `ZAXIS`, the third of the spec's three
orthonormal axes. -/
def ZAXIS {α : Type} [LinearOrderedField α] : List α := [0, 0, 1]

/-! ### `sort` (`Support.cpp`) -/

/-- Checked `v[i]` for an `int` index, used as an rvalue. -/
def readZ {β : Type} (v : List β) (i : Int) : Exec β :=
  if 0 ≤ i then read v i.toNat else .error .outOfBounds

/-- Checked `v[i] = x` for an `int` index. -/
def writeZ {β : Type} (v : List β) (i : Int) (x : β) : Exec (List β) :=
  if 0 ≤ i then write v i.toNat x else .error .outOfBounds

/-- The two vectors `quicksort` works on: the values and their original
positions. -/
structure SortState (α : Type) where
  list : List α
  index : List Int

/-- `partition(list, index, left, right)`: returns the updated vectors and the
new pivot index.  The loop variable is `i = left + k`. -/
def partition {α : Type} [LinearOrderedField α] (s : SortState α) (left right : Int) :
    Exec (SortState α × Int) := do
  let pivotPoint ← readZ s.list right
  let storeIndex := left
  let r ← forLoop 0 (right - left).toNat (fun k (r : SortState α × Int) => do
    let i : Int := left + (k : Int)
    let li ← readZ r.1.list i
    if li < pivotPoint then do
      let temp ← readZ r.1.list i
      let ls ← readZ r.1.list r.2
      let list ← writeZ r.1.list i ls
      let list ← writeZ list r.2 temp
      let temp_i ← readZ r.1.index i
      let is ← readZ r.1.index r.2
      let index ← writeZ r.1.index i is
      let index ← writeZ index r.2 temp_i
      pure ({ list := list, index := index }, r.2 + 1)
    else pure r) (s, storeIndex)
  let temp ← readZ r.1.list r.2
  let lr ← readZ r.1.list right
  let list ← writeZ r.1.list r.2 lr
  let list ← writeZ list right temp
  let temp_i ← readZ r.1.index r.2
  let ir ← readZ r.1.index right
  let index ← writeZ r.1.index r.2 ir
  let index ← writeZ index right temp_i
  pure ({ list := list, index := index }, r.2)

/-- `quicksort(list, index, left, right)`; `fuel` bounds the depth of the
recursion. -/
def quicksort {α : Type} [LinearOrderedField α] :
    Nat → SortState α → Int → Int → Exec (SortState α)
  | 0, s, left, right => if left < right then .error .outOfFuel else pure s
  | fuel + 1, s, left, right =>
    if left < right then do
      let p ← partition s left right
      let pivotNewIndex := p.2
      let s ← quicksort fuel p.1 left (pivotNewIndex - 1)
      quicksort fuel s (pivotNewIndex + 1) right
    else pure s

/-- `sort(list)`: returns the argument `list` as the call leaves it together
with the sorted copy it returns. -/
def sort {α : Type} [LinearOrderedField α] (list : List α) (fuel : Nat) :
    Exec (List α × List α) := do
  let num_samples : Int := (list.length : Int)
  let sortedList := list
  let index ← allocate num_samples (0 : Int)
  let index ← forLoop 0 list.length (fun i index => write index i (i : Int)) index
  let s ← quicksort fuel { list := sortedList, index := index } 0 (num_samples - 1)
  pure (list, s.list)

/-- The vector `v` with the entries at `i` and `j` exchanged (used to state
results only). -/
def swapAt {β : Type} (v : List β) (i j : Nat) : List β :=
  match v[i]?, v[j]? with
  | some x, some y => (v.set i y).set j x
  | _, _ => v

/-! ### Reading a mixture file (`Mixture.cpp`) -/

/-- The separator characters of
`boost::char_separator<char> sep("mukap,:()[] \t")`. -/
def separators : List Char := "mukap,:()[] \t".toList

/-- Tokens of a line under `boost::tokenizer` with the separators above: the
maximal runs of characters that are not separators (empty tokens are
dropped).  `cur` is the token being read. -/
def tokenize : List Char → List Char → List (List Char)
  | [], cur => if cur.isEmpty then [] else [cur]
  | c :: cs, cur =>
    if separators.contains c then
      (if cur.isEmpty then tokenize cs [] else cur :: tokenize cs [])
    else tokenize cs (cur ++ [c])

/-- The vector `numbers` filled from one line by the `BOOST_FOREACH` loop of
`Mixture::load`; `parseNumber` is the extraction `iss >> x` of one token. -/
def parseLine {α : Type} (parseNumber : List Char → α) (line : List Char) : List α :=
  (tokenize line []).map parseNumber

/-- Variables updated by the line loop of `Mixture::load`. -/
structure LoadState (κ α : Type) where
  K : Nat
  weights : List α
  components : List κ
  mean : List α
  unit_mean : List α
  sum_weights : α

/-- One pass of `while (getline(file, line))` in `Mixture::load`. -/
def loadLine {κ α : Type} [LinearOrderedField α] (sqrt : α → α)
    (parseNumber : List Char → α) (mkKent : List α → α → κ) (D : Nat)
    (line : List Char) (s : LoadState κ α) : Exec (LoadState κ α) := do
  let K := s.K + 1
  let numbers := parseLine parseNumber line
  let w ← read numbers 0
  let weights := s.weights ++ [w]
  let sum_weights := s.sum_weights + w
  let mean ← forLoop 1 (D + 1) (fun i mean => do
    let x ← read numbers i
    write mean (i - 1) x) s.mean
  let kappa ← read numbers (D + 1)
  let n ← normalize sqrt mean s.unit_mean
  let vmf := mkKent n.2 kappa
  pure { K := K, weights := weights, components := s.components ++ [vmf], mean := mean,
         unit_mean := n.2, sum_weights := sum_weights }

/-- `Mixture::load(file_name, D)`: `lines` are the lines of the file, `D` the
number of mean coordinates, `sqrt` the square root, `parseNumber` the
extraction `iss >> x` of one token and `mkKent` the construction
`Kent vmf(unit_mean, kappa)` of a component. -/
def load {κ α : Type} [LinearOrderedField α] (sqrt : α → α)
    (parseNumber : List Char → α) (mkKent : List α → α → κ) (m : Mixture κ α)
    (lines : List (List Char)) (D : Nat) : Exec (Mixture κ α) := do
  let s0 : LoadState κ α :=
    { K := 0, weights := [], components := [], mean := List.replicate D 0,
      unit_mean := List.replicate D 0, sum_weights := 0 }
  let s ← forLoop 0 lines.length (fun l s => do
    let line ← read lines l
    loadLine sqrt parseNumber mkKent D line s) s0
  let weights ← forLoop 0 s.K (fun i weights => do
    let w ← read weights i
    let q ← fdiv w s.sum_weights
    write weights i q) s.weights
  pure { m with sample_size := [], weights := weights, components := s.components, K := s.K }

/-- Mean coordinates among the numbers of a line: entries `1 .. D`. -/
def parsedMean {α : Type} [LinearOrderedField α] (D : Nat) (numbers : List α) : List α :=
  (List.range D).map (fun i => entry numbers (i + 1))

/-- A vector divided by its Euclidean norm. -/
def unitVector {α : Type} [LinearOrderedField α] (sqrt : α → α) (v : List α) : List α :=
  v.map (fun x => x / sqrt ((v.map (fun x => x * x)).sum))

/-- Value of a token made of decimal digits. -/
def parseDigits (t : List Char) : Nat :=
  t.foldl (fun n c => 10 * n + (c.toNat - 48)) 0

/-- Extraction of a number from a token of decimal digits. -/
def digitsValue (α : Type) [LinearOrderedField α] (t : List Char) : α :=
  ((parseDigits t : Nat) : α)

/-- A mixture with no components and no data. -/
def blankMixture (κ α : Type) : Mixture κ α :=
  { N := 0, K := 0, components := [], data := [], data_weights := [],
    responsibility := [], sample_size := [], weights := [] }

/-- First line of a mixture file over three coordinates. -/
def sampleLine0 : List Char := "1 mu(3,4,0) kappa 10".toList

/-- Second line of a mixture file over three coordinates. -/
def sampleLine1 : List Char := "3 mu: [0, 0, 2]  kappa: 7".toList

/-- A line whose weight is zero. -/
def zeroWeightLine : List Char := "0 mu(1,0,0) kappa 5".toList

/-! ### Jacobi eigenvalue iteration (`Support.cpp`) -/

/-- The rotation of `jacobiRotateMatrix`: the values `t`, `s` and `tau`
computed from `m(max_row,max_row)`, `m(max_col,max_col)` and the pivot
`m(max_row,max_col)`; `sqrt` is the square root. -/
def jacobiAngle {α : Type} [LinearOrderedField α] (sqrt : α → α) (mrr mcc mrc : α) :
    Exec (α × α × α) := do
  let diff := mcc - mrr
  let phi ← fdiv diff (2 * mrc)
  let t ← fdiv 1 (|phi| + sqrt (phi * phi + 1))
  let t := if phi < 0 then -t else t
  let c ← fdiv 1 (sqrt (t * t + 1))
  let s := t * c
  let tau ← fdiv s (1 + c)
  pure (t, s, tau)

/-- The update of the working matrix `m` in `jacobiRotateMatrix`: the pivot
and the two diagonal entries, then the three loops over the rest of the upper
triangle. -/
def jacobiRotateWorking {α : Type} [LinearOrderedField α] (t s tau : α)
    (m : List (List α)) (max_row max_col : Nat) : Exec (List (List α)) := do
  let temp ← mread m max_row max_col
  let m ← mwrite m max_row max_col 0
  let x ← mread m max_row max_row
  let m ← mwrite m max_row max_row (x - t * temp)
  let x ← mread m max_col max_col
  let m ← mwrite m max_col max_col (x + t * temp)
  let m ← forLoop 0 max_row (fun i m => do
    let temp ← mread m i max_row
    let y ← mread m i max_col
    let m ← mwrite m i max_row (temp - s * (y + tau * temp))
    let y ← mread m i max_col
    mwrite m i max_col (y + s * (temp - tau * y))) m
  let m ← forLoop (max_row + 1) max_col (fun i m => do
    let temp ← mread m max_row i
    let y ← mread m i max_col
    let x ← mread m max_row i
    let m ← mwrite m max_row i (temp - s * (y + tau * x))
    let y ← mread m i max_col
    mwrite m i max_col (y + s * (temp - tau * y))) m
  forLoop (max_col + 1) (size2 m) (fun i m => do
    let temp ← mread m max_row i
    let y ← mread m max_col i
    let m ← mwrite m max_row i (temp - s * (y + tau * temp))
    let y ← mread m max_col i
    mwrite m max_col i (y + s * (temp - tau * y))) m

/-- The update of the transformation matrix `eigen_vectors` in
`jacobiRotateMatrix`. -/
def jacobiRotateVectors {α : Type} [LinearOrderedField α] (s tau : α)
    (eigen_vectors : List (List α)) (max_row max_col : Nat) : Exec (List (List α)) :=
  forLoop 0 eigen_vectors.length (fun i V => do
    let temp ← mread V i max_row
    let y ← mread V i max_col
    let V ← mwrite V i max_row (temp - s * (y + tau * temp))
    let y ← mread V i max_col
    mwrite V i max_col (y + s * (temp - tau * y))) eigen_vectors

/-- `jacobiRotateMatrix(m, eigen_vectors, max_row, max_col)`: returns the
updated `m` and `eigen_vectors`.  The indices are the loop counters of
`eigenDecomposition`, which are not negative. -/
def jacobiRotateMatrix {α : Type} [LinearOrderedField α] (sqrt : α → α)
    (m eigen_vectors : List (List α)) (max_row max_col : Nat) :
    Exec (List (List α) × List (List α)) := do
  let mcc ← mread m max_col max_col
  let mrr ← mread m max_row max_row
  let mrc ← mread m max_row max_col
  let a ← jacobiAngle sqrt mrr mcc mrc
  let m ← jacobiRotateWorking a.1 a.2.1 a.2.2 m max_row max_col
  let V ← jacobiRotateVectors a.2.1 a.2.2 eigen_vectors max_row max_col
  pure (m, V)

/-- The search for the largest off-diagonal entry in `eigenDecomposition`:
returns `max_row`, `max_col` and `max_val`. -/
def largestOffDiagonal {α : Type} [LinearOrderedField α] (m : List (List α)) :
    Exec (Nat × Nat × α) := do
  let max_val ← mread m 0 1
  forLoop 0 (m.length - 1) (fun cur_row st =>
    forLoop (cur_row + 1) (size2 m) (fun cur_col st => do
      let x ← mread m cur_row cur_col
      if |x| > st.2.2 then pure (cur_row, cur_col, |x|) else pure st) st) (0, 1, max_val)

/-- The loop `for (int i = 0; i < MAX_ITERATIONS; i++)` of
`eigenDecomposition`, with `n` iterations left: returns the working matrix
and `eigen_vectors`. -/
def jacobiIterations {α : Type} [LinearOrderedField α] (sqrt : α → α) (ZERO : α) :
    Nat → List (List α) → List (List α) → Exec (List (List α) × List (List α))
  | 0, m, V => pure (m, V)
  | n + 1, m, V => do
    let found ← largestOffDiagonal m
    if found.2.2 ≤ ZERO then pure (m, V)
    else do
      let r ← jacobiRotateMatrix sqrt m V found.1 found.2.1
      jacobiIterations sqrt ZERO n r.1 r.2

/-- `eigenDecomposition(m, eigen_values, eigen_vectors)`: returns the updated
`eigen_values` and `eigen_vectors`.  `ZERO` is the tolerance constant of that
name; a failed validation (`exit(1)`) is the fault `assertion`. -/
def eigenDecomposition {α : Type} [LinearOrderedField α] (sqrt : α → α) (ZERO : α)
    (m : List (List α)) (eigen_values : List α) (eigen_vectors : List (List α)) :
    Exec (List α × List (List α)) := do
  let num_rows := m.length
  let num_cols := size2 m
  assert (num_rows == num_cols)
  forLoop 0 num_rows (fun i (_ : Unit) =>
    forLoop 0 num_cols (fun j (_ : Unit) => do
      let a ← mread m i j
      let b ← mread m j i
      assert (!decide (|a - b| ≥ ZERO))) ()) ()
  let r ← jacobiIterations sqrt ZERO 100 m eigen_vectors
  let eigen_values ← forLoop 0 num_cols (fun i ev => do
    let x ← mread r.1 i i
    write ev i x) eigen_values
  pure (eigen_values, r.2)

/-- Entry `(i, j)` of a matrix stored as a list of rows. -/
def ent {α : Type} [LinearOrderedField α] (m : List (List α)) (i j : Nat) : α :=
  (m.getD i []).getD j 0

/-- The matrix `m` with entry `(i, j)` replaced by `x`. -/
def mset {β : Type} (m : List (List β)) (i j : Nat) (x : β) : List (List β) :=
  m.set i ((m.getD i []).set j x)

/-- An `n` by `n` matrix. -/
def Square {β : Type} (n : Nat) (m : List (List β)) : Prop :=
  m.length = n ∧ ∀ row ∈ m, row.length = n

/-- Inner product of columns `a` and `b` of `V`. -/
def columnDot {α : Type} [LinearOrderedField α] (V : List (List α)) (a b : Nat) : α :=
  (V.map (fun row => row.getD a 0 * row.getD b 0)).sum

/-- The columns of the `n` by `n` matrix `V` have unit norm and are pairwise
orthogonal. -/
def OrthonormalColumns {α : Type} [LinearOrderedField α] (n : Nat) (V : List (List α)) : Prop :=
  ∀ a b, a < n → b < n → columnDot V a b = if a = b then 1 else 0

/-- A three-component mixture over two data points; its weights and the
columns of its responsibility matrix sum to 1. -/
def sampleMixture (α : Type) [LinearOrderedField α] : Mixture Nat α :=
  { N := 2, K := 3, components := [10, 11, 12], data := [[1, 0, 0], [0, 1, 0]],
    data_weights := [1, 1],
    responsibility := [[1 / 2, 1 / 4], [1 / 4, 1 / 4], [1 / 4, 1 / 2]],
    sample_size := [3 / 4, 1 / 2, 3 / 4],
    weights := [1 / 2, 1 / 4, 1 / 4] }

/-- A fitted two-component child mixture over the same two data points. -/
def sampleChild (α : Type) [LinearOrderedField α] : Mixture Nat α :=
  { N := 2, K := 2, components := [20, 21], data := [[1, 0, 0], [0, 1, 0]],
    data_weights := [1 / 4, 1 / 4],
    responsibility := [[1 / 3, 1 / 4], [2 / 3, 3 / 4]],
    sample_size := [7 / 12, 17 / 12],
    weights := [2 / 5, 3 / 5] }


/-! ## Loop rules -/

theorem forLoop_succ {σ : Type} (lo hi : Nat) (body : Nat → σ → Exec σ) (s : σ) :
    forLoop lo (hi + 1) body s
      = if lo ≤ hi then forLoop lo hi body s >>= body hi else .ok s := rfl

/-- Invariant rule for counted loops: an invariant that holds on entry and is
re-established by every iteration (none of which faults) holds on exit. -/
theorem forLoop_inv {σ : Type} (Inv : Nat → σ → Prop) (lo : Nat)
    (body : Nat → σ → Exec σ) (s0 : σ) (h0 : Inv lo s0) :
    ∀ hi, lo ≤ hi →
      (∀ i s, lo ≤ i → i < hi → Inv i s → ∃ s', body i s = .ok s' ∧ Inv (i + 1) s') →
      ∃ s', forLoop lo hi body s0 = .ok s' ∧ Inv hi s' := by
  intro hi
  induction hi with
  | zero =>
    intro hle _
    have : lo = 0 := Nat.le_zero.mp hle
    subst this
    exact ⟨s0, rfl, h0⟩
  | succ n ih =>
    intro hle hstep
    rcases Nat.lt_or_ge n lo with hlt | hge
    · have : lo = n + 1 := by omega
      subst this
      refine ⟨s0, ?_, h0⟩
      rw [forLoop_succ, if_neg (by omega)]
    · obtain ⟨s1, hs1, hI1⟩ := ih hge (fun i s hi1 hi2 hI => hstep i s hi1 (by omega) hI)
      obtain ⟨s2, hs2, hI2⟩ := hstep n s1 hge (by omega) hI1
      refine ⟨s2, ?_, hI2⟩
      rw [forLoop_succ, if_pos hge, hs1]
      exact hs2

/-! ## Vector facts -/

theorem write_ok {β : Type} (v : List β) (i : Nat) (x : β) (h : i < v.length) :
    write v i x = .ok (v.set i x) := by
  simp [write, h]

/-- A vector of length `K` whose entry `t` is `f t` for every `t < K`. -/
theorem eq_map_range_of_getElem? {β : Type} (K : Nat) (f : Nat → β) (v : List β)
    (hlen : v.length = K) (h : ∀ t, t < K → v[t]? = some (f t)) :
    v = (List.range K).map f := by
  apply List.ext_getElem?
  intro t
  by_cases ht : t < K
  · rw [h t ht]
    simp [List.getElem?_map, List.getElem?_range ht]
  · have h1 : v.length ≤ t := by omega
    rw [List.getElem?_eq_none h1, List.getElem?_eq_none]
    simp only [List.length_map, List.length_range]
    omega

/-- Tabulation loop: `for (i = 0; i < K; i++) v[i] = f i`, where computing
`f i` may read other vectors. -/
theorem forLoop_tabulate {β : Type} (K : Nat) (g : Nat → List β → Exec (List β))
    (f : Nat → β) (v0 : List β) (hlen : v0.length = K)
    (hg : ∀ i v, i < K → v.length = K → g i v = .ok (v.set i (f i))) :
    forLoop 0 K g v0 = .ok ((List.range K).map f) := by
  obtain ⟨v, hv, hl, hI⟩ := forLoop_inv
    (fun i (v : List β) => v.length = K ∧ ∀ t, t < i → v[t]? = some (f t))
    0 g v0 ⟨hlen, fun t ht => absurd ht (Nat.not_lt_zero t)⟩ K (Nat.zero_le K)
    (by
      intro i v _ hi hI
      refine ⟨v.set i (f i), hg i v hi hI.1, by simp [hI.1], ?_⟩
      intro t ht
      by_cases hti : t = i
      · subst hti
        simp [List.getElem?_set, hI.1, hi]
      · rw [List.getElem?_set_ne (Ne.symm hti)]
        exact hI.2 t (by omega))
  rw [hv, eq_map_range_of_getElem? K f v hl hI]


theorem read_getD {β : Type} (v : List β) (i : Nat) (d : β) (h : i < v.length) :
    read v i = .ok (v.getD i d) := by
  simp [read, List.getElem?_eq_getElem h, List.getD_eq_getElem?_getD]

theorem map_range_getD {β γ : Type} (v : List β) (d : β) (f : β → γ) (K : Nat)
    (h : v.length = K) : (List.range K).map (fun i => f (v.getD i d)) = v.map f := by
  subst h
  apply List.ext_getElem?
  intro t
  by_cases ht : t < v.length
  · simp [List.getElem?_map, List.getElem?_range ht, List.getElem?_eq_getElem ht,
      List.getD_eq_getElem?_getD]
  · have h1 : v.length ≤ t := by omega
    rw [List.getElem?_eq_none, List.getElem?_eq_none]
    · simpa using h1
    · simpa using h1

/-- Accumulation loop: `for (j = 0; j < N; j++) c += f j`. -/
theorem forLoop_accumulate {α : Type} [LinearOrderedField α] (N : Nat)
    (g : Nat → α → Exec α) (f : Nat → α) (c0 : α)
    (hg : ∀ j c, j < N → g j c = .ok (c + f j)) :
    forLoop 0 N g c0 = .ok (c0 + ((List.range N).map f).sum) := by
  obtain ⟨c, hc, hI⟩ := forLoop_inv
    (fun j (c : α) => c = c0 + ((List.range j).map f).sum)
    0 g c0 (by simp) N (Nat.zero_le N)
    (by
      intro j c _ hj hI
      refine ⟨c + f j, hg j c hj, ?_⟩
      show c + f j = c0 + ((List.range (j + 1)).map f).sum
      rw [hI, List.range_succ, List.map_append, List.sum_append]
      simp [add_assoc])
  rw [hc, hI]

theorem sum_map_range_getD {α : Type} [LinearOrderedField α] (row : List α) (N : Nat)
    (h : row.length = N) : ((List.range N).map (fun j => row.getD j 0)).sum = row.sum := by
  have := map_range_getD row 0 (fun x => x) N h
  simp only [List.map_id_fun', id] at this
  rw [this]

/-- Summing a rectangular matrix by rows or by columns gives the same total. -/
theorem sum_rows_eq_sum_columns {α : Type} [LinearOrderedField α] (N : Nat) :
    ∀ rows : List (List α), (∀ row ∈ rows, row.length = N) →
      (rows.map List.sum).sum = ((List.range N).map (columnSum rows)).sum := by
  intro rows
  induction rows with
  | nil =>
    intro _
    have hcol : columnSum ([] : List (List α)) = fun _ => 0 := by
      funext j
      simp [columnSum]
    rw [hcol]
    simp
  | cons row rest ih =>
    intro h
    have hrow : row.length = N := h row (List.mem_cons_self _ _)
    have hrest : ∀ r ∈ rest, r.length = N := fun r hr => h r (List.mem_cons_of_mem _ hr)
    have hcol : columnSum (row :: rest) = fun j => row.getD j 0 + columnSum rest j := by
      funext j
      simp [columnSum]
    rw [List.map_cons, List.sum_cons, ih hrest, hcol, List.sum_map_add,
      sum_map_range_getD row N hrow]

theorem sum_map_range_const_one {α : Type} [LinearOrderedField α] (N : Nat)
    (f : Nat → α) (h : ∀ j, j < N → f j = 1) : ((List.range N).map f).sum = (N : α) := by
  induction N with
  | zero => simp
  | succ n ih =>
    rw [List.range_succ, List.map_append, List.sum_append,
      ih (fun j hj => h j (by omega))]
    simp [h n (by omega)]

/-- Row-sum loop: `for (i < K) { sum = 0; for (j < N) sum += R[i][j]; out[i] = sum; }`. -/
theorem forLoop_rowSums {α : Type} [LinearOrderedField α] (K N : Nat) (R : List (List α))
    (out : List α) (hR : R.length = K) (hrows : ∀ row ∈ R, row.length = N)
    (hout : out.length = K) :
    forLoop 0 K (fun i out => do
      let sum ← forLoop 0 N (fun j sum => do
        let row ← read R i
        let r ← read row j
        pure (sum + r)) (0 : α)
      write out i sum) out
      = .ok (R.map List.sum) := by
  rw [← map_range_getD R [] List.sum K hR]
  apply forLoop_tabulate K _ _ out hout
  intro i v hi hv
  have hi2 : i < R.length := by omega
  have hrow : (R.getD i []).length = N := by
    apply hrows
    rw [List.getD_eq_getElem _ _ hi2]
    exact List.getElem_mem _
  rw [forLoop_accumulate N _ (fun j => (R.getD i []).getD j 0) 0]
  · rw [zero_add, sum_map_range_getD _ _ hrow]
    exact write_ok v i _ (by omega)
  · intro j c hj
    rw [read_getD R i [] hi2]
    show (read (R.getD i []) j >>= fun r => pure (c + r)) = _
    rw [read_getD _ j 0 (by omega)]
    rfl

/-- Closed form of `updateEffectiveSampleSize` on a `K × N` matrix. -/
theorem updateEffectiveSampleSize_eq {κ α : Type} [LinearOrderedField α] (m : Mixture κ α)
    (hresp : m.responsibility.length = m.K)
    (hrows : ∀ row ∈ m.responsibility, row.length = m.N)
    (hss : m.sample_size.length = m.K) :
    updateEffectiveSampleSize m
      = .ok { m with sample_size := m.responsibility.map List.sum } := by
  unfold updateEffectiveSampleSize
  rw [forLoop_rowSums m.K m.N m.responsibility m.sample_size hresp hrows hss]
  rfl

theorem sum_map_add_div {α : Type} [LinearOrderedField α] (a c : α) (l : List α) :
    (l.map (fun s => (s + a) / c)).sum = (l.sum + (l.length : α) * a) / c := by
  induction l with
  | nil => simp
  | cons x xs ih =>
    rw [List.map_cons, List.sum_cons, ih, List.sum_cons, List.length_cons]
    push_cast
    ring

/-- Closed form of `updateWeights` on vectors of length `K`. -/
theorem updateWeights_eq {κ α : Type} [LinearOrderedField α] (m : Mixture κ α)
    (hss : m.sample_size.length = m.K) (hw : m.weights.length = m.K)
    (hden : (m.N : α) + (m.K : α) / 2 ≠ 0) :
    updateWeights m
      = .ok { m with weights :=
          m.sample_size.map (fun s => (s + 0.5) / ((m.N : α) + (m.K : α) / 2)) } := by
  have hloop : forLoop 0 m.K (fun i weights => do
      let s ← read m.sample_size i
      let w ← fdiv (s + 0.5) ((m.N : α) + (m.K : α) / 2)
      write weights i w) m.weights
      = .ok ((List.range m.K).map
          (fun i => (m.sample_size.getD i 0 + 0.5) / ((m.N : α) + (m.K : α) / 2))) := by
    apply forLoop_tabulate m.K _ _ m.weights hw
    intro i v hi hv
    rw [read_getD m.sample_size i 0 (by omega)]
    show (fdiv _ _ >>= fun w => write v i w) = _
    rw [fdiv, if_neg hden]
    exact write_ok v i _ (by omega)
  unfold updateWeights
  simp only []
  rw [hloop, map_range_getD m.sample_size 0
    (fun s => (s + 0.5) / ((m.N : α) + (m.K : α) / 2)) m.K hss]
  rfl

/-- C3: `updateEffectiveSampleSize` sets `sample_size[k]` to the sum over all `N`
data points of `responsibility[k][j]` (leaving every other member unchanged);
consequently, whenever every column of the responsibility matrix sums to 1,
the `K` effective sample sizes sum to `N`. -/
theorem updateEffectiveSampleSize_spec {κ α : Type} [LinearOrderedField α]
    (m : Mixture κ α)
    (hresp : m.responsibility.length = m.K)
    (hrows : ∀ row ∈ m.responsibility, row.length = m.N)
    (hss : m.sample_size.length = m.K) :
    updateEffectiveSampleSize m
        = .ok { m with sample_size := m.responsibility.map List.sum } ∧
      ((∀ j, j < m.N → columnSum m.responsibility j = 1) →
        (m.responsibility.map List.sum).sum = (m.N : α)) := by
  refine ⟨updateEffectiveSampleSize_eq m hresp hrows hss, ?_⟩
  intro hcol
  rw [sum_rows_eq_sum_columns m.N m.responsibility hrows]
  exact sum_map_range_const_one m.N _ hcol

/-- C2: for `K ≥ 1`, if the effective sample sizes are non-negative and sum
to `N`, then `updateWeights` sets `weights[i] = (sample_size[i] + 0.5) / (N + K/2)`
for every `i` (leaving every other member unchanged), every new weight is
positive and the new weights sum to exactly 1. -/
theorem updateWeights_simplex {κ α : Type} [LinearOrderedField α] (m : Mixture κ α)
    (hK : 1 ≤ m.K)
    (hss : m.sample_size.length = m.K) (hw : m.weights.length = m.K)
    (hnn : ∀ s ∈ m.sample_size, 0 ≤ s) (hsum : m.sample_size.sum = (m.N : α)) :
    ∃ w : List α,
      updateWeights m = .ok { m with weights := w } ∧
      w = m.sample_size.map (fun s => (s + 0.5) / ((m.N : α) + (m.K : α) / 2)) ∧
      w.length = m.K ∧ (∀ x ∈ w, 0 < x) ∧ w.sum = 1 := by
  have hKpos : (0 : α) < (m.K : α) := by exact_mod_cast hK
  have hNnn : (0 : α) ≤ (m.N : α) := Nat.cast_nonneg _
  have hden : (0 : α) < (m.N : α) + (m.K : α) / 2 := by positivity
  refine ⟨_, updateWeights_eq m hss hw (ne_of_gt hden), rfl, by simp [hss], ?_, ?_⟩
  · intro x hx
    obtain ⟨s, hs, rfl⟩ := List.mem_map.mp hx
    have := hnn s hs
    positivity
  · rw [sum_map_add_div, hsum, hss]
    rw [div_eq_one_iff_eq (ne_of_gt hden)]
    ring


/-! ## The E-step -/

theorem ok_bind {β γ : Type} (x : β) (f : β → Exec γ) :
    (Except.ok x >>= f) = f x := rfl

theorem entry_map_range {α : Type} [LinearOrderedField α] (K : Nat) (f : Nat → α)
    (j : Nat) (hj : j < K) : entry ((List.range K).map f) j = f j := by
  simp [entry, List.getD_eq_getElem?_getD, List.getElem?_map, List.getElem?_range hj]

theorem read_entry {α : Type} [LinearOrderedField α] (v : List α) (i : Nat)
    (h : i < v.length) : read v i = .ok (entry v i) :=
  read_getD v i 0 h

/-- In-place loop: `for (i = 0; i < K; i++) v[i] = f i v[i]`. -/
theorem forLoop_update {β : Type} (d : β) (K : Nat) (g : Nat → List β → Exec (List β))
    (f : Nat → β → β) (v0 : List β) (hlen : v0.length = K)
    (hg : ∀ i v, i < K → v.length = K → v.getD i d = v0.getD i d →
      g i v = .ok (v.set i (f i (v0.getD i d)))) :
    forLoop 0 K g v0 = .ok ((List.range K).map (fun i => f i (v0.getD i d))) := by
  obtain ⟨v, hv, hl, hI, _⟩ := forLoop_inv
    (fun i (v : List β) => v.length = K ∧
      (∀ t, t < i → v[t]? = some (f t (v0.getD t d))) ∧ (∀ t, i ≤ t → v[t]? = v0[t]?))
    0 g v0 ⟨hlen, fun t ht => absurd ht (Nat.not_lt_zero t), fun _ _ => rfl⟩ K (Nat.zero_le K)
    (by
      intro i v _ hi hI
      have hgetD : v.getD i d = v0.getD i d := by
        simp only [List.getD_eq_getElem?_getD, hI.2.2 i (le_refl i)]
      refine ⟨_, hg i v hi hI.1 hgetD, by simp [hI.1], ?_, ?_⟩
      · intro t ht
        by_cases hti : t = i
        · subst hti
          simp [List.getElem?_set, hI.1, hi]
        · rw [List.getElem?_set_ne (Ne.symm hti)]
          exact hI.2.1 t (by omega)
      · intro t ht
        rw [List.getElem?_set_ne (by omega)]
        exact hI.2.2 t (by omega))
  rw [hv, eq_map_range_of_getElem? K _ v hl hI]

/-- Loop that fills a vector and accumulates its entries:
`for (j = 0; j < K; j++) { v[j] = q j; c += v[j]; }`. -/
theorem forLoop_tabulate_accumulate {α : Type} [LinearOrderedField α] (K : Nat)
    (g : Nat → α × List α → Exec (α × List α)) (q : Nat → α) (c0 : α) (v0 : List α)
    (hlen : v0.length = K)
    (hg : ∀ j s, j < K → s.2.length = K → g j s = .ok (s.1 + q j, s.2.set j (q j))) :
    forLoop 0 K g (c0, v0)
      = .ok (c0 + ((List.range K).map q).sum, (List.range K).map q) := by
  obtain ⟨s, hs, hl, hI, hc⟩ := forLoop_inv
    (fun j (s : α × List α) => s.2.length = K ∧
      (∀ t, t < j → s.2[t]? = some (q t)) ∧ s.1 = c0 + ((List.range j).map q).sum)
    0 g (c0, v0) ⟨hlen, fun t ht => absurd ht (Nat.not_lt_zero t), by simp⟩ K (Nat.zero_le K)
    (by
      intro j s _ hj hI
      refine ⟨_, hg j s hj hI.1, by simp [hI.1], ?_, ?_⟩
      · intro t ht
        by_cases hti : t = j
        · subst hti
          simp [List.getElem?_set, hI.1, hj]
        · show (s.2.set j (q j))[t]? = some (q t)
          rw [List.getElem?_set_ne (Ne.symm hti)]
          exact hI.2.1 t (by omega)
      · show s.1 + q j = c0 + ((List.range (j + 1)).map q).sum
        rw [hI.2.2, List.range_succ, List.map_append, List.sum_append]
        simp [add_assoc])
  have h2 : s.2 = (List.range K).map q := eq_map_range_of_getElem? K q s.2 hl hI
  rw [hs, ← hc, ← h2]

/-- The index `maximumIndex` returns is valid and points at a greatest entry. -/
theorem maximumIndex_spec {α : Type} [LinearOrderedField α] (values : List α)
    (h : 1 ≤ values.length) :
    ∃ k, maximumIndex values = .ok k ∧ k < values.length ∧
      ∀ t, t < values.length → entry values t ≤ entry values k := by
  obtain ⟨s, hs, hk, hv, hmax⟩ := forLoop_inv
    (fun i (s : Nat × α) => s.1 < values.length ∧ s.2 = entry values s.1 ∧
      ∀ t, t < i → entry values t ≤ s.2)
    1 (fun i (s : Nat × α) => do
      let v ← read values i
      if v > s.2 then pure (i, v) else pure s) (0, entry values 0)
    ⟨h, rfl, fun t ht => by
      have : t = 0 := by omega
      subst this
      exact le_refl _⟩
    values.length h
    (by
      intro i s _ hi hI
      show ∃ s', (read values i >>= fun v => if v > s.2 then pure (i, v) else pure s)
          = Except.ok s' ∧ (s'.1 < values.length ∧ s'.2 = entry values s'.1 ∧
            ∀ t, t < i + 1 → entry values t ≤ s'.2)
      rw [read_entry values i hi, ok_bind]
      by_cases hgt : entry values i > s.2
      · rw [if_pos hgt]
        refine ⟨(i, entry values i), rfl, hi, rfl, ?_⟩
        intro t ht
        rcases Nat.lt_succ_iff_lt_or_eq.mp ht with h1 | h1
        · exact le_trans (hI.2.2 t h1) (le_of_lt hgt)
        · subst h1
          exact le_refl _
      · rw [if_neg hgt]
        refine ⟨s, rfl, hI.1, hI.2.1, ?_⟩
        intro t ht
        rcases Nat.lt_succ_iff_lt_or_eq.mp ht with h1 | h1
        · exact hI.2.2 t h1
        · subst h1
          exact not_lt.mp hgt)
  refine ⟨s.1, ?_, hk, ?_⟩
  · unfold maximumIndex
    rw [read_entry values 0 (by omega), ok_bind, hs]
    rfl
  · intro t ht
    rw [← hv]
    exact hmax t ht


theorem pointLogDensities_length {κ α : Type} [Inhabited κ]
    (ld : κ → List α → α) (m : Mixture κ α) (i : Nat) :
    (pointLogDensities ld m i).length = m.K := by
  simp [pointLogDensities]

/-- Closed form of one pass of the E-step loop: column `i` of the matrix
receives the normalised products `weights[j] * exp(log_densities[j])`. -/
theorem responsibilityOfPoint_eq {κ α : Type} [Inhabited κ] [LinearOrderedField α]
    (exp : α → α) (ld : κ → List α → α) (m : Mixture κ α)
    (hK : 1 ≤ m.K) (hc : m.components.length = m.K) (hw : m.weights.length = m.K)
    (i : Nat) (hi : i < m.data.length) (R : List (List α)) (hR : R.length = m.K)
    (hrows : ∀ j, j < m.K → i < (R.getD j []).length)
    (hpx : pointTotal exp ld m i ≠ 0) :
    responsibilityOfPoint exp ld m i R
      = .ok ((List.range m.K).map (fun j =>
          (R.getD j []).set i (pointProbability exp ld m i j / pointTotal exp ld m i))) := by
  have h1 : forLoop 0 m.K (fun j log_densities => do
      let c ← read m.components j
      let x ← read m.data i
      write log_densities j (ld c x)) (List.replicate m.K (0 : α))
      = .ok (pointLogDensities ld m i) := by
    apply forLoop_tabulate m.K _ _ _ (by simp)
    intro j v hj hv
    rw [read_getD m.components j default (by omega), ok_bind, read_getD m.data i [] hi, ok_bind]
    exact write_ok v j _ (by omega)
  obtain ⟨k, hk, hklt, _⟩ := maximumIndex_spec (pointLogDensities ld m i)
    (by rw [pointLogDensities_length]; exact hK)
  have hM : entry (pointLogDensities ld m i) k = maxLogDensity ld m i := by
    simp [maxLogDensity, hk]
  have h3 : forLoop 0 m.K (fun j log_densities => do
      let l ← read log_densities j
      write log_densities j (l - maxLogDensity ld m i)) (pointLogDensities ld m i)
      = .ok ((List.range m.K).map
          (fun j => entry (pointLogDensities ld m i) j - maxLogDensity ld m i)) := by
    apply forLoop_update 0 m.K _ (fun _ l => l - maxLogDensity ld m i) _
      (pointLogDensities_length ld m i)
    intro j v hj hv hget
    rw [read_getD v j 0 (by omega), ok_bind, hget]
    exact write_ok v j _ (by omega)
  have h4 : forLoop 0 m.K (fun j (s : α × List α) => do
      let w ← read m.weights j
      let l ← read ((List.range m.K).map
          (fun j => entry (pointLogDensities ld m i) j - maxLogDensity ld m i)) j
      let probabilities ← write s.2 j (w * exp l)
      let p ← read probabilities j
      pure (s.1 + p, probabilities)) ((0 : α), List.replicate m.K (0 : α))
      = .ok (pointTotal exp ld m i, (List.range m.K).map (pointProbability exp ld m i)) := by
    rw [forLoop_tabulate_accumulate m.K _ (pointProbability exp ld m i) 0 _ (by simp)]
    · simp [pointTotal]
    · intro j s hj hs
      rw [read_entry m.weights j (by omega), ok_bind, read_entry _ j (by simp [hj]), ok_bind,
        entry_map_range _ _ _ hj, write_ok _ _ _ (by omega), ok_bind,
        read_entry _ j (by simp; omega), ok_bind]
      have e : ∀ x : α, entry (s.2.set j x) j = x := by
        intro x
        simp [entry, hs, hj]
      rw [e]
      rfl
  have h5 : forLoop 0 m.K (fun j responsibility => do
      let p ← read ((List.range m.K).map (pointProbability exp ld m i)) j
      let r ← fdiv p (pointTotal exp ld m i)
      let row ← read responsibility j
      let row ← write row i r
      write responsibility j row) R
      = .ok ((List.range m.K).map (fun j =>
          (R.getD j []).set i (pointProbability exp ld m i j / pointTotal exp ld m i))) := by
    apply forLoop_update [] m.K _
      (fun j row => row.set i (pointProbability exp ld m i j / pointTotal exp ld m i)) R hR
    intro j v hj hv hget
    rw [read_entry _ j (by simp [hj]), ok_bind, entry_map_range _ _ _ hj, fdiv, if_neg hpx,
      ok_bind, read_getD v j [] (by omega), ok_bind, hget, write_ok _ i _ (hrows j hj), ok_bind]
    exact write_ok v j _ (by omega)
  unfold responsibilityOfPoint
  rw [h1, ok_bind, hk, ok_bind, read_entry _ k hklt, ok_bind, hM, h3, ok_bind, h4, ok_bind]
  exact h5


theorem getD_map_range {β : Type} (K : Nat) (f : Nat → β) (d : β) (j : Nat) (hj : j < K) :
    ((List.range K).map f).getD j d = f j := by
  simp [List.getD_eq_getElem?_getD, List.getElem?_map, List.getElem?_range hj]

theorem getElem?_eq_some_getD {β : Type} (v : List β) (d : β) (j : Nat) (hj : j < v.length) :
    v[j]? = some (v.getD j d) := by
  simp [List.getElem?_eq_getElem hj, List.getD_eq_getElem?_getD]

/-- A `K × N` matrix is determined by its entries. -/
theorem matrix_eq_of_entries {α : Type} [LinearOrderedField α] (K N : Nat) (r : Nat → Nat → α)
    (R : List (List α)) (hR : R.length = K)
    (hrows : ∀ j, j < K → (R.getD j []).length = N)
    (hent : ∀ j, j < K → ∀ t, t < N → (R.getD j []).getD t 0 = r j t) :
    R = (List.range K).map (fun j => (List.range N).map (fun t => r j t)) := by
  apply eq_map_range_of_getElem? K _ R hR
  intro j hj
  rw [getElem?_eq_some_getD R [] j (by omega)]
  congr 1
  apply eq_map_range_of_getElem? N _ _ (hrows j hj)
  intro t ht
  rw [getElem?_eq_some_getD _ 0 t (by rw [hrows j hj]; exact ht), hent j hj t ht]

/-- Closed form of the E-step on a `K × N` matrix, when no divisor `px` is zero. -/
theorem updateResponsibilityMatrix_eq {κ α : Type} [Inhabited κ] [LinearOrderedField α]
    (exp : α → α) (ld : κ → List α → α) (m : Mixture κ α)
    (hK : 1 ≤ m.K) (hc : m.components.length = m.K) (hw : m.weights.length = m.K)
    (hd : m.data.length = m.N) (hR : m.responsibility.length = m.K)
    (hrows : ∀ row ∈ m.responsibility, row.length = m.N)
    (hpx : ∀ i, i < m.N → pointTotal exp ld m i ≠ 0) :
    updateResponsibilityMatrix exp ld m
      = .ok { m with responsibility :=
          (List.range m.K).map (fun j => (List.range m.N).map
            (fun i => pointProbability exp ld m i j / pointTotal exp ld m i)) } := by
  obtain ⟨R, hloop, hlen, hrl, hent⟩ := forLoop_inv
    (fun i (R : List (List α)) => R.length = m.K ∧
      (∀ j, j < m.K → (R.getD j []).length = m.N) ∧
      (∀ j, j < m.K → ∀ t, t < i →
        (R.getD j []).getD t 0 = pointProbability exp ld m t j / pointTotal exp ld m t))
    0 (responsibilityOfPoint exp ld m) m.responsibility
    ⟨hR, fun j hj => hrows _ (by
        rw [List.getD_eq_getElem _ _ (by omega)]
        exact List.getElem_mem _),
      fun _ _ t ht => absurd ht (Nat.not_lt_zero t)⟩
    m.N (Nat.zero_le _)
    (by
      intro i R _ hi hI
      obtain ⟨hlen, hrl, hent⟩ := hI
      refine ⟨_, responsibilityOfPoint_eq exp ld m hK hc hw i (by omega) R hlen
        (fun j hj => by rw [hrl j hj]; exact hi) (hpx i hi), by simp, ?_, ?_⟩
      · intro j hj
        rw [getD_map_range _ _ _ _ hj, List.length_set]
        exact hrl j hj
      · intro j hj t ht
        rw [getD_map_range _ _ _ _ hj]
        rcases Nat.lt_succ_iff_lt_or_eq.mp ht with h1 | h1
        · rw [List.getD_eq_getElem?_getD, List.getElem?_set_ne (by omega),
            ← List.getD_eq_getElem?_getD]
          exact hent j hj t h1
        · subst h1
          have hlt : t < (R.getD j []).length := by rw [hrl j hj]; exact hi
          rw [List.getD_eq_getElem?_getD, List.getElem?_set, if_pos rfl, if_pos hlt]
          rfl)
  unfold updateResponsibilityMatrix
  rw [hloop, ok_bind, matrix_eq_of_entries m.K m.N _ R hlen hrl hent]
  rfl

theorem columnSum_map_range {α : Type} [LinearOrderedField α] (K N : Nat) (r : Nat → Nat → α)
    (i : Nat) (hi : i < N) :
    columnSum ((List.range K).map (fun j => (List.range N).map (fun t => r j t))) i
      = ((List.range K).map (fun j => r j i)).sum := by
  unfold columnSum
  rw [List.map_map]
  congr 1
  apply List.map_congr_left
  intro j _
  exact getD_map_range N _ 0 i hi

theorem sum_map_range_pos {α : Type} [LinearOrderedField α] (K : Nat) (f : Nat → α)
    (hK : 1 ≤ K) (h : ∀ j, j < K → 0 < f j) : 0 < ((List.range K).map f).sum := by
  induction K with
  | zero => omega
  | succ n ih =>
    rw [List.range_succ, List.map_append, List.sum_append]
    simp only [List.map_cons, List.map_nil, List.sum_cons, List.sum_nil, add_zero]
    rcases Nat.eq_zero_or_pos n with h0 | h0
    · subst h0
      simpa using h 0 (by omega)
    · exact add_pos (ih h0 (fun j hj => h j (by omega))) (h n (by omega))

/-- The E-step for a positive exponential and positive weights: every
responsibility is non-negative and every column of the matrix sums to 1. -/
theorem updateResponsibilityMatrix_pos {κ α : Type} [Inhabited κ] [LinearOrderedField α]
    (exp : α → α) (hexp : ∀ x, 0 < exp x) (ld : κ → List α → α) (m : Mixture κ α)
    (hK : 1 ≤ m.K) (hc : m.components.length = m.K) (hw : m.weights.length = m.K)
    (hd : m.data.length = m.N) (hR : m.responsibility.length = m.K)
    (hrows : ∀ row ∈ m.responsibility, row.length = m.N)
    (hpos : ∀ w ∈ m.weights, 0 < w) :
    ∃ R : List (List α),
      updateResponsibilityMatrix exp ld m = .ok { m with responsibility := R } ∧
      R.length = m.K ∧ (∀ row ∈ R, row.length = m.N) ∧
      (∀ row ∈ R, ∀ x ∈ row, 0 ≤ x) ∧
      (∀ i, i < m.N → columnSum R i = 1) := by
  have hp : ∀ i j, j < m.K → 0 < pointProbability exp ld m i j := by
    intro i j hj
    unfold pointProbability
    apply mul_pos _ (hexp _)
    apply hpos
    rw [entry, List.getD_eq_getElem _ _ (by omega)]
    exact List.getElem_mem _
  have hpx : ∀ i, 0 < pointTotal exp ld m i := by
    intro i
    exact sum_map_range_pos m.K _ hK (hp i)
  refine ⟨_, updateResponsibilityMatrix_eq exp ld m hK hc hw hd hR hrows
    (fun i _ => ne_of_gt (hpx i)), by simp, ?_, ?_, ?_⟩
  · intro row hrow
    obtain ⟨j, _, rfl⟩ := List.mem_map.mp hrow
    simp
  · intro row hrow x hx
    obtain ⟨j, hj, rfl⟩ := List.mem_map.mp hrow
    obtain ⟨i, _, rfl⟩ := List.mem_map.mp hx
    exact le_of_lt (div_pos (hp i j (List.mem_range.mp hj)) (hpx i))
  · intro i hi
    rw [columnSum_map_range m.K m.N
      (fun j t => pointProbability exp ld m t j / pointTotal exp ld m t) i hi]
    have : ((List.range m.K).map
        (fun j => pointProbability exp ld m i j / pointTotal exp ld m i)).sum
        = pointTotal exp ld m i / pointTotal exp ld m i := by
      unfold pointTotal
      simp only [div_eq_mul_inv]
      exact List.sum_map_mul_right _ _ _
    rw [this, div_self (ne_of_gt (hpx i))]

/-- C1: for every `K ≥ 1` and every `N`, with all mixture weights strictly
positive (log-densities are real numbers), `updateResponsibilityMatrix`
succeeds and leaves a `K × N` matrix in which every entry is non-negative and,
for each data point `i`, the `K` responsibilities sum to 1. -/
theorem updateResponsibilityMatrix_columns_sum_one {κ : Type} [Inhabited κ]
    (ld : κ → List ℝ → ℝ) (m : Mixture κ ℝ)
    (hK : 1 ≤ m.K) (hc : m.components.length = m.K) (hw : m.weights.length = m.K)
    (hd : m.data.length = m.N) (hR : m.responsibility.length = m.K)
    (hrows : ∀ row ∈ m.responsibility, row.length = m.N)
    (hpos : ∀ w ∈ m.weights, 0 < w) :
    ∃ R : List (List ℝ),
      updateResponsibilityMatrix Real.exp ld m = .ok { m with responsibility := R } ∧
      R.length = m.K ∧ (∀ row ∈ R, row.length = m.N) ∧
      (∀ row ∈ R, ∀ x ∈ row, 0 ≤ x) ∧
      (∀ i, i < m.N → columnSum R i = 1) :=
  updateResponsibilityMatrix_pos Real.exp Real.exp_pos ld m hK hc hw hd hR hrows hpos


/-! ## Copy loops of the structural operators -/

/-- A loop whose state after `i` passes is `F i`. -/
theorem forLoop_closed {σ : Type} (lo : Nat) (body : Nat → σ → Exec σ) (F : Nat → σ) :
    ∀ hi, lo ≤ hi → (∀ i, lo ≤ i → i < hi → body i (F i) = .ok (F (i + 1))) →
      forLoop lo hi body (F lo) = .ok (F hi) := by
  intro hi hle h
  obtain ⟨s, hs, hI⟩ := forLoop_inv (fun i s => s = F i) lo body (F lo) rfl hi hle
    (by
      intro i s h1 h2 hI
      subst hI
      exact ⟨_, h i h1 h2, rfl⟩)
  rw [hs, hI]

theorem filter_range_succ (p : Nat → Bool) (n : Nat) :
    (List.range (n + 1)).filter p
      = (List.range n).filter p ++ (if p n then [n] else []) := by
  rw [List.range_succ, List.filter_append]
  by_cases h : p n <;> simp [h]

theorem filter_range_length_le (p : Nat → Bool) (i K : Nat) (h : i ≤ K) :
    ((List.range i).filter p).length ≤ ((List.range K).filter p).length := by
  induction K with
  | zero =>
    have : i = 0 := by omega
    subst this
    exact le_refl _
  | succ n ih =>
    rcases Nat.lt_or_ge i (n + 1) with h1 | h1
    · have := ih (by omega)
      rw [filter_range_succ, List.length_append]
      omega
    · have : i = n + 1 := by omega
      subst this
      exact le_refl _

theorem set_append_drop {β : Type} (A v0 : List β) (x : β) (h : A.length < v0.length) :
    (A ++ v0.drop A.length).set A.length x = (A ++ [x]) ++ v0.drop (A.length + 1) := by
  rw [List.set_append_right _ _ (le_refl _), Nat.sub_self,
    List.drop_eq_getElem_cons h, List.set_cons_zero, List.append_assoc]
  rfl

/-- Copy loop with a running output index:
`for (i = 0; i < K; i++) if (keep i) out[index++] = f i`. -/
theorem forLoop_filter_copy {β : Type} (K : Nat) (keep : Nat → Bool)
    (f : Nat → β) (g : Nat → Nat × List β → Exec (Nat × List β)) (v0 : List β)
    (hfit : ((List.range K).filter keep).length ≤ v0.length)
    (hkeep : ∀ i s, i < K → keep i = true → s.1 < v0.length → s.2.length = v0.length →
      s.2.drop s.1 = v0.drop s.1 → g i s = .ok (s.1 + 1, s.2.set s.1 (f i)))
    (hskip : ∀ i s, i < K → keep i = false → g i s = .ok s) :
    forLoop 0 K g (0, v0)
      = .ok (((List.range K).filter keep).length,
          ((List.range K).filter keep).map f
            ++ v0.drop ((List.range K).filter keep).length) := by
  have h := forLoop_closed 0 g
    (fun i => (((List.range i).filter keep).length,
      ((List.range i).filter keep).map f ++ v0.drop ((List.range i).filter keep).length))
    K (Nat.zero_le K)
    (by
      intro i _ hi
      have hle := filter_range_length_le keep (i + 1) K (by omega)
      beta_reduce
      cases hk : keep i with
      | false =>
        rw [hskip i _ hi hk, filter_range_succ, hk]
        simp
      | true =>
        rw [filter_range_succ, hk] at hle
        simp only [if_true, List.length_append, List.length_singleton] at hle
        have hlt : ((List.range i).filter keep).length < v0.length := by omega
        rw [hkeep i _ hi hk hlt (by simp; omega) (by simp)]
        simp only [filter_range_succ, hk, if_true, List.length_append, List.length_singleton,
          List.map_append, List.map_cons, List.map_nil]
        congr 2
        have := set_append_drop (((List.range i).filter keep).map f) v0 (f i)
          (by simpa using hlt)
        simpa using this)
  simpa using h

theorem filter_ne_range (c K : Nat) (hc : c < K) :
    (List.range K).filter (fun i => decide (i ≠ c))
      = List.range c ++ List.range' (c + 1) (K - (c + 1)) := by
  induction K with
  | zero => omega
  | succ n ih =>
    rw [filter_range_succ]
    rcases Nat.lt_or_ge c n with h1 | h1
    · rw [ih h1]
      have hne : n ≠ c := by omega
      have e : n + 1 - (c + 1) = (n - (c + 1)) + 1 := by omega
      rw [e, List.range'_concat]
      simp [hne]
      omega
    · have : c = n := by omega
      subst this
      have : (List.range c).filter (fun i => decide (i ≠ c)) = List.range c := by
        rw [List.filter_eq_self]
        intro a ha
        have := List.mem_range.mp ha
        simp
        omega
      rw [this]
      simp

/-- The entries `v[i]`, `i ≠ c`, in increasing order of `i` are `v` with
entry `c` erased. -/
theorem map_filter_ne_range {β γ : Type} (v : List β) (d : β) (h : β → γ) (c K : Nat)
    (hlen : v.length = K) (hc : c < K) :
    ((List.range K).filter (fun i => decide (i ≠ c))).map (fun i => h (v.getD i d))
      = (v.eraseIdx c).map h := by
  rw [filter_ne_range c K hc]
  apply List.ext_getElem?
  intro t
  rw [List.getElem?_map, List.getElem?_map, List.getElem?_eraseIdx, List.getElem?_append]
  by_cases ht : t < c
  · have h1 : t < v.length := by omega
    simp [ht, List.getElem?_range ht, List.getElem?_eq_getElem h1, List.getD_eq_getElem?_getD]
  · simp only [List.length_range, ht, if_false]
    by_cases h2 : t + 1 < K
    · have h3 : t - c < K - (c + 1) := by omega
      have h4 : t + 1 < v.length := by omega
      have h5 : c + 1 + (t - c) = t + 1 := by omega
      simp [List.getElem?_range', h3, h5, List.getElem?_eq_getElem h4,
        List.getD_eq_getElem?_getD]
    · have h3 : ¬ t - c < K - (c + 1) := by omega
      have h4 : v.length ≤ t + 1 := by omega
      simp [List.getElem?_range', h3, List.getElem?_eq_none h4]
      omega

theorem length_filter_ne_range (c K : Nat) (hc : c < K) :
    ((List.range K).filter (fun i => decide (i ≠ c))).length = K - 1 := by
  rw [filter_ne_range c K hc]
  simp
  omega

theorem sum_eraseIdx {α : Type} [LinearOrderedField α] (v : List α) (c : Nat)
    (hc : c < v.length) : (v.eraseIdx c).sum = v.sum - entry v c := by
  induction v generalizing c with
  | nil => simp at hc
  | cons x xs ih =>
    cases c with
    | zero => simp [entry]
    | succ n =>
      have := ih n (by simpa using hc)
      simp only [List.eraseIdx_cons_succ, List.sum_cons, this]
      simp [entry]
      ring

theorem allocate_pred {β : Type} (K : Nat) (hK : 1 ≤ K) (x : β) :
    allocate ((K : Int) - 1) x = .ok (List.replicate (K - 1) x) := by
  unfold allocate
  rw [if_neg (by omega)]
  congr 2
  omega


theorem bind_congr_ok {β γ : Type} {x : Exec β} {a : β} (h : x = .ok a) (f : β → Exec γ) :
    (x >>= f) = f a := by
  rw [h]
  rfl

theorem bind_eq_ok {β γ : Type} {x : Exec β} {f : β → Exec γ} {b : γ}
    (h : (x >>= f) = .ok b) : ∃ a, x = .ok a ∧ f a = .ok b := by
  cases x with
  | error e => cases h
  | ok a => exact ⟨a, rfl, h⟩

theorem assert_eq_ok {b : Bool} {u : Unit} (h : assert b = .ok u) : b = true := by
  cases b with
  | false => cases h
  | true => rfl

theorem assert_true : assert true = .ok () := rfl

/-- The seven-argument constructor succeeds exactly when its five assertions
hold, and then stores its arguments with `N = data.size()`. -/
theorem ofFullState_eq_ok_iff {κ α : Type} (K : Nat) (components : List κ)
    (weights sample_size : List α) (responsibility data : List (List α))
    (data_weights : List α) (m : Mixture κ α) :
    Mixture.ofFullState K components weights sample_size responsibility data data_weights
        = .ok m ↔
      (components.length = K ∧ weights.length = K ∧ sample_size.length = K ∧
        responsibility.length = K ∧ data_weights.length = data.length) ∧
      m = { N := data.length, K := K, components := components, data := data,
            data_weights := data_weights, responsibility := responsibility,
            sample_size := sample_size, weights := weights } := by
  constructor
  · intro h
    unfold Mixture.ofFullState at h
    obtain ⟨_, h1, h⟩ := bind_eq_ok h
    obtain ⟨_, h2, h⟩ := bind_eq_ok h
    obtain ⟨_, h3, h⟩ := bind_eq_ok h
    obtain ⟨_, h4, h⟩ := bind_eq_ok h
    obtain ⟨_, h5, h⟩ := bind_eq_ok h
    have e1 := assert_eq_ok h1
    have e2 := assert_eq_ok h2
    have e3 := assert_eq_ok h3
    have e4 := assert_eq_ok h4
    have e5 := assert_eq_ok h5
    simp only [beq_iff_eq] at e1 e2 e3 e4 e5
    refine ⟨⟨e1, e2, e3, e4, e5⟩, ?_⟩
    cases h
    rfl
  · rintro ⟨⟨e1, e2, e3, e4, e5⟩, rfl⟩
    unfold Mixture.ofFullState
    have b1 : (components.length == K) = true := by simpa using e1
    have b2 : (weights.length == K) = true := by simpa using e2
    have b3 : (sample_size.length == K) = true := by simpa using e3
    have b4 : (responsibility.length == K) = true := by simpa using e4
    have b5 : (data_weights.length == data.length) = true := by simpa using e5
    simp only [b1, b2, b3, b4, b5]
    rfl

theorem sum_map_div {α : Type} [LinearOrderedField α] (l : List α) (r : α) :
    (l.map (fun x => x / r)).sum = l.sum / r := by
  induction l with
  | nil => simp
  | cons x xs ih => rw [List.map_cons, List.sum_cons, ih, List.sum_cons, add_div]

theorem set_getD_self {β : Type} (v : List β) (d : β) (i : Nat) (h : i < v.length) :
    v.set i (v.getD i d) = v := by
  apply List.ext_getElem?
  intro t
  by_cases ht : i = t
  · subst ht
    rw [List.getElem?_set_self h, getElem?_eq_some_getD v d i h]
  · rw [List.getElem?_set_ne ht]

theorem getD_set_self {β : Type} (v : List β) (d x : β) (i : Nat) (h : i < v.length) :
    (v.set i x).getD i d = x := by
  simp [List.getD_eq_getElem?_getD, List.getElem?_set, h]

/-- Row-filling loop: `for (j < N) R[idx][j] = q j`. -/
theorem forLoop_fill_row {α : Type} [LinearOrderedField α] (N idx : Nat)
    (g : Nat → List (List α) → Exec (List (List α))) (q : Nat → α) (R0 : List (List α))
    (hidx : idx < R0.length) (hrow : (R0.getD idx []).length = N)
    (hg : ∀ j R, j < N → idx < R.length → (R.getD idx []).length = N →
      entry (R.getD idx []) j = entry (R0.getD idx []) j →
      g j R = .ok (R.set idx ((R.getD idx []).set j (q j)))) :
    forLoop 0 N g R0 = .ok (R0.set idx ((List.range N).map q)) := by
  have h := forLoop_closed 0 g
    (fun j => R0.set idx ((List.range j).map q ++ (R0.getD idx []).drop j))
    N (Nat.zero_le N)
    (by
      intro j _ hj
      beta_reduce
      rw [hg j _ hj (by simpa using hidx) (by
        rw [getD_set_self _ _ _ _ hidx, List.length_append, List.length_map,
          List.length_range, List.length_drop, hrow]
        omega) (by
        rw [getD_set_self _ _ _ _ hidx]
        unfold entry
        rw [List.getD_eq_getElem?_getD, List.getD_eq_getElem?_getD,
          List.getElem?_append_right (by simp), List.getElem?_drop]
        simp)]
      rw [getD_set_self _ _ _ _ hidx, List.set_set]
      congr 2
      have := set_append_drop ((List.range j).map q) (R0.getD idx []) (q j)
        (by rw [List.length_map, List.length_range, hrow]; exact hj)
      simp only [List.length_map, List.length_range] at this
      rw [this, List.range_succ, List.map_append]
      rfl)
  simp only [List.range_zero, List.map_nil, List.nil_append, List.drop_zero,
    set_getD_self R0 [] idx hidx] at h
  rw [h]
  congr 2
  rw [List.drop_of_length_le (by omega), List.append_nil]


/-! ## `kill` -/

theorem getD_mem {β : Type} (v : List β) (d : β) (i : Nat) (h : i < v.length) :
    v.getD i d ∈ v := by
  rw [List.getD_eq_getElem _ _ h]
  exact List.getElem_mem _

/-- Closed form of the weight adjustment of `kill`. -/
theorem killWeights_eq {κ α : Type} [LinearOrderedField α] (m : Mixture κ α) (c : Nat)
    (hw : m.weights.length = m.K) (hc : c < m.K) (hne : 1 - entry m.weights c ≠ 0) :
    killWeights m c
      = .ok ((m.weights.eraseIdx c).map (fun w => w / (1 - entry m.weights c))) := by
  have hloop := forLoop_filter_copy m.K (fun i => decide (i ≠ c))
    (fun i => entry m.weights i / (1 - entry m.weights c))
    (fun i (s : Nat × List α) =>
      if i ≠ c then do
        let w ← read m.weights i
        let q ← fdiv w (1 - entry m.weights c)
        let weights_m ← write s.2 s.1 q
        pure (s.1 + 1, weights_m)
      else pure s)
    (List.replicate (m.K - 1) (0 : α))
    (by rw [length_filter_ne_range c m.K hc, List.length_replicate])
    (by
      intro i s hi hk hlt hlen _
      have hic : i ≠ c := of_decide_eq_true hk
      beta_reduce
      rw [if_pos hic, read_entry m.weights i (by omega), ok_bind, fdiv, if_neg hne, ok_bind,
        write_ok _ _ _ (by omega), ok_bind]
      rfl)
    (by
      intro i s hi hk
      have hic : ¬ i ≠ c := of_decide_eq_false hk
      beta_reduce
      rw [if_neg hic]
      rfl)
  unfold killWeights
  dsimp only
  rw [allocate_pred m.K (by omega), ok_bind, read_entry m.weights c (by omega), ok_bind]
  refine (bind_congr_ok hloop _).trans ?_
  rw [length_filter_ne_range c m.K hc]
  show Except.ok _ = Except.ok _
  congr 1
  simp only [List.drop_replicate, Nat.sub_self, List.replicate_zero, List.append_nil]
  exact map_filter_ne_range m.weights 0 (fun w => w / (1 - entry m.weights c)) c m.K hw hc

/-- Closed form of the component copy of `kill`. -/
theorem killComponents_eq {κ α : Type} [Inhabited κ] (m : Mixture κ α) (c : Nat)
    (hcomp : m.components.length = m.K) (hc : c < m.K) :
    killComponents m c = .ok (m.components.eraseIdx c) := by
  have hloop := forLoop_filter_copy m.K (fun i => decide (i ≠ c))
    (fun i => m.components.getD i default)
    (fun i (s : Nat × List κ) =>
      if i ≠ c then do
        let x ← read m.components i
        let components_m ← write s.2 s.1 x
        pure (s.1 + 1, components_m)
      else pure s)
    (List.replicate (m.K - 1) (default : κ))
    (by rw [length_filter_ne_range c m.K hc, List.length_replicate])
    (by
      intro i s hi hk hlt hlen _
      have hic : i ≠ c := of_decide_eq_true hk
      beta_reduce
      rw [if_pos hic, read_getD m.components i default (by omega), ok_bind,
        write_ok _ _ _ (by omega), ok_bind]
      rfl)
    (by
      intro i s hi hk
      have hic : ¬ i ≠ c := of_decide_eq_false hk
      beta_reduce
      rw [if_neg hic]
      rfl)
  unfold killComponents
  dsimp only
  rw [allocate_pred m.K (by omega), ok_bind]
  refine (bind_congr_ok hloop _).trans ?_
  rw [length_filter_ne_range c m.K hc]
  show Except.ok _ = Except.ok _
  congr 1
  simp only [List.drop_replicate, Nat.sub_self, List.replicate_zero, List.append_nil]
  have := map_filter_ne_range m.components default (fun x => x) c m.K hcomp hc
  simpa using this

/-- Row of the matrix built by `kill(c)` from the row `row` of a kept
component: every entry is divided by `1 - responsibility[c][j]`. -/
theorem killResponsibility_eq {κ α : Type} [LinearOrderedField α] (m : Mixture κ α) (c : Nat)
    (hR : m.responsibility.length = m.K)
    (hrows : ∀ row ∈ m.responsibility, row.length = m.N) (hc : c < m.K)
    (hne : ∀ j, j < m.N → 1 - entry (m.responsibility.getD c []) j ≠ 0) :
    killResponsibility m c
      = .ok ((m.responsibility.eraseIdx c).map (fun row =>
          (List.range m.N).map (fun j =>
            entry row j / (1 - entry (m.responsibility.getD c []) j)))) := by
  have hrowlen : ∀ i, i < m.K → (m.responsibility.getD i []).length = m.N :=
    fun i hi => hrows _ (getD_mem _ _ _ (by omega))
  have hloop := forLoop_filter_copy m.K (fun i => decide (i ≠ c))
    (fun i => (List.range m.N).map (fun j =>
      entry (m.responsibility.getD i []) j / (1 - entry (m.responsibility.getD c []) j)))
    (fun i (s : Nat × List (List α)) =>
      if i ≠ c then do
        let responsibility_m ← forLoop 0 m.N (fun j responsibility_m => do
          let rc ← read m.responsibility c
          let rcj ← read rc j
          let residual_sum := 1 - rcj
          let ri ← read m.responsibility i
          let rij ← read ri j
          let q ← fdiv rij residual_sum
          let row ← read responsibility_m s.1
          let row ← write row j q
          write responsibility_m s.1 row) s.2
        pure (s.1 + 1, responsibility_m)
      else pure s)
    (List.replicate (m.K - 1) (List.replicate m.N (0 : α)))
    (by rw [length_filter_ne_range c m.K hc, List.length_replicate])
    (by
      intro i s hi hk hlt hlen hdrop
      have hic : i ≠ c := of_decide_eq_true hk
      beta_reduce
      have hrow0 : (s.2.getD s.1 []).length = m.N := by
        have h1 : s.2[s.1]? = (List.replicate (m.K - 1) (List.replicate m.N (0 : α)))[s.1]? := by
          have := congrArg (fun l => l[0]?) hdrop
          simp only [List.getElem?_drop, Nat.add_zero] at this
          exact this
        rw [List.getD_eq_getElem?_getD, h1, List.getElem?_replicate]
        rw [List.length_replicate] at hlt
        simp [hlt]
      rw [if_pos hic]
      rw [forLoop_fill_row m.N s.1 _
        (fun j => entry (m.responsibility.getD i []) j
          / (1 - entry (m.responsibility.getD c []) j)) s.2 (by omega) hrow0]
      · rfl
      · intro j R hj hidx hrow _
        rw [read_getD m.responsibility c [] (by omega), ok_bind,
          read_entry _ j (by rw [hrowlen c hc]; exact hj), ok_bind,
          read_getD m.responsibility i [] (by omega), ok_bind,
          read_entry _ j (by rw [hrowlen i hi]; exact hj), ok_bind,
          fdiv, if_neg (hne j hj), ok_bind, read_getD R s.1 [] hidx, ok_bind,
          write_ok _ j _ (by omega), ok_bind]
        exact write_ok R s.1 _ hidx)
    (by
      intro i s hi hk
      have hic : ¬ i ≠ c := of_decide_eq_false hk
      beta_reduce
      rw [if_neg hic]
      rfl)
  unfold killResponsibility
  dsimp only
  rw [allocate_pred m.K (by omega), ok_bind]
  refine (bind_congr_ok hloop _).trans ?_
  rw [length_filter_ne_range c m.K hc]
  show Except.ok _ = Except.ok _
  congr 1
  simp only [List.drop_replicate, Nat.sub_self, List.replicate_zero, List.append_nil]
  exact map_filter_ne_range m.responsibility []
    (fun row => (List.range m.N).map (fun j =>
      entry row j / (1 - entry (m.responsibility.getD c []) j))) c m.K hR hc

/-- Closed form of the effective sample sizes of `kill`: the row sums of a
`(K-1) × N` matrix. -/
theorem killSampleSize_eq {κ α : Type} [LinearOrderedField α] (m : Mixture κ α)
    (R : List (List α)) (hK : 1 ≤ m.K) (hR : R.length = m.K - 1)
    (hrows : ∀ row ∈ R, row.length = m.N) :
    killSampleSize m R = .ok (R.map List.sum) := by
  unfold killSampleSize
  dsimp only
  rw [allocate_pred m.K hK, ok_bind]
  exact forLoop_rowSums (m.K - 1) m.N R _ hR hrows (by simp)


theorem sum_map_eraseIdx {β α : Type} [LinearOrderedField α] (v : List β) (g : β → α)
    (d : β) (c : Nat) (hc : c < v.length) :
    ((v.eraseIdx c).map g).sum = (v.map g).sum - g (v.getD c d) := by
  induction v generalizing c with
  | nil => simp at hc
  | cons x xs ih =>
    cases c with
    | zero => simp
    | succ n =>
      have := ih n (by simpa using hc)
      simp only [List.eraseIdx_cons_succ, List.map_cons, List.sum_cons, this]
      simp
      ring

/-- What a successful run of `kill` is made of. -/
theorem kill_eq_ok {κ α : Type} [Inhabited κ] [LinearOrderedField α] (m m' : Mixture κ α)
    (c : Nat) (h : kill m c = .ok m') :
    ∃ W R S C, killWeights m c = .ok W ∧ killResponsibility m c = .ok R ∧
      killSampleSize m R = .ok S ∧ killComponents m c = .ok C ∧
      m' = { N := m.data.length, K := m.K - 1, components := C, data := m.data,
             data_weights := List.replicate m.N (1 : α), responsibility := R,
             sample_size := S, weights := W } := by
  unfold kill at h
  obtain ⟨W, hW, h⟩ := bind_eq_ok h
  obtain ⟨R, hR, h⟩ := bind_eq_ok h
  obtain ⟨S, hS, h⟩ := bind_eq_ok h
  obtain ⟨C, hC, h⟩ := bind_eq_ok h
  exact ⟨W, R, S, C, hW, hR, hS, hC, ((ofFullState_eq_ok_iff _ _ _ _ _ _ _ _).mp h).2⟩

/-- Closed form of `kill(c)` on a well-formed mixture when no divisor is zero. -/
theorem kill_eq {κ α : Type} [Inhabited κ] [LinearOrderedField α] (m : Mixture κ α)
    (c : Nat) (hwf : m.WF) (hc : c < m.K) (hw : entry m.weights c ≠ 1)
    (hr : ∀ j, j < m.N → entry (m.responsibility.getD c []) j ≠ 1) :
    kill m c = .ok
      { N := m.N, K := m.K - 1, components := m.components.eraseIdx c, data := m.data,
        data_weights := List.replicate m.N (1 : α),
        responsibility := (m.responsibility.eraseIdx c).map (fun row =>
          (List.range m.N).map (fun j =>
            entry row j / (1 - entry (m.responsibility.getD c []) j))),
        sample_size := ((m.responsibility.eraseIdx c).map (fun row =>
          (List.range m.N).map (fun j =>
            entry row j / (1 - entry (m.responsibility.getD c []) j)))).map List.sum,
        weights := (m.weights.eraseIdx c).map (fun w => w / (1 - entry m.weights c)) } := by
  have hlenR : ((m.responsibility.eraseIdx c).map (fun row =>
      (List.range m.N).map (fun j =>
        entry row j / (1 - entry (m.responsibility.getD c []) j)))).length = m.K - 1 := by
    rw [List.length_map, List.length_eraseIdx, hwf.responsibility_length, if_pos hc]
  have hrowsR : ∀ row ∈ (m.responsibility.eraseIdx c).map (fun row =>
      (List.range m.N).map (fun j =>
        entry row j / (1 - entry (m.responsibility.getD c []) j))), row.length = m.N := by
    intro row hrow
    obtain ⟨_, _, rfl⟩ := List.mem_map.mp hrow
    simp
  unfold kill
  rw [killWeights_eq m c hwf.weights_length hc (sub_ne_zero.mpr (Ne.symm hw)), ok_bind,
    killResponsibility_eq m c hwf.responsibility_length hwf.rows_length hc
      (fun j hj => sub_ne_zero.mpr (Ne.symm (hr j hj))), ok_bind,
    killSampleSize_eq m _ (by omega) hlenR hrowsR, ok_bind,
    killComponents_eq m c hwf.components_length hc, ok_bind]
  rw [ofFullState_eq_ok_iff]
  refine ⟨⟨?_, ?_, ?_, hlenR, ?_⟩, ?_⟩
  · rw [List.length_eraseIdx, hwf.components_length, if_pos hc]
  · rw [List.length_map, List.length_eraseIdx, hwf.weights_length, if_pos hc]
  · rw [List.length_map, hlenR]
  · rw [List.length_replicate, hwf.data_length]
  · rw [hwf.data_length]

/-- C4: for a mixture whose `K` weights sum to 1 and a component index `c`
with `weights[c] < 1`, the weight adjustment of `kill(c)` succeeds and builds
the `K - 1` weights `weights[i] / (1 - weights[c])`, `i ≠ c`, in the original
order; these sum to 1; and they are the weights of the `(K-1)`-component
mixture that `kill(c)` constructs (which it does whenever the mixture is well
formed and `responsibility[c][j] ≠ 1` at every point). -/
theorem kill_weights_sum_one {κ α : Type} [Inhabited κ] [LinearOrderedField α]
    (m : Mixture κ α) (c : Nat)
    (hw : m.weights.length = m.K) (hc : c < m.K)
    (hsum : m.weights.sum = 1) (hlt : entry m.weights c < 1) :
    ∃ W : List α,
      killWeights m c = .ok W ∧
      W = (m.weights.eraseIdx c).map (fun w => w / (1 - entry m.weights c)) ∧
      W.length = m.K - 1 ∧ W.sum = 1 ∧
      (∀ m', kill m c = .ok m' → m'.K = m.K - 1 ∧ m'.weights = W) ∧
      (m.WF → (∀ j, j < m.N → entry (m.responsibility.getD c []) j ≠ 1) →
        ∃ m', kill m c = .ok m' ∧ m'.K = m.K - 1 ∧ m'.weights = W) := by
  have hne : 1 - entry m.weights c ≠ 0 := ne_of_gt (sub_pos.mpr hlt)
  have hW := killWeights_eq m c hw hc hne
  refine ⟨_, hW, rfl, ?_, ?_, ?_, ?_⟩
  · rw [List.length_map, List.length_eraseIdx, hw, if_pos hc]
  · rw [sum_map_div, sum_eraseIdx m.weights c (by omega), hsum]
    exact div_self hne
  · intro m' hm'
    obtain ⟨W, R, S, C, h1, _, _, _, rfl⟩ := kill_eq_ok m m' c hm'
    rw [hW] at h1
    cases h1
    exact ⟨rfl, rfl⟩
  · intro hwf hr
    exact ⟨_, kill_eq m c hwf hc (ne_of_lt hlt) hr, rfl, rfl⟩

/-- C5: for a mixture whose responsibility columns each sum to 1 and a
component `c` with `responsibility[c][j] < 1` at every point `j`, the
`(K-1) × N` matrix built by `kill(c)` has the entries
`responsibility[i][j] / (1 - responsibility[c][j])`, `i ≠ c`, each of its
columns sums to 1, the effective sample sizes computed from it are its row
sums, and both are stored in the mixture that `kill(c)` constructs (which it
does whenever the mixture is well formed and `weights[c] ≠ 1`). -/
theorem kill_responsibility_columns_sum_one {κ α : Type} [Inhabited κ]
    [LinearOrderedField α] (m : Mixture κ α) (c : Nat)
    (hR : m.responsibility.length = m.K)
    (hrows : ∀ row ∈ m.responsibility, row.length = m.N) (hc : c < m.K)
    (hcol : ∀ j, j < m.N → columnSum m.responsibility j = 1)
    (hlt : ∀ j, j < m.N → entry (m.responsibility.getD c []) j < 1) :
    ∃ R : List (List α),
      killResponsibility m c = .ok R ∧
      R = (m.responsibility.eraseIdx c).map (fun row =>
        (List.range m.N).map (fun j =>
          entry row j / (1 - entry (m.responsibility.getD c []) j))) ∧
      R.length = m.K - 1 ∧ (∀ row ∈ R, row.length = m.N) ∧
      (∀ j, j < m.N → columnSum R j = 1) ∧
      killSampleSize m R = .ok (R.map List.sum) ∧
      (∀ m', kill m c = .ok m' →
        m'.responsibility = R ∧ m'.sample_size = R.map List.sum) ∧
      (m.WF → entry m.weights c ≠ 1 →
        ∃ m', kill m c = .ok m' ∧ m'.responsibility = R ∧
          m'.sample_size = R.map List.sum) := by
  have hne : ∀ j, j < m.N → 1 - entry (m.responsibility.getD c []) j ≠ 0 :=
    fun j hj => ne_of_gt (sub_pos.mpr (hlt j hj))
  have hRm := killResponsibility_eq m c hR hrows hc hne
  have hlen : ((m.responsibility.eraseIdx c).map (fun row =>
      (List.range m.N).map (fun j =>
        entry row j / (1 - entry (m.responsibility.getD c []) j)))).length = m.K - 1 := by
    rw [List.length_map, List.length_eraseIdx, hR, if_pos hc]
  have hrl : ∀ row ∈ (m.responsibility.eraseIdx c).map (fun row =>
      (List.range m.N).map (fun j =>
        entry row j / (1 - entry (m.responsibility.getD c []) j))), row.length = m.N := by
    intro row hrow
    obtain ⟨_, _, rfl⟩ := List.mem_map.mp hrow
    simp
  have hS := killSampleSize_eq m _ (by omega) hlen hrl
  refine ⟨_, hRm, rfl, hlen, hrl, ?_, hS, ?_,
    fun hwf hwc => ⟨_, kill_eq m c hwf hc hwc (fun j hj => ne_of_lt (hlt j hj)), rfl, rfl⟩⟩
  · intro j hj
    unfold columnSum
    rw [List.map_map]
    have e : ((fun row : List α => row.getD j 0) ∘ fun row =>
        (List.range m.N).map (fun j =>
          entry row j / (1 - entry (m.responsibility.getD c []) j)))
        = fun row => entry row j / (1 - entry (m.responsibility.getD c []) j) := by
      funext row
      exact getD_map_range m.N _ 0 j hj
    have e2 : (m.responsibility.eraseIdx c).map
        (fun row => entry row j / (1 - entry (m.responsibility.getD c []) j))
        = ((m.responsibility.eraseIdx c).map (fun row => entry row j)).map
          (fun x => x / (1 - entry (m.responsibility.getD c []) j)) := by
      rw [List.map_map]
      rfl
    rw [e, e2, sum_map_div,
      sum_map_eraseIdx m.responsibility (fun row => entry row j) [] c (by omega)]
    have := hcol j hj
    unfold columnSum at this
    unfold entry
    rw [this]
    exact div_self (hne j hj)
  · intro m' hm'
    obtain ⟨W, R, S, C, _, h2, h3, _, rfl⟩ := kill_eq_ok m m' c hm'
    rw [hRm] at h2
    cases h2
    rw [hS] at h3
    cases h3
    exact ⟨rfl, rfl⟩


/-! ## `join` -/

/-- Number of components other than `c1` and `c2`. -/
theorem length_filter_ne2_range (c1 c2 : Nat) (hne : c1 ≠ c2) (K : Nat) :
    ((List.range K).filter (fun i => decide (i ≠ c1 ∧ i ≠ c2))).length
        + (if c1 < K then 1 else 0) + (if c2 < K then 1 else 0) = K := by
  induction K with
  | zero => simp
  | succ n ih =>
    rw [filter_range_succ, List.length_append]
    by_cases h1 : n = c1
    · subst h1
      have h2 : ¬ n < n := lt_irrefl n
      have hk : decide (n ≠ n ∧ n ≠ c2) = false := decide_eq_false (fun h => h.1 rfl)
      simp only [h2, if_false] at ih
      simp only [hk, Bool.false_eq_true, if_false, List.length_nil]
      split_ifs at ih ⊢ <;> omega
    · by_cases h2 : n = c2
      · subst h2
        have h3 : ¬ n < n := lt_irrefl n
        have hk : decide (n ≠ c1 ∧ n ≠ n) = false := decide_eq_false (fun h => h.2 rfl)
        simp only [h3, if_false] at ih
        simp only [hk, Bool.false_eq_true, if_false, List.length_nil]
        split_ifs at ih ⊢ <;> omega
      · have hk : decide (n ≠ c1 ∧ n ≠ c2) = true := decide_eq_true ⟨h1, h2⟩
        simp only [hk, if_true, List.length_singleton]
        split_ifs at ih ⊢ <;> omega

/-- Total of `f` over the components other than `c1` and `c2`. -/
theorem sum_filter_ne2_range {α : Type} [LinearOrderedField α] (f : Nat → α)
    (c1 c2 : Nat) (hne : c1 ≠ c2) (K : Nat) :
    (((List.range K).filter (fun i => decide (i ≠ c1 ∧ i ≠ c2))).map f).sum
        + (if c1 < K then f c1 else 0) + (if c2 < K then f c2 else 0)
      = ((List.range K).map f).sum := by
  induction K with
  | zero => simp
  | succ n ih =>
    rw [filter_range_succ, List.map_append, List.sum_append, List.range_succ,
      List.map_append, List.sum_append, ← ih]
    by_cases h1 : n = c1
    · subst h1
      have h2 : ¬ n < n := lt_irrefl n
      have h3 : n < n + 1 := Nat.lt_succ_self n
      have h4 : (c2 < n + 1) = (c2 < n) := by
        apply propext
        constructor <;> intro h <;> omega
      have hk : decide (n ≠ n ∧ n ≠ c2) = false := decide_eq_false (fun h => h.1 rfl)
      simp only [h2, h3, h4, hk, if_false, if_true, Bool.false_eq_true, List.map_nil,
        List.sum_nil, List.map_cons, List.sum_cons]
      ring
    · by_cases h2 : n = c2
      · subst h2
        have h3 : ¬ n < n := lt_irrefl n
        have h4 : n < n + 1 := Nat.lt_succ_self n
        have h5 : (c1 < n + 1) = (c1 < n) := by
          apply propext
          constructor <;> intro h <;> omega
        have hk : decide (n ≠ c1 ∧ n ≠ n) = false := decide_eq_false (fun h => h.2 rfl)
        simp only [h3, h4, h5, hk, if_false, if_true, Bool.false_eq_true, List.map_nil,
          List.sum_nil, List.map_cons, List.sum_cons]
        ring
      · have hk : decide (n ≠ c1 ∧ n ≠ c2) = true := decide_eq_true ⟨h1, h2⟩
        have h5 : (c1 < n + 1) = (c1 < n) := by
          apply propext
          constructor <;> intro h <;> omega
        have h6 : (c2 < n + 1) = (c2 < n) := by
          apply propext
          constructor <;> intro h <;> omega
        simp only [hk, h5, h6, if_true, List.map_cons, List.map_nil, List.sum_cons,
          List.sum_nil]
        ring

theorem length_filter_ne2_range_of_lt (c1 c2 K : Nat) (hne : c1 ≠ c2) (h1 : c1 < K)
    (h2 : c2 < K) :
    ((List.range K).filter (fun i => decide (i ≠ c1 ∧ i ≠ c2))).length + 1 = K - 1 + 0
      ∧ ((List.range K).filter (fun i => decide (i ≠ c1 ∧ i ≠ c2))).length = K - 2 := by
  have := length_filter_ne2_range c1 c2 hne K
  rw [if_pos h1, if_pos h2] at this
  constructor <;> omega

/-- Writing the merged entry right after the `n - 1` copied ones fills the
vector of size `n`. -/
theorem write_after_copy {β : Type} (n : Nat) (A : List β) (d x : β)
    (hA : A.length + 1 = n) :
    write (A ++ (List.replicate n d).drop A.length) A.length x = .ok (A ++ [x]) := by
  rw [write_ok _ _ _ (by simp; omega),
    set_append_drop A (List.replicate n d) x (by simp; omega),
    List.drop_of_length_le (by simp; omega), List.append_nil]

/-- Copy loop of `join`: the entries of the components other than `c1`, `c2`,
in their original order, fill the first `K - 2` places. -/
theorem join_copy_loop {β : Type} (K c1 c2 : Nat) (hne : c1 ≠ c2) (h1 : c1 < K) (h2 : c2 < K)
    (v : List β) (d d0 : β) (hv : v.length = K) :
    forLoop 0 K (fun i (s : Nat × List β) =>
      if i ≠ c1 ∧ i ≠ c2 then do
        let x ← read v i
        let out ← write s.2 s.1 x
        pure (s.1 + 1, out)
      else pure s) (0, List.replicate (K - 1) d0)
      = .ok (((List.range K).filter (fun i => decide (i ≠ c1 ∧ i ≠ c2))).length,
          ((List.range K).filter (fun i => decide (i ≠ c1 ∧ i ≠ c2))).map (fun i => v.getD i d)
            ++ (List.replicate (K - 1) d0).drop
              ((List.range K).filter (fun i => decide (i ≠ c1 ∧ i ≠ c2))).length) := by
  apply forLoop_filter_copy K (fun i => decide (i ≠ c1 ∧ i ≠ c2)) (fun i => v.getD i d)
  · rw [(length_filter_ne2_range_of_lt c1 c2 K hne h1 h2).2, List.length_replicate]
    omega
  · intro i s hi hk hlt hlen _
    have hic : i ≠ c1 ∧ i ≠ c2 := of_decide_eq_true hk
    rw [if_pos hic, read_getD v i d (by omega), ok_bind, write_ok _ _ _ (by omega), ok_bind]
    rfl
  · intro i s hi hk
    have hic : ¬ (i ≠ c1 ∧ i ≠ c2) := of_decide_eq_false hk
    rw [if_neg hic]
    rfl

/-- Closed form of the weight adjustment of `join`. -/
theorem joinWeights_eq {κ α : Type} [LinearOrderedField α] (m : Mixture κ α) (c1 c2 : Nat)
    (hw : m.weights.length = m.K) (hne : c1 ≠ c2) (h1 : c1 < m.K) (h2 : c2 < m.K) :
    joinWeights m c1 c2
      = .ok (((List.range m.K).filter (fun i => decide (i ≠ c1 ∧ i ≠ c2))).map
            (fun i => entry m.weights i)
          ++ [entry m.weights c1 + entry m.weights c2]) := by
  unfold joinWeights
  dsimp only
  rw [allocate_pred m.K (by omega), ok_bind]
  refine (bind_congr_ok (join_copy_loop m.K c1 c2 hne h1 h2 m.weights 0 0 hw) _).trans ?_
  dsimp only
  rw [read_entry m.weights c1 (by omega), ok_bind, read_entry m.weights c2 (by omega), ok_bind]
  have := write_after_copy (m.K - 1)
    (((List.range m.K).filter (fun i => decide (i ≠ c1 ∧ i ≠ c2))).map
      (fun i => m.weights.getD i 0)) (0 : α) (entry m.weights c1 + entry m.weights c2)
    (by
      rw [List.length_map]
      exact (length_filter_ne2_range_of_lt c1 c2 m.K hne h1 h2).1)
  rw [List.length_map] at this
  exact this


/-- Closed form of the effective-sample-size adjustment of `join`. -/
theorem joinSampleSize_eq {κ α : Type} [LinearOrderedField α] (m : Mixture κ α) (c1 c2 : Nat)
    (hs : m.sample_size.length = m.K) (hne : c1 ≠ c2) (h1 : c1 < m.K) (h2 : c2 < m.K) :
    joinSampleSize m c1 c2
      = .ok (((List.range m.K).filter (fun i => decide (i ≠ c1 ∧ i ≠ c2))).map
            (fun i => entry m.sample_size i)
          ++ [entry m.sample_size c1 + entry m.sample_size c2]) := by
  unfold joinSampleSize
  dsimp only
  rw [allocate_pred m.K (by omega), ok_bind]
  refine (bind_congr_ok (join_copy_loop m.K c1 c2 hne h1 h2 m.sample_size 0 0 hs) _).trans ?_
  dsimp only
  rw [read_entry m.sample_size c1 (by omega), ok_bind,
    read_entry m.sample_size c2 (by omega), ok_bind]
  have := write_after_copy (m.K - 1)
    (((List.range m.K).filter (fun i => decide (i ≠ c1 ∧ i ≠ c2))).map
      (fun i => m.sample_size.getD i 0)) (0 : α)
    (entry m.sample_size c1 + entry m.sample_size c2)
    (by
      rw [List.length_map]
      exact (length_filter_ne2_range_of_lt c1 c2 m.K hne h1 h2).1)
  rw [List.length_map] at this
  exact this

/-- Closed form of the responsibility adjustment of `join`. -/
theorem joinResponsibility_eq {κ α : Type} [LinearOrderedField α] (m : Mixture κ α)
    (c1 c2 : Nat) (hR : m.responsibility.length = m.K)
    (hrows : ∀ row ∈ m.responsibility, row.length = m.N)
    (hne : c1 ≠ c2) (h1 : c1 < m.K) (h2 : c2 < m.K) :
    joinResponsibility m c1 c2
      = .ok (((List.range m.K).filter (fun i => decide (i ≠ c1 ∧ i ≠ c2))).map
            (fun i => m.responsibility.getD i [])
          ++ [(List.range m.N).map (fun j =>
              entry (m.responsibility.getD c1 []) j + entry (m.responsibility.getD c2 []) j)],
        (List.range m.N).map (fun j =>
              entry (m.responsibility.getD c1 []) j
                + entry (m.responsibility.getD c2 []) j)) := by
  have hrowlen : ∀ i, i < m.K → (m.responsibility.getD i []).length = m.N :=
    fun i hi => hrows _ (getD_mem _ _ _ (by omega))
  have hresp : forLoop 0 m.N (fun i resp => do
      let r1 ← read m.responsibility c1
      let x1 ← read r1 i
      let r2 ← read m.responsibility c2
      let x2 ← read r2 i
      write resp i (x1 + x2)) (List.replicate m.N (0 : α))
      = .ok ((List.range m.N).map (fun j =>
          entry (m.responsibility.getD c1 []) j
            + entry (m.responsibility.getD c2 []) j)) := by
    apply forLoop_tabulate m.N _ _ _ (by simp)
    intro j v hj hv
    rw [read_getD m.responsibility c1 [] (by omega), ok_bind,
      read_entry _ j (by rw [hrowlen c1 h1]; exact hj), ok_bind,
      read_getD m.responsibility c2 [] (by omega), ok_bind,
      read_entry _ j (by rw [hrowlen c2 h2]; exact hj), ok_bind]
    exact write_ok v j _ (by omega)
  unfold joinResponsibility
  dsimp only
  rw [allocate_pred m.K (by omega), ok_bind]
  refine (bind_congr_ok
    (join_copy_loop m.K c1 c2 hne h1 h2 m.responsibility [] [] hR) _).trans ?_
  dsimp only
  rw [hresp, ok_bind]
  have := write_after_copy (m.K - 1)
    (((List.range m.K).filter (fun i => decide (i ≠ c1 ∧ i ≠ c2))).map
      (fun i => m.responsibility.getD i [])) ([] : List α)
    ((List.range m.N).map (fun j =>
      entry (m.responsibility.getD c1 []) j + entry (m.responsibility.getD c2 []) j))
    (by
      rw [List.length_map]
      exact (length_filter_ne2_range_of_lt c1 c2 m.K hne h1 h2).1)
  rw [List.length_map] at this
  rw [this]
  rfl

/-- Closed form of the component part of `join`. -/
theorem joinComponents_eq {κ α : Type} [Inhabited κ] (m : Mixture κ α) (c1 c2 : Nat)
    (resp : List α) (joined_comp : List κ)
    (hcomp : m.components.length = m.K) (hne : c1 ≠ c2) (h1 : c1 < m.K) (h2 : c2 < m.K)
    (hresp : resp.length = m.data.length) (hj : 1 ≤ joined_comp.length) :
    joinComponents m c1 c2 resp joined_comp
      = .ok (((List.range m.K).filter (fun i => decide (i ≠ c1 ∧ i ≠ c2))).map
            (fun i => m.components.getD i default)
          ++ [joined_comp.getD 0 default]) := by
  have hb : (resp.length == m.data.length) = true := by simpa using hresp
  unfold joinComponents
  dsimp only
  rw [allocate_pred m.K (by omega), ok_bind]
  refine (bind_congr_ok
    (join_copy_loop m.K c1 c2 hne h1 h2 m.components default default hcomp) _).trans ?_
  dsimp only
  rw [hb, assert_true, ok_bind, read_getD joined_comp 0 default (by omega), ok_bind]
  have := write_after_copy (m.K - 1)
    (((List.range m.K).filter (fun i => decide (i ≠ c1 ∧ i ≠ c2))).map
      (fun i => m.components.getD i default)) (default : κ) (joined_comp.getD 0 default)
    (by
      rw [List.length_map]
      exact (length_filter_ne2_range_of_lt c1 c2 m.K hne h1 h2).1)
  rw [List.length_map] at this
  exact this

/-- What a successful run of `join` is made of. -/
theorem join_eq_ok {κ α : Type} [Inhabited κ] [LinearOrderedField α] (m m' : Mixture κ α)
    (c1 c2 : Nat) (joined_comp : List κ) (h : join m c1 c2 joined_comp = .ok m') :
    ∃ W R S C, joinWeights m c1 c2 = .ok W ∧ joinResponsibility m c1 c2 = .ok R ∧
      joinSampleSize m c1 c2 = .ok S ∧ joinComponents m c1 c2 R.2 joined_comp = .ok C ∧
      m' = { N := m.data.length, K := m.K - 1, components := C, data := m.data,
             data_weights := List.replicate m.N (1 : α), responsibility := R.1,
             sample_size := S, weights := W } := by
  unfold join at h
  obtain ⟨W, hW, h⟩ := bind_eq_ok h
  obtain ⟨R, hR, h⟩ := bind_eq_ok h
  obtain ⟨S, hS, h⟩ := bind_eq_ok h
  obtain ⟨C, hC, h⟩ := bind_eq_ok h
  exact ⟨W, R, S, C, hW, hR, hS, hC, ((ofFullState_eq_ok_iff _ _ _ _ _ _ _ _).mp h).2⟩

/-- Closed form of `join(c1, c2)` on a well-formed mixture, for distinct valid
indices and a fitted one-component mixture `joined`. -/
theorem join_eq {κ α : Type} [Inhabited κ] [LinearOrderedField α] (m : Mixture κ α)
    (c1 c2 : Nat) (joined_comp : List κ) (hwf : m.WF)
    (hne : c1 ≠ c2) (h1 : c1 < m.K) (h2 : c2 < m.K) (hj : 1 ≤ joined_comp.length) :
    join m c1 c2 joined_comp = .ok
      { N := m.N, K := m.K - 1,
        components := ((List.range m.K).filter (fun i => decide (i ≠ c1 ∧ i ≠ c2))).map
            (fun i => m.components.getD i default) ++ [joined_comp.getD 0 default],
        data := m.data,
        data_weights := List.replicate m.N (1 : α),
        responsibility := ((List.range m.K).filter (fun i => decide (i ≠ c1 ∧ i ≠ c2))).map
            (fun i => m.responsibility.getD i [])
          ++ [(List.range m.N).map (fun j =>
              entry (m.responsibility.getD c1 []) j + entry (m.responsibility.getD c2 []) j)],
        sample_size := ((List.range m.K).filter (fun i => decide (i ≠ c1 ∧ i ≠ c2))).map
            (fun i => entry m.sample_size i)
          ++ [entry m.sample_size c1 + entry m.sample_size c2],
        weights := ((List.range m.K).filter (fun i => decide (i ≠ c1 ∧ i ≠ c2))).map
            (fun i => entry m.weights i)
          ++ [entry m.weights c1 + entry m.weights c2] } := by
  have hlen := (length_filter_ne2_range_of_lt c1 c2 m.K hne h1 h2).1
  unfold join
  rw [joinWeights_eq m c1 c2 hwf.weights_length hne h1 h2, ok_bind,
    joinResponsibility_eq m c1 c2 hwf.responsibility_length hwf.rows_length hne h1 h2, ok_bind,
    joinSampleSize_eq m c1 c2 hwf.sample_size_length hne h1 h2, ok_bind]
  dsimp only
  rw [joinComponents_eq m c1 c2 _ joined_comp hwf.components_length hne h1 h2
    (by rw [List.length_map, List.length_range, hwf.data_length]) hj, ok_bind]
  rw [ofFullState_eq_ok_iff]
  refine ⟨⟨?_, ?_, ?_, ?_, ?_⟩, ?_⟩
  · rw [List.length_append, List.length_map, List.length_singleton]
    omega
  · rw [List.length_append, List.length_map, List.length_singleton]
    omega
  · rw [List.length_append, List.length_map, List.length_singleton]
    omega
  · rw [List.length_append, List.length_map, List.length_singleton]
    omega
  · rw [List.length_replicate, hwf.data_length]
  · rw [hwf.data_length]


/-- C6: for distinct valid indices `c1 ≠ c2` of a `K`-component mixture, the
weight adjustment of `join(c1, c2)` succeeds and builds a vector of `K - 1`
weights: the weights of the untouched components in their original order,
followed by `weights[c1] + weights[c2]`; its total is the total of the
original weights (1 when these sum to 1); and it is the weight vector of the
`(K-1)`-component mixture that `join(c1, c2)` constructs (which it does
whenever the mixture is well formed and the fitted mixture `joined` has a
component). -/
theorem join_weights_total {κ α : Type} [Inhabited κ] [LinearOrderedField α]
    (m : Mixture κ α) (c1 c2 : Nat)
    (hw : m.weights.length = m.K) (hne : c1 ≠ c2) (h1 : c1 < m.K) (h2 : c2 < m.K) :
    ∃ W : List α,
      joinWeights m c1 c2 = .ok W ∧
      W = ((List.range m.K).filter (fun i => decide (i ≠ c1 ∧ i ≠ c2))).map
            (fun i => entry m.weights i)
          ++ [entry m.weights c1 + entry m.weights c2] ∧
      W.length = m.K - 1 ∧
      W[m.K - 2]? = some (entry m.weights c1 + entry m.weights c2) ∧
      W.sum = m.weights.sum ∧ (m.weights.sum = 1 → W.sum = 1) ∧
      (∀ joined_comp m', join m c1 c2 joined_comp = .ok m' →
        m'.K = m.K - 1 ∧ m'.weights = W) ∧
      (m.WF → ∀ joined_comp : List κ, 1 ≤ joined_comp.length →
        ∃ m', join m c1 c2 joined_comp = .ok m' ∧ m'.K = m.K - 1 ∧ m'.weights = W) := by
  have hW := joinWeights_eq m c1 c2 hw hne h1 h2
  have hlen := length_filter_ne2_range_of_lt c1 c2 m.K hne h1 h2
  have hsum : (((List.range m.K).filter (fun i => decide (i ≠ c1 ∧ i ≠ c2))).map
      (fun i => entry m.weights i) ++ [entry m.weights c1 + entry m.weights c2]).sum
      = m.weights.sum := by
    have := sum_filter_ne2_range (fun i => entry m.weights i) c1 c2 hne m.K
    rw [if_pos h1, if_pos h2] at this
    rw [List.sum_append, List.sum_singleton, ← add_assoc, this]
    exact sum_map_range_getD m.weights m.K hw
  refine ⟨_, hW, rfl, ?_, ?_, hsum, fun h => hsum.trans h, ?_,
    fun hwf joined_comp hj => ⟨_, join_eq m c1 c2 joined_comp hwf hne h1 h2 hj, rfl, rfl⟩⟩
  · rw [List.length_append, List.length_map, List.length_singleton]
    omega
  · rw [List.getElem?_append_right (by rw [List.length_map]; omega), List.length_map, hlen.2,
      Nat.sub_self]
    rfl
  · intro joined_comp m' hm'
    obtain ⟨W, R, S, C, h1, _, _, _, rfl⟩ := join_eq_ok m m' c1 c2 joined_comp hm'
    rw [hW] at h1
    cases h1
    exact ⟨rfl, rfl⟩

/-- C7: for distinct valid indices `c1 ≠ c2`, the responsibility matrix built
by `join(c1, c2)` consists of the rows of the untouched components, unchanged
and in their original order, followed by the element-wise sum of rows `c1` and
`c2`; every column sum is preserved (columns that summed to 1 still do); the
effective sample sizes built are those of the untouched components followed by
`sample_size[c1] + sample_size[c2]`; and both are stored in the mixture that
`join(c1, c2)` constructs (which it does whenever the mixture is well formed
and the fitted mixture `joined` has a component). -/
theorem join_responsibility_column_sums {κ α : Type} [Inhabited κ] [LinearOrderedField α]
    (m : Mixture κ α) (c1 c2 : Nat)
    (hR : m.responsibility.length = m.K)
    (hrows : ∀ row ∈ m.responsibility, row.length = m.N)
    (hs : m.sample_size.length = m.K)
    (hne : c1 ≠ c2) (h1 : c1 < m.K) (h2 : c2 < m.K) :
    ∃ (R : List (List α)) (resp S : List α),
      joinResponsibility m c1 c2 = .ok (R, resp) ∧
      resp = (List.range m.N).map (fun j =>
        entry (m.responsibility.getD c1 []) j + entry (m.responsibility.getD c2 []) j) ∧
      R = ((List.range m.K).filter (fun i => decide (i ≠ c1 ∧ i ≠ c2))).map
            (fun i => m.responsibility.getD i []) ++ [resp] ∧
      R.length = m.K - 1 ∧ R[m.K - 2]? = some resp ∧
      (∀ j, j < m.N → columnSum R j = columnSum m.responsibility j) ∧
      (∀ j, j < m.N → columnSum m.responsibility j = 1 → columnSum R j = 1) ∧
      joinSampleSize m c1 c2 = .ok S ∧
      S = ((List.range m.K).filter (fun i => decide (i ≠ c1 ∧ i ≠ c2))).map
            (fun i => entry m.sample_size i)
          ++ [entry m.sample_size c1 + entry m.sample_size c2] ∧
      S[m.K - 2]? = some (entry m.sample_size c1 + entry m.sample_size c2) ∧
      (∀ joined_comp m', join m c1 c2 joined_comp = .ok m' →
        m'.responsibility = R ∧ m'.sample_size = S) ∧
      (m.WF → ∀ joined_comp : List κ, 1 ≤ joined_comp.length →
        ∃ m', join m c1 c2 joined_comp = .ok m' ∧
          m'.responsibility = R ∧ m'.sample_size = S) := by
  have hRm := joinResponsibility_eq m c1 c2 hR hrows hne h1 h2
  have hS := joinSampleSize_eq m c1 c2 hs hne h1 h2
  have hlen := length_filter_ne2_range_of_lt c1 c2 m.K hne h1 h2
  have hcol : ∀ j, j < m.N →
      columnSum (((List.range m.K).filter (fun i => decide (i ≠ c1 ∧ i ≠ c2))).map
          (fun i => m.responsibility.getD i [])
        ++ [(List.range m.N).map (fun j =>
          entry (m.responsibility.getD c1 []) j + entry (m.responsibility.getD c2 []) j)]) j
      = columnSum m.responsibility j := by
    intro j hj
    have := sum_filter_ne2_range (fun i => entry (m.responsibility.getD i []) j) c1 c2 hne m.K
    rw [if_pos h1, if_pos h2] at this
    unfold columnSum
    rw [List.map_append, List.sum_append, List.map_map, List.map_singleton,
      List.sum_singleton, getD_map_range m.N _ 0 j hj, ← add_assoc]
    rw [← map_range_getD m.responsibility [] (fun row => row.getD j 0) m.K hR]
    exact this
  refine ⟨_, _, _, hRm, rfl, rfl, ?_, ?_, hcol, fun j hj h => (hcol j hj).trans h,
    hS, rfl, ?_, ?_,
    fun hwf joined_comp hj => ⟨_, join_eq m c1 c2 joined_comp hwf hne h1 h2 hj, rfl, rfl⟩⟩
  · rw [List.length_append, List.length_map, List.length_singleton]
    omega
  · rw [List.getElem?_append_right (by rw [List.length_map]; omega), List.length_map, hlen.2,
      Nat.sub_self]
    rfl
  · rw [List.getElem?_append_right (by rw [List.length_map]; omega), List.length_map, hlen.2,
      Nat.sub_self]
    rfl
  · intro joined_comp m' hm'
    obtain ⟨W, R, S, C, _, h2, h3, _, rfl⟩ := join_eq_ok m m' c1 c2 joined_comp hm'
    rw [hRm] at h2
    cases h2
    rw [hS] at h3
    cases h3
    exact ⟨rfl, rfl⟩


/-! ## `split` -/

/-- Closed form of the weight adjustment of `split`. -/
theorem splitWeights_eq {κ α : Type} [LinearOrderedField α] (m child : Mixture κ α) (c : Nat)
    (hw : m.weights.length = m.K) (hc : c < m.K) (hcw : child.weights.length = 2) :
    splitWeights m c child
      = .ok [entry child.weights 0 * entry m.weights c,
             entry child.weights 1 * entry m.weights c] := by
  obtain ⟨a, b, hab⟩ := List.length_eq_two.mp hcw
  unfold splitWeights
  dsimp only
  rw [hab, read_entry m.weights c (by omega)]
  rfl

/-- Closed form of the responsibility adjustment of `split`. -/
theorem splitResponsibility_eq {κ α : Type} [LinearOrderedField α] (m child : Mixture κ α)
    (c : Nat) (hR : m.responsibility.length = m.K)
    (hrows : ∀ row ∈ m.responsibility, row.length = m.N) (hc : c < m.K)
    (hcR : child.responsibility.length = 2)
    (hcrows : ∀ row ∈ child.responsibility, row.length = m.N) :
    splitResponsibility m c child
      = .ok (child.responsibility.map (scaledRow m.N (m.responsibility.getD c []))) := by
  have hparent : (m.responsibility.getD c []).length = m.N :=
    hrows _ (getD_mem _ _ _ (by omega))
  unfold splitResponsibility
  rw [← map_range_getD child.responsibility [] (scaledRow m.N (m.responsibility.getD c [])) 2 hcR]
  apply forLoop_update [] 2 _
    (fun _ row => scaledRow m.N (m.responsibility.getD c []) row) child.responsibility hcR
  intro i v hi hv hget
  have hrow : (v.getD i []).length = m.N := by
    rw [hget]
    exact hcrows _ (getD_mem _ _ _ (by omega))
  rw [forLoop_fill_row m.N i _
    (fun j => entry (v.getD i []) j * entry (m.responsibility.getD c []) j) v (by omega) hrow]
  · rw [hget]
    rfl
  · intro j R hj hidx hrowR hent
    rw [read_getD R i [] hidx, ok_bind, read_entry _ j (by omega), ok_bind,
      read_getD m.responsibility c [] (by omega), ok_bind,
      read_entry _ j (by omega), ok_bind, write_ok _ j _ (by omega), ok_bind, hent]
    exact write_ok R i _ hidx

/-- Closed form of the effective sample sizes of the two children in `split`. -/
theorem splitSampleSize_eq {κ α : Type} [LinearOrderedField α] (m : Mixture κ α)
    (R : List (List α)) (hR : R.length = 2) (hrows : ∀ row ∈ R, row.length = m.N) :
    splitSampleSize m R = .ok (R.map List.sum) := by
  unfold splitSampleSize
  exact forLoop_rowSums 2 m.N R _ hR hrows (by simp)

theorem mergedOutput_succ {β : Type} (v : List β) (d : β) (c : Nat) (x y : β) (i : Nat) :
    mergedOutput v d c x y (i + 1)
      = mergedOutput v d c x y i ++ (if i ≠ c then [v.getD i d] else [x, y]) := by
  unfold mergedOutput
  rw [List.range_succ, List.flatMap_append]
  simp

theorem length_mergedOutput {β : Type} (v : List β) (d : β) (c : Nat) (x y : β) (i : Nat) :
    (mergedOutput v d c x y i).length = mergeIndex c i := by
  induction i with
  | zero => simp [mergedOutput, mergeIndex]
  | succ n ih =>
    rw [mergedOutput_succ, List.length_append, ih]
    unfold mergeIndex
    by_cases h : n = c
    · subst h
      simp
    · rw [if_pos h]
      split_ifs <;> simp <;> omega

/-- After all `K` passes the merge loop has produced `v` with entry `c`
replaced by the two child entries. -/
theorem mergedOutput_full {β : Type} (v : List β) (d : β) (c : Nat) (x y : β)
    (hc : c < v.length) :
    mergedOutput v d c x y v.length = v.take c ++ [x, y] ++ v.drop (c + 1) := by
  have key : ∀ i, i ≤ v.length → mergedOutput v d c x y i
      = if i ≤ c then v.take i
        else v.take c ++ [x, y] ++ (v.drop (c + 1)).take (i - (c + 1)) := by
    intro i
    induction i with
    | zero => intro _; simp [mergedOutput]
    | succ n ih =>
      intro hn
      rw [mergedOutput_succ, ih (by omega)]
      rcases Nat.lt_trichotomy n c with h | h | h
      · rw [if_pos (by omega), if_pos (by omega), if_pos (by omega), List.take_succ,
          getElem?_eq_some_getD v d n (by omega)]
        rfl
      · subst h
        rw [if_pos (le_refl _), if_neg (by omega), if_neg (by omega)]
        simp
      · rw [if_neg (by omega), if_pos (by omega), if_neg (by omega)]
        have e : n + 1 - (c + 1) = (n - (c + 1)) + 1 := by omega
        rw [e, List.take_succ, List.getElem?_drop]
        have e2 : c + 1 + (n - (c + 1)) = n := by omega
        rw [e2, getElem?_eq_some_getD v d n (by omega)]
        simp
  rw [key v.length (le_refl _), if_neg (by omega)]
  congr 1
  apply List.take_of_length_le
  rw [List.length_drop]


theorem write_filled {β : Type} (A v0 : List β) (x : β) (n : Nat) (hA : A.length = n)
    (hn : n < v0.length) :
    write (A ++ v0.drop n) n x = .ok ((A ++ [x]) ++ v0.drop (n + 1)) := by
  subst hA
  rw [write_ok _ _ _ (by simp; omega), set_append_drop A v0 x hn]

/-- One `push` on a state whose four vectors are filled up to `index`. -/
theorem push_filled {κ α : Type} (n : Nat) (A1 A2 : List α) (A3 : List (List α))
    (A4 : List κ) (v1 v2 : List α) (v3 : List (List α)) (v4 : List κ)
    (w s : α) (r : List α) (x : κ)
    (h1 : A1.length = n) (h2 : A2.length = n) (h3 : A3.length = n) (h4 : A4.length = n)
    (l1 : n < v1.length) (l2 : n < v2.length) (l3 : n < v3.length) (l4 : n < v4.length) :
    MergeState.push
        { index := n, weights_m := A1 ++ v1.drop n, sample_size_m := A2 ++ v2.drop n,
          responsibility_m := A3 ++ v3.drop n, components_m := A4 ++ v4.drop n } w s r x
      = .ok { index := n + 1, weights_m := (A1 ++ [w]) ++ v1.drop (n + 1),
              sample_size_m := (A2 ++ [s]) ++ v2.drop (n + 1),
              responsibility_m := (A3 ++ [r]) ++ v3.drop (n + 1),
              components_m := (A4 ++ [x]) ++ v4.drop (n + 1) } := by
  unfold MergeState.push
  dsimp only
  rw [write_filled A1 v1 w n h1 l1, ok_bind, write_filled A2 v2 s n h2 l2, ok_bind,
    write_filled A3 v3 r n h3 l3, ok_bind, write_filled A4 v4 x n h4 l4, ok_bind]
  rfl

theorem forLoop_two {σ : Type} (g : Nat → σ → Exec σ) (s : σ) :
    forLoop 0 2 g s = g 0 s >>= g 1 := rfl

theorem mergeIndex_succ_of_ne (c i : Nat) (h : i ≠ c) :
    mergeIndex c (i + 1) = mergeIndex c i + 1 := by
  unfold mergeIndex
  split_ifs <;> omega

theorem mergeIndex_lt (c i K : Nat) (hi : i < K) : mergeIndex c i < K + 1 := by
  unfold mergeIndex
  split_ifs <;> omega

/-- The merge loop of `split`: after `K` passes the four vectors hold the
entries of the parent with entry `c` replaced by the two child entries. -/
theorem split_merge_loop {κ α : Type} [Inhabited κ] [LinearOrderedField α] (m : Mixture κ α)
    (c : Nat) (hwf : m.WF) (hc : c < m.K)
    (weights_c sample_size_c : List α) (responsibility_c : List (List α))
    (components_c : List κ)
    (hwc : weights_c.length = 2) (hsc : sample_size_c.length = 2)
    (hrc : responsibility_c.length = 2) (hcc : components_c.length = 2) :
    forLoop 0 m.K (fun i (s : MergeState κ α) =>
      if i ≠ c then do
        let w ← read m.weights i
        let n ← read m.sample_size i
        let r ← read m.responsibility i
        let x ← read m.components i
        s.push w n r x
      else if i = c then
        forLoop 0 2 (fun j (s : MergeState κ α) => do
          let w ← read weights_c j
          let n ← read sample_size_c j
          let r ← read responsibility_c j
          let x ← read components_c j
          s.push w n r x) s
      else pure s)
      { index := 0, weights_m := List.replicate (m.K + 1) (0 : α),
        sample_size_m := List.replicate (m.K + 1) (0 : α),
        responsibility_m := List.replicate (m.K + 1) ([] : List α),
        components_m := List.replicate (m.K + 1) (default : κ) }
      = .ok (mergeStateAt m c weights_c sample_size_c responsibility_c components_c m.K) := by
  have h := forLoop_closed 0 (fun i (s : MergeState κ α) =>
      if i ≠ c then do
        let w ← read m.weights i
        let n ← read m.sample_size i
        let r ← read m.responsibility i
        let x ← read m.components i
        s.push w n r x
      else if i = c then
        forLoop 0 2 (fun j (s : MergeState κ α) => do
          let w ← read weights_c j
          let n ← read sample_size_c j
          let r ← read responsibility_c j
          let x ← read components_c j
          s.push w n r x) s
      else pure s)
    (mergeStateAt m c weights_c sample_size_c responsibility_c components_c)
    m.K (Nat.zero_le _)
    (by
      intro i _ hi
      beta_reduce
      by_cases hic : i = c
      · subst hic
        have hne : ¬ i ≠ i := fun h => h rfl
        have hidx : mergeIndex i i = i := by simp [mergeIndex]
        have hidx2 : mergeIndex i (i + 1) = i + 2 := by simp [mergeIndex]
        rw [if_neg hne, if_pos rfl, forLoop_two]
        rw [read_getD weights_c 0 0 (by omega), ok_bind, read_getD sample_size_c 0 0 (by omega),
          ok_bind, read_getD responsibility_c 0 [] (by omega), ok_bind,
          read_getD components_c 0 default (by omega), ok_bind]
        unfold mergeStateAt
        rw [hidx, hidx2]
        rw [push_filled i _ _ _ _ _ _ _ _ _ _ _ _
          (by rw [length_mergedOutput, hidx]) (by rw [length_mergedOutput, hidx])
          (by rw [length_mergedOutput, hidx]) (by rw [length_mergedOutput, hidx])
          (by simp; omega) (by simp; omega) (by simp; omega) (by simp; omega), ok_bind]
        rw [read_getD weights_c 1 0 (by omega), ok_bind, read_getD sample_size_c 1 0 (by omega),
          ok_bind, read_getD responsibility_c 1 [] (by omega), ok_bind,
          read_getD components_c 1 default (by omega), ok_bind]
        rw [push_filled (i + 1) _ _ _ _ _ _ _ _ _ _ _ _
          (by rw [List.length_append, length_mergedOutput, hidx]; rfl)
          (by rw [List.length_append, length_mergedOutput, hidx]; rfl)
          (by rw [List.length_append, length_mergedOutput, hidx]; rfl)
          (by rw [List.length_append, length_mergedOutput, hidx]; rfl)
          (by simp; omega) (by simp; omega) (by simp; omega) (by simp; omega)]
        simp only [mergedOutput_succ, if_neg hne, List.append_assoc, List.singleton_append]
      · have hne : i ≠ c := hic
        rw [if_pos hne]
        rw [read_getD m.weights i 0 (by rw [hwf.weights_length]; exact hi), ok_bind,
          read_getD m.sample_size i 0 (by rw [hwf.sample_size_length]; exact hi), ok_bind,
          read_getD m.responsibility i [] (by rw [hwf.responsibility_length]; exact hi),
          ok_bind,
          read_getD m.components i default (by rw [hwf.components_length]; exact hi), ok_bind]
        have hlt := mergeIndex_lt c i m.K hi
        unfold mergeStateAt
        rw [push_filled (mergeIndex c i) _ _ _ _ _ _ _ _ _ _ _ _
          (length_mergedOutput _ _ _ _ _ _) (length_mergedOutput _ _ _ _ _ _)
          (length_mergedOutput _ _ _ _ _ _) (length_mergedOutput _ _ _ _ _ _)
          (by simpa using hlt) (by simpa using hlt) (by simpa using hlt) (by simpa using hlt)]
        simp only [mergedOutput_succ, if_pos hne, mergeIndex_succ_of_ne c i hne])
  have h0 : mergeStateAt m c weights_c sample_size_c responsibility_c components_c 0
      = { index := 0, weights_m := List.replicate (m.K + 1) (0 : α),
          sample_size_m := List.replicate (m.K + 1) (0 : α),
          responsibility_m := List.replicate (m.K + 1) ([] : List α),
          components_m := List.replicate (m.K + 1) (default : κ) } := by
    simp [mergeStateAt, mergedOutput, mergeIndex]
  rw [h0] at h
  exact h


theorem mergeIndex_full (c K : Nat) (hc : c < K) : mergeIndex c K = K + 1 := by
  unfold mergeIndex
  rw [if_neg (by omega)]

/-- Closed form of `split(c)` on a well-formed mixture, for a fitted
two-component child mixture over the same `N` data points. -/
theorem split_eq {κ α : Type} [Inhabited κ] [LinearOrderedField α] (m child : Mixture κ α)
    (c : Nat) (hwf : m.WF) (hc : c < m.K)
    (hcw : child.weights.length = 2) (hcc : child.components.length = 2)
    (hcR : child.responsibility.length = 2)
    (hcrows : ∀ row ∈ child.responsibility, row.length = m.N) :
    split m c child = .ok
      { N := m.N, K := m.K + 1,
        components := m.components.take c
          ++ [child.components.getD 0 default, child.components.getD 1 default]
          ++ m.components.drop (c + 1),
        data := m.data,
        data_weights := List.replicate m.N (1 : α),
        responsibility := m.responsibility.take c
          ++ [scaledRow m.N (m.responsibility.getD c []) (child.responsibility.getD 0 []),
              scaledRow m.N (m.responsibility.getD c []) (child.responsibility.getD 1 [])]
          ++ m.responsibility.drop (c + 1),
        sample_size := m.sample_size.take c
          ++ [(scaledRow m.N (m.responsibility.getD c [])
                (child.responsibility.getD 0 [])).sum,
              (scaledRow m.N (m.responsibility.getD c [])
                (child.responsibility.getD 1 [])).sum]
          ++ m.sample_size.drop (c + 1),
        weights := m.weights.take c
          ++ [entry child.weights 0 * entry m.weights c,
              entry child.weights 1 * entry m.weights c]
          ++ m.weights.drop (c + 1) } := by
  obtain ⟨r0, r1, hr⟩ := List.length_eq_two.mp hcR
  have hparent : (m.responsibility.getD c []).length = m.data.length := by
    rw [hwf.data_length]
    exact hwf.rows_length _ (getD_mem _ _ _ (by rw [hwf.responsibility_length]; exact hc))
  have hb : ((m.responsibility.getD c []).length == m.data.length) = true := by
    simpa using hparent
  have hsr := splitResponsibility_eq m child c hwf.responsibility_length hwf.rows_length hc
    hcR hcrows
  have hss := splitSampleSize_eq m
    (child.responsibility.map (scaledRow m.N (m.responsibility.getD c []))) (by simp [hcR])
    (by
      intro row hrow
      obtain ⟨_, _, rfl⟩ := List.mem_map.mp hrow
      simp [scaledRow])
  have hloop := split_merge_loop m c hwf hc
    [entry child.weights 0 * entry m.weights c, entry child.weights 1 * entry m.weights c]
    ((child.responsibility.map (scaledRow m.N (m.responsibility.getD c []))).map List.sum)
    (child.responsibility.map (scaledRow m.N (m.responsibility.getD c [])))
    child.components rfl (by simp [hcR]) (by simp [hcR]) hcc
  unfold split
  rw [read_getD m.responsibility c [] (by rw [hwf.responsibility_length]; exact hc), ok_bind,
    hb, assert_true, ok_bind, splitWeights_eq m child c hwf.weights_length hc hcw, ok_bind,
    hsr, ok_bind, hss, ok_bind]
  dsimp only
  refine (bind_congr_ok hloop _).trans ?_
  rw [ofFullState_eq_ok_iff]
  have e1 := mergedOutput_full m.weights 0 c (entry child.weights 0 * entry m.weights c)
    (entry child.weights 1 * entry m.weights c) (by rw [hwf.weights_length]; exact hc)
  have e2 := mergedOutput_full m.sample_size 0 c
    (scaledRow m.N (m.responsibility.getD c []) (child.responsibility.getD 0 [])).sum
    (scaledRow m.N (m.responsibility.getD c []) (child.responsibility.getD 1 [])).sum
    (by rw [hwf.sample_size_length]; exact hc)
  have e3 := mergedOutput_full m.responsibility [] c
    (scaledRow m.N (m.responsibility.getD c []) (child.responsibility.getD 0 []))
    (scaledRow m.N (m.responsibility.getD c []) (child.responsibility.getD 1 []))
    (by rw [hwf.responsibility_length]; exact hc)
  have e4 := mergedOutput_full m.components default c (child.components.getD 0 default)
    (child.components.getD 1 default) (by rw [hwf.components_length]; exact hc)
  rw [hwf.weights_length] at e1
  rw [hwf.sample_size_length] at e2
  rw [hwf.responsibility_length] at e3
  rw [hwf.components_length] at e4
  have hfull := mergeIndex_full c m.K hc
  have hst : mergeStateAt m c
      [entry child.weights 0 * entry m.weights c, entry child.weights 1 * entry m.weights c]
      ((child.responsibility.map (scaledRow m.N (m.responsibility.getD c []))).map List.sum)
      (child.responsibility.map (scaledRow m.N (m.responsibility.getD c [])))
      child.components m.K
      = { index := m.K + 1,
          weights_m := m.weights.take c
            ++ [entry child.weights 0 * entry m.weights c,
                entry child.weights 1 * entry m.weights c]
            ++ m.weights.drop (c + 1),
          sample_size_m := m.sample_size.take c
            ++ [(scaledRow m.N (m.responsibility.getD c [])
                  (child.responsibility.getD 0 [])).sum,
                (scaledRow m.N (m.responsibility.getD c [])
                  (child.responsibility.getD 1 [])).sum]
            ++ m.sample_size.drop (c + 1),
          responsibility_m := m.responsibility.take c
            ++ [scaledRow m.N (m.responsibility.getD c []) (child.responsibility.getD 0 []),
                scaledRow m.N (m.responsibility.getD c []) (child.responsibility.getD 1 [])]
            ++ m.responsibility.drop (c + 1),
          components_m := m.components.take c
            ++ [child.components.getD 0 default, child.components.getD 1 default]
            ++ m.components.drop (c + 1) } := by
    unfold mergeStateAt
    rw [hfull]
    have d1 : ∀ (β : Type) (x : β), (List.replicate (m.K + 1) x).drop (m.K + 1) = [] := by
      intro β x
      simp
    rw [d1, d1, d1, List.append_nil, List.append_nil, List.append_nil, List.append_nil]
    rw [hr] at e2 e3 ⊢
    simp only [List.map_cons, List.map_nil, List.getD_cons_zero, List.getD_cons_succ] at e2 e3 ⊢
    rw [← e1, ← e2, ← e3, ← e4]
  rw [hst]
  have hlen : ∀ (β : Type) (v : List β) (x y : β), v.length = m.K →
      (v.take c ++ [x, y] ++ v.drop (c + 1)).length = m.K + 1 := by
    intro β v x y hv
    simp only [List.length_append, List.length_take, List.length_drop, List.length_cons,
      List.length_nil, hv]
    omega
  refine ⟨⟨hlen _ _ _ _ hwf.components_length, hlen _ _ _ _ hwf.weights_length,
    hlen _ _ _ _ hwf.sample_size_length, hlen _ _ _ _ hwf.responsibility_length, ?_⟩, ?_⟩
  · rw [List.length_replicate, hwf.data_length]
  · rw [hwf.data_length]


/-- Positions in a vector whose entry `c` has been replaced by two entries. -/
theorem getElem?_spliced {β : Type} (v : List β) (c : Nat) (x y : β) (hc : c < v.length) :
    (∀ i, i < c → (v.take c ++ [x, y] ++ v.drop (c + 1))[i]? = v[i]?) ∧
    (v.take c ++ [x, y] ++ v.drop (c + 1))[c]? = some x ∧
    (v.take c ++ [x, y] ++ v.drop (c + 1))[c + 1]? = some y ∧
    (∀ i, c < i → (v.take c ++ [x, y] ++ v.drop (c + 1))[i + 1]? = v[i]?) := by
  have hlen : (v.take c).length = c := by
    rw [List.length_take]
    omega
  refine ⟨?_, ?_, ?_, ?_⟩
  · intro i hi
    rw [List.append_assoc, List.getElem?_append_left (by omega), List.getElem?_take_of_lt hi]
  · rw [List.append_assoc, List.getElem?_append_right (by omega), hlen, Nat.sub_self]
    rfl
  · rw [List.append_assoc, List.getElem?_append_right (by omega), hlen]
    have : c + 1 - c = 1 := by omega
    rw [this]
    simp
  · intro i hi
    rw [List.getElem?_append_right (by simp; omega), List.getElem?_drop]
    congr 1
    simp only [List.length_append, hlen, List.length_cons, List.length_nil]
    omega

theorem sum_spliced {α : Type} [LinearOrderedField α] (v : List α) (c : Nat) (x y : α)
    (hc : c < v.length) :
    (v.take c ++ [x, y] ++ v.drop (c + 1)).sum = v.sum - entry v c + (x + y) := by
  have h1 := List.sum_take_add_sum_drop v c
  rw [List.drop_eq_getElem_cons hc, List.sum_cons] at h1
  have h2 : entry v c = v[c] := by
    unfold entry
    exact List.getD_eq_getElem _ _ hc
  rw [h2, ← h1]
  simp only [List.sum_append, List.sum_cons, List.sum_nil]
  ring

theorem filter_ne_succ_range (c K : Nat) (hc : c + 1 < K) :
    (List.range K).filter (fun i => decide (i ≠ c ∧ i ≠ c + 1))
      = List.range c ++ List.range' (c + 2) (K - (c + 2)) := by
  have hbase : (List.range c).filter (fun i => decide (i ≠ c ∧ i ≠ c + 1)) = List.range c := by
    rw [List.filter_eq_self]
    intro a ha
    have := List.mem_range.mp ha
    exact decide_eq_true ⟨by omega, by omega⟩
  induction K with
  | zero => omega
  | succ n ih =>
    rw [filter_range_succ]
    rcases Nat.lt_or_ge (c + 1) n with h1 | h1
    · rw [ih h1]
      have hk : decide (n ≠ c ∧ n ≠ c + 1) = true := decide_eq_true ⟨by omega, by omega⟩
      have e : n + 1 - (c + 2) = (n - (c + 2)) + 1 := by omega
      rw [e, List.range'_concat, hk, if_pos rfl, List.append_assoc]
      congr 3
      omega
    · have hn : n = c + 1 := by omega
      subst hn
      have hk1 : decide (c + 1 ≠ c ∧ c + 1 ≠ c + 1) = false :=
        decide_eq_false (fun h => h.2 rfl)
      have hk2 : decide (c ≠ c ∧ c ≠ c + 1) = false := decide_eq_false (fun h => h.1 rfl)
      rw [filter_range_succ, hbase, hk1, hk2]
      simp

/-- Dropping the two child entries from a spliced vector leaves the entries
of the untouched components. -/
theorem map_filter_spliced {β : Type} (v : List β) (d : β) (c : Nat) (x y : β)
    (hc : c < v.length) :
    ((List.range (v.length + 1)).filter (fun i => decide (i ≠ c ∧ i ≠ c + 1))).map
        (fun i => (v.take c ++ [x, y] ++ v.drop (c + 1)).getD i d)
      = v.eraseIdx c := by
  have hlen : (v.take c).length = c := by
    rw [List.length_take]
    omega
  rw [filter_ne_succ_range c (v.length + 1) (by omega), List.eraseIdx_eq_take_drop_succ]
  apply List.ext_getElem?
  intro t
  rw [List.getElem?_map, List.getElem?_append, List.getElem?_append]
  by_cases ht : t < c
  · have h1 : t < (v.take c).length := by omega
    simp only [List.length_range, ht, if_true, h1, List.getElem?_range ht, Option.map_some']
    rw [List.getD_eq_getElem?_getD, (getElem?_spliced v c x y hc).1 t ht,
      List.getElem?_take_of_lt ht, ← List.getD_eq_getElem?_getD,
      getElem?_eq_some_getD v d t (by omega)]
  · have h1 : ¬ t < (v.take c).length := by omega
    simp only [List.length_range, ht, if_false, h1, hlen, List.getElem?_drop]
    by_cases h2 : t - c < v.length + 1 - (c + 2)
    · have h3 : c + 2 + 1 * (t - c) = (t + 1) + 1 := by omega
      have h4 : c + 1 + (t - c) = t + 1 := by omega
      rw [List.getElem?_range' _ _ h2, Option.map_some', h3, h4, List.getD_eq_getElem?_getD,
        (getElem?_spliced v c x y hc).2.2.2 (t + 1) (by omega),
        ← List.getD_eq_getElem?_getD, getElem?_eq_some_getD v d (t + 1) (by omega)]
    · rw [List.getElem?_eq_none (by rw [List.length_range']; omega), Option.map_none',
        List.getElem?_eq_none (by omega)]


theorem entry_scaledRow {α : Type} [LinearOrderedField α] (N : Nat) (parent row : List α)
    (j : Nat) (hj : j < N) :
    entry (scaledRow N parent row) j = entry row j * entry parent j := by
  unfold scaledRow
  exact entry_map_range N _ j hj

theorem getD_of_getElem? {β : Type} (v : List β) (d x : β) (i : Nat) (h : v[i]? = some x) :
    v.getD i d = x := by
  rw [List.getD_eq_getElem?_getD, h]
  rfl

/-- C8: for a well-formed `K`-component mixture, a valid index `c` and a fitted
two-component child mixture, `split(c)` builds a `(K+1)`-component mixture in
which components `0..c-1` keep their index and weight, the two children occupy
indices `c` and `c+1` with weights `childWeight[0] * weights[c]` and
`childWeight[1] * weights[c]`, and components `c+1..K-1` are shifted up by
one; if the two child weights sum to 1, the `K+1` weights have the same total
as the original `K` weights. -/
theorem split_weights_layout {κ α : Type} [Inhabited κ] [LinearOrderedField α]
    (m child : Mixture κ α) (c : Nat) (hwf : m.WF) (hc : c < m.K)
    (hcw : child.weights.length = 2) (hcc : child.components.length = 2)
    (hcR : child.responsibility.length = 2)
    (hcrows : ∀ row ∈ child.responsibility, row.length = m.N) :
    ∃ m' : Mixture κ α,
      split m c child = .ok m' ∧ m'.K = m.K + 1 ∧
      m'.weights.length = m.K + 1 ∧ m'.components.length = m.K + 1 ∧
      m'.weights = m.weights.take c
        ++ [entry child.weights 0 * entry m.weights c,
            entry child.weights 1 * entry m.weights c]
        ++ m.weights.drop (c + 1) ∧
      m'.components = m.components.take c
        ++ [child.components.getD 0 default, child.components.getD 1 default]
        ++ m.components.drop (c + 1) ∧
      (∀ i, i < c → m'.weights[i]? = m.weights[i]?) ∧
      m'.weights[c]? = some (entry child.weights 0 * entry m.weights c) ∧
      m'.weights[c + 1]? = some (entry child.weights 1 * entry m.weights c) ∧
      (∀ i, c < i → m'.weights[i + 1]? = m.weights[i]?) ∧
      (entry child.weights 0 + entry child.weights 1 = 1 →
        m'.weights.sum = m.weights.sum) := by
  have hcw' : c < m.weights.length := by rw [hwf.weights_length]; exact hc
  have hg := getElem?_spliced m.weights c (entry child.weights 0 * entry m.weights c)
    (entry child.weights 1 * entry m.weights c) hcw'
  refine ⟨_, split_eq m child c hwf hc hcw hcc hcR hcrows, rfl, ?_, ?_, rfl, rfl,
    hg.1, hg.2.1, hg.2.2.1, hg.2.2.2, ?_⟩
  · simp only [List.length_append, List.length_take, List.length_drop, List.length_cons,
      List.length_nil, hwf.weights_length]
    omega
  · simp only [List.length_append, List.length_take, List.length_drop, List.length_cons,
      List.length_nil, hwf.components_length]
    omega
  · intro hone
    show (m.weights.take c ++ [entry child.weights 0 * entry m.weights c,
      entry child.weights 1 * entry m.weights c] ++ m.weights.drop (c + 1)).sum = m.weights.sum
    rw [sum_spliced m.weights c _ _ hcw', ← add_mul, hone]
    ring

/-- C9: in the mixture built by `split(c)`, each child responsibility row is
the child's own responsibility multiplied point-wise by `responsibility[c][j]`;
if the child's two responsibilities sum to 1 at every point, the two child
rows sum to `responsibility[c][j]` at every point and every column sum of the
`(K+1) × N` matrix equals the corresponding column sum of the original
`K × N` matrix. -/
theorem split_responsibility_column_sums {κ α : Type} [Inhabited κ] [LinearOrderedField α]
    (m child : Mixture κ α) (c : Nat) (hwf : m.WF) (hc : c < m.K)
    (hcw : child.weights.length = 2) (hcc : child.components.length = 2)
    (hcR : child.responsibility.length = 2)
    (hcrows : ∀ row ∈ child.responsibility, row.length = m.N) :
    ∃ m' : Mixture κ α,
      split m c child = .ok m' ∧ m'.responsibility.length = m.K + 1 ∧
      (∀ row ∈ m'.responsibility, row.length = m.N) ∧
      (∀ j, j < m.N →
        entry (m'.responsibility.getD c []) j
          = entry (child.responsibility.getD 0 []) j * entry (m.responsibility.getD c []) j ∧
        entry (m'.responsibility.getD (c + 1) []) j
          = entry (child.responsibility.getD 1 []) j * entry (m.responsibility.getD c []) j) ∧
      (∀ i, i < c → m'.responsibility[i]? = m.responsibility[i]?) ∧
      (∀ i, c < i → m'.responsibility[i + 1]? = m.responsibility[i]?) ∧
      ((∀ j, j < m.N → entry (child.responsibility.getD 0 []) j
          + entry (child.responsibility.getD 1 []) j = 1) →
        (∀ j, j < m.N →
          entry (m'.responsibility.getD c []) j + entry (m'.responsibility.getD (c + 1) []) j
            = entry (m.responsibility.getD c []) j) ∧
        (∀ j, j < m.N → columnSum m'.responsibility j = columnSum m.responsibility j)) := by
  have hcR' : c < m.responsibility.length := by rw [hwf.responsibility_length]; exact hc
  have hg := getElem?_spliced m.responsibility c
    (scaledRow m.N (m.responsibility.getD c []) (child.responsibility.getD 0 []))
    (scaledRow m.N (m.responsibility.getD c []) (child.responsibility.getD 1 [])) hcR'
  have hrow0 := getD_of_getElem? _ [] _ c hg.2.1
  have hrow1 := getD_of_getElem? _ [] _ (c + 1) hg.2.2.1
  have hent : ∀ j, j < m.N →
      entry ((m.responsibility.take c
          ++ [scaledRow m.N (m.responsibility.getD c []) (child.responsibility.getD 0 []),
              scaledRow m.N (m.responsibility.getD c []) (child.responsibility.getD 1 [])]
          ++ m.responsibility.drop (c + 1)).getD c []) j
        = entry (child.responsibility.getD 0 []) j * entry (m.responsibility.getD c []) j ∧
      entry ((m.responsibility.take c
          ++ [scaledRow m.N (m.responsibility.getD c []) (child.responsibility.getD 0 []),
              scaledRow m.N (m.responsibility.getD c []) (child.responsibility.getD 1 [])]
          ++ m.responsibility.drop (c + 1)).getD (c + 1) []) j
        = entry (child.responsibility.getD 1 []) j * entry (m.responsibility.getD c []) j := by
    intro j hj
    rw [hrow0, hrow1]
    exact ⟨entry_scaledRow _ _ _ j hj, entry_scaledRow _ _ _ j hj⟩
  refine ⟨_, split_eq m child c hwf hc hcw hcc hcR hcrows, ?_, ?_, hent, hg.1, hg.2.2.2, ?_⟩
  · simp only [List.length_append, List.length_take, List.length_drop, List.length_cons,
      List.length_nil, hwf.responsibility_length]
    omega
  · intro row hrow
    simp only [List.mem_append, List.mem_cons, List.mem_singleton, List.not_mem_nil,
      or_false] at hrow
    rcases hrow with (h | h | h) | h
    · exact hwf.rows_length row (List.mem_of_mem_take h)
    · rw [h]
      simp [scaledRow]
    · rw [h]
      simp [scaledRow]
    · exact hwf.rows_length row (List.mem_of_mem_drop h)
  · intro hone
    have hpair : ∀ j, j < m.N →
        entry ((m.responsibility.take c
            ++ [scaledRow m.N (m.responsibility.getD c []) (child.responsibility.getD 0 []),
                scaledRow m.N (m.responsibility.getD c []) (child.responsibility.getD 1 [])]
            ++ m.responsibility.drop (c + 1)).getD c []) j
          + entry ((m.responsibility.take c
            ++ [scaledRow m.N (m.responsibility.getD c []) (child.responsibility.getD 0 []),
                scaledRow m.N (m.responsibility.getD c []) (child.responsibility.getD 1 [])]
            ++ m.responsibility.drop (c + 1)).getD (c + 1) []) j
          = entry (m.responsibility.getD c []) j := by
      intro j hj
      rw [(hent j hj).1, (hent j hj).2, ← add_mul, hone j hj, one_mul]
    refine ⟨hpair, ?_⟩
    intro j hj
    have hp := hpair j hj
    rw [hrow0, hrow1] at hp
    show columnSum (m.responsibility.take c
      ++ [scaledRow m.N (m.responsibility.getD c []) (child.responsibility.getD 0 []),
          scaledRow m.N (m.responsibility.getD c []) (child.responsibility.getD 1 [])]
      ++ m.responsibility.drop (c + 1)) j = columnSum m.responsibility j
    unfold columnSum
    have hmap : c < (m.responsibility.map (fun row => row.getD j 0)).length := by
      rw [List.length_map]
      exact hcR'
    have hs := sum_spliced (m.responsibility.map (fun row => row.getD j 0)) c
      (entry (scaledRow m.N (m.responsibility.getD c []) (child.responsibility.getD 0 [])) j)
      (entry (scaledRow m.N (m.responsibility.getD c []) (child.responsibility.getD 1 [])) j)
      hmap
    have he : entry (m.responsibility.map (fun row => row.getD j 0)) c
        = entry (m.responsibility.getD c []) j := by
      unfold entry
      rw [List.getD_eq_getElem _ _ hmap, List.getElem_map, List.getD_eq_getElem _ _ hcR']
    rw [he, hp] at hs
    rw [List.map_append, List.map_append, List.map_take, List.map_drop]
    simp only [List.map_cons, List.map_nil]
    unfold entry at hs
    rw [hs]
    ring


/-- The mixture built by `split(c)` is well formed. -/
theorem split_wf {κ α : Type} [Inhabited κ] [LinearOrderedField α]
    (m child m' : Mixture κ α) (c : Nat) (hwf : m.WF) (hc : c < m.K)
    (hcw : child.weights.length = 2) (hcc : child.components.length = 2)
    (hcR : child.responsibility.length = 2)
    (hcrows : ∀ row ∈ child.responsibility, row.length = m.N)
    (h : split m c child = .ok m') : m'.WF ∧ m'.K = m.K + 1 ∧ m'.N = m.N := by
  rw [split_eq m child c hwf hc hcw hcc hcR hcrows] at h
  cases h
  have hlen : ∀ (β : Type) (v : List β) (x y : β), v.length = m.K →
      (v.take c ++ [x, y] ++ v.drop (c + 1)).length = m.K + 1 := by
    intro β v x y hv
    simp only [List.length_append, List.length_take, List.length_drop, List.length_cons,
      List.length_nil, hv]
    omega
  refine ⟨⟨hlen _ _ _ _ hwf.components_length, hlen _ _ _ _ hwf.weights_length,
    hlen _ _ _ _ hwf.sample_size_length, hlen _ _ _ _ hwf.responsibility_length, ?_,
    hwf.data_length, by simp⟩, rfl, rfl⟩
  intro row hrow
  simp only [List.mem_append, List.mem_cons, List.mem_singleton, List.not_mem_nil,
    or_false] at hrow
  rcases hrow with (h | h | h) | h
  · exact hwf.rows_length row (List.mem_of_mem_take h)
  · rw [h]
    simp [scaledRow]
  · rw [h]
    simp [scaledRow]
  · exact hwf.rows_length row (List.mem_of_mem_drop h)

/-- C10: applying the structural step of `split(c)` and then the structural
step of `join` to the two resulting children (indices `c` and `c+1` of the
`(K+1)`-component mixture) yields a `K`-component mixture whose weights are
those of the untouched components, in their original order, followed by the
merged weight; the merged weight is the sum of the two split weights
`childWeight[0] * weights[c] + childWeight[1] * weights[c]`, which equals the
original `weights[c]` when the child weights sum to 1. -/
theorem split_then_join_weights {κ α : Type} [Inhabited κ] [LinearOrderedField α]
    (m child : Mixture κ α) (c : Nat) (joined_comp : List κ) (hwf : m.WF) (hc : c < m.K)
    (hcw : child.weights.length = 2) (hcc : child.components.length = 2)
    (hcR : child.responsibility.length = 2)
    (hcrows : ∀ row ∈ child.responsibility, row.length = m.N)
    (hj : 1 ≤ joined_comp.length) :
    ∃ m1 m2 : Mixture κ α,
      split m c child = .ok m1 ∧ join m1 c (c + 1) joined_comp = .ok m2 ∧
      m2.K = m.K ∧ m2.weights.length = m.K ∧
      m2.weights = m.weights.eraseIdx c ++ [entry m1.weights c + entry m1.weights (c + 1)] ∧
      entry m1.weights c + entry m1.weights (c + 1)
        = entry child.weights 0 * entry m.weights c
          + entry child.weights 1 * entry m.weights c ∧
      (entry child.weights 0 + entry child.weights 1 = 1 →
        m2.weights = m.weights.eraseIdx c ++ [entry m.weights c]) := by
  have hsplit := split_eq m child c hwf hc hcw hcc hcR hcrows
  obtain ⟨hwf1, hK1, _⟩ := split_wf m child _ c hwf hc hcw hcc hcR hcrows hsplit
  have hjoin := join_eq _ c (c + 1) joined_comp hwf1 (by omega) (by rw [hK1]; omega)
    (by rw [hK1]; omega) hj
  have hcw' : c < m.weights.length := by rw [hwf.weights_length]; exact hc
  have hg := getElem?_spliced m.weights c (entry child.weights 0 * entry m.weights c)
    (entry child.weights 1 * entry m.weights c) hcw'
  have he0 : entry (m.weights.take c ++ [entry child.weights 0 * entry m.weights c,
      entry child.weights 1 * entry m.weights c] ++ m.weights.drop (c + 1)) c
      = entry child.weights 0 * entry m.weights c := getD_of_getElem? _ 0 _ c hg.2.1
  have he1 : entry (m.weights.take c ++ [entry child.weights 0 * entry m.weights c,
      entry child.weights 1 * entry m.weights c] ++ m.weights.drop (c + 1)) (c + 1)
      = entry child.weights 1 * entry m.weights c := getD_of_getElem? _ 0 _ (c + 1) hg.2.2.1
  have hkept := map_filter_spliced m.weights 0 c (entry child.weights 0 * entry m.weights c)
    (entry child.weights 1 * entry m.weights c) hcw'
  rw [hwf.weights_length] at hkept
  have hweights : ((List.range (m.K + 1)).filter
        (fun i => decide (i ≠ c ∧ i ≠ c + 1))).map
        (fun i => entry (m.weights.take c ++ [entry child.weights 0 * entry m.weights c,
          entry child.weights 1 * entry m.weights c] ++ m.weights.drop (c + 1)) i)
      = m.weights.eraseIdx c := hkept
  refine ⟨_, _, hsplit, hjoin, ?_, ?_, ?_, ?_, ?_⟩
  · show m.K + 1 - 1 = m.K
    omega
  · show (((List.range (m.K + 1)).filter (fun i => decide (i ≠ c ∧ i ≠ c + 1))).map _
      ++ [_]).length = m.K
    rw [hweights, List.length_append, List.length_eraseIdx, if_pos hcw', hwf.weights_length,
      List.length_singleton]
    omega
  · show ((List.range (m.K + 1)).filter (fun i => decide (i ≠ c ∧ i ≠ c + 1))).map _ ++ [_]
      = _
    rw [hweights]
  · show entry (m.weights.take c ++ [entry child.weights 0 * entry m.weights c,
      entry child.weights 1 * entry m.weights c] ++ m.weights.drop (c + 1)) c
      + entry (m.weights.take c ++ [entry child.weights 0 * entry m.weights c,
      entry child.weights 1 * entry m.weights c] ++ m.weights.drop (c + 1)) (c + 1) = _
    rw [he0, he1]
  · intro hone
    show ((List.range (m.K + 1)).filter (fun i => decide (i ≠ c ∧ i ≠ c + 1))).map _ ++ [_]
      = _
    rw [hweights]
    show m.weights.eraseIdx c ++ [entry (m.weights.take c ++ [entry child.weights 0 * entry m.weights c,
      entry child.weights 1 * entry m.weights c] ++ m.weights.drop (c + 1)) c
      + entry (m.weights.take c ++ [entry child.weights 0 * entry m.weights c,
      entry child.weights 1 * entry m.weights c] ++ m.weights.drop (c + 1)) (c + 1)] = _
    rw [he0, he1, ← add_mul, hone, one_mul]


/-! ## The theorems at a sample mixture -/

theorem sampleMixture_wf (α : Type) [LinearOrderedField α] : (sampleMixture α).WF := by
  refine ⟨rfl, rfl, rfl, rfl, ?_, rfl, rfl⟩
  intro row hrow
  simp only [sampleMixture, List.mem_cons, List.mem_singleton, List.not_mem_nil,
    or_false] at hrow
  rcases hrow with h | h | h <;> rw [h] <;> rfl

theorem sampleMixture_rows (α : Type) [LinearOrderedField α] :
    ∀ row ∈ (sampleMixture α).responsibility, row.length = (sampleMixture α).N :=
  (sampleMixture_wf α).rows_length

theorem sampleChild_rows (α : Type) [LinearOrderedField α] :
    ∀ row ∈ (sampleChild α).responsibility, row.length = (sampleMixture α).N := by
  intro row hrow
  simp only [sampleChild, List.mem_cons, List.mem_singleton, List.not_mem_nil,
    or_false] at hrow
  rcases hrow with h | h <;> rw [h] <;> rfl

theorem sampleMixture_columns :
    ∀ j, j < (sampleMixture ℚ).N → columnSum (sampleMixture ℚ).responsibility j = 1 := by
  intro j hj
  have hj2 : j < 2 := hj
  interval_cases j <;> norm_num [columnSum, sampleMixture]

/-- The E-step at the sample mixture, with `log_density c x = c * (x₀ + x₁ + x₂)`. -/
theorem updateResponsibilityMatrix_columns_sum_one_witness :
    ∃ R : List (List ℝ),
      updateResponsibilityMatrix Real.exp (fun (c : Nat) (x : List ℝ) => (c : ℝ) * x.sum)
          (sampleMixture ℝ)
        = .ok { sampleMixture ℝ with responsibility := R } ∧
      R.length = (sampleMixture ℝ).K ∧ (∀ row ∈ R, row.length = (sampleMixture ℝ).N) ∧
      (∀ row ∈ R, ∀ x ∈ row, 0 ≤ x) ∧
      (∀ i, i < (sampleMixture ℝ).N → columnSum R i = 1) :=
  updateResponsibilityMatrix_columns_sum_one _ (sampleMixture ℝ) (by decide) rfl rfl rfl rfl
    (sampleMixture_rows ℝ)
    (by
      intro w hw
      simp only [sampleMixture, List.mem_cons, List.mem_singleton, List.not_mem_nil,
        or_false] at hw
      rcases hw with h | h | h <;> rw [h] <;> norm_num)

/-- The weight update at the sample mixture gives `5/14`, `2/7`, `5/14`. -/
theorem updateWeights_simplex_witness :
    updateWeights (sampleMixture ℚ)
        = .ok { sampleMixture ℚ with weights := [5 / 14, 2 / 7, 5 / 14] } ∧
      ([5 / 14, 2 / 7, 5 / 14] : List ℚ).sum = 1 := by
  obtain ⟨w, h1, h2, _, _, h3⟩ := updateWeights_simplex (sampleMixture ℚ) (by decide) rfl rfl
    (by
      intro s hs
      simp only [sampleMixture, List.mem_cons, List.mem_singleton, List.not_mem_nil,
        or_false] at hs
      rcases hs with h | h | h <;> rw [h] <;> norm_num)
    (by norm_num [sampleMixture])
  have hw : w = [5 / 14, 2 / 7, 5 / 14] := by
    rw [h2]
    norm_num [sampleMixture]
  rw [hw] at h1 h3
  exact ⟨h1, h3⟩

/-- The effective sample sizes at the sample mixture are `3/4`, `1/2`, `3/4`
and sum to `N = 2`. -/
theorem updateEffectiveSampleSize_spec_witness :
    updateEffectiveSampleSize (sampleMixture ℚ)
        = .ok { sampleMixture ℚ with sample_size := [3 / 4, 1 / 2, 3 / 4] } ∧
      ([3 / 4, 1 / 2, 3 / 4] : List ℚ).sum = 2 := by
  obtain ⟨h1, h2⟩ :=
    updateEffectiveSampleSize_spec (sampleMixture ℚ) rfl (sampleMixture_rows ℚ) rfl
  have hs : (sampleMixture ℚ).responsibility.map List.sum = [3 / 4, 1 / 2, 3 / 4] := by
    norm_num [sampleMixture]
  have h3 := h2 sampleMixture_columns
  rw [hs] at h1 h3
  refine ⟨h1, ?_⟩
  rw [h3]
  norm_num [sampleMixture]

/-- Killing component 1 of the sample mixture leaves the weights `2/3`, `1/3`. -/
theorem kill_weights_sum_one_witness :
    killWeights (sampleMixture ℚ) 1 = .ok [2 / 3, 1 / 3] ∧
      ∃ m', kill (sampleMixture ℚ) 1 = .ok m' ∧ m'.K = 2 ∧ m'.weights = [2 / 3, 1 / 3] := by
  obtain ⟨W, h1, h2, _, _, _, h3⟩ :=
    kill_weights_sum_one (sampleMixture ℚ) 1 rfl (by decide)
      (by norm_num [sampleMixture]) (by norm_num [sampleMixture, entry])
  have hW : W = [2 / 3, 1 / 3] := by
    rw [h2]
    norm_num [sampleMixture, entry]
  obtain ⟨m', h4, h5, h6⟩ := h3 (sampleMixture_wf ℚ) (by
    intro j hj
    have hj2 : j < 2 := hj
    interval_cases j <;> norm_num [sampleMixture, entry])
  rw [hW] at h1 h6
  exact ⟨h1, m', h4, h5, h6⟩

/-- Killing component 1 of the sample mixture leaves the responsibility
matrix with rows `(2/3, 1/3)` and `(1/3, 2/3)`. -/
theorem kill_responsibility_columns_sum_one_witness :
    killResponsibility (sampleMixture ℚ) 1 = .ok [[2 / 3, 1 / 3], [1 / 3, 2 / 3]] ∧
      (∀ j, j < 2 → columnSum [[(2 : ℚ) / 3, 1 / 3], [1 / 3, 2 / 3]] j = 1) ∧
      ∃ m', kill (sampleMixture ℚ) 1 = .ok m' ∧
        m'.responsibility = [[2 / 3, 1 / 3], [1 / 3, 2 / 3]] ∧ m'.sample_size = [1, 1] := by
  obtain ⟨R, h1, h2, _, _, h3, _, _, h4⟩ :=
    kill_responsibility_columns_sum_one (sampleMixture ℚ) 1 rfl (sampleMixture_rows ℚ)
      (by decide) sampleMixture_columns
      (by
        intro j hj
        have hj2 : j < 2 := hj
        interval_cases j <;> norm_num [sampleMixture, entry])
  have hR : R = [[2 / 3, 1 / 3], [1 / 3, 2 / 3]] := by
    rw [h2]
    norm_num [sampleMixture, entry, List.range_succ]
  obtain ⟨m', h5, h6, h7⟩ := h4 (sampleMixture_wf ℚ) (by norm_num [sampleMixture, entry])
  rw [hR] at h1 h3 h6 h7
  refine ⟨h1, h3, m', h5, h6, ?_⟩
  rw [h7]
  norm_num

/-- Joining components 0 and 2 of the sample mixture leaves the weights
`1/4`, `3/4`. -/
theorem join_weights_total_witness :
    joinWeights (sampleMixture ℚ) 0 2 = .ok [1 / 4, 3 / 4] ∧
      ∃ m', join (sampleMixture ℚ) 0 2 [30] = .ok m' ∧ m'.K = 2 ∧
        m'.weights = [1 / 4, 3 / 4] := by
  obtain ⟨W, h1, h2, _, _, _, _, _, h3⟩ :=
    join_weights_total (sampleMixture ℚ) 0 2 rfl (by decide) (by decide) (by decide)
  have hW : W = [1 / 4, 3 / 4] := by
    rw [h2]
    have hf : (List.range (sampleMixture ℚ).K).filter (fun i => decide (i ≠ 0 ∧ i ≠ 2))
        = [1] := by decide
    rw [hf]
    norm_num [sampleMixture, entry]
  obtain ⟨m', h4, h5, h6⟩ := h3 (sampleMixture_wf ℚ) [30] (by decide)
  rw [hW] at h1 h6
  exact ⟨h1, m', h4, h5, h6⟩

/-- Joining components 0 and 2 of the sample mixture leaves the rows
`(1/4, 1/4)` and `(3/4, 3/4)` and the effective sample sizes `1/2`, `3/2`. -/
theorem join_responsibility_column_sums_witness :
    joinResponsibility (sampleMixture ℚ) 0 2
        = .ok ([[1 / 4, 1 / 4], [3 / 4, 3 / 4]], [3 / 4, 3 / 4]) ∧
      joinSampleSize (sampleMixture ℚ) 0 2 = .ok [1 / 2, 3 / 2] ∧
      ∃ m', join (sampleMixture ℚ) 0 2 [30] = .ok m' ∧
        m'.responsibility = [[1 / 4, 1 / 4], [3 / 4, 3 / 4]] ∧
        m'.sample_size = [1 / 2, 3 / 2] := by
  obtain ⟨R, resp, S, h1, h2, h3, _, _, _, _, h4, h5, _, _, h6⟩ :=
    join_responsibility_column_sums (sampleMixture ℚ) 0 2 rfl (sampleMixture_rows ℚ) rfl
      (by decide) (by decide) (by decide)
  have hf : (List.range (sampleMixture ℚ).K).filter (fun i => decide (i ≠ 0 ∧ i ≠ 2))
      = [1] := by decide
  have hresp : resp = [3 / 4, 3 / 4] := by
    rw [h2]
    norm_num [sampleMixture, entry, List.range_succ]
  have hR : R = [[1 / 4, 1 / 4], [3 / 4, 3 / 4]] := by
    rw [h3, hf, hresp]
    simp [sampleMixture]
  have hS : S = [1 / 2, 3 / 2] := by
    rw [h5, hf]
    norm_num [sampleMixture, entry]
  obtain ⟨m', h7, h8, h9⟩ := h6 (sampleMixture_wf ℚ) [30] (by decide)
  rw [hR, hresp] at h1
  rw [hS] at h4 h9
  rw [hR] at h8
  exact ⟨h1, h4, m', h7, h8, h9⟩

/-- Splitting component 1 of the sample mixture into the sample children. -/
theorem split_weights_layout_witness :
    ∃ m' : Mixture Nat ℚ,
      split (sampleMixture ℚ) 1 (sampleChild ℚ) = .ok m' ∧ m'.K = 4 ∧
      m'.weights = [1 / 2, 2 / 5 * (1 / 4), 3 / 5 * (1 / 4), 1 / 4] ∧
      m'.components = [10, 20, 21, 12] ∧ m'.weights.sum = 1 := by
  obtain ⟨m', h, hK, _, _, hw, hc, _, _, _, _, hsum⟩ :=
    split_weights_layout (sampleMixture ℚ) (sampleChild ℚ) 1 (sampleMixture_wf ℚ)
      (by decide) rfl rfl rfl (sampleChild_rows ℚ)
  refine ⟨m', h, hK, ?_, ?_, ?_⟩
  · rw [hw]
    simp [sampleMixture, sampleChild, entry]
  · rw [hc]
    rfl
  · rw [hsum (by norm_num [sampleChild, entry])]
    norm_num [sampleMixture]

/-- The responsibility matrix built by splitting component 1 of the sample
mixture keeps its column sums. -/
theorem split_responsibility_column_sums_witness :
    ∃ m' : Mixture Nat ℚ,
      split (sampleMixture ℚ) 1 (sampleChild ℚ) = .ok m' ∧
      m'.responsibility.length = 4 ∧
      (∀ j, j < 2 → columnSum m'.responsibility j = 1) := by
  obtain ⟨m', h, hlen, _, _, _, _, hcol⟩ :=
    split_responsibility_column_sums (sampleMixture ℚ) (sampleChild ℚ) 1 (sampleMixture_wf ℚ)
      (by decide) rfl rfl rfl (sampleChild_rows ℚ)
  refine ⟨m', h, hlen, ?_⟩
  intro j hj
  have h2 := (hcol (by
    intro j hj
    have hj2 : j < 2 := hj
    interval_cases j <;> norm_num [sampleChild, entry])).2 j hj
  rw [h2]
  exact sampleMixture_columns j hj

/-- Splitting component 1 of the sample mixture and joining the two children
again gives back the weight `1/4` of component 1. -/
theorem split_then_join_weights_witness :
    ∃ m1 m2 : Mixture Nat ℚ,
      split (sampleMixture ℚ) 1 (sampleChild ℚ) = .ok m1 ∧ join m1 1 2 [30] = .ok m2 ∧
      m2.K = 3 ∧ m2.weights = [1 / 2, 1 / 4, 1 / 4] := by
  obtain ⟨m1, m2, h1, h2, hK, _, _, _, hw⟩ :=
    split_then_join_weights (sampleMixture ℚ) (sampleChild ℚ) 1 [30] (sampleMixture_wf ℚ)
      (by decide) rfl rfl rfl (sampleChild_rows ℚ) (by decide)
  refine ⟨m1, m2, h1, h2, hK, ?_⟩
  rw [hw (by norm_num [sampleChild, entry])]
  simp [sampleMixture, entry]


/-! ## The full-state constructor -/

/-- The seven-argument constructor either succeeds or fails with an assertion. -/
theorem ofFullState_eq_error_iff {κ α : Type} (K : Nat) (components : List κ)
    (weights sample_size : List α) (responsibility data : List (List α))
    (data_weights : List α) (e : Fault) :
    Mixture.ofFullState K components weights sample_size responsibility data data_weights
        = .error e ↔
      e = Fault.assertion ∧
        (components.length ≠ K ∨ weights.length ≠ K ∨ sample_size.length ≠ K ∨
          responsibility.length ≠ K ∨ data_weights.length ≠ data.length) := by
  by_cases h : components.length = K ∧ weights.length = K ∧ sample_size.length = K ∧
      responsibility.length = K ∧ data_weights.length = data.length
  · have hok := (ofFullState_eq_ok_iff K components weights sample_size responsibility data
      data_weights _).mpr ⟨h, rfl⟩
    rw [hok]
    constructor
    · intro h'
      cases h'
    · rintro ⟨_, h1 | h1 | h1 | h1 | h1⟩
      · exact absurd h.1 h1
      · exact absurd h.2.1 h1
      · exact absurd h.2.2.1 h1
      · exact absurd h.2.2.2.1 h1
      · exact absurd h.2.2.2.2 h1
  · have hdis : components.length ≠ K ∨ weights.length ≠ K ∨ sample_size.length ≠ K ∨
        responsibility.length ≠ K ∨ data_weights.length ≠ data.length := by
      by_contra hc
      push_neg at hc
      exact h hc
    have herr : Mixture.ofFullState K components weights sample_size responsibility data
        data_weights = .error Fault.assertion := by
      unfold Mixture.ofFullState
      by_cases h1 : components.length = K
      · by_cases h2 : weights.length = K
        · by_cases h3 : sample_size.length = K
          · by_cases h4 : responsibility.length = K
            · by_cases h5 : data_weights.length = data.length
              · exact absurd ⟨h1, h2, h3, h4, h5⟩ h
              · simp [assert, h1, h2, h3, h4, h5, bind, Except.bind]
            · simp [assert, h1, h2, h3, h4, bind, Except.bind]
          · simp [assert, h1, h2, h3, bind, Except.bind]
        · simp [assert, h1, h2, bind, Except.bind]
      · simp [assert, h1, bind, Except.bind]
    rw [herr]
    constructor
    · intro h'
      cases h'
      exact ⟨rfl, hdis⟩
    · rintro ⟨rfl, _⟩
      rfl

/-- C17 (as amended): constructing a `Mixture` from full state fails with an
assertion exactly when `components`, `weights`, `sample_size` or
`responsibility` is not of length `K`, or `data_weights` is not of length
`N = data.size()`; otherwise it succeeds, whatever the lengths of the
responsibility rows are. -/
theorem ofFullState_assertion_iff {κ α : Type} (K : Nat) (components : List κ)
    (weights sample_size : List α) (responsibility data : List (List α))
    (data_weights : List α) :
    (Mixture.ofFullState K components weights sample_size responsibility data data_weights
        = .error Fault.assertion ↔
      (components.length ≠ K ∨ weights.length ≠ K ∨ sample_size.length ≠ K ∨
        responsibility.length ≠ K ∨ data_weights.length ≠ data.length)) ∧
    (Mixture.ofFullState K components weights sample_size responsibility data data_weights
        = .ok { N := data.length, K := K, components := components, data := data,
                data_weights := data_weights, responsibility := responsibility,
                sample_size := sample_size, weights := weights } ↔
      (components.length = K ∧ weights.length = K ∧ sample_size.length = K ∧
        responsibility.length = K ∧ data_weights.length = data.length)) := by
  constructor
  · rw [ofFullState_eq_error_iff]
    constructor
    · exact fun h => h.2
    · exact fun h => ⟨rfl, h⟩
  · rw [ofFullState_eq_ok_iff]
    constructor
    · exact fun h => h.1
    · exact fun h => ⟨h, rfl⟩

/-- C17 (as stated) fails: a responsibility row whose length differs from
`N = 1` is accepted by the constructor. -/
theorem ofFullState_accepts_short_row :
    (∃ row ∈ ([[]] : List (List ℚ)), row.length ≠ ([[1, 0, 0]] : List (List ℚ)).length) ∧
      Mixture.ofFullState 1 [(0 : Nat)] [(1 : ℚ)] [1] [[]] [[1, 0, 0]] [1]
        = .ok { N := 1, K := 1, components := [0], data := [[1, 0, 0]], data_weights := [1],
                responsibility := [[]], sample_size := [1], weights := [1] } :=
  ⟨⟨[], List.mem_singleton.mpr rfl, by decide⟩, rfl⟩


/-! ## `initialize` -/

theorem sum_indicator_range {R : Type} [Semiring R] (t : Nat) :
    ∀ K, ((List.range K).map (fun j => if t = j then (1 : R) else 0)).sum
      = if t < K then 1 else 0 := by
  intro K
  induction K with
  | zero => simp
  | succ n ih =>
    rw [List.range_succ, List.map_append, List.sum_append, ih]
    simp only [List.map_cons, List.map_nil, List.sum_cons, List.sum_nil, add_zero]
    by_cases h1 : t = n
    · subst h1
      simp
    · by_cases h2 : t < n
      · have h3 : t < n + 1 := by omega
        simp [h1, h2, h3]
      · have h3 : ¬ t < n + 1 := by omega
        simp [h1, h2, h3]

theorem sum_indicator_eq_length_filter {R : Type} [Semiring R] (p : Nat → Bool)
    (l : List Nat) :
    (l.map (fun i => if p i then (1 : R) else 0)).sum = ((l.filter p).length : R) := by
  induction l with
  | nil => simp
  | cons x xs ih =>
    rw [List.map_cons, List.sum_cons, ih, List.filter_cons]
    by_cases h : p x
    · simp [h, add_comm]
    · simp [h]

theorem getD_set_ne {β : Type} (v : List β) (d x : β) (i j : Nat) (h : i ≠ j) :
    (v.set i x).getD j d = v.getD j d := by
  simp [List.getD_eq_getElem?_getD, List.getElem?_set_ne h]

theorem getD_replicate_lt {β : Type} (n : Nat) (x d : β) (j : Nat) (h : j < n) :
    (List.replicate n x).getD j d = x := by
  simp [List.getD_eq_getElem?_getD, List.getElem?_replicate, h]

/-- Closed form of the assignment loop of `initialize()`. -/
theorem initialAssignment_eq {α : Type} [LinearOrderedField α] (K N : Nat)
    (draws : Nat → Nat) (hK : 1 ≤ K) :
    initialAssignment K N draws
      = .ok ((List.range K).map (fun j => (List.range N).map
          (fun i => if draws i % K = j then (1 : α) else 0))) := by
  obtain ⟨R, hloop, hlen, hrl, hent⟩ := forLoop_inv
    (fun i (R : List (List α)) => R.length = K ∧
      (∀ j, j < K → (R.getD j []).length = N) ∧
      (∀ j, j < K → ∀ t, t < N →
        (R.getD j []).getD t 0 = if t < i ∧ draws t % K = j then (1 : α) else 0))
    0 (fun i responsibility => do
      let index ← if K = 0 then Except.error Fault.divByZero else pure (draws i % K)
      let row ← read responsibility index
      let row ← write row i 1
      write responsibility index row) (List.replicate K (List.replicate N (0 : α)))
    ⟨by simp, fun j hj => by
        rw [getD_replicate_lt K _ _ j hj, List.length_replicate],
      fun j hj t ht => by
        rw [getD_replicate_lt K _ _ j hj, getD_replicate_lt N _ _ t ht,
          if_neg (fun h => Nat.not_lt_zero t h.1)]⟩
    N (Nat.zero_le _)
    (by
      intro i R _ hi hI
      obtain ⟨hlen, hrl, hent⟩ := hI
      have hK0 : ¬ K = 0 := by omega
      have hidx : draws i % K < K := Nat.mod_lt _ (by omega)
      refine ⟨R.set (draws i % K) ((R.getD (draws i % K) []).set i 1), ?_, by simp [hlen],
        ?_, ?_⟩
      · beta_reduce
        rw [if_neg hK0]
        show (read R (draws i % K) >>= _) = _
        rw [read_getD R (draws i % K) [] (by omega), ok_bind,
          write_ok _ i _ (by rw [hrl _ hidx]; exact hi), ok_bind]
        exact write_ok R _ _ (by omega)
      · intro j hj
        by_cases hji : draws i % K = j
        · subst hji
          rw [getD_set_self _ _ _ _ (by omega), List.length_set]
          exact hrl _ hidx
        · rw [getD_set_ne _ _ _ _ _ hji]
          exact hrl j hj
      · intro j hj t ht
        have hlt : ∀ u, u ≠ i → (u < i + 1 ↔ u < i) := by
          intro u hu
          constructor <;> intro h <;> omega
        by_cases hji : draws i % K = j
        · subst hji
          rw [getD_set_self _ _ _ _ (by omega)]
          by_cases hti : t = i
          · subst hti
            rw [getD_set_self _ _ _ _ (by rw [hrl _ hidx]; exact ht)]
            simp
          · rw [getD_set_ne _ _ _ _ _ (Ne.symm hti), hent _ hidx t ht]
            simp only [hlt t hti]
        · rw [getD_set_ne _ _ _ _ _ hji, hent j hj t ht]
          by_cases hti : t = i
          · subst hti
            simp [hji]
          · simp only [hlt t hti])
  unfold initialAssignment
  rw [hloop]
  congr 1
  apply matrix_eq_of_entries K N _ R hlen hrl
  intro j hj t ht
  rw [hent j hj t ht]
  simp [ht]

theorem sum_assignedCount (K : Nat) (draws : Nat → Nat) (hK : 1 ≤ K) :
    ∀ N, ((List.range K).map (assignedCount K N draws)).sum = N := by
  intro N
  induction N with
  | zero =>
    have h0 : assignedCount K 0 draws = fun _ => 0 := by
      funext j
      simp [assignedCount]
    rw [h0]
    simp
  | succ n ih =>
    have hstep : assignedCount K (n + 1) draws
        = fun j => assignedCount K n draws j + (if draws n % K = j then 1 else 0) := by
      funext j
      unfold assignedCount
      rw [filter_range_succ, List.length_append]
      by_cases h : draws n % K = j
      · simp [h]
      · simp [h]
    rw [hstep, List.sum_map_add, ih, sum_indicator_range (draws n % K) K,
      if_pos (Nat.mod_lt _ (by omega))]


/-- C18: for `K ≥ 1` and every sequence of draws, the assignment loop of
`initialize()` gives each data point `i` responsibility exactly 1 for the
component `draw_i mod K` and exactly 0 for every other component, so every
column of the `K × N` matrix sums to 1; the effective sample sizes that
`initialize()` then computes are the natural numbers counting the points
assigned to each component, and they sum to `N`. -/
theorem initialise_hard_assignment {κ α : Type} [Inhabited κ] [LinearOrderedField α]
    (m : Mixture κ α) (draws : Nat → Nat) (hK : 1 ≤ m.K) :
    ∃ (R : List (List α)) (m' : Mixture κ α),
      initialAssignment m.K m.data.length draws = .ok R ∧
      R.length = m.K ∧ (∀ row ∈ R, row.length = m.data.length) ∧
      (∀ i j, i < m.data.length → j < m.K →
        entry (R.getD j []) i = if draws i % m.K = j then 1 else 0) ∧
      (∀ i, i < m.data.length → columnSum R i = 1) ∧
      initialise m draws = .ok m' ∧ m'.N = m.data.length ∧ m'.responsibility = R ∧
      m'.sample_size
        = (List.range m.K).map (fun j => ((assignedCount m.K m.data.length draws j : Nat) : α)) ∧
      ((List.range m.K).map (assignedCount m.K m.data.length draws)).sum = m.data.length ∧
      m'.sample_size.sum = (m.data.length : α) := by
  have hR := initialAssignment_eq (α := α) m.K m.data.length draws hK
  have hlen : ((List.range m.K).map (fun j => (List.range m.data.length).map
      (fun i => if draws i % m.K = j then (1 : α) else 0))).length = m.K := by simp
  have hrows : ∀ row ∈ (List.range m.K).map (fun j => (List.range m.data.length).map
      (fun i => if draws i % m.K = j then (1 : α) else 0)), row.length = m.data.length := by
    intro row hrow
    obtain ⟨_, _, rfl⟩ := List.mem_map.mp hrow
    simp
  have hsums : ((List.range m.K).map (fun j => (List.range m.data.length).map
      (fun i => if draws i % m.K = j then (1 : α) else 0))).map List.sum
      = (List.range m.K).map
          (fun j => ((assignedCount m.K m.data.length draws j : Nat) : α)) := by
    rw [List.map_map]
    apply List.map_congr_left
    intro j _
    exact sum_indicator_eq_length_filter (fun i => decide (draws i % m.K = j)) _
      |> fun h => by simpa [assignedCount] using h
  have hcount := sum_assignedCount m.K draws hK m.data.length
  have hcast : ((List.range m.K).map
      (fun j => ((assignedCount m.K m.data.length draws j : Nat) : α))).sum
      = (m.data.length : α) := by
    have : (List.range m.K).map
        (fun j => ((assignedCount m.K m.data.length draws j : Nat) : α))
        = ((List.range m.K).map (assignedCount m.K m.data.length draws)).map
            (Nat.cast : Nat → α) := by
      rw [List.map_map]
      rfl
    rw [this, ← Nat.cast_list_sum, hcount]
  have hden : ((m.data.length : Nat) : α) + (m.K : α) / 2 ≠ 0 := by
    have h1 : (0 : α) < (m.K : α) := by exact_mod_cast hK
    have h2 : (0 : α) ≤ ((m.data.length : Nat) : α) := Nat.cast_nonneg _
    positivity
  have hinit : initialise m draws = .ok
      { N := m.data.length, K := m.K,
        components := List.replicate m.K (default : κ), data := m.data,
        data_weights := m.data_weights,
        responsibility := (List.range m.K).map (fun j => (List.range m.data.length).map
          (fun i => if draws i % m.K = j then (1 : α) else 0)),
        sample_size := (List.range m.K).map
          (fun j => ((assignedCount m.K m.data.length draws j : Nat) : α)),
        weights := ((List.range m.K).map
          (fun j => ((assignedCount m.K m.data.length draws j : Nat) : α))).map
            (fun s => (s + 0.5) / (((m.data.length : Nat) : α) + (m.K : α) / 2)) } := by
    unfold initialise
    dsimp only
    rw [hR, ok_bind, updateEffectiveSampleSize_eq _ hlen hrows (by simp), ok_bind]
    dsimp only
    rw [hsums, updateWeights_eq _ (by simp) (by simp) hden, ok_bind]
    rfl
  refine ⟨_, _, hR, hlen, hrows, ?_, ?_, hinit, rfl, rfl, rfl, hcount, hcast⟩
  · intro i j hi hj
    rw [getD_map_range _ _ _ j hj]
    exact entry_map_range _ _ i hi
  · intro i hi
    rw [columnSum_map_range m.K m.data.length
      (fun j t => if draws t % m.K = j then (1 : α) else 0) i hi,
      sum_indicator_range (draws i % m.K) m.K, if_pos (Nat.mod_lt _ (by omega))]


/-- With the draws 4 and 5 the two points of the sample mixture go to
components 1 and 2; the hard assignment is stored and the sample sizes sum to
`N = 2`. -/
theorem initialise_hard_assignment_witness :
    1 ≤ (sampleMixture ℚ).K ∧
    ∃ (R : List (List ℚ)) (m' : Mixture Nat ℚ),
      initialAssignment (sampleMixture ℚ).K (sampleMixture ℚ).data.length (fun i => i + 4)
        = .ok R ∧
      (∀ i, i < 2 → columnSum R i = 1) ∧
      initialise (sampleMixture ℚ) (fun i => i + 4) = .ok m' ∧ m'.responsibility = R ∧
      m'.sample_size.sum = 2 := by
  obtain ⟨R, m', h1, _, _, _, h2, h3, _, h4, _, _, h5⟩ :=
    initialise_hard_assignment (sampleMixture ℚ) (fun i => i + 4) (by decide)
  exact ⟨by decide, R, m', h1, h2, h3, h4, by simpa [sampleMixture] using h5⟩


/-! ## `randomComponent` -/

theorem sum_take_succ {α : Type} [LinearOrderedField α] (w : List α) (i : Nat)
    (hi : i < w.length) : (w.take (i + 1)).sum = entry w i + (w.take i).sum := by
  rw [List.take_succ, getElem?_eq_some_getD w 0 i hi, List.sum_append]
  simp [entry, add_comm]

/-- The loop of `randomComponent` started at index `i` with `previous` the
sum of the first `i` weights returns `k` exactly when `k` is the first index
from `i` on whose cumulative weight reaches the draw. -/
theorem randomComponentFrom_eq_ok_iff {α : Type} [LinearOrderedField α] (w : List α) (r : α) :
    ∀ n i, i + n = w.length → ∀ k,
      (randomComponentFrom w r n i (w.take i).sum = .ok k ↔
        (i ≤ k ∧ k < w.length ∧ r ≤ (w.take (k + 1)).sum ∧
          ∀ j, i ≤ j → j < k → ¬ r ≤ (w.take (j + 1)).sum)) := by
  intro n
  induction n with
  | zero =>
    intro i hi k
    constructor
    · intro h
      cases h
    · rintro ⟨h1, h2, _⟩
      omega
  | succ n ih =>
    intro i hi k
    have hlt : i < w.length := by omega
    have hcum := sum_take_succ w i hlt
    unfold randomComponentFrom
    rw [read_entry w i hlt, ok_bind]
    by_cases hr : r ≤ entry w i + (w.take i).sum
    · rw [if_pos hr]
      constructor
      · intro h
        cases h
        exact ⟨le_refl _, hlt, by rw [hcum]; exact hr, fun j h1 h2 => by omega⟩
      · rintro ⟨h1, h2, h3, h4⟩
        rcases Nat.eq_or_lt_of_le h1 with h5 | h5
        · rw [h5]
          rfl
        · exact absurd (by rw [hcum]; exact hr) (h4 i (le_refl _) h5)
    · rw [if_neg hr]
      have hprev : (w.take i).sum + entry w i = (w.take (i + 1)).sum := by
        rw [hcum, add_comm]
      rw [hprev, ih (i + 1) (by omega) k]
      constructor
      · rintro ⟨h1, h2, h3, h4⟩
        refine ⟨by omega, h2, h3, ?_⟩
        intro j hj1 hj2
        rcases Nat.eq_or_lt_of_le hj1 with h5 | h5
        · rw [← h5, hcum]
          exact hr
        · exact h4 j h5 hj2
      · rintro ⟨h1, h2, h3, h4⟩
        have hne : i ≠ k := by
          intro h
          rw [← h, hcum] at h3
          exact hr h3
        exact ⟨by omega, h2, h3, fun j hj1 hj2 => h4 j (by omega) hj2⟩

/-- `randomComponent` returns `k` exactly when `k` is the smallest index whose
cumulative weight `w[0] + ... + w[k]` reaches the draw. -/
theorem randomComponent_eq_ok_iff {α : Type} [LinearOrderedField α] (w : List α) (r : α)
    (k : Nat) :
    randomComponent w r = .ok k ↔
      (k < w.length ∧ r ≤ (w.take (k + 1)).sum ∧
        ∀ j, j < k → ¬ r ≤ (w.take (j + 1)).sum) := by
  unfold randomComponent
  have h := randomComponentFrom_eq_ok_iff w r w.length 0 (by omega) k
  rw [List.take_zero, List.sum_nil] at h
  rw [h]
  constructor
  · rintro ⟨_, h2, h3, h4⟩
    exact ⟨h2, h3, fun j hj => h4 j (Nat.zero_le _) hj⟩
  · rintro ⟨h2, h3, h4⟩
    exact ⟨Nat.zero_le _, h2, h3, fun j _ hj => h4 j hj⟩

/-- C15 (as amended): for every weight vector `w` of length `K ≥ 1` and draw
`r ≤ w[0] + ... + w[K-1]` (in particular for weights summing to 1 and `r` in
`[0, 1]`), `randomComponent` returns a valid index in `[0, K)`, and the index
it returns is the smallest `i` such that `r ≤ w[0] + ... + w[i]`. -/
theorem randomComponent_smallest_index {α : Type} [LinearOrderedField α] (w : List α) (r : α)
    (hK : 1 ≤ w.length) (hr : r ≤ w.sum) :
    ∃ k, randomComponent w r = .ok k ∧ k < w.length ∧ r ≤ (w.take (k + 1)).sum ∧
      (∀ j, j < k → (w.take (j + 1)).sum < r) ∧
      ∀ i, i < w.length → r ≤ (w.take (i + 1)).sum → k ≤ i := by
  have hex : ∃ k, k < w.length ∧ r ≤ (w.take (k + 1)).sum := by
    refine ⟨w.length - 1, by omega, ?_⟩
    have : w.length - 1 + 1 = w.length := by omega
    rw [this, List.take_length]
    exact hr
  classical
  have hspec := Nat.find_spec hex
  have hmin : ∀ j, j < Nat.find hex → ¬ r ≤ (w.take (j + 1)).sum := by
    intro j hj hle
    exact Nat.find_min hex hj ⟨by omega, hle⟩
  refine ⟨Nat.find hex, (randomComponent_eq_ok_iff w r _).mpr ⟨hspec.1, hspec.2, hmin⟩,
    hspec.1, hspec.2, fun j hj => not_le.mp (hmin j hj), ?_⟩
  intro i hi hle
  exact Nat.find_min' hex ⟨hi, hle⟩

/-- C15 (as stated) fails for the empty weight vector: the draw `0` does not
exceed the sum of all weights, yet no index is returned. -/
theorem randomComponent_empty :
    (0 : ℚ) ≤ ([] : List ℚ).sum ∧
      randomComponent ([] : List ℚ) 0 = .error Fault.noReturn :=
  ⟨le_refl _, rfl⟩

/-- With weights `1/2, 1/4, 1/4` and draw `3/5` the component returned is 1. -/
theorem randomComponent_smallest_index_witness :
    randomComponent [(1 / 2 : ℚ), 1 / 4, 1 / 4] (3 / 5) = .ok 1 := by
  obtain ⟨k, h1, h2, h3, h4, h5⟩ :=
    randomComponent_smallest_index [(1 / 2 : ℚ), 1 / 4, 1 / 4] (3 / 5) (by decide)
      (by norm_num)
  have hle : k ≤ 1 := h5 1 (by decide) (by norm_num)
  have hne : k ≠ 0 := by
    intro h0
    rw [h0] at h3
    norm_num at h3
  have hk : k = 1 := by omega
  rw [hk] at h1
  exact h1


/-! ## `generateFromSimplex` -/

/-- Closed form of `generateFromSimplex` for draws strictly between 0 and 1
whose exponential variates do not sum to zero. -/
theorem generateFromSimplex_eq {α : Type} [LinearOrderedField α] (log : α → α) (K : Nat)
    (draws : Nat → α) (hd : ∀ i, i < K → 0 < draws i ∧ draws i < 1)
    (hsum : ((List.range K).map (fun i => -log (1 - draws i))).sum ≠ 0) :
    generateFromSimplex log K draws
      = .ok ((List.range K).map (fun i => -log (1 - draws i)
          / ((List.range K).map (fun j => -log (1 - draws j))).sum)) := by
  have h1 : forLoop 0 K (fun i (s : α × List α) => do
      let random := draws i
      assert (decide (random > 0) && decide (random < 1))
      let l ← flog log (1 - random)
      let values ← write s.2 i (-l)
      let v ← read values i
      pure (s.1 + v, values)) ((0 : α), List.replicate K (0 : α))
      = .ok (0 + ((List.range K).map (fun i => -log (1 - draws i))).sum,
          (List.range K).map (fun i => -log (1 - draws i))) := by
    apply forLoop_tabulate_accumulate K _ (fun i => -log (1 - draws i)) 0 _ (by simp)
    intro i s hi hs
    have hb : (decide (draws i > 0) && decide (draws i < 1)) = true := by
      simp [(hd i hi).1, (hd i hi).2]
    have hpos : 0 < 1 - draws i := sub_pos.mpr (hd i hi).2
    dsimp only
    rw [hb, assert_true, ok_bind, flog, if_pos hpos, ok_bind, write_ok _ _ _ (by omega),
      ok_bind, read_entry _ i (by simp; omega), ok_bind]
    have e : ∀ x : α, entry (s.2.set i x) i = x := by
      intro x
      simp [entry, hs, hi]
    rw [e]
    rfl
  have h2 : forLoop 0 K (fun i values => do
      let v ← read values i
      let q ← fdiv v ((List.range K).map (fun j => -log (1 - draws j))).sum
      write values i q) ((List.range K).map (fun i => -log (1 - draws i)))
      = .ok ((List.range K).map (fun i => -log (1 - draws i)
          / ((List.range K).map (fun j => -log (1 - draws j))).sum)) := by
    have := forLoop_update (0 : α) K (fun i values => do
      let v ← read values i
      let q ← fdiv v ((List.range K).map (fun j => -log (1 - draws j))).sum
      write values i q)
      (fun _ v => v / ((List.range K).map (fun j => -log (1 - draws j))).sum)
      ((List.range K).map (fun i => -log (1 - draws i))) (by simp)
      (by
        intro i v hi hv hget
        beta_reduce
        rw [read_getD v i 0 (by omega), ok_bind, fdiv, if_neg hsum, ok_bind, hget]
        exact write_ok v i _ (by omega))
    rw [this]
    congr 1
    apply List.map_congr_left
    intro i hi
    rw [getD_map_range K _ 0 i (List.mem_range.mp hi)]
  unfold generateFromSimplex
  rw [h1, ok_bind]
  dsimp only
  rw [zero_add]
  exact h2

/-- C19 (as amended): for every `K ≥ 1` and `K` uniform draws strictly between
0 and 1, `generateFromSimplex(K)` returns the `K` weights
`w_i = -ln(1 - r_i) / Σ_j (-ln(1 - r_j))`; every weight satisfies
`0 < w_i ≤ 1`, with `w_i < 1` when `K ≥ 2`, and the weights sum to 1. -/
theorem generateFromSimplex_simplex (K : Nat) (draws : Nat → ℝ) (hK : 1 ≤ K)
    (hd : ∀ i, i < K → 0 < draws i ∧ draws i < 1) :
    ∃ w : List ℝ,
      generateFromSimplex Real.log K draws = .ok w ∧
      w = (List.range K).map (fun i => -Real.log (1 - draws i)
          / ((List.range K).map (fun j => -Real.log (1 - draws j))).sum) ∧
      w.length = K ∧ (∀ x ∈ w, 0 < x ∧ x ≤ 1) ∧ (2 ≤ K → ∀ x ∈ w, x < 1) ∧ w.sum = 1 := by
  have hv : ∀ i, i < K → 0 < -Real.log (1 - draws i) := by
    intro i hi
    have h1 : 0 < 1 - draws i := sub_pos.mpr (hd i hi).2
    have h2 : 1 - draws i < 1 := by linarith [(hd i hi).1]
    exact neg_pos.mpr (Real.log_neg h1 h2)
  have hS : 0 < ((List.range K).map (fun j => -Real.log (1 - draws j))).sum :=
    sum_map_range_pos K _ hK hv
  have hle : ∀ i, i < K → -Real.log (1 - draws i)
      ≤ ((List.range K).map (fun j => -Real.log (1 - draws j))).sum := by
    intro i hi
    apply List.single_le_sum
    · intro x hx
      obtain ⟨j, hj, rfl⟩ := List.mem_map.mp hx
      exact le_of_lt (hv j (List.mem_range.mp hj))
    · exact List.mem_map.mpr ⟨i, List.mem_range.mpr hi, rfl⟩
  refine ⟨_, generateFromSimplex_eq Real.log K draws hd (ne_of_gt hS), rfl, by simp, ?_, ?_, ?_⟩
  · intro x hx
    obtain ⟨i, hi, rfl⟩ := List.mem_map.mp hx
    have hi' := List.mem_range.mp hi
    exact ⟨div_pos (hv i hi') hS, (div_le_one hS).mpr (hle i hi')⟩
  · intro h2 x hx
    obtain ⟨i, hi, rfl⟩ := List.mem_map.mp hx
    have hi' := List.mem_range.mp hi
    rw [div_lt_one hS]
    obtain ⟨j, hj, hji⟩ : ∃ j, j < K ∧ j ≠ i := by
      by_cases h0 : i = 0
      · exact ⟨1, by omega, by omega⟩
      · exact ⟨0, by omega, fun h => h0 h.symm⟩
    have hsplit := sum_filter_ne2_range (fun t => -Real.log (1 - draws t)) i j
      (Ne.symm hji) K
    rw [if_pos hi', if_pos hj] at hsplit
    have hrest : 0 ≤ (((List.range K).filter (fun t => decide (t ≠ i ∧ t ≠ j))).map
        (fun t => -Real.log (1 - draws t))).sum := by
      apply List.sum_nonneg
      intro x hx
      obtain ⟨t, ht, rfl⟩ := List.mem_map.mp hx
      exact le_of_lt (hv t (List.mem_range.mp (List.mem_of_mem_filter ht)))
    linarith [hv j hj]
  · have : (List.range K).map (fun i => -Real.log (1 - draws i)
        / ((List.range K).map (fun j => -Real.log (1 - draws j))).sum)
        = ((List.range K).map (fun i => -Real.log (1 - draws i))).map
          (fun x => x / ((List.range K).map (fun j => -Real.log (1 - draws j))).sum) := by
      rw [List.map_map]
      rfl
    rw [this, sum_map_div]
    exact div_self (ne_of_gt hS)

/-- C19 (as stated) fails for `K = 1`: the single weight returned is 1, which
is not below 1. -/
theorem generateFromSimplex_single :
    (0 : ℝ) < 1 / 2 ∧ (1 / 2 : ℝ) < 1 ∧
      generateFromSimplex Real.log 1 (fun _ => (1 / 2 : ℝ)) = .ok [1] ∧ ¬ ((1 : ℝ) < 1) := by
  have hlog : -Real.log (1 - 1 / 2 : ℝ) ≠ 0 := by
    have h : Real.log (1 - 1 / 2 : ℝ) < 0 := Real.log_neg (by norm_num) (by norm_num)
    linarith
  refine ⟨by norm_num, by norm_num, ?_, lt_irrefl _⟩
  rw [generateFromSimplex_eq Real.log 1 (fun _ => (1 / 2 : ℝ))
    (fun i _ => ⟨by norm_num, by norm_num⟩) (by simpa using hlog)]
  have hr : List.range 1 = [0] := rfl
  rw [hr]
  simp only [List.map_cons, List.map_nil, List.sum_cons, List.sum_nil, add_zero]
  rw [div_self hlog]

/-- Two draws `1/2`, `1/2` give the weights `1/2`, `1/2`. -/
theorem generateFromSimplex_simplex_witness :
    ∃ w : List ℝ, generateFromSimplex Real.log 2 (fun _ => (1 / 2 : ℝ)) = .ok w ∧
      w.length = 2 ∧ (∀ x ∈ w, 0 < x ∧ x < 1) ∧ w.sum = 1 := by
  obtain ⟨w, h1, _, h3, h4, h5, h6⟩ :=
    generateFromSimplex_simplex 2 (fun _ => (1 / 2 : ℝ)) (by decide)
      (fun i _ => ⟨by norm_num, by norm_num⟩)
  exact ⟨w, h1, h3, fun x hx => ⟨(h4 x hx).1, h5 (le_refl _) x hx⟩, h6⟩


/-! ## The loop of `EM` -/

theorem emLoop_succ {α : Type} [LinearOrderedField α] (rate : α)
    (msglen : Nat → LongDouble α) (fuel : Nat) (s : EMState α) :
    emLoop rate msglen (fuel + 1) s
      = emPass rate (msglen s.iter) s >>= fun r =>
          if r.1 then pure r.2 else emLoop rate msglen fuel r.2 := rfl

/-- Passes that do not leave the loop are run through one after the other. -/
theorem emLoop_run {α : Type} [LinearOrderedField α] (rate : α)
    (msglen : Nat → LongDouble α) (F : Nat → EMState α) :
    ∀ k, (∀ j, j < k → emPass rate (msglen (F j).iter) (F j) = .ok (false, F (j + 1))) →
      ∀ fuel, emLoop rate msglen (k + fuel) (F 0) = emLoop rate msglen fuel (F k) := by
  intro k
  induction k with
  | zero =>
    intro _ fuel
    rw [Nat.zero_add]
  | succ n ih =>
    intro h fuel
    have e : n + 1 + fuel = n + (fuel + 1) := by omega
    rw [e, ih (fun j hj => h j (by omega)) (fuel + 1), emLoop_succ, h n (by omega), ok_bind]
    rfl

/-- As long as every pass goes on, the fuel runs out. -/
theorem emLoop_outOfFuel {α : Type} [LinearOrderedField α] (rate : α)
    (msglen : Nat → LongDouble α) (F : Nat → EMState α) (k : Nat)
    (h : ∀ j, j < k → emPass rate (msglen (F j).iter) (F j) = .ok (false, F (j + 1))) :
    emLoop rate msglen k (F 0) = .error Fault.outOfFuel := by
  have := emLoop_run rate msglen F k h 0
  rw [Nat.add_zero] at this
  rw [this]
  rfl

/-- A pass with `iter ≤ 10` goes on whenever the message length is not
infinite and, after the first pass, passes the test `current > 0`. -/
theorem emPass_early {α : Type} [LinearOrderedField α] (rate : α)
    (msglen : Nat → LongDouble α) (L : List (LongDouble α)) (k : Nat) (hk : k < 10)
    (hinf : (msglen (k + 1)).isInfinite = false)
    (hpos : k ≠ 0 → (msglen (k + 1)).gtZero = true) :
    emPass rate (msglen (emStateAfter msglen L k).iter) (emStateAfter msglen L k)
      = .ok (false, emStateAfter msglen L (k + 1)) := by
  have hnext : EMState.mk (msglen (k + 1)) (k + 1 + 1)
      ((L ++ (List.range k).map (fun i => msglen (i + 1))) ++ [msglen (k + 1)])
      = emStateAfter msglen L (k + 1) := by
    unfold emStateAfter
    rw [if_neg (by omega), List.range_succ, List.map_append, List.append_assoc]
    rfl
  rw [← hnext]
  unfold emPass emStateAfter
  dsimp only
  rw [hinf, if_neg (by simp)]
  by_cases h0 : k = 0
  · subst h0
    rw [if_neg (by omega)]
    rfl
  · have hd : decide (k + 1 > 10) = false := decide_eq_false (by omega)
    rw [if_pos (by omega), hpos h0, assert_true, ok_bind, hd, Bool.false_and,
      if_neg (by simp)]
    rfl

/-- A pass with `iter > 1` on finite positive message lengths leaves the loop
exactly when `iter > 10` and `prev - current <= IMPROVEMENT_RATE * prev`. -/
theorem emPass_finite {α : Type} [LinearOrderedField α] (rate : α) (x : Nat → α)
    (L : List (LongDouble α)) (k : Nat) (hk : k ≠ 0) (hpos : 0 < x (k + 1)) :
    emPass rate (LongDouble.finite (x (k + 1)))
        (emStateAfter (fun i => LongDouble.finite (x i)) L k)
      = .ok (if 10 < k + 1 ∧ x k - x (k + 1) ≤ rate * x k
          then (true, { prev := LongDouble.finite (x k), iter := k + 1,
                        msglens := L ++ (List.range (k + 1)).map
                          (fun i => LongDouble.finite (x (i + 1))) })
          else (false, emStateAfter (fun i => LongDouble.finite (x i)) L (k + 1))) := by
  have hmsg : (L ++ (List.range k).map (fun i => LongDouble.finite (x (i + 1))))
      ++ [LongDouble.finite (x (k + 1))]
      = L ++ (List.range (k + 1)).map (fun i => LongDouble.finite (x (i + 1))) := by
    rw [List.range_succ, List.map_append, List.append_assoc]
    rfl
  have hg : (LongDouble.finite (x (k + 1))).gtZero = true := decide_eq_true hpos
  have hle : ((LongDouble.finite (x k)).sub (LongDouble.finite (x (k + 1)))).le
      (LongDouble.scale rate (LongDouble.finite (x k)))
      = decide (x k - x (k + 1) ≤ rate * x k) := rfl
  unfold emPass emStateAfter
  dsimp only
  rw [if_neg (by simp [LongDouble.isInfinite]), if_pos (by omega), hg, assert_true, ok_bind,
    if_neg hk, hmsg, hle]
  by_cases hc : 10 < k + 1 ∧ x k - x (k + 1) ≤ rate * x k
  · rw [if_pos hc, if_pos (by simp [hc.1, hc.2])]
    rfl
  · rw [if_neg hc, if_neg (by
      simp only [Bool.and_eq_true, decide_eq_true_eq]
      exact hc), if_neg (by omega)]
    rfl

/-- The loop of `EM` on finite positive message lengths `x 1, x 2, ...`: it is
still running after `fuel` passes as long as no pass `k` with `10 < k ≤ fuel`
meets the improvement test, and it leaves the loop in the first pass `n > 10`
that meets it, with `n` message lengths recorded. -/
theorem EM_finite {α : Type} [LinearOrderedField α] (rate : α) (x : Nat → α)
    (hpos : ∀ i, 0 < x i) (L : List (LongDouble α)) :
    (∀ fuel, (∀ k, 10 < k → k ≤ fuel → ¬ (x (k - 1) - x k ≤ rate * x (k - 1))) →
      EM rate (fun i => LongDouble.finite (x i)) fuel L = .error Fault.outOfFuel) ∧
    (∀ n, 10 < n → x (n - 1) - x n ≤ rate * x (n - 1) →
      (∀ k, 10 < k → k < n → ¬ (x (k - 1) - x k ≤ rate * x (k - 1))) →
      ∀ fuel, n ≤ fuel →
        EM rate (fun i => LongDouble.finite (x i)) fuel L
          = .ok { prev := LongDouble.finite (x (n - 1)), iter := n,
                  msglens := L ++ (List.range n).map
                    (fun i => LongDouble.finite (x (i + 1))) }) := by
  have hstep : ∀ k, (¬ (10 < k + 1 ∧ x k - x (k + 1) ≤ rate * x k)) →
      emPass rate ((fun i => LongDouble.finite (x i))
          (emStateAfter (fun i => LongDouble.finite (x i)) L k).iter)
        (emStateAfter (fun i => LongDouble.finite (x i)) L k)
      = .ok (false, emStateAfter (fun i => LongDouble.finite (x i)) L (k + 1)) := by
    intro k hc
    by_cases h0 : k = 0
    · subst h0
      exact emPass_early rate (fun i => LongDouble.finite (x i)) L 0 (by omega) rfl
        (fun h => absurd rfl h)
    · have := emPass_finite rate x L k h0 (hpos (k + 1))
      rw [if_neg hc] at this
      exact this
  have h0 : emStateAfter (fun i => LongDouble.finite (x i)) L 0
      = { prev := LongDouble.finite 0, iter := 1, msglens := L } := by
    simp [emStateAfter]
  constructor
  · intro fuel hno
    have := emLoop_outOfFuel rate (fun i => LongDouble.finite (x i))
      (emStateAfter (fun i => LongDouble.finite (x i)) L) fuel
      (fun j hj => hstep j (fun hc => hno (j + 1) hc.1 (by omega) hc.2))
    rw [h0] at this
    exact this
  · intro n hn hstop hfirst fuel hfuel
    obtain ⟨f, rfl⟩ : ∃ f, fuel = (n - 1) + (f + 1) := ⟨fuel - n, by omega⟩
    have hrun := emLoop_run rate (fun i => LongDouble.finite (x i))
      (emStateAfter (fun i => LongDouble.finite (x i)) L) (n - 1)
      (fun j hj => hstep j (fun hc => hfirst (j + 1) hc.1 (by omega) hc.2)) (f + 1)
    rw [h0] at hrun
    unfold EM
    rw [hrun, emLoop_succ]
    have hn1 : n - 1 + 1 = n := by omega
    have hlast := emPass_finite rate x L (n - 1) (by omega) (hpos (n - 1 + 1))
    rw [hn1] at hlast
    rw [if_pos ⟨hn, hstop⟩] at hlast
    show emPass rate (LongDouble.finite (x (n - 1 + 1))) _ >>= _ = _
    rw [hn1, hlast]
    rfl

/-- C12: in MML mode, for every sequence of finite positive message lengths,
the loop of `EM` never stops before iteration 11 (it is still running after
any number of passes up to 10), and it stops at the first iteration
`iter > 10` at which `prev - current <= IMPROVEMENT_RATE * prev`, where `prev`
is the message length of the previous iteration; the message lengths of all
iterations up to that one are recorded. -/
theorem EM_stops_at_first_small_improvement {α : Type} [LinearOrderedField α] (rate : α)
    (x : Nat → α) (hpos : ∀ i, 0 < x i) :
    (∀ fuel, fuel ≤ 10 →
      EM rate (fun i => LongDouble.finite (x i)) fuel [] = .error Fault.outOfFuel) ∧
    (∀ n, 10 < n → x (n - 1) - x n ≤ rate * x (n - 1) →
      (∀ k, 10 < k → k < n → ¬ (x (k - 1) - x k ≤ rate * x (k - 1))) →
      (∀ fuel, fuel < n →
        EM rate (fun i => LongDouble.finite (x i)) fuel [] = .error Fault.outOfFuel) ∧
      (∀ fuel, n ≤ fuel →
        EM rate (fun i => LongDouble.finite (x i)) fuel []
          = .ok { prev := LongDouble.finite (x (n - 1)), iter := n,
                  msglens := (List.range n).map (fun i => LongDouble.finite (x (i + 1))) })) := by
  have h := EM_finite rate x hpos []
  refine ⟨fun fuel hf => h.1 fuel (fun k h1 h2 => by omega), ?_⟩
  intro n hn hstop hfirst
  refine ⟨fun fuel hf => h.1 fuel (fun k h1 h2 => hfirst k h1 (by omega)), ?_⟩
  intro fuel hf
  have := h.2 n hn hstop hfirst fuel hf
  rw [List.nil_append] at this
  exact this


/-- A pass with `iter > 10` on finite values `prev`, `current > 0` with
`prev - current <= IMPROVEMENT_RATE * prev` records `current` and leaves the
loop. -/
theorem emPass_stop {α : Type} [LinearOrderedField α] (rate p c : α) (s : EMState α)
    (hiter : 10 < s.iter) (hprev : s.prev = LongDouble.finite p) (hc : 0 < c)
    (hstop : p - c ≤ rate * p) :
    emPass rate (LongDouble.finite c) s
      = .ok (true, { s with msglens := s.msglens ++ [LongDouble.finite c] }) := by
  have hg : (LongDouble.finite c).gtZero = true := decide_eq_true hc
  have hle : ((LongDouble.finite p).sub (LongDouble.finite c)).le
      (LongDouble.scale rate (LongDouble.finite p)) = true := decide_eq_true hstop
  have hd : decide (s.iter > 10) = true := decide_eq_true hiter
  unfold emPass
  dsimp only
  rw [if_neg (by simp [LongDouble.isInfinite]), if_pos (by omega), hg, assert_true, ok_bind,
    hprev, hle, hd, Bool.and_self, if_pos rfl]
  rfl

/-- A pass after the first whose message length is a NaN fails the assertion
`current > 0`. -/
theorem emPass_nan {α : Type} [LinearOrderedField α] (rate : α) (s : EMState α)
    (hiter : s.iter ≠ 1) :
    emPass rate LongDouble.nan s = .error Fault.assertion := by
  unfold emPass
  dsimp only
  rw [if_neg (by simp [LongDouble.isInfinite]), if_pos hiter]
  rfl

/-- A pass whose message length is infinite leaves the loop without recording
it. -/
theorem emPass_infinite {α : Type} [LinearOrderedField α] (rate : α) (c : LongDouble α)
    (s : EMState α) (hc : c.isInfinite = true) : emPass rate c s = .ok (true, s) := by
  unfold emPass
  rw [if_pos hc]
  rfl

/-- Evaluation for C13: with the message lengths `100` in iterations 1 to 10
and `200` in iteration 11, the message length increases in iteration 11, yet
the loop does not abort: it terminates normally with `200` recorded.  With
`100` in iteration 1 and `200` from iteration 2 on, the increase in iteration 2
is followed by nine more iterations. -/
theorem EM_increase_terminates_normally :
    EM (1 / 1000 : ℚ) (fun i => LongDouble.finite (if i ≤ 10 then 100 else 200)) 11 []
        = .ok { prev := LongDouble.finite 100, iter := 11,
                msglens := List.replicate 10 (LongDouble.finite 100)
                  ++ [LongDouble.finite 200] } ∧
      EM (1 / 1000 : ℚ) (fun i => LongDouble.finite (if i = 1 then 100 else 200)) 11 []
        = .ok { prev := LongDouble.finite 200, iter := 11,
                msglens := LongDouble.finite 100
                  :: List.replicate 10 (LongDouble.finite 200) } := by
  constructor
  · have h := (EM_finite (1 / 1000 : ℚ) (fun i => if i ≤ 10 then 100 else 200)
      (fun i => by
        beta_reduce
        split_ifs <;> norm_num) []).2 11 (by decide) (by norm_num)
      (fun k h1 h2 => by omega) 11 (le_refl _)
    rw [h]
    rfl
  · have h := (EM_finite (1 / 1000 : ℚ) (fun i => if i = 1 then 100 else 200)
      (fun i => by
        beta_reduce
        split_ifs <;> norm_num) []).2 11 (by decide) (by norm_num)
      (fun k h1 h2 => by omega) 11 (le_refl _)
    rw [h]
    rfl

/-- Evaluation for C14: a NaN message length in iteration 1 does not end the
loop and is recorded in `msglens`; the loop ends normally in iteration 11.  A
NaN in iteration 2 ends the run with a failed assertion.  An infinite message
length in iteration 1 ends the loop with nothing recorded. -/
theorem EM_nan_recorded :
    EM (1 / 1000 : ℚ)
        (fun i => if i = 1 then LongDouble.nan else LongDouble.finite 100) 11 []
      = .ok { prev := LongDouble.finite 100, iter := 11,
              msglens := LongDouble.nan :: List.replicate 10 (LongDouble.finite 100) } ∧
    EM (1 / 1000 : ℚ)
        (fun i => if i = 2 then LongDouble.nan else LongDouble.finite 100) 11 []
      = .error Fault.assertion ∧
    EM (1 / 1000 : ℚ) (fun _ => LongDouble.posInf) 11 []
      = .ok { prev := LongDouble.finite 0, iter := 1, msglens := [] } := by
  refine ⟨?_, ?_, ?_⟩
  · have hrun := emLoop_run (1 / 1000 : ℚ)
      (fun i => if i = 1 then LongDouble.nan else LongDouble.finite 100)
      (emStateAfter (fun i => if i = 1 then LongDouble.nan else LongDouble.finite 100) [])
      10
      (fun j hj => emPass_early (1 / 1000 : ℚ)
        (fun i => if i = 1 then LongDouble.nan else LongDouble.finite 100) [] j hj
        (by
          beta_reduce
          split_ifs <;> rfl)
        (by
          intro h0
          have : ¬ j + 1 = 1 := by omega
          simp [this, LongDouble.gtZero])) 1
    unfold EM
    have h0 : emStateAfter
        (fun i => if i = 1 then LongDouble.nan else LongDouble.finite (100 : ℚ)) [] 0
        = { prev := LongDouble.finite 0, iter := 1, msglens := [] } := rfl
    rw [h0] at hrun
    rw [hrun, emLoop_succ]
    have hpass := emPass_stop (1 / 1000 : ℚ) 100 100
      (emStateAfter (fun i => if i = 1 then LongDouble.nan else LongDouble.finite (100 : ℚ))
        [] 10)
      (by decide) rfl (by norm_num) (by norm_num)
    show emPass (1 / 1000 : ℚ) (LongDouble.finite 100) _ >>= _ = _
    rw [hpass]
    rfl
  · have hrun := emLoop_run (1 / 1000 : ℚ)
      (fun i => if i = 2 then LongDouble.nan else LongDouble.finite 100)
      (emStateAfter (fun i => if i = 2 then LongDouble.nan else LongDouble.finite 100) [])
      1
      (fun j hj => emPass_early (1 / 1000 : ℚ)
        (fun i => if i = 2 then LongDouble.nan else LongDouble.finite 100) [] j (by omega)
        (by
          beta_reduce
          split_ifs <;> rfl)
        (by
          intro h0
          omega)) 10
    unfold EM
    have h0 : emStateAfter
        (fun i => if i = 2 then LongDouble.nan else LongDouble.finite (100 : ℚ)) [] 0
        = { prev := LongDouble.finite 0, iter := 1, msglens := [] } := rfl
    rw [h0] at hrun
    rw [hrun, emLoop_succ]
    show emPass (1 / 1000 : ℚ) LongDouble.nan _ >>= _ = _
    rw [emPass_nan _ _ (by decide)]
    rfl
  · unfold EM
    rw [emLoop_succ, emPass_infinite (1 / 1000 : ℚ) LongDouble.posInf _ rfl]
    rfl

/-- With the constant message length `100` and `IMPROVEMENT_RATE = 1/1000`
the loop of `EM` is still running after 10 passes and stops in pass 11. -/
theorem EM_stops_at_first_small_improvement_witness :
    EM (1 / 1000 : ℚ) (fun _ => LongDouble.finite 100) 10 [] = .error Fault.outOfFuel ∧
      EM (1 / 1000 : ℚ) (fun _ => LongDouble.finite 100) 11 []
        = .ok { prev := LongDouble.finite 100, iter := 11,
                msglens := List.replicate 11 (LongDouble.finite 100) } := by
  have h := EM_stops_at_first_small_improvement (1 / 1000 : ℚ) (fun _ => 100)
    (fun _ => by norm_num)
  refine ⟨h.1 10 (le_refl _), ?_⟩
  have h2 := (h.2 11 (by decide) (by norm_num) (fun k h1 h2 => by omega)).2 11 (le_refl _)
  rw [h2]
  rfl



/-! ## `computeMinimumMessageLength` -/

theorem assert_decide_ok (p : Prop) [Decidable p] (h : p) : assert (decide p) = .ok () := by
  rw [decide_eq_true h]
  rfl

theorem assert_decide_error (p : Prop) [Decidable p] (h : ¬ p) :
    assert (decide p) = .error Fault.assertion := by
  rw [decide_eq_false h]
  rfl

theorem flog_ok {α : Type} [LinearOrderedField α] (log : α → α) (x : α) (h : 0 < x) :
    flog log x = .ok (log x) := by
  simp [flog, h]

theorem computeConstantTerm_eq {α : Type} [LinearOrderedField α] (log : α → α) (PI : α)
    (d : Int) (hPI : 0 < PI) (hd : 0 < d) :
    computeConstantTerm log PI d
      = .ok (-((d : α) / 2) * log (2 * PI) + 1 / 2 * log ((d : α) * PI)) := by
  have h1 : (0 : α) < 2 * PI := by positivity
  have h2 : (0 : α) < (d : α) * PI := mul_pos (by exact_mod_cast hd) hPI
  unfold computeConstantTerm
  rw [flog_ok log _ h1, ok_bind, flog_ok log _ h2, ok_bind]
  show Except.ok _ = Except.ok _
  congr 1
  rw [show (0.5 : α) = 1 / 2 by norm_num]
  ring

/-- Closed form of the weight-encoding term. -/
theorem msglenIw_eq {κ α : Type} [LinearOrderedField α] (log lgamma : α → α)
    (m : Mixture κ α) (hN : 1 ≤ m.N) (hw : m.weights.length = m.K)
    (hpos : ∀ w ∈ m.weights, 0 < w) :
    msglenIw log lgamma m
      = .ok (((m.K : α) - 1) / 2 * log (m.N : α) - lgamma (m.K : α)
          - 1 / 2 * (m.weights.map log).sum) := by
  have hN0 : (0 : α) < (m.N : α) := by exact_mod_cast hN
  unfold msglenIw
  rw [flog_ok log _ hN0, ok_bind]
  dsimp only
  rw [forLoop_accumulate m.K _ (fun i => -(1 / 2 * log (entry m.weights i)))]
  · congr 1
    have h1 : (List.range m.K).map (fun i => -(1 / 2 * log (entry m.weights i)))
        = (m.weights.map log).map (fun x => -(1 / 2) * x) := by
      rw [List.map_map, ← map_range_getD m.weights 0 _ m.K hw]
      apply List.map_congr_left
      intro i _
      simp [entry]
    rw [h1, List.sum_map_mul_left]
    simp only [List.map_id']
    ring
  · intro j c hj
    have hmem : entry m.weights j ∈ m.weights := by
      rw [entry, List.getD_eq_getElem _ _ (by omega)]
      exact List.getElem_mem _
    rw [read_entry m.weights j (by omega), ok_bind, flog_ok log _ (hpos _ hmem), ok_bind]
    show Except.ok _ = Except.ok _
    congr 1
    rw [show (0.5 : α) = 1 / 2 by norm_num]
    ring

/-- Closed form of `log_probability` at data point `i`. -/
theorem log_probability_eq {κ α : Type} [Inhabited κ] [LinearOrderedField α]
    (exp log : α → α) (ld : κ → List α → α) (m : Mixture κ α)
    (hK : 1 ≤ m.K) (hc : m.components.length = m.K) (hw : m.weights.length = m.K)
    (i : Nat) (hpx : 0 < pointTotal exp ld m i) :
    log_probability exp log ld m (m.data.getD i [])
      = .ok (maxLogDensity ld m i + log (pointTotal exp ld m i)) := by
  have h1 : forLoop 0 m.K (fun j log_densities => do
      let c ← read m.components j
      write log_densities j (ld c (m.data.getD i []))) (List.replicate m.K (0 : α))
      = .ok (pointLogDensities ld m i) := by
    apply forLoop_tabulate m.K _ _ _ (by simp)
    intro j v hj hv
    rw [read_getD m.components j default (by omega), ok_bind]
    exact write_ok v j _ (by omega)
  obtain ⟨k, hk, hklt, _⟩ := maximumIndex_spec (pointLogDensities ld m i)
    (by rw [pointLogDensities_length]; exact hK)
  have hM : entry (pointLogDensities ld m i) k = maxLogDensity ld m i := by
    simp [maxLogDensity, hk]
  have h3 : forLoop 0 m.K (fun j log_densities => do
      let l ← read log_densities j
      write log_densities j (l - maxLogDensity ld m i)) (pointLogDensities ld m i)
      = .ok ((List.range m.K).map
          (fun j => entry (pointLogDensities ld m i) j - maxLogDensity ld m i)) := by
    apply forLoop_update 0 m.K _ (fun _ l => l - maxLogDensity ld m i) _
      (pointLogDensities_length ld m i)
    intro j v hj hv hget
    rw [read_getD v j 0 (by omega), ok_bind, hget]
    exact write_ok v j _ (by omega)
  have h4 : forLoop 0 m.K (fun j density => do
      let w ← read m.weights j
      let l ← read ((List.range m.K).map
          (fun j => entry (pointLogDensities ld m i) j - maxLogDensity ld m i)) j
      pure (density + w * exp l)) (0 : α)
      = .ok (pointTotal exp ld m i) := by
    rw [forLoop_accumulate m.K _ (pointProbability exp ld m i) 0]
    · simp [pointTotal]
    · intro j c hj
      rw [read_entry m.weights j (by omega), ok_bind, read_entry _ j (by simp [hj]), ok_bind,
        entry_map_range _ _ _ hj]
      rfl
  unfold log_probability
  rw [h1, ok_bind, hk, ok_bind, read_entry _ k hklt, ok_bind, hM, h3, ok_bind, h4, ok_bind,
    flog_ok log _ hpx, ok_bind]
  rfl

/-- Closed form of `negativeLogLikelihood` on the data of the mixture. -/
theorem negativeLogLikelihood_eq {κ α : Type} [Inhabited κ] [LinearOrderedField α]
    (exp log : α → α) (ld : κ → List α → α) (m : Mixture κ α)
    (hK : 1 ≤ m.K) (hc : m.components.length = m.K) (hw : m.weights.length = m.K)
    (hpx : ∀ i, i < m.data.length → 0 < pointTotal exp ld m i) :
    negativeLogLikelihood exp log ld m m.data
      = .ok (-((List.range m.data.length).map
          (fun i => maxLogDensity ld m i + log (pointTotal exp ld m i))).sum) := by
  unfold negativeLogLikelihood
  rw [forLoop_accumulate m.data.length _
    (fun i => -(maxLogDensity ld m i + log (pointTotal exp ld m i)))]
  · congr 1
    rw [zero_add]
    have : (List.range m.data.length).map
        (fun i => -(maxLogDensity ld m i + log (pointTotal exp ld m i)))
        = ((List.range m.data.length).map
          (fun i => maxLogDensity ld m i + log (pointTotal exp ld m i))).map
            (fun x => (-1) * x) := by
      rw [List.map_map]
      apply List.map_congr_left
      intro i _
      simp
    rw [this, List.sum_map_mul_left]
    simp only [List.map_id']
    ring
  · intro i c hi
    rw [read_getD m.data i [] hi, ok_bind,
      log_probability_eq exp log ld m hK hc hw i (hpx i hi), ok_bind]
    show Except.ok _ = Except.ok _
    congr 1
    ring

/-- With a positive exponential and positive weights the divisor of every
data point is positive. -/
theorem pointTotal_pos {κ α : Type} [Inhabited κ] [LinearOrderedField α]
    (exp : α → α) (hexp : ∀ x, 0 < exp x) (ld : κ → List α → α) (m : Mixture κ α)
    (hK : 1 ≤ m.K) (hw : m.weights.length = m.K) (hpos : ∀ w ∈ m.weights, 0 < w) (i : Nat) :
    0 < pointTotal exp ld m i := by
  apply sum_map_range_pos m.K _ hK
  intro j hj
  unfold pointProbability
  apply mul_pos _ (hexp _)
  apply hpos
  rw [entry, List.getD_eq_getElem _ _ (by omega)]
  exact List.getElem_mem _

/-- The sum the loop over the components computes. -/
theorem sum_log_prior_eq {κ α : Type} [Inhabited κ] [LinearOrderedField α]
    (log_prior : κ → α) (components : List κ) (K : Nat) (hc : components.length = K) :
    forLoop 0 K (fun i It => do
      let c ← read components i
      let logp := log_prior c
      pure (It + logp)) (0 : α)
      = .ok ((components.map log_prior).sum) := by
  rw [forLoop_accumulate K _ (fun i => log_prior (components.getD i default))]
  · rw [zero_add, map_range_getD components default log_prior K hc]
  · intro j c hj
    rw [read_getD components j default (by omega), ok_bind]
    rfl

/-- The message length in terms of its five parts, for any logarithm and any
positive exponential. -/
theorem computeMinimumMessageLength_eq {κ α : Type} [Inhabited κ] [LinearOrderedField α]
    (exp log lgamma : α → α) (hexp : ∀ x, 0 < exp x) (hlog2 : log 2 ≠ 0)
    (ld : κ → List α → α) (log_prior : κ → α) (MAX_COMPONENTS : Nat) (AOM PI : α)
    (m : Mixture κ α) (hMC : 1 ≤ MAX_COMPONENTS) (hAOM : 0 < AOM) (hPI : 0 < PI)
    (hK : 1 ≤ m.K) (hN : 1 ≤ m.N) (hc : m.components.length = m.K)
    (hw : m.weights.length = m.K) (hpos : ∀ w ∈ m.weights, 0 < w) :
    ∃ nll Ik Iw Il It cd : α,
      negativeLogLikelihood exp log ld m m.data = .ok nll ∧
      computeConstantTerm log PI (4 * (m.K : Int) - 1) = .ok cd ∧
      Ik = log (MAX_COMPONENTS : α) ∧
      Iw = ((m.K : α) - 1) / 2 * log (m.N : α) - lgamma (m.K : α)
            - 1 / 2 * (m.weights.map log).sum ∧
      Il = nll - 2 * (m.N : α) * log AOM ∧
      It = (m.components.map log_prior).sum ∧
      cd = -((4 * (m.K : α) - 1) / 2) * log (2 * PI)
            + 1 / 2 * log ((4 * (m.K : α) - 1) * PI) ∧
      computeMinimumMessageLength exp log lgamma ld log_prior MAX_COMPONENTS AOM PI m
        = if 0 < Ik ∧ 0 ≤ Iw ∧ 0 < Il then .ok ((Ik + Iw + Il + It + cd) / log 2)
          else .error Fault.assertion := by
  have hnll := negativeLogLikelihood_eq exp log ld m hK hc hw
    (fun i _ => pointTotal_pos exp hexp ld m hK hw hpos i)
  have hcd := computeConstantTerm_eq log PI (4 * (m.K : Int) - 1) hPI (by omega)
  have hIw := msglenIw_eq log lgamma m hN hw hpos
  have hIt := sum_log_prior_eq log_prior m.components m.K hc
  have hMC0 : (0 : α) < (MAX_COMPONENTS : α) := by exact_mod_cast hMC
  have h2 : (0 : α) < 2 := by norm_num
  refine ⟨_, _, _, _, _, _, hnll, hcd, rfl, rfl, rfl, rfl, ?_, ?_⟩
  · push_cast
    rfl
  · unfold computeMinimumMessageLength
    rw [flog_ok log _ hMC0, ok_bind]
    by_cases hIk : 0 < log (MAX_COMPONENTS : α)
    · have e1 : assert (decide (log (MAX_COMPONENTS : α) > 0)) = .ok () :=
        assert_decide_ok _ hIk
      rw [e1, ok_bind, hIw, ok_bind]
      by_cases hIw0 : 0 ≤ ((m.K : α) - 1) / 2 * log (m.N : α) - lgamma (m.K : α)
          - 1 / 2 * (m.weights.map log).sum
      · have e2 : assert (decide (((m.K : α) - 1) / 2 * log (m.N : α) - lgamma (m.K : α)
            - 1 / 2 * (m.weights.map log).sum ≥ 0)) = .ok () :=
          assert_decide_ok _ hIw0
        rw [e2, ok_bind, hnll, ok_bind, flog_ok log _ hAOM, ok_bind]
        dsimp only
        by_cases hIl : 0 < -((List.range m.data.length).map
            (fun i => maxLogDensity ld m i + log (pointTotal exp ld m i))).sum
              - 2 * (m.N : α) * log AOM
        · have e3 : assert (decide (-((List.range m.data.length).map
              (fun i => maxLogDensity ld m i + log (pointTotal exp ld m i))).sum
                - 2 * (m.N : α) * log AOM > 0)) = .ok () :=
            assert_decide_ok _ hIl
          rw [e3, ok_bind, hIt, ok_bind, hcd, ok_bind, flog_ok log _ h2, ok_bind,
            if_pos ⟨hIk, hIw0, hIl⟩]
          simp [fdiv, hlog2]
        · have e3 : assert (decide (-((List.range m.data.length).map
              (fun i => maxLogDensity ld m i + log (pointTotal exp ld m i))).sum
                - 2 * (m.N : α) * log AOM > 0)) = .error Fault.assertion :=
            assert_decide_error _ hIl
          rw [e3, if_neg (fun h => hIl h.2.2)]
          rfl
      · have e2 : assert (decide (((m.K : α) - 1) / 2 * log (m.N : α) - lgamma (m.K : α)
            - 1 / 2 * (m.weights.map log).sum ≥ 0)) = .error Fault.assertion :=
          assert_decide_error _ hIw0
        rw [e2, if_neg (fun h => hIw0 h.2.1)]
        rfl
    · have e1 : assert (decide (log (MAX_COMPONENTS : α) > 0)) = .error Fault.assertion :=
        assert_decide_error _ hIk
      rw [e1, if_neg (fun h => hIk h.1)]
      rfl

/-- C11: `computeMinimumMessageLength` returns `(Ik + Iw + Il + It + cd) / ln 2`,
where `Ik = ln(MAX_COMPONENTS)`,
`Iw = ((K-1)/2) ln N - lnGamma(K) - (1/2) * sum_i ln(weights[i])`,
`Il = negativeLogLikelihood(data) - 2 N ln(AOM)`, `It` is the sum of the `K`
components' log-prior terms and
`cd = computeConstantTerm(d) = -(d/2) ln(2 pi) + (1/2) ln(d pi)` with
`d = 4K - 1`; this value is returned when the three assertions `Ik > 0`,
`Iw >= 0` and `Il > 0` of the function hold, and the run aborts otherwise. -/
theorem computeMinimumMessageLength_value {κ : Type} [Inhabited κ] (lgamma : ℝ → ℝ)
    (ld : κ → List ℝ → ℝ) (log_prior : κ → ℝ) (MAX_COMPONENTS : Nat) (AOM PI : ℝ)
    (m : Mixture κ ℝ) (hMC : 1 ≤ MAX_COMPONENTS) (hAOM : 0 < AOM) (hPI : 0 < PI)
    (hK : 1 ≤ m.K) (hN : 1 ≤ m.N) (hc : m.components.length = m.K)
    (hw : m.weights.length = m.K) (hpos : ∀ w ∈ m.weights, 0 < w) :
    ∃ nll Ik Iw Il It cd : ℝ,
      negativeLogLikelihood Real.exp Real.log ld m m.data = .ok nll ∧
      computeConstantTerm Real.log PI (4 * (m.K : Int) - 1) = .ok cd ∧
      Ik = Real.log (MAX_COMPONENTS : ℝ) ∧
      Iw = ((m.K : ℝ) - 1) / 2 * Real.log (m.N : ℝ) - lgamma (m.K : ℝ)
            - 1 / 2 * (m.weights.map Real.log).sum ∧
      Il = nll - 2 * (m.N : ℝ) * Real.log AOM ∧
      It = (m.components.map log_prior).sum ∧
      cd = -((4 * (m.K : ℝ) - 1) / 2) * Real.log (2 * PI)
            + 1 / 2 * Real.log ((4 * (m.K : ℝ) - 1) * PI) ∧
      computeMinimumMessageLength Real.exp Real.log lgamma ld log_prior MAX_COMPONENTS AOM PI m
        = if 0 < Ik ∧ 0 ≤ Iw ∧ 0 < Il then .ok ((Ik + Iw + Il + It + cd) / Real.log 2)
          else .error Fault.assertion :=
  computeMinimumMessageLength_eq Real.exp Real.log lgamma Real.exp_pos
    (ne_of_gt (Real.log_pos (by norm_num))) ld log_prior MAX_COMPONENTS AOM PI m
    hMC hAOM hPI hK hN hc hw hpos

/-- The message length of the sample mixture with at most two components and
accuracy of measurement `1/2` is made of the five parts. -/
theorem computeMinimumMessageLength_value_witness :
    ∃ nll Ik Iw Il It cd : ℝ,
      negativeLogLikelihood Real.exp Real.log (fun (_ : Nat) _ => 0) (sampleMixture ℝ)
        (sampleMixture ℝ).data = .ok nll ∧
      Ik = Real.log ((2 : Nat) : ℝ) ∧
      Il = nll - 2 * ((sampleMixture ℝ).N : ℝ) * Real.log (1 / 2) ∧
      computeMinimumMessageLength Real.exp Real.log (fun x => Real.log (Real.Gamma x))
          (fun (_ : Nat) _ => 0) (fun _ => 0) 2 (1 / 2) Real.pi (sampleMixture ℝ)
        = if 0 < Ik ∧ 0 ≤ Iw ∧ 0 < Il then .ok ((Ik + Iw + Il + It + cd) / Real.log 2)
          else .error Fault.assertion := by
  obtain ⟨nll, Ik, Iw, Il, It, cd, h1, _, h3, _, h5, _, _, h8⟩ :=
    computeMinimumMessageLength_value (fun x => Real.log (Real.Gamma x))
      (fun (_ : Nat) _ => 0) (fun _ => 0) 2 (1 / 2) Real.pi (sampleMixture ℝ)
      (by decide) (by norm_num) Real.pi_pos (by decide) (by decide) rfl rfl
      (by
        intro w hw
        simp only [sampleMixture, List.mem_cons, List.mem_singleton, List.not_mem_nil,
          or_false] at hw
        rcases hw with rfl | rfl | rfl <;> norm_num)
  exact ⟨nll, Ik, Iw, Il, It, cd, h1, h3, h5, h8⟩


/-! ## The E-step without the subtraction of the maximum -/

/-- C24: the max-subtraction of the E-step is result-preserving.  For every
`K ≥ 1`, positive weights `w` and real log-densities `l_1..l_K` of a point, the
responsibility `updateResponsibilityMatrix` computes for component `j` equals
`w_j * exp(l_j) / sum_k (w_k * exp(l_k))`, the posterior computed without
subtracting the per-point maximum; and the divisor `px` is strictly positive,
at least the weight of the maximising component. -/
theorem updateResponsibilityMatrix_max_subtraction {κ : Type} [Inhabited κ]
    (ld : κ → List ℝ → ℝ) (m : Mixture κ ℝ)
    (hK : 1 ≤ m.K) (hc : m.components.length = m.K) (hw : m.weights.length = m.K)
    (hd : m.data.length = m.N) (hR : m.responsibility.length = m.K)
    (hrows : ∀ row ∈ m.responsibility, row.length = m.N)
    (hpos : ∀ w ∈ m.weights, 0 < w) :
    ∃ R : List (List ℝ),
      updateResponsibilityMatrix Real.exp ld m = .ok { m with responsibility := R } ∧
      (∀ i j, i < m.N → j < m.K →
        entry (R.getD j []) i
          = entry m.weights j * Real.exp (entry (pointLogDensities ld m i) j)
            / ((List.range m.K).map (fun k =>
                entry m.weights k * Real.exp (entry (pointLogDensities ld m i) k))).sum) ∧
      (∀ i, i < m.N → 0 < pointTotal Real.exp ld m i ∧
        ∃ k, k < m.K ∧
          (∀ t, t < m.K →
            entry (pointLogDensities ld m i) t ≤ entry (pointLogDensities ld m i) k) ∧
          entry m.weights k ≤ pointTotal Real.exp ld m i) := by
  have hwpos : ∀ j, j < m.K → 0 < entry m.weights j := by
    intro j hj
    apply hpos
    rw [entry, List.getD_eq_getElem _ _ (by omega)]
    exact List.getElem_mem _
  have hpx : ∀ i, 0 < pointTotal Real.exp ld m i :=
    fun i => pointTotal_pos Real.exp Real.exp_pos ld m hK hw hpos i
  have hfac : ∀ i j, pointProbability Real.exp ld m i j
      = entry m.weights j * Real.exp (entry (pointLogDensities ld m i) j)
        * Real.exp (-maxLogDensity ld m i) := by
    intro i j
    unfold pointProbability
    rw [sub_eq_add_neg, Real.exp_add]
    ring
  have htot : ∀ i, pointTotal Real.exp ld m i
      = ((List.range m.K).map (fun k =>
          entry m.weights k * Real.exp (entry (pointLogDensities ld m i) k))).sum
        * Real.exp (-maxLogDensity ld m i) := by
    intro i
    unfold pointTotal
    rw [← List.sum_map_mul_right]
    congr 1
    apply List.map_congr_left
    intro j _
    exact hfac i j
  refine ⟨_, updateResponsibilityMatrix_eq Real.exp ld m hK hc hw hd hR hrows
    (fun i _ => ne_of_gt (hpx i)), ?_, ?_⟩
  · intro i j hi hj
    show entry (((List.range m.K).map (fun j => (List.range m.N).map
      (fun i => pointProbability Real.exp ld m i j / pointTotal Real.exp ld m i))).getD j [])
        i = _
    rw [getD_map_range _ _ _ j hj, entry_map_range _ _ i hi, hfac, htot,
      mul_div_mul_right _ _ (ne_of_gt (Real.exp_pos _))]
  · intro i hi
    refine ⟨hpx i, ?_⟩
    obtain ⟨k, hk, hklt, hmax⟩ := maximumIndex_spec (pointLogDensities ld m i)
      (by rw [pointLogDensities_length]; exact hK)
    rw [pointLogDensities_length] at hklt hmax
    have hM : entry (pointLogDensities ld m i) k = maxLogDensity ld m i := by
      simp [maxLogDensity, hk]
    refine ⟨k, hklt, hmax, ?_⟩
    have hterm : pointProbability Real.exp ld m i k = entry m.weights k := by
      unfold pointProbability
      rw [hM, sub_self, Real.exp_zero, mul_one]
    rw [← hterm]
    unfold pointTotal
    apply List.single_le_sum
    · intro x hx
      obtain ⟨j, hj, rfl⟩ := List.mem_map.mp hx
      unfold pointProbability
      exact le_of_lt (mul_pos (hwpos j (List.mem_range.mp hj)) (Real.exp_pos _))
    · exact List.mem_map.mpr ⟨k, List.mem_range.mpr hklt, rfl⟩

/-- The E-step at the sample mixture, with `log_density c x = c * (x₀ + x₁ + x₂)`:
the divisor of each of the two points is positive. -/
theorem updateResponsibilityMatrix_max_subtraction_witness :
    ∃ R : List (List ℝ),
      updateResponsibilityMatrix Real.exp (fun (c : Nat) (x : List ℝ) => (c : ℝ) * x.sum)
          (sampleMixture ℝ)
        = .ok { sampleMixture ℝ with responsibility := R } ∧
      ∀ i, i < (sampleMixture ℝ).N →
        0 < pointTotal Real.exp (fun (c : Nat) (x : List ℝ) => (c : ℝ) * x.sum)
          (sampleMixture ℝ) i := by
  obtain ⟨R, h1, _, h3⟩ := updateResponsibilityMatrix_max_subtraction
    (fun (c : Nat) (x : List ℝ) => (c : ℝ) * x.sum) (sampleMixture ℝ) (by decide) rfl rfl rfl rfl
    (sampleMixture_rows ℝ)
    (by
      intro w hw
      simp only [sampleMixture, List.mem_cons, List.mem_singleton, List.not_mem_nil,
        or_false] at hw
      rcases hw with h | h | h <;> rw [h] <;> norm_num)
  exact ⟨R, h1, fun i hi => (h3 i hi).1⟩


/-! ## The divisors of `kill` -/

theorem certainMixture_wf (α : Type) [LinearOrderedField α] : (certainMixture α).WF where
  components_length := rfl
  weights_length := rfl
  sample_size_length := rfl
  responsibility_length := rfl
  rows_length := by
    intro row hrow
    simp only [certainMixture, List.mem_cons, List.mem_singleton, List.not_mem_nil,
      or_false] at hrow
    rcases hrow with rfl | rfl <;> rfl
  data_length := rfl
  data_weights_length := rfl

theorem kill_certainMixture :
    killResponsibility (certainMixture ℚ) 0 = .error Fault.divByZero ∧
      kill (certainMixture ℚ) 0 = .error Fault.divByZero := by
  have h1 : killWeights (certainMixture ℚ) 0 = .ok [1] := by
    rw [killWeights_eq _ 0 rfl (by decide) (by norm_num [certainMixture, entry])]
    norm_num [certainMixture, entry]
  have h2 : killResponsibility (certainMixture ℚ) 0 = .error Fault.divByZero := by
    simp [killResponsibility, certainMixture, allocate, forLoop, read, write, fdiv, bind,
      Except.bind, pure, Except.pure]
  refine ⟨h2, ?_⟩
  unfold kill
  rw [h1, ok_bind, h2]
  rfl

/-- C25: `kill(c)` divides by `1 - weights[c]` and, per point, by
`1 - responsibility[c][j]` with no guard.  There is a valid mixture state
(well formed, weights and columns summing to 1, a point `j` with
`responsibility[c][j] = 1`) for which the divisor is exactly zero and the
division is carried out, and a valid state with `K = 1` and `weights[c] = 1`,
where `1 - weights[c]` is zero.  Conversely, when `weights[c] < 1` and
`responsibility[c][j] < 1` for every `j`, no divisor is zero and `kill(c)`
constructs its mixture. -/
theorem kill_divisors {κ α : Type} [Inhabited κ] [LinearOrderedField α] (m : Mixture κ α)
    (c : Nat) (hwf : m.WF) (hc : c < m.K) (hw : entry m.weights c < 1)
    (hr : ∀ j, j < m.N → entry (m.responsibility.getD c []) j < 1) :
    (1 - entry m.weights c ≠ 0 ∧
      (∀ j, j < m.N → 1 - entry (m.responsibility.getD c []) j ≠ 0) ∧
      ∃ m', kill m c = .ok m') ∧
    (∃ (m0 : Mixture Nat ℚ) (c0 j0 : Nat),
      m0.WF ∧ c0 < m0.K ∧ j0 < m0.N ∧ m0.weights.sum = 1 ∧
      (∀ j, j < m0.N → columnSum m0.responsibility j = 1) ∧
      entry (m0.responsibility.getD c0 []) j0 = 1 ∧
      1 - entry (m0.responsibility.getD c0 []) j0 = 0 ∧
      killResponsibility m0 c0 = .error Fault.divByZero ∧
      kill m0 c0 = .error Fault.divByZero) ∧
    (∃ (m1 : Mixture Nat ℚ) (c1 : Nat),
      m1.WF ∧ m1.K = 1 ∧ c1 < m1.K ∧ m1.weights.sum = 1 ∧
      (∀ j, j < m1.N → columnSum m1.responsibility j = 1) ∧
      entry m1.weights c1 = 1 ∧ 1 - entry m1.weights c1 = 0) := by
  refine ⟨⟨ne_of_gt (sub_pos.mpr hw), fun j hj => ne_of_gt (sub_pos.mpr (hr j hj)),
    _, kill_eq m c hwf hc (ne_of_lt hw) (fun j hj => ne_of_lt (hr j hj))⟩, ?_, ?_⟩
  · refine ⟨certainMixture ℚ, 0, 0, certainMixture_wf ℚ, by decide, by decide, ?_, ?_, ?_, ?_,
      kill_certainMixture.1, kill_certainMixture.2⟩
    · norm_num [certainMixture]
    · intro j hj
      have hj0 : j = 0 := by
        have : j < 1 := hj
        omega
      subst hj0
      norm_num [certainMixture, columnSum]
    · norm_num [certainMixture, entry]
    · norm_num [certainMixture, entry]
  · refine ⟨singleMixture ℚ, 0, ?_, rfl, by decide, ?_, ?_, ?_, ?_⟩
    · exact {
        components_length := rfl
        weights_length := rfl
        sample_size_length := rfl
        responsibility_length := rfl
        rows_length := by
          intro row hrow
          simp only [singleMixture, List.mem_singleton] at hrow
          subst hrow
          rfl
        data_length := rfl
        data_weights_length := rfl }
    · norm_num [singleMixture]
    · intro j hj
      have hj0 : j = 0 := by
        have : j < 1 := hj
        omega
      subst hj0
      norm_num [singleMixture, columnSum]
    · norm_num [singleMixture, entry]
    · norm_num [singleMixture, entry]

/-- In the sample mixture the weight and the responsibilities of component 1
are below 1, so `kill(1)` divides by non-zero numbers and succeeds. -/
theorem kill_divisors_witness :
    1 - entry (sampleMixture ℚ).weights 1 ≠ 0 ∧
      ∃ m', kill (sampleMixture ℚ) 1 = .ok m' := by
  have h := (kill_divisors (sampleMixture ℚ) 1 (sampleMixture_wf ℚ) (by decide)
    (by norm_num [sampleMixture, entry])
    (by
      intro j hj
      have hj2 : j < 2 := hj
      interval_cases j <;> norm_num [sampleMixture, entry])).1
  exact ⟨h.1, h.2.2⟩


/-! ## Index safety of `join` -/

theorem write_error {β : Type} (v : List β) (i : Nat) (x : β) (h : v.length ≤ i) :
    write v i x = .error Fault.outOfBounds := by
  unfold write
  rw [if_neg (by omega)]

theorem error_bind {β γ : Type} (e : Fault) (f : β → Exec γ) :
    ((Except.error e : Exec β) >>= f) = .error e := rfl

theorem length_filter_ne_same_range (c K : Nat) (hc : c < K) :
    ((List.range K).filter (fun i => decide (i ≠ c ∧ i ≠ c))).length = K - 1 := by
  have : (fun i => decide (i ≠ c ∧ i ≠ c)) = (fun i => decide (i ≠ c)) := by
    funext i
    simp
  rw [this]
  exact length_filter_ne_range c K hc

/-- Copy loop of `join` when both indices are the same component: the `K - 1`
other entries fill the whole output vector and the running index ends at
`K - 1`. -/
theorem join_copy_loop_same {β : Type} (K c : Nat) (hc : c < K)
    (v : List β) (d d0 : β) (hv : v.length = K) :
    ∃ out : List β, out.length = K - 1 ∧
    forLoop 0 K (fun i (s : Nat × List β) =>
      if i ≠ c ∧ i ≠ c then do
        let x ← read v i
        let out ← write s.2 s.1 x
        pure (s.1 + 1, out)
      else pure s) (0, List.replicate (K - 1) d0)
      = .ok (K - 1, out) := by
  have hlen := length_filter_ne_same_range c K hc
  have h : forLoop 0 K (fun i (s : Nat × List β) =>
      if i ≠ c ∧ i ≠ c then do
        let x ← read v i
        let out ← write s.2 s.1 x
        pure (s.1 + 1, out)
      else pure s) (0, List.replicate (K - 1) d0)
      = .ok (((List.range K).filter (fun i => decide (i ≠ c ∧ i ≠ c))).length,
          ((List.range K).filter (fun i => decide (i ≠ c ∧ i ≠ c))).map (fun i => v.getD i d)
            ++ (List.replicate (K - 1) d0).drop
              ((List.range K).filter (fun i => decide (i ≠ c ∧ i ≠ c))).length) := by
    apply forLoop_filter_copy K (fun i => decide (i ≠ c ∧ i ≠ c)) (fun i => v.getD i d)
    · rw [hlen, List.length_replicate]
    · intro i s hi hk hlt hlen _
      have hic : i ≠ c ∧ i ≠ c := of_decide_eq_true hk
      rw [if_pos hic, read_getD v i d (by omega), ok_bind, write_ok _ _ _ (by omega), ok_bind]
      rfl
    · intro i s hi hk
      have hic : ¬ (i ≠ c ∧ i ≠ c) := of_decide_eq_false hk
      rw [if_neg hic]
      rfl
  rw [hlen] at h
  refine ⟨_, ?_, h⟩
  rw [List.length_append, List.length_map, hlen, List.length_drop, List.length_replicate]
  omega

/-- C29: index safety of `join`.  For `K ≥ 2` and distinct indices
`c1, c2 < K` all four parts of `join(c1, c2)` run without leaving their
`(K-1)`-sized vectors `weights_m`, `responsibility_m`, `sample_size_m` and
`components_m`, and the merged entry lands at index `K - 2`.  For `c1 = c2`
the merged entry is written at index `K - 1`, outside the `(K-1)`-sized
vectors: each part, and `join` itself, ends with an out-of-bounds access. -/
theorem join_index_safety {κ α : Type} [Inhabited κ] [LinearOrderedField α]
    (m : Mixture κ α) (c1 c2 : Nat) (joined_comp : List κ) (hwf : m.WF) (hK : 2 ≤ m.K)
    (h1 : c1 < m.K) (h2 : c2 < m.K) (hj : 1 ≤ joined_comp.length) :
    (c1 ≠ c2 → ∃ W R S C,
      joinWeights m c1 c2 = .ok W ∧ joinResponsibility m c1 c2 = .ok R ∧
      joinSampleSize m c1 c2 = .ok S ∧ joinComponents m c1 c2 R.2 joined_comp = .ok C ∧
      W.length = m.K - 1 ∧ R.1.length = m.K - 1 ∧ S.length = m.K - 1 ∧ C.length = m.K - 1 ∧
      W[m.K - 2]? = some (entry m.weights c1 + entry m.weights c2) ∧
      R.1[m.K - 2]? = some R.2 ∧
      S[m.K - 2]? = some (entry m.sample_size c1 + entry m.sample_size c2) ∧
      C[m.K - 2]? = some (joined_comp.getD 0 default)) ∧
    (c1 = c2 →
      joinWeights m c1 c2 = .error Fault.outOfBounds ∧
      joinResponsibility m c1 c2 = .error Fault.outOfBounds ∧
      joinSampleSize m c1 c2 = .error Fault.outOfBounds ∧
      (∀ resp : List α, resp.length = m.data.length →
        joinComponents m c1 c2 resp joined_comp = .error Fault.outOfBounds) ∧
      join m c1 c2 joined_comp = .error Fault.outOfBounds) := by
  constructor
  · intro hne
    have hlen := (length_filter_ne2_range_of_lt c1 c2 m.K hne h1 h2).2
    have hget : ∀ {β : Type} (A : List β) (x : β), A.length = m.K - 2 →
        (A ++ [x])[m.K - 2]? = some x := by
      intro β A x hA
      rw [List.getElem?_append_right (by omega), hA, Nat.sub_self]
      rfl
    refine ⟨_, _, _, _, joinWeights_eq m c1 c2 hwf.weights_length hne h1 h2,
      joinResponsibility_eq m c1 c2 hwf.responsibility_length hwf.rows_length hne h1 h2,
      joinSampleSize_eq m c1 c2 hwf.sample_size_length hne h1 h2,
      joinComponents_eq m c1 c2 _ joined_comp hwf.components_length hne h1 h2
        (by rw [List.length_map, List.length_range, hwf.data_length]) hj,
      ?_, ?_, ?_, ?_, ?_, ?_, ?_, ?_⟩
    · rw [List.length_append, List.length_map, hlen, List.length_singleton]
      omega
    · rw [List.length_append, List.length_map, hlen, List.length_singleton]
      omega
    · rw [List.length_append, List.length_map, hlen, List.length_singleton]
      omega
    · rw [List.length_append, List.length_map, hlen, List.length_singleton]
      omega
    · exact hget _ _ (by rw [List.length_map, hlen])
    · exact hget _ _ (by rw [List.length_map, hlen])
    · exact hget _ _ (by rw [List.length_map, hlen])
    · exact hget _ _ (by rw [List.length_map, hlen])
  · intro heq
    subst heq
    have hrowlen : ∀ i, i < m.K → (m.responsibility.getD i []).length = m.N :=
      fun i hi => hwf.rows_length _ (getD_mem _ _ _ (by rw [hwf.responsibility_length]; exact hi))
    have hW : joinWeights m c1 c1 = .error Fault.outOfBounds := by
      obtain ⟨out, hout, hloop⟩ := join_copy_loop_same m.K c1 h1 m.weights 0 0
        hwf.weights_length
      unfold joinWeights
      dsimp only
      rw [allocate_pred m.K (by omega), ok_bind]
      refine (bind_congr_ok hloop _).trans ?_
      dsimp only
      rw [read_entry m.weights c1 (by rw [hwf.weights_length]; exact h1), ok_bind, ok_bind]
      exact write_error _ _ _ (by omega)
    have hR : joinResponsibility m c1 c1 = .error Fault.outOfBounds := by
      obtain ⟨out, hout, hloop⟩ := join_copy_loop_same m.K c1 h1 m.responsibility [] []
        hwf.responsibility_length
      have hresp : forLoop 0 m.N (fun i resp => do
          let r1 ← read m.responsibility c1
          let x1 ← read r1 i
          let r2 ← read m.responsibility c1
          let x2 ← read r2 i
          write resp i (x1 + x2)) (List.replicate m.N (0 : α))
          = .ok ((List.range m.N).map (fun j =>
              entry (m.responsibility.getD c1 []) j
                + entry (m.responsibility.getD c1 []) j)) := by
        apply forLoop_tabulate m.N _ _ _ (by simp)
        intro j v hj hv
        rw [read_getD m.responsibility c1 [] (by rw [hwf.responsibility_length]; exact h1)]
        simp only [ok_bind]
        rw [read_entry _ j (by rw [hrowlen c1 h1]; exact hj)]
        simp only [ok_bind]
        exact write_ok v j _ (by omega)
      unfold joinResponsibility
      dsimp only
      rw [allocate_pred m.K (by omega), ok_bind]
      refine (bind_congr_ok hloop _).trans ?_
      dsimp only
      rw [hresp, ok_bind, write_error _ _ _ (by omega)]
      rfl
    have hS : joinSampleSize m c1 c1 = .error Fault.outOfBounds := by
      obtain ⟨out, hout, hloop⟩ := join_copy_loop_same m.K c1 h1 m.sample_size 0 0
        hwf.sample_size_length
      unfold joinSampleSize
      dsimp only
      rw [allocate_pred m.K (by omega), ok_bind]
      refine (bind_congr_ok hloop _).trans ?_
      dsimp only
      rw [read_entry m.sample_size c1 (by rw [hwf.sample_size_length]; exact h1), ok_bind,
        ok_bind]
      exact write_error _ _ _ (by omega)
    refine ⟨hW, hR, hS, ?_, ?_⟩
    · intro resp hresp
      obtain ⟨out, hout, hloop⟩ := join_copy_loop_same m.K c1 h1 m.components default default
        hwf.components_length
      have hb : (resp.length == m.data.length) = true := by simpa using hresp
      unfold joinComponents
      dsimp only
      rw [allocate_pred m.K (by omega), ok_bind]
      refine (bind_congr_ok hloop _).trans ?_
      dsimp only
      rw [hb, assert_true, ok_bind, read_getD joined_comp 0 default (by omega), ok_bind]
      exact write_error _ _ _ (by omega)
    · unfold join
      rw [hW]
      rfl

/-- Joining components 0 and 2 of the sample mixture puts the merged weight
`3/4` at index 1 of the two-entry vector; joining component 1 with itself
writes outside it. -/
theorem join_index_safety_witness :
    (∃ W : List ℚ, joinWeights (sampleMixture ℚ) 0 2 = .ok W ∧ W.length = 2 ∧
      W[1]? = some (3 / 4)) ∧
    join (sampleMixture ℚ) 1 1 [30] = .error Fault.outOfBounds := by
  constructor
  · obtain ⟨W, _, _, _, hW, _, _, _, hlen, _, _, _, hget, _⟩ :=
      (join_index_safety (sampleMixture ℚ) 0 2 [30] (sampleMixture_wf ℚ) (by decide)
        (by decide) (by decide) (by decide)).1 (by decide)
    refine ⟨W, hW, hlen, ?_⟩
    rw [show (1 : Nat) = (sampleMixture ℚ).K - 2 from rfl, hget]
    norm_num [sampleMixture, entry]
  · exact ((join_index_safety (sampleMixture ℚ) 1 1 [30] (sampleMixture_wf ℚ) (by decide)
      (by decide) (by decide) (by decide)).2 rfl).2.2.2.2


/-! ## The assertion on the weight-encoding term -/

/-- Sum of logarithms against a linear bound: `ln x ≤ c x - 1 - ln c`. -/
theorem sum_log_le (c : ℝ) (hc : 0 < c) (w : List ℝ) (hpos : ∀ x ∈ w, 0 < x) :
    (w.map Real.log).sum ≤ c * w.sum - w.length - w.length * Real.log c := by
  induction w with
  | nil => simp
  | cons x xs ih =>
    have hx : 0 < x := hpos x (List.mem_cons_self _ _)
    have h1 := ih (fun y hy => hpos y (List.mem_cons_of_mem _ hy))
    have h2 : Real.log (c * x) ≤ c * x - 1 := Real.log_le_sub_one_of_pos (mul_pos hc hx)
    rw [Real.log_mul (ne_of_gt hc) (ne_of_gt hx)] at h2
    simp only [List.map_cons, List.sum_cons, List.length_cons, Nat.cast_add, Nat.cast_one]
    linarith

/-- Weights on the simplex: the sum of their logarithms is at most `-K ln K`. -/
theorem sum_log_simplex_le (w : List ℝ) (hK : 1 ≤ w.length) (hpos : ∀ x ∈ w, 0 < x)
    (hsum : w.sum = 1) : (w.map Real.log).sum ≤ -((w.length : ℝ) * Real.log w.length) := by
  have hc : (0 : ℝ) < (w.length : ℝ) := by exact_mod_cast hK
  have := sum_log_le (w.length : ℝ) hc w hpos
  rw [hsum] at this
  linarith

theorem log_factorial_le (n : Nat) :
    Real.log ((n.factorial : Nat) : ℝ) ≤ (n : ℝ) * Real.log ((n : ℝ) + 1) := by
  have h1 : ((n.factorial : Nat) : ℝ) ≤ ((n : ℝ) + 1) ^ n := by
    have : n.factorial ≤ (n + 1) ^ n :=
      le_trans (Nat.factorial_le_pow n) (Nat.pow_le_pow_left (Nat.le_succ n) n)
    exact_mod_cast this
  have h0 : (0 : ℝ) < ((n.factorial : Nat) : ℝ) := by exact_mod_cast Nat.factorial_pos n
  calc Real.log ((n.factorial : Nat) : ℝ) ≤ Real.log (((n : ℝ) + 1) ^ n) :=
        Real.log_le_log h0 h1
    _ = (n : ℝ) * Real.log ((n : ℝ) + 1) := by rw [Real.log_pow]

/-- The weight-encoding term is non-negative when there are at least as many
data points as components. -/
theorem weightsTerm_nonneg (K N : Nat) (hK : 1 ≤ K) (hNK : K ≤ N) (w : List ℝ)
    (hlen : w.length = K) (hpos : ∀ x ∈ w, 0 < x) (hsum : w.sum = 1) :
    0 ≤ ((K : ℝ) - 1) / 2 * Real.log (N : ℝ) - Real.log (((K - 1).factorial : Nat) : ℝ)
          - 1 / 2 * (w.map Real.log).sum := by
  have h1 := sum_log_simplex_le w (by omega) hpos hsum
  rw [hlen] at h1
  have h2 := log_factorial_le (K - 1)
  have hcast : ((K - 1 : Nat) : ℝ) + 1 = (K : ℝ) := by
    have : K - 1 + 1 = K := by omega
    exact_mod_cast this
  rw [hcast] at h2
  have hcast2 : ((K - 1 : Nat) : ℝ) = (K : ℝ) - 1 := by linarith
  rw [hcast2] at h2
  have hK1 : (1 : ℝ) ≤ (K : ℝ) := by exact_mod_cast hK
  have hlogK : 0 ≤ Real.log (K : ℝ) := Real.log_nonneg hK1
  have hlogN : Real.log (K : ℝ) ≤ Real.log (N : ℝ) :=
    Real.log_le_log (by linarith) (by exact_mod_cast hNK)
  have h3 : ((K : ℝ) - 1) / 2 * Real.log (K : ℝ) ≤ ((K : ℝ) - 1) / 2 * Real.log (N : ℝ) :=
    mul_le_mul_of_nonneg_left hlogN (by linarith)
  nlinarith

theorem lgamma_nat (K : Nat) (hK : 1 ≤ K) :
    Real.log (Real.Gamma (K : ℝ)) = Real.log (((K - 1).factorial : Nat) : ℝ) := by
  have : (K : ℝ) = ((K - 1 : Nat) : ℝ) + 1 := by
    have : K - 1 + 1 = K := by omega
    exact_mod_cast this.symm
  rw [this, Real.Gamma_nat_eq_factorial]

/-- What `updateWeights` stores when the sample sizes are non-negative and sum
to `N`: positive weights that sum to 1. -/
theorem updateWeights_on_simplex {κ : Type} (m : Mixture κ ℝ) (hK : 1 ≤ m.K)
    (hss : m.sample_size.length = m.K) (hw : m.weights.length = m.K)
    (hnn : ∀ s ∈ m.sample_size, 0 ≤ s) (hsum : m.sample_size.sum = (m.N : ℝ)) :
    updateWeights m
        = .ok { m with weights :=
            m.sample_size.map (fun s => (s + 0.5) / ((m.N : ℝ) + (m.K : ℝ) / 2)) } ∧
      (∀ x ∈ m.sample_size.map (fun s => (s + 0.5) / ((m.N : ℝ) + (m.K : ℝ) / 2)), 0 < x) ∧
      (m.sample_size.map (fun s => (s + 0.5) / ((m.N : ℝ) + (m.K : ℝ) / 2))).sum = 1 := by
  have hKpos : (0 : ℝ) < (m.K : ℝ) := by exact_mod_cast hK
  have hNnn : (0 : ℝ) ≤ (m.N : ℝ) := Nat.cast_nonneg _
  have hden : (0 : ℝ) < (m.N : ℝ) + (m.K : ℝ) / 2 := by positivity
  refine ⟨updateWeights_eq m hss hw (ne_of_gt hden), ?_, ?_⟩
  · intro x hx
    obtain ⟨s, hs, rfl⟩ := List.mem_map.mp hx
    have := hnn s hs
    positivity
  · rw [sum_map_add_div, hsum, hss]
    rw [div_eq_one_iff_eq (ne_of_gt hden)]
    ring

/-- With at least as many data points as components the weight-encoding term
is non-negative: for every `K ≥ 1`, `N ≥ K` and every weight vector produced
by `updateWeights` from non-negative effective sample sizes summing to `N`,
`Iw = ((K-1)/2) ln N - ln((K-1)!) - (1/2) * sum_i ln(weights[i])` is computed and
`0 ≤ Iw`.  This is a sufficient condition for the assertion `Iw >= 0`, not a
necessary one. -/
theorem msglenIw_nonneg {κ : Type} (m : Mixture κ ℝ) (hK : 1 ≤ m.K) (hNK : m.K ≤ m.N)
    (hss : m.sample_size.length = m.K) (hw : m.weights.length = m.K)
    (hnn : ∀ s ∈ m.sample_size, 0 ≤ s) (hsum : m.sample_size.sum = (m.N : ℝ)) :
    ∃ (m' : Mixture κ ℝ) (Iw : ℝ),
      updateWeights m = .ok m' ∧
      msglenIw Real.log (fun x => Real.log (Real.Gamma x)) m' = .ok Iw ∧
      Iw = ((m.K : ℝ) - 1) / 2 * Real.log (m.N : ℝ)
            - Real.log (((m.K - 1).factorial : Nat) : ℝ)
            - 1 / 2 * (m'.weights.map Real.log).sum ∧
      0 ≤ Iw := by
  obtain ⟨h1, h2, h3⟩ := updateWeights_on_simplex m hK hss hw hnn hsum
  refine ⟨_, _, h1, msglenIw_eq Real.log _ _ (by show 1 ≤ m.N; omega)
    (by show (m.sample_size.map _).length = m.K; rw [List.length_map, hss]) h2, ?_, ?_⟩
  · show _ - Real.log (Real.Gamma (m.K : ℝ)) - _ = _
    rw [lgamma_nat m.K hK]
  · show 0 ≤ _ - Real.log (Real.Gamma (m.K : ℝ)) - _
    rw [lgamma_nat m.K hK]
    exact weightsTerm_nonneg m.K m.N hK hNK _ (by rw [List.length_map, hss]) h2 h3

/-- A negative weight-encoding term makes `computeMinimumMessageLength` fail
with an assertion. -/
theorem computeMinimumMessageLength_aborts {κ : Type} [Inhabited κ] (lgamma : ℝ → ℝ)
    (ld : κ → List ℝ → ℝ) (log_prior : κ → ℝ) (MAX_COMPONENTS : Nat) (AOM PI : ℝ)
    (m : Mixture κ ℝ) (hMC : 1 ≤ MAX_COMPONENTS) (hAOM : 0 < AOM) (hPI : 0 < PI)
    (hK : 1 ≤ m.K) (hN : 1 ≤ m.N) (hc : m.components.length = m.K)
    (hw : m.weights.length = m.K) (hpos : ∀ w ∈ m.weights, 0 < w)
    (hneg : ((m.K : ℝ) - 1) / 2 * Real.log (m.N : ℝ) - lgamma (m.K : ℝ)
            - 1 / 2 * (m.weights.map Real.log).sum < 0) :
    computeMinimumMessageLength Real.exp Real.log lgamma ld log_prior MAX_COMPONENTS AOM PI m
      = .error Fault.assertion := by
  obtain ⟨nll, Ik, Iw, Il, It, cd, _, _, _, hIw, _, _, _, hres⟩ :=
    computeMinimumMessageLength_eq Real.exp Real.log lgamma Real.exp_pos
      (ne_of_gt (Real.log_pos (by norm_num))) ld log_prior MAX_COMPONENTS AOM PI m
      hMC hAOM hPI hK hN hc hw hpos
  rw [hres, if_neg]
  rintro ⟨_, h, _⟩
  rw [hIw] at h
  linarith

/-- C28: the assertion `Iw >= 0` of `computeMinimumMessageLength` fails on a
state the code can reach.  With ten components and one data point the
effective sample sizes `1, 0, ..., 0` are non-negative and sum to `N = 1`;
`updateWeights` computes from them the weights `1/4, 1/12, ..., 1/12`; the
weight-encoding term `Iw = ((K-1)/2) ln N - ln((K-1)!) - (1/2) * sum_i ln(weights[i])`
of these weights is negative, and `computeMinimumMessageLength` ends in the
failed assertion. -/
theorem msglenIw_negative :
    (∀ s ∈ (crowdedMixture ℝ).sample_size, 0 ≤ s) ∧
    (crowdedMixture ℝ).sample_size.sum = ((crowdedMixture ℝ).N : ℝ) ∧
    ∃ (m' : Mixture Nat ℝ) (Iw : ℝ),
      updateWeights (crowdedMixture ℝ) = .ok m' ∧
      msglenIw Real.log (fun x => Real.log (Real.Gamma x)) m' = .ok Iw ∧ Iw < 0 ∧
      computeMinimumMessageLength Real.exp Real.log (fun x => Real.log (Real.Gamma x))
          (fun _ _ => 0) (fun _ => 0) 20 (1 / 2) Real.pi m'
        = .error Fault.assertion := by
  have hnn : ∀ s ∈ (crowdedMixture ℝ).sample_size, 0 ≤ s := by
    intro s hs
    simp only [crowdedMixture, List.mem_cons, List.mem_replicate] at hs
    rcases hs with rfl | ⟨_, rfl⟩ <;> norm_num
  have hsum : (crowdedMixture ℝ).sample_size.sum = ((crowdedMixture ℝ).N : ℝ) := by
    simp [crowdedMixture]
  obtain ⟨h1, h2, h3⟩ := updateWeights_on_simplex (crowdedMixture ℝ) (by decide) rfl rfl
    hnn hsum
  have hneg : ((10 : ℝ) - 1) / 2 * Real.log (1 : ℝ) - Real.log (Real.Gamma (10 : ℝ))
      - 1 / 2 * (((1 :: List.replicate 9 (0 : ℝ)).map
          (fun s => (s + 0.5) / ((1 : ℝ) + (10 : ℝ) / 2))).map Real.log).sum < 0 := by
    have hG : Real.log (Real.Gamma (10 : ℝ)) = Real.log 362880 := by
      rw [show (10 : ℝ) = ((10 : Nat) : ℝ) by norm_num, lgamma_nat 10 (by decide)]
      norm_num [Nat.factorial]
    have e1 : Real.log 4 + 9 * Real.log 12 = Real.log (4 * 12 ^ 9) := by
      rw [Real.log_mul (by norm_num) (by positivity), Real.log_pow]
      norm_num
    have e2 : 2 * Real.log 362880 = Real.log (362880 ^ 2) := by
      rw [Real.log_pow]
      norm_num
    have e3 : Real.log (4 * 12 ^ 9) < Real.log (362880 ^ 2) :=
      Real.log_lt_log (by positivity) (by norm_num)
    have e4 : Real.log ((1 + 0.5) / ((1 : ℝ) + 10 / 2)) = -Real.log 4 := by
      rw [show ((1 + 0.5) / ((1 : ℝ) + 10 / 2)) = 4⁻¹ by norm_num, Real.log_inv]
    have e5 : Real.log ((0 + 0.5) / ((1 : ℝ) + 10 / 2)) = -Real.log 12 := by
      rw [show ((0 + 0.5) / ((1 : ℝ) + 10 / 2)) = 12⁻¹ by norm_num, Real.log_inv]
    simp only [List.map_cons, List.map_replicate, List.sum_cons, List.sum_replicate,
      Real.log_one, hG, e4, e5, nsmul_eq_mul]
    push_cast
    linarith
  refine ⟨hnn, hsum, _, _, h1, msglenIw_eq Real.log _ _ (by decide) rfl h2, ?_, ?_⟩
  · simpa [crowdedMixture] using hneg
  · apply computeMinimumMessageLength_aborts _ _ _ 20 _ _ _ (by decide) (by norm_num)
      Real.pi_pos (by decide) (by decide) rfl rfl h2
    simpa [crowdedMixture] using hneg

/-- The run of `msglenIw_nonneg` on the two-component child mixture over two
points: its weight-encoding term is non-negative. -/
theorem msglenIw_nonneg_witness :
    ∃ (m' : Mixture Nat ℝ) (Iw : ℝ),
      updateWeights (sampleChild ℝ) = .ok m' ∧
      msglenIw Real.log (fun x => Real.log (Real.Gamma x)) m' = .ok Iw ∧ 0 ≤ Iw := by
  obtain ⟨m', Iw, h1, h2, _, h4⟩ := msglenIw_nonneg (sampleChild ℝ) (by decide) (by decide)
    rfl rfl
    (by
      intro s hs
      simp only [sampleChild, List.mem_cons, List.mem_singleton, List.not_mem_nil,
        or_false] at hs
      rcases hs with h | h <;> rw [h] <;> norm_num)
    (by norm_num [sampleChild])
  exact ⟨m', Iw, h1, h2, h4⟩


/-! ## The series of `logModifiedBesselFirstKind` -/

theorem besselLoop_succ {α : Type} [LinearOrderedField α] (ZERO x2_4 alpha : α) (fuel : Nat)
    (s : BesselState α) :
    besselLoop ZERO x2_4 alpha (fuel + 1) s
      = besselPass x2_4 alpha s >>= fun s =>
          if s.R ≥ s.I * ZERO then besselLoop ZERO x2_4 alpha fuel s else pure s := rfl

theorem besselTerm_pos {α : Type} [LinearOrderedField α] (alpha x : α) (ha : 0 ≤ alpha)
    (k : Nat) : 0 ≤ besselTerm alpha x k ∧
      0 < (k.factorial : α) * ((List.range k).map (fun (j : Nat) => alpha + ((j : α) + 1))).prod := by
  have hprod : 0 < ((List.range k).map (fun (j : Nat) => alpha + ((j : α) + 1))).prod := by
    apply List.prod_pos
    intro a hmem
    obtain ⟨j, _, rfl⟩ := List.mem_map.mp hmem
    have : (0 : α) ≤ (j : α) := Nat.cast_nonneg j
    linarith
  have hfac : (0 : α) < (k.factorial : α) := by exact_mod_cast Nat.factorial_pos k
  refine ⟨?_, mul_pos hfac hprod⟩
  unfold besselTerm
  exact div_nonneg (pow_nonneg (by positivity) k) (le_of_lt (mul_pos hfac hprod))

theorem besselTerm_succ {α : Type} [LinearOrderedField α] (alpha x : α) (ha : 0 ≤ alpha)
    (k : Nat) :
    besselTerm alpha x (k + 1)
      = besselTerm alpha x k * (x * x * 0.25 / (((k : α) + 1) * (alpha + ((k : α) + 1)))) := by
  have h1 := (besselTerm_pos alpha x ha k).2
  have hk : (0 : α) < (k : α) + 1 := by
    have : (0 : α) ≤ (k : α) := Nat.cast_nonneg k
    linarith
  have hak : (0 : α) < alpha + ((k : α) + 1) := by linarith
  unfold besselTerm
  rw [List.range_succ, List.map_append, List.prod_append, Nat.factorial_succ]
  simp only [List.map_cons, List.map_nil, List.prod_cons, List.prod_nil, mul_one]
  push_cast
  have hf : (k.factorial : α) ≠ 0 := by exact_mod_cast Nat.factorial_ne_zero k
  have hp : ((List.range k).map (fun (j : Nat) => alpha + ((j : α) + 1))).prod ≠ 0 := by
    intro h0
    rw [h0, mul_zero] at h1
    exact lt_irrefl _ h1
  rw [show (0.25 : α) = 1 / 4 by norm_num]
  field_simp
  ring

/-- State of the loop after `k` passes, in closed form. -/
theorem besselPass_closed {α : Type} [LinearOrderedField α] (alpha x : α) (ha : 0 ≤ alpha)
    (k : Nat) :
    besselPass (x * x * 0.25) alpha
        { R := besselTerm alpha x k, I := besselPartialSum alpha x k, m := (k : α) + 1 }
      = .ok { R := besselTerm alpha x (k + 1), I := besselPartialSum alpha x (k + 1),
              m := ((k + 1 : Nat) : α) + 1 } := by
  have hk : (0 : α) < (k : α) + 1 := by
    have : (0 : α) ≤ (k : α) := Nat.cast_nonneg k
    linarith
  have hak : (0 : α) < alpha + ((k : α) + 1) := by linarith
  unfold besselPass
  dsimp only
  rw [fdiv, if_neg (ne_of_gt (mul_pos hk hak))]
  show Except.ok _ = Except.ok _
  congr 1
  rw [← besselTerm_succ alpha x ha k]
  congr 1
  · show besselPartialSum alpha x k + besselTerm alpha x (k + 1) = _
    unfold besselPartialSum
    rw [List.range_succ (k + 1), List.map_append, List.sum_append]
    simp
  · push_cast
    rfl

theorem besselLoop_run {α : Type} [LinearOrderedField α] (ZERO x2_4 alpha : α)
    (F : Nat → BesselState α) :
    ∀ k, (∀ j, j < k → besselPass x2_4 alpha (F j) = .ok (F (j + 1)) ∧
        (F (j + 1)).R ≥ (F (j + 1)).I * ZERO) →
      ∀ fuel, besselLoop ZERO x2_4 alpha (k + fuel) (F 0)
        = besselLoop ZERO x2_4 alpha fuel (F k) := by
  intro k
  induction k with
  | zero =>
    intro _ fuel
    rw [Nat.zero_add]
  | succ n ih =>
    intro h fuel
    have e : n + 1 + fuel = n + (fuel + 1) := by omega
    rw [e, ih (fun j hj => h j (by omega)) (fuel + 1), besselLoop_succ, (h n (by omega)).1,
      ok_bind, if_pos (h n (by omega)).2]

/-- The loop ends after the first pass `n` whose term is below `I * ZERO`. -/
theorem besselLoop_eq {α : Type} [LinearOrderedField α] (ZERO alpha x : α) (ha : 0 ≤ alpha)
    (n : Nat) (hn : 1 ≤ n)
    (hgo : ∀ k, 1 ≤ k → k < n → besselPartialSum alpha x k * ZERO ≤ besselTerm alpha x k)
    (hstop : besselTerm alpha x n < besselPartialSum alpha x n * ZERO) :
    (∀ fuel, fuel < n →
      besselLoop ZERO (x * x * 0.25) alpha fuel { R := 1, I := 1, m := 1 }
        = .error Fault.outOfFuel) ∧
    (∀ fuel, n ≤ fuel →
      besselLoop ZERO (x * x * 0.25) alpha fuel { R := 1, I := 1, m := 1 }
        = .ok { R := besselTerm alpha x n, I := besselPartialSum alpha x n,
                m := (n : α) + 1 }) := by
  have h0 : ({ R := 1, I := 1, m := 1 } : BesselState α)
      = { R := besselTerm alpha x 0, I := besselPartialSum alpha x 0, m := ((0 : Nat) : α) + 1 } := by
    have hr : List.range 1 = [0] := rfl
    simp [besselTerm, besselPartialSum, hr]
  have hrun := besselLoop_run ZERO (x * x * 0.25) alpha
    (fun k => { R := besselTerm alpha x k, I := besselPartialSum alpha x k, m := (k : α) + 1 })
  constructor
  · intro fuel hf
    have := hrun fuel (fun j hj => ⟨besselPass_closed alpha x ha j, hgo (j + 1) (by omega)
      (by omega)⟩) 0
    rw [Nat.add_zero] at this
    rw [h0, this]
    rfl
  · intro fuel hf
    obtain ⟨r, rfl⟩ : ∃ r, fuel = (n - 1) + (r + 1) := ⟨fuel - n, by omega⟩
    have := hrun (n - 1) (fun j hj => ⟨besselPass_closed alpha x ha j, hgo (j + 1) (by omega)
      (by omega)⟩) (r + 1)
    rw [h0, this, besselLoop_succ, besselPass_closed alpha x ha (n - 1), ok_bind]
    have hn1 : n - 1 + 1 = n := by omega
    rw [hn1, if_neg (not_le.mpr hstop)]
    rfl

theorem one_le_besselPartialSum {α : Type} [LinearOrderedField α] (alpha x : α)
    (ha : 0 ≤ alpha) (k : Nat) : 1 ≤ besselPartialSum alpha x k := by
  have h0 : besselTerm alpha x 0 = 1 := by simp [besselTerm]
  rw [← h0]
  unfold besselPartialSum
  apply List.single_le_sum
  · intro y hy
    obtain ⟨j, _, rfl⟩ := List.mem_map.mp hy
    exact (besselTerm_pos alpha x ha j).1
  · exact List.mem_map.mpr ⟨0, List.mem_range.mpr (by omega), rfl⟩

theorem besselTerm_le (alpha x : ℝ) (ha : 0 ≤ alpha) (k : Nat) :
    besselTerm alpha x k ≤ (x ^ 2 / 4) ^ k / (k.factorial : ℝ) := by
  have hprod : 1 ≤ ((List.range k).map (fun (j : Nat) => alpha + ((j : ℝ) + 1))).prod := by
    induction k with
    | zero => simp
    | succ n ih =>
      rw [List.range_succ, List.map_append, List.prod_append]
      simp only [List.map_cons, List.map_nil, List.prod_cons, List.prod_nil, mul_one]
      have h1 : (1 : ℝ) ≤ alpha + ((n : ℝ) + 1) := by
        have : (0 : ℝ) ≤ (n : ℝ) := Nat.cast_nonneg n
        linarith
      calc (1 : ℝ) = 1 * 1 := by ring
        _ ≤ _ := mul_le_mul ih h1 (by norm_num) (by linarith)
  have hfac : (0 : ℝ) < (k.factorial : ℝ) := by exact_mod_cast Nat.factorial_pos k
  unfold besselTerm
  apply div_le_div_of_nonneg_left (pow_nonneg (by positivity) k) hfac
  calc (k.factorial : ℝ) = (k.factorial : ℝ) * 1 := by ring
    _ ≤ _ := mul_le_mul_of_nonneg_left hprod (le_of_lt hfac)

/-- The terms of the series fall below any positive multiple of the sum. -/
theorem bessel_stop_exists (ZERO alpha x : ℝ) (ha : 0 ≤ alpha) (hZ : 0 < ZERO) :
    ∃ n, 1 ≤ n ∧ besselTerm alpha x n < besselPartialSum alpha x n * ZERO := by
  have hlim := FloorSemiring.tendsto_pow_div_factorial_atTop (x ^ 2 / 4 : ℝ)
  have hev := hlim.eventually (gt_mem_nhds hZ)
  obtain ⟨N, hN⟩ := Filter.eventually_atTop.mp hev
  refine ⟨max N 1, le_max_right _ _, ?_⟩
  have h1 := hN (max N 1) (le_max_left _ _)
  have h2 := besselTerm_le alpha x ha (max N 1)
  have h3 := one_le_besselPartialSum alpha x ha (max N 1)
  calc besselTerm alpha x (max N 1) < ZERO := lt_of_le_of_lt h2 h1
    _ = 1 * ZERO := by ring
    _ ≤ _ := mul_le_mul_of_nonneg_right h3 (le_of_lt hZ)

/-- C30: in `logModifiedBesselFirstKind(alpha, x)` with `alpha >= 0`, after the
`m`-th pass of the loop the running term `R` equals
`(x^2/4)^m / (m! * prod_{j=1..m}(alpha + j))` and the accumulator `I` equals the
partial sum of these terms for the indices `0..m`; the loop ends after the
first pass `n` with `R < I * ZERO` (there is one when `ZERO > 0`), and for
`x > 0` the value returned is `ln(I) + alpha ln(x/2) - lnGamma(alpha+1)` for that
partial sum `I` (when `alpha` is not 0 and `|x| <= TOLERANCE` the function
returns 0 before the loop). -/
theorem logModifiedBesselFirstKind_series (lgamma : ℝ → ℝ) (TOLERANCE ZERO alpha x : ℝ)
    (ha : 0 ≤ alpha) (hx : 0 < x) (hZ : 0 < ZERO) (hT : alpha = 0 ∨ TOLERANCE < |x|) :
    (∀ m, forLoop 0 m (fun _ s => besselPass (x * x * 0.25) alpha s)
        { R := 1, I := 1, m := 1 }
      = .ok { R := (x ^ 2 / 4) ^ m / ((m.factorial : ℝ)
                * ((List.range m).map (fun (j : Nat) => alpha + ((j : ℝ) + 1))).prod),
              I := ((List.range (m + 1)).map (besselTerm alpha x)).sum,
              m := (m : ℝ) + 1 }) ∧
    ∃ n, 1 ≤ n ∧
      besselTerm alpha x n < besselPartialSum alpha x n * ZERO ∧
      (∀ k, 1 ≤ k → k < n → besselPartialSum alpha x k * ZERO ≤ besselTerm alpha x k) ∧
      (∀ fuel, fuel < n →
        logModifiedBesselFirstKind Real.log lgamma TOLERANCE ZERO alpha x fuel
          = .error Fault.outOfFuel) ∧
      (∀ fuel, n ≤ fuel →
        logModifiedBesselFirstKind Real.log lgamma TOLERANCE ZERO alpha x fuel
          = .ok (Real.log (besselPartialSum alpha x n) + alpha * Real.log (x / 2)
              - lgamma (alpha + 1))) := by
  constructor
  · intro m
    have h0 : ({ R := 1, I := 1, m := 1 } : BesselState ℝ)
        = { R := besselTerm alpha x 0, I := besselPartialSum alpha x 0,
            m := ((0 : Nat) : ℝ) + 1 } := by
      have hr : List.range 1 = [0] := rfl
      simp [besselTerm, besselPartialSum, hr]
    rw [h0]
    exact forLoop_closed 0 (fun _ s => besselPass (x * x * 0.25) alpha s)
      (fun k => { R := besselTerm alpha x k, I := besselPartialSum alpha x k,
                  m := (k : ℝ) + 1 })
      m (Nat.zero_le m) (fun i _ _ => besselPass_closed alpha x ha i)
  · classical
    have hex := bessel_stop_exists ZERO alpha x ha hZ
    have hspec := Nat.find_spec hex
    have hmin : ∀ k, 1 ≤ k → k < Nat.find hex →
        besselPartialSum alpha x k * ZERO ≤ besselTerm alpha x k := by
      intro k hk1 hk
      exact not_lt.mp (fun h => Nat.find_min hex hk ⟨hk1, h⟩)
    obtain ⟨hout, hok⟩ := besselLoop_eq ZERO alpha x ha (Nat.find hex) hspec.1 hmin hspec.2
    have hI : 0 < besselPartialSum alpha x (Nat.find hex) :=
      lt_of_lt_of_le one_pos (one_le_besselPartialSum alpha x ha _)
    have hx2 : (0 : ℝ) < x / 2.0 := by
      rw [show (2.0 : ℝ) = 2 by norm_num]
      positivity
    refine ⟨Nat.find hex, hspec.1, hspec.2, hmin, ?_, ?_⟩
    · intro fuel hf
      unfold logModifiedBesselFirstKind
      by_cases h0 : alpha = 0
      · rw [if_pos h0]
        dsimp only
        rw [hout fuel hf]
        rfl
      · rw [if_neg h0, if_neg (not_le.mpr (hT.resolve_left h0))]
        dsimp only
        rw [hout fuel hf]
        rfl
    · intro fuel hf
      unfold logModifiedBesselFirstKind
      by_cases h0 : alpha = 0
      · rw [if_pos h0]
        dsimp only
        rw [hok fuel hf, ok_bind, flog_ok _ _ hI, ok_bind, flog_ok _ _ hx2, ok_bind]
        rw [show (2.0 : ℝ) = 2 by norm_num]
        rfl
      · rw [if_neg h0, if_neg (not_le.mpr (hT.resolve_left h0))]
        dsimp only
        rw [hok fuel hf, ok_bind, flog_ok _ _ hI, ok_bind, flog_ok _ _ hx2, ok_bind]
        rw [show (2.0 : ℝ) = 2 by norm_num]
        rfl

/-- The series of `logModifiedBesselFirstKind(1/2, 1)` with `ZERO = 1/10`. -/
theorem logModifiedBesselFirstKind_series_witness :
    ∃ n, 1 ≤ n ∧ ∀ fuel, n ≤ fuel →
      logModifiedBesselFirstKind Real.log (fun t => Real.log (Real.Gamma t)) (1 / 100) (1 / 10)
          (1 / 2) 1 fuel
        = .ok (Real.log (besselPartialSum (1 / 2 : ℝ) 1 n) + 1 / 2 * Real.log (1 / 2)
            - Real.log (Real.Gamma (1 / 2 + 1))) := by
  obtain ⟨n, h1, _, _, _, h5⟩ :=
    (logModifiedBesselFirstKind_series (fun t => Real.log (Real.Gamma t)) (1 / 100) (1 / 10)
      (1 / 2) 1 (by norm_num) (by norm_num) (by norm_num)
      (Or.inr (by rw [abs_one]; norm_num))).2
  exact ⟨n, h1, h5⟩


/-! ## Vectors on the sphere -/

theorem crossProduct_eq {α : Type} [LinearOrderedField α] (a b c d e f : α) :
    crossProduct [a, b, c] [d, e, f] = .ok [b * f - c * e, c * d - a * f, a * e - b * d] := rfl

theorem computeDotProduct_eq {α : Type} [LinearOrderedField α] (a b c d e f : α) :
    computeDotProduct [a, b, c] [d, e, f] = .ok (0 + a * d + b * e + c * f) := rfl

theorem norm_eq {α : Type} [LinearOrderedField α] (sqrt : α → α) (a b c : α) :
    norm sqrt [a, b, c] = .ok (sqrt (0 + a * a + b * b + c * c)) := rfl

theorem normalize_eq {α : Type} [LinearOrderedField α] (sqrt : α → α) (a b c : α)
    (u0 u1 u2 : α) (h : sqrt (0 + a * a + b * b + c * c) ≠ 0) :
    normalize sqrt [a, b, c] [u0, u1, u2]
      = .ok (sqrt (0 + a * a + b * b + c * c),
          [a / sqrt (0 + a * a + b * b + c * c), b / sqrt (0 + a * a + b * b + c * c),
            c / sqrt (0 + a * a + b * b + c * c)]) := by
  unfold normalize
  rw [norm_eq, ok_bind]
  generalize sqrt (0 + a * a + b * b + c * c) = r at h
  simp [forLoop, read, write, fdiv, h, bind, Except.bind, pure, Except.pure]

theorem spherical2cartesian_eq {α : Type} [LinearOrderedField α] (sin cos : α → α)
    (r theta phi u0 u1 u2 : α) :
    spherical2cartesian sin cos [r, theta, phi] [u0, u1, u2]
      = .ok [r * sin theta * cos phi, r * sin theta * sin phi, r * cos theta] := rfl

theorem trans_eq {α : Type} [LinearOrderedField α] (a b c d e f g h k : α) :
    trans [[a, b, c], [d, e, f], [g, h, k]] = [[a, d, g], [b, e, h], [c, f, k]] := rfl

theorem matrixProd_eq {α : Type} [LinearOrderedField α]
    (a b c d e f g h k a' b' c' d' e' f' g' h' k' : α) :
    matrixProd [[a, b, c], [d, e, f], [g, h, k]] [[a', b', c'], [d', e', f'], [g', h', k']]
      = [[a * a' + (b * d' + (c * g' + 0)), a * b' + (b * e' + (c * h' + 0)),
            a * c' + (b * f' + (c * k' + 0))],
          [d * a' + (e * d' + (f * g' + 0)), d * b' + (e * e' + (f * h' + 0)),
            d * c' + (e * f' + (f * k' + 0))],
          [g * a' + (h * d' + (k * g' + 0)), g * b' + (h * e' + (k * h' + 0)),
            g * c' + (h * f' + (k * k' + 0))]] := rfl

theorem prod_eq {α : Type} [LinearOrderedField α] (a b c d e f g h k x y z : α) :
    prod [[a, b, c], [d, e, f], [g, h, k]] [x, y, z]
      = .ok [0 + a * x + b * y + c * z, 0 + d * x + e * y + f * z,
          0 + g * x + h * y + k * z] := rfl

theorem rotate_about_zaxis_eq {α : Type} [LinearOrderedField α] (sin cos : α → α)
    (theta : α) :
    rotate_about_zaxis sin cos theta
      = .ok [[cos theta, -sin theta, 0], [-(-sin theta), cos theta, 0], [0, 0, 1]] := rfl


/-- Azimuth recovered from the arc cosine: with `x² + y² = s²`, `s > 0`, the
angle `φ = arccos (x/s)` for `y ≥ 0` and `φ = 2π - arccos (x/s)` for `y < 0`
satisfies `s cos φ = x`, `s sin φ = y` and `0 ≤ φ < 2π`. -/
theorem azimuth_spec (x y s : ℝ) (hs : 0 < s) (h : x ^ 2 + y ^ 2 = s ^ 2) :
    -1 ≤ x / s ∧ x / s ≤ 1 ∧
    (0 ≤ y → s * Real.cos (Real.arccos (x / s)) = x ∧ s * Real.sin (Real.arccos (x / s)) = y ∧
      0 ≤ Real.arccos (x / s) ∧ Real.arccos (x / s) < 2 * Real.pi) ∧
    (y < 0 → s * Real.cos (2 * Real.pi - Real.arccos (x / s)) = x ∧
      s * Real.sin (2 * Real.pi - Real.arccos (x / s)) = y ∧
      0 ≤ 2 * Real.pi - Real.arccos (x / s) ∧
      2 * Real.pi - Real.arccos (x / s) < 2 * Real.pi) := by
  have hxs : x ^ 2 ≤ s ^ 2 := by nlinarith [sq_nonneg y]
  have habs : |x| ≤ s := by
    have := abs_le_of_sq_le_sq' hxs (le_of_lt hs)
    exact abs_le.mpr this
  have h1 : -1 ≤ x / s := by
    rw [le_div_iff₀ hs]
    linarith [(abs_le.mp habs).1]
  have h2 : x / s ≤ 1 := by
    rw [div_le_iff₀ hs]
    linarith [(abs_le.mp habs).2]
  have hcos : s * Real.cos (Real.arccos (x / s)) = x := by
    rw [Real.cos_arccos h1 h2]
    field_simp
  have hsin : s * Real.sin (Real.arccos (x / s)) = |y| := by
    rw [Real.sin_arccos]
    have e : 1 - (x / s) ^ 2 = (|y| / s) ^ 2 := by
      field_simp
      linarith
    rw [e, Real.sqrt_sq (div_nonneg (abs_nonneg y) (le_of_lt hs))]
    field_simp
  have hpi := Real.pi_pos
  refine ⟨h1, h2, ?_, ?_⟩
  · intro hy
    refine ⟨hcos, ?_, Real.arccos_nonneg _, ?_⟩
    · rw [hsin, abs_of_nonneg hy]
    · linarith [Real.arccos_le_pi (x / s)]
  · intro hy
    refine ⟨?_, ?_, ?_, ?_⟩
    · rw [Real.cos_two_pi_sub]
      exact hcos
    · rw [Real.sin_two_pi_sub, mul_neg, hsin, abs_of_neg hy]
      ring
    · linarith [Real.arccos_le_pi (x / s)]
    · have hne : Real.arccos (x / s) ≠ 0 := by
        intro h0
        have h3 : 1 ≤ x / s := Real.arccos_eq_zero.mp h0
        have h4 : x / s = 1 := le_antisymm h2 h3
        have h5 : x = s := by
          field_simp at h4
          exact h4
        have : y ^ 2 = 0 := by
          rw [h5] at h
          linarith
        have : y = 0 := pow_eq_zero_iff (by norm_num) |>.mp this
        linarith
      have := lt_of_le_of_ne (Real.arccos_nonneg (x / s)) (Ne.symm hne)
      linarith


theorem sq_sum_pos (a b c : ℝ) (hne : a ≠ 0 ∨ b ≠ 0 ∨ c ≠ 0) :
    0 < 0 + a * a + b * b + c * c := by
  rcases hne with h | h | h
  · have := mul_self_pos.mpr h
    nlinarith [mul_self_nonneg b, mul_self_nonneg c]
  · have := mul_self_pos.mpr h
    nlinarith [mul_self_nonneg a, mul_self_nonneg c]
  · have := mul_self_pos.mpr h
    nlinarith [mul_self_nonneg a, mul_self_nonneg b]

/-- Result of `cartesian2spherical` on a non-zero 3-vector. -/
theorem cartesian2spherical_spec (a b c s0 s1 s2 : ℝ) (hne : a ≠ 0 ∨ b ≠ 0 ∨ c ≠ 0) :
    ∃ r theta phi : ℝ,
      cartesian2spherical Real.sqrt Real.arccos Real.sin Real.pi [a, b, c] [s0, s1, s2]
        = .ok [r, theta, phi] ∧
      r = Real.sqrt (a ^ 2 + b ^ 2 + c ^ 2) ∧ 0 < r ∧ theta = Real.arccos (c / r) ∧
      0 ≤ theta ∧ theta ≤ Real.pi ∧ 0 ≤ phi ∧ phi < 2 * Real.pi ∧
      r * Real.sin theta * Real.cos phi = a ∧ r * Real.sin theta * Real.sin phi = b ∧
      r * Real.cos theta = c := by
  have hq := sq_sum_pos a b c hne
  have hr : 0 < Real.sqrt (0 + a * a + b * b + c * c) := Real.sqrt_pos.mpr hq
  have hr2 : Real.sqrt (0 + a * a + b * b + c * c) ^ 2 = 0 + a * a + b * b + c * c :=
    Real.sq_sqrt (le_of_lt hq)
  have hre : Real.sqrt (a ^ 2 + b ^ 2 + c ^ 2) = Real.sqrt (0 + a * a + b * b + c * c) := by
    congr 1
    ring
  rw [hre]
  unfold cartesian2spherical
  dsimp only
  rw [show List.replicate 3 (0 : ℝ) = [0, 0, 0] from rfl,
    normalize_eq Real.sqrt a b c 0 0 0 (ne_of_gt hr), ok_bind]
  generalize Real.sqrt (0 + a * a + b * b + c * c) = r at hr hr2
  have hx : (a / r) ^ 2 + (b / r) ^ 2 + (c / r) ^ 2 = 1 := by
    field_simp
    linarith
  have hz1 : -1 ≤ c / r := by
    nlinarith [sq_nonneg (a / r), sq_nonneg (b / r), sq_nonneg (c / r + 1)]
  have hz2 : c / r ≤ 1 := by
    nlinarith [sq_nonneg (a / r), sq_nonneg (b / r), sq_nonneg (c / r - 1)]
  have hcos : r * Real.cos (Real.arccos (c / r)) = c := by
    rw [Real.cos_arccos hz1 hz2]
    field_simp
  have hsin : Real.sin (Real.arccos (c / r)) = Real.sqrt ((a / r) ^ 2 + (b / r) ^ 2) := by
    rw [Real.sin_arccos]
    congr 1
    linarith
  have hrx : r * (a / r) = a := by field_simp
  have hry : r * (b / r) = b := by field_simp
  by_cases hxy : a / r = 0 ∧ b / r = 0
  · refine ⟨r, Real.arccos (c / r), 0, ?_, rfl, hr, rfl, Real.arccos_nonneg _,
      Real.arccos_le_pi _, le_refl _, by positivity, ?_, ?_, hcos⟩
    · show (if a / r = 0 ∧ b / r = 0 then _ else _) = _
      rw [if_pos hxy]
      rfl
    · rw [hsin, hxy.1, hxy.2]
      rw [← hrx, hxy.1]
      simp
    · rw [Real.sin_zero, ← hry, hxy.2]
      simp
  · have hs2 : 0 < (a / r) ^ 2 + (b / r) ^ 2 := by
      rcases not_and_or.mp hxy with h | h
      · have := pow_pos (abs_pos.mpr h) 2
        rw [sq_abs] at this
        nlinarith [sq_nonneg (b / r)]
      · have := pow_pos (abs_pos.mpr h) 2
        rw [sq_abs] at this
        nlinarith [sq_nonneg (a / r)]
    have hs : 0 < Real.sqrt ((a / r) ^ 2 + (b / r) ^ 2) := Real.sqrt_pos.mpr hs2
    have hss : (a / r) ^ 2 + (b / r) ^ 2 = Real.sqrt ((a / r) ^ 2 + (b / r) ^ 2) ^ 2 :=
      (Real.sq_sqrt (le_of_lt hs2)).symm
    obtain ⟨hb1, hb2, hup, hlow⟩ := azimuth_spec (a / r) (b / r) _ hs hss
    have hclamp : (if a / r / Real.sqrt ((a / r) ^ 2 + (b / r) ^ 2) > 1 then 1
        else if a / r / Real.sqrt ((a / r) ^ 2 + (b / r) ^ 2) < -1 then -1
        else a / r / Real.sqrt ((a / r) ^ 2 + (b / r) ^ 2))
        = a / r / Real.sqrt ((a / r) ^ 2 + (b / r) ^ 2) := by
      rw [if_neg (not_lt.mpr hb2), if_neg (not_lt.mpr hb1)]
    have hgoal : ∀ phi : ℝ,
        r * Real.sin (Real.arccos (c / r)) * Real.cos phi
            = r * (Real.sqrt ((a / r) ^ 2 + (b / r) ^ 2) * Real.cos phi) ∧
          r * Real.sin (Real.arccos (c / r)) * Real.sin phi
            = r * (Real.sqrt ((a / r) ^ 2 + (b / r) ^ 2) * Real.sin phi) := by
      intro phi
      rw [hsin]
      constructor <;> ring
    by_cases hy : 0 ≤ b / r
    · obtain ⟨h1, h2, h3, h4⟩ := hup hy
      refine ⟨r, Real.arccos (c / r), _, ?_, rfl, hr, rfl, Real.arccos_nonneg _,
        Real.arccos_le_pi _, h3, h4, ?_, ?_, hcos⟩
      · show (if a / r = 0 ∧ b / r = 0 then _ else _) = _
        rw [if_neg hxy]
        show (fdiv (a / r) (Real.sin (Real.arccos (c / r))) >>= _) = _
        rw [hsin, fdiv, if_neg (ne_of_gt hs), ok_bind]
        simp only [hclamp]
        show (if a / r = 0 then (if b / r > 0 then _ else _)
          else (if b / r ≥ 0 then _ else (if b / r < 0 then _ else _))) = _
        by_cases hx0 : a / r = 0
        · have hypos : b / r > 0 :=
            lt_of_le_of_ne hy (fun h => hxy ⟨hx0, h.symm⟩)
          rw [if_pos hx0, if_pos hypos]
          rfl
        · rw [if_neg hx0, if_pos hy]
          rfl
      · rw [(hgoal _).1, h1, hrx]
      · rw [(hgoal _).2, h2, hry]
    · have hyneg : b / r < 0 := not_le.mp hy
      obtain ⟨h1, h2, h3, h4⟩ := hlow hyneg
      refine ⟨r, Real.arccos (c / r), _, ?_, rfl, hr, rfl, Real.arccos_nonneg _,
        Real.arccos_le_pi _, h3, h4, ?_, ?_, hcos⟩
      · show (if a / r = 0 ∧ b / r = 0 then _ else _) = _
        rw [if_neg hxy]
        show (fdiv (a / r) (Real.sin (Real.arccos (c / r))) >>= _) = _
        rw [hsin, fdiv, if_neg (ne_of_gt hs), ok_bind]
        simp only [hclamp]
        show (if a / r = 0 then (if b / r > 0 then _ else _)
          else (if b / r ≥ 0 then _ else (if b / r < 0 then _ else _))) = _
        by_cases hx0 : a / r = 0
        · rw [if_pos hx0, if_neg (not_lt.mpr (le_of_lt hyneg))]
          rfl
        · rw [if_neg hx0, if_neg hy, if_pos hyneg]
          rfl
      · rw [(hgoal _).1, h1, hrx]
      · rw [(hgoal _).2, h2, hry]

/-- C21: round trip.  For every non-zero 3-vector `v`, `cartesian2spherical`
returns `(r, theta, phi)` with `r = |v|`, `theta` the angle with `+Z` in
`[0, pi]` and `phi` the azimuth from `+X` in `[0, 2 pi)`, and
`spherical2cartesian` applied to it gives back `v`. -/
theorem spherical_round_trip (v spherical cartesian : List ℝ) (hv : v.length = 3)
    (hne : ∃ x ∈ v, x ≠ 0) (hs : spherical.length = 3) (hc : cartesian.length = 3) :
    ∃ r theta phi : ℝ,
      cartesian2spherical Real.sqrt Real.arccos Real.sin Real.pi v spherical
        = .ok [r, theta, phi] ∧
      r = Real.sqrt ((v.map (fun x => x ^ 2)).sum) ∧
      theta = Real.arccos (entry v 2 / r) ∧ 0 ≤ theta ∧ theta ≤ Real.pi ∧
      0 ≤ phi ∧ phi < 2 * Real.pi ∧
      r * Real.sin theta * Real.cos phi = entry v 0 ∧
      r * Real.sin theta * Real.sin phi = entry v 1 ∧
      r * Real.cos theta = entry v 2 ∧
      spherical2cartesian Real.sin Real.cos [r, theta, phi] cartesian = .ok v := by
  obtain ⟨a, b, c, rfl⟩ := List.length_eq_three.mp hv
  obtain ⟨s0, s1, s2, rfl⟩ := List.length_eq_three.mp hs
  obtain ⟨u0, u1, u2, rfl⟩ := List.length_eq_three.mp hc
  have hne3 : a ≠ 0 ∨ b ≠ 0 ∨ c ≠ 0 := by
    obtain ⟨x, hx, hx0⟩ := hne
    simp only [List.mem_cons, List.mem_singleton, List.not_mem_nil, or_false] at hx
    rcases hx with rfl | rfl | rfl
    · exact Or.inl hx0
    · exact Or.inr (Or.inl hx0)
    · exact Or.inr (Or.inr hx0)
  obtain ⟨r, theta, phi, h1, h2, h3, h4, h5, h6, h7, h8, h9, h10, h11⟩ :=
    cartesian2spherical_spec a b c s0 s1 s2 hne3
  refine ⟨r, theta, phi, h1, ?_, h4, h5, h6, h7, h8, h9, h10, h11, ?_⟩
  · rw [h2]
    congr 1
    simp only [List.map_cons, List.map_nil, List.sum_cons, List.sum_nil]
    ring
  · rw [spherical2cartesian_eq, h9, h10, h11]

/-- The vector `(3, 4, 0)` has norm 5 and is recovered from its spherical
coordinates. -/
theorem spherical_round_trip_witness :
    ∃ theta phi : ℝ,
      cartesian2spherical Real.sqrt Real.arccos Real.sin Real.pi [3, 4, 0] [0, 0, 0]
        = .ok [5, theta, phi] ∧
      spherical2cartesian Real.sin Real.cos [5, theta, phi] [0, 0, 0] = .ok [3, 4, 0] := by
  obtain ⟨r, theta, phi, h1, h2, _, _, _, _, _, _, _, _, h11⟩ :=
    spherical_round_trip [3, 4, 0] [0, 0, 0] [0, 0, 0] rfl ⟨3, by simp, by norm_num⟩ rfl rfl
  have hr : r = 5 := by
    rw [h2]
    have : (([3, 4, 0] : List ℝ).map (fun x => x ^ 2)).sum = 5 ^ 2 := by norm_num
    rw [this, Real.sqrt_sq (by norm_num)]
  subst hr
  exact ⟨theta, phi, h1, h11⟩


theorem vec3_eq {β : Type} {a b c a' b' c' : β} (h1 : a = a') (h2 : b = b') (h3 : c = c') :
    [a, b, c] = [a', b', c'] := by
  subst h1 h2 h3
  rfl

/-- The rotation `align_zaxis_with_vector` builds from the spherical
coordinates of its argument. -/
theorem align_zaxis_with_vector_eq (y : List ℝ) (r theta phi : ℝ)
    (h : cartesian2spherical Real.sqrt Real.arccos Real.sin Real.pi y [0, 0, 0]
      = .ok [r, theta, phi]) :
    align_zaxis_with_vector Real.sqrt Real.arccos Real.sin Real.cos Real.pi y
      = .ok [[Real.cos phi * Real.cos theta, -Real.sin phi, Real.cos phi * Real.sin theta],
             [Real.sin phi * Real.cos theta, Real.cos phi, Real.sin phi * Real.sin theta],
             [-Real.sin theta, 0, Real.cos theta]] := by
  unfold align_zaxis_with_vector
  dsimp only
  rw [show List.replicate 3 (0 : ℝ) = [0, 0, 0] from rfl, h, ok_bind]
  show Except.ok (matrixProd
    [[Real.cos phi, -Real.sin phi, 0], [-(-Real.sin phi), Real.cos phi, 0], [0, 0, 1]]
    [[Real.cos theta, 0, Real.sin theta], [0, 1, 0], [-Real.sin theta, 0, Real.cos theta]])
    = _
  rw [matrixProd_eq]
  congr 1
  exact vec3_eq (vec3_eq (by ring) (by ring) (by ring)) (vec3_eq (by ring) (by ring) (by ring))
    (vec3_eq (by ring) (by ring) (by ring))

theorem prod_XAXIS {α : Type} [LinearOrderedField α] (a b c d e f g h k : α) :
    prod [[a, b, c], [d, e, f], [g, h, k]] XAXIS = .ok [a, d, g] := by
  rw [XAXIS, prod_eq]
  congr 1
  exact vec3_eq (by ring) (by ring) (by ring)

theorem prod_YAXIS {α : Type} [LinearOrderedField α] (a b c d e f g h k : α) :
    prod [[a, b, c], [d, e, f], [g, h, k]] YAXIS = .ok [b, e, h] := by
  rw [YAXIS, prod_eq]
  congr 1
  exact vec3_eq (by ring) (by ring) (by ring)

theorem prod_ZAXIS {α : Type} [LinearOrderedField α] (a b c d e f g h k : α) :
    prod [[a, b, c], [d, e, f], [g, h, k]] ZAXIS = .ok [c, f, k] := by
  rw [ZAXIS, prod_eq]
  congr 1
  exact vec3_eq (by ring) (by ring) (by ring)

/-- Product of a matrix with a rotation about the Z axis. -/
theorem matrixProd_rotation {α : Type} [LinearOrderedField α] (a b c d e f g h k cs sn : α) :
    matrixProd [[a, b, c], [d, e, f], [g, h, k]] [[cs, -sn, 0], [-(-sn), cs, 0], [0, 0, 1]]
      = [[a * cs + b * sn, -(a * sn) + b * cs, c], [d * cs + e * sn, -(d * sn) + e * cs, f],
          [g * cs + h * sn, -(g * sn) + h * cs, k]] := by
  rw [matrixProd_eq]
  exact vec3_eq (vec3_eq (by ring) (by ring) (by ring)) (vec3_eq (by ring) (by ring) (by ring))
    (vec3_eq (by ring) (by ring) (by ring))

theorem sqrt_sq_sum_eq_one (a b c : ℝ) (h : a ^ 2 + b ^ 2 + c ^ 2 = 1) :
    Real.sqrt (a ^ 2 + b ^ 2 + c ^ 2) = 1 ∧ (a ≠ 0 ∨ b ≠ 0 ∨ c ≠ 0) := by
  constructor
  · rw [h, Real.sqrt_one]
  · by_contra hall
    push_neg at hall
    obtain ⟨ha, hb, hc⟩ := hall
    rw [ha, hb, hc] at h
    norm_num at h

/-- First column of the transformation: the major axis. -/
theorem frame_column_x (s1 c1 s2 c2 sp cp d e f : ℝ) (hth : s1 ^ 2 + c1 ^ 2 = 1)
    (hph : s2 ^ 2 + c2 ^ 2 = 1) (hz : c2 * s1 * d + s2 * s1 * e + c1 * f = 0)
    (hP : 1 * 1 * cp = c2 * c1 * d + s2 * c1 * e - s1 * f)
    (hQ : 1 * 1 * sp = -s2 * d + c2 * e) :
    [c2 * c1 * cp + -s2 * sp, s2 * c1 * cp + c2 * sp, -s1 * cp + 0 * sp] = [d, e, f] := by
  refine vec3_eq ?_ ?_ ?_
  · linear_combination (c2 * (c2 * d + s2 * e)) * hth + d * hph - (c2 * s1) * hz
      + (c2 * c1) * hP - s2 * hQ
  · linear_combination (s2 * (c2 * d + s2 * e)) * hth + e * hph - (s2 * s1) * hz
      + (s2 * c1) * hP + c2 * hQ
  · linear_combination f * hth - c1 * hz - s1 * hP

/-- Second column of the transformation: the cross product of the mean and the
major axis. -/
theorem frame_column_y (s1 c1 s2 c2 sp cp a b c d e f : ℝ)
    (hph : s2 ^ 2 + c2 ^ 2 = 1)
    (hA : 1 * s1 * c2 = a) (hB : 1 * s1 * s2 = b) (hC : 1 * c1 = c)
    (hP : 1 * 1 * cp = c2 * c1 * d + s2 * c1 * e - s1 * f)
    (hQ : 1 * 1 * sp = -s2 * d + c2 * e) :
    [-(c2 * c1 * sp) + -s2 * cp, -(s2 * c1 * sp) + c2 * cp, -(-s1 * sp) + 0 * cp]
      = [b * f - c * e, c * d - a * f, a * e - b * d] := by
  refine vec3_eq ?_ ?_ ?_
  · linear_combination -(c2 * c1) * hQ - s2 * hP - (c1 * e) * hph + f * hB - e * hC
  · linear_combination -(s2 * c1) * hQ + c2 * hP + (c1 * d) * hph - f * hA + d * hC
  · linear_combination s1 * hQ + e * hA - d * hB

/-- What `computeOrthogonalTransformation(mean, major_axis)` does to the three
axes, for a unit mean `(a, b, c)` and a unit major axis `(d, e, f)` orthogonal
to it. -/
theorem computeOrthogonalTransformation_spec (a b c d e f : ℝ)
    (h0 : a ^ 2 + b ^ 2 + c ^ 2 = 1) (h1 : d ^ 2 + e ^ 2 + f ^ 2 = 1)
    (hd : a * d + b * e + c * f = 0) :
    ∃ r : List (List ℝ),
      computeOrthogonalTransformation Real.sqrt Real.arccos Real.sin Real.cos Real.pi
        [a, b, c] [d, e, f] = .ok r ∧
      prod r XAXIS = .ok [d, e, f] ∧
      prod r YAXIS = .ok [b * f - c * e, c * d - a * f, a * e - b * d] ∧
      prod r ZAXIS = .ok [a, b, c] := by
  obtain ⟨hr0, hne0⟩ := sqrt_sq_sum_eq_one a b c h0
  obtain ⟨r0, theta, phi, hs, hr, _, _, _, _, _, _, hA, hB, hC⟩ :=
    cartesian2spherical_spec a b c 0 0 0 hne0
  rw [hr0] at hr
  subst hr
  have hth : Real.sin theta ^ 2 + Real.cos theta ^ 2 = 1 := Real.sin_sq_add_cos_sq theta
  have hph : Real.sin phi ^ 2 + Real.cos phi ^ 2 = 1 := Real.sin_sq_add_cos_sq phi
  have halign := align_zaxis_with_vector_eq [a, b, c] 1 theta phi hs
  -- the major axis seen from the frame of the mean
  have hmj : prod (trans [[Real.cos phi * Real.cos theta, -Real.sin phi,
        Real.cos phi * Real.sin theta],
      [Real.sin phi * Real.cos theta, Real.cos phi, Real.sin phi * Real.sin theta],
      [-Real.sin theta, 0, Real.cos theta]]) [d, e, f]
      = .ok [Real.cos phi * Real.cos theta * d + Real.sin phi * Real.cos theta * e
              - Real.sin theta * f,
          -Real.sin phi * d + Real.cos phi * e, 0] := by
    rw [trans_eq, prod_eq]
    congr 1
    exact vec3_eq (by ring) (by ring) (by linear_combination hd + d * hA + e * hB + f * hC)
  have hunit : (Real.cos phi * Real.cos theta * d + Real.sin phi * Real.cos theta * e
        - Real.sin theta * f) ^ 2 + (-Real.sin phi * d + Real.cos phi * e) ^ 2 + (0 : ℝ) ^ 2
      = 1 := by
    have hz : Real.cos phi * Real.sin theta * d + Real.sin phi * Real.sin theta * e
        + Real.cos theta * f = 0 := by
      linear_combination hd + d * hA + e * hB + f * hC
    linear_combination ((Real.cos phi * d + Real.sin phi * e) ^ 2 + f ^ 2) * hth
      + (d ^ 2 + e ^ 2) * hph + h1
      - (Real.cos phi * Real.sin theta * d + Real.sin phi * Real.sin theta * e
          + Real.cos theta * f) * hz
  obtain ⟨hr1, hne1⟩ := sqrt_sq_sum_eq_one _ _ _ hunit
  obtain ⟨r1, theta1, psi, hs1, hr1', _, _, ht0, htpi, _, _, hP, hQ, hW⟩ :=
    cartesian2spherical_spec _ _ _ 0 0 0 hne1
  rw [hr1] at hr1'
  subst hr1'
  have hsin1 : Real.sin theta1 = 1 := by
    have h1' : Real.sin theta1 ^ 2 = 1 := by
      have := Real.sin_sq_add_cos_sq theta1
      have hc0 : Real.cos theta1 = 0 := by linarith
      rw [hc0] at this
      linarith
    have hnn : 0 ≤ Real.sin theta1 := Real.sin_nonneg_of_nonneg_of_le_pi ht0 htpi
    have hfac : (Real.sin theta1 - 1) * (Real.sin theta1 + 1) = 0 := by
      linear_combination h1'
    rcases mul_eq_zero.mp hfac with h | h
    · linarith
    · linarith
  rw [hsin1] at hP hQ
  have hz : Real.cos phi * Real.sin theta * d + Real.sin phi * Real.sin theta * e
      + Real.cos theta * f = 0 := by
    linear_combination hd + d * hA + e * hB + f * hC
  refine ⟨[[Real.cos phi * Real.cos theta * Real.cos psi + -Real.sin phi * Real.sin psi,
        -(Real.cos phi * Real.cos theta * Real.sin psi) + -Real.sin phi * Real.cos psi,
        Real.cos phi * Real.sin theta],
      [Real.sin phi * Real.cos theta * Real.cos psi + Real.cos phi * Real.sin psi,
        -(Real.sin phi * Real.cos theta * Real.sin psi) + Real.cos phi * Real.cos psi,
        Real.sin phi * Real.sin theta],
      [-Real.sin theta * Real.cos psi + 0 * Real.sin psi,
        -(-Real.sin theta * Real.sin psi) + 0 * Real.cos psi, Real.cos theta]],
    ?_, ?_, ?_, ?_⟩
  · unfold computeOrthogonalTransformation
    rw [halign, ok_bind]
    dsimp only
    rw [hmj, ok_bind, show List.replicate 3 (0 : ℝ) = [0, 0, 0] from rfl, hs1, ok_bind,
      show read [1, theta1, psi] 2 = .ok psi from rfl, ok_bind, rotate_about_zaxis_eq, ok_bind,
      matrixProd_rotation]
    rfl
  · rw [prod_XAXIS, frame_column_x _ _ _ _ _ _ d e f hth hph hz hP hQ]
  · rw [prod_YAXIS, frame_column_y _ _ _ _ _ _ a b c d e f hph hA hB hC hP hQ]
  · rw [prod_ZAXIS]
    congr 1
    refine vec3_eq ?_ ?_ ?_
    · linear_combination hA
    · linear_combination hB
    · linear_combination hC


/-- Shape of a unit vector given through `computeDotProduct`. -/
theorem unit_of_dot (a b c : ℝ) (h : computeDotProduct [a, b, c] [a, b, c] = .ok 1) :
    a ^ 2 + b ^ 2 + c ^ 2 = 1 := by
  rw [computeDotProduct_eq] at h
  have := Except.ok.inj h
  linarith

/-- C23 (as amended): for every orthonormal triple `(m0, m1, m2)` with
`m2 = m0 x m1`, the matrix `r = computeOrthogonalTransformation(m0, m1)` maps
the Z axis to the mean `m0`, the X axis to the major axis `m1` and the Y axis
to `m2`: `r*ZAXIS = m0`, `r*XAXIS = m1`, `r*YAXIS = m2`. -/
theorem computeOrthogonalTransformation_axes (m0 m1 m2 : List ℝ)
    (h0 : m0.length = 3) (h1 : m1.length = 3)
    (hn0 : computeDotProduct m0 m0 = .ok 1) (hn1 : computeDotProduct m1 m1 = .ok 1)
    (hd : computeDotProduct m0 m1 = .ok 0) (hc : crossProduct m0 m1 = .ok m2) :
    ∃ r : List (List ℝ),
      computeOrthogonalTransformation Real.sqrt Real.arccos Real.sin Real.cos Real.pi m0 m1
        = .ok r ∧
      prod r ZAXIS = .ok m0 ∧ prod r XAXIS = .ok m1 ∧ prod r YAXIS = .ok m2 := by
  obtain ⟨a, b, c, rfl⟩ := List.length_eq_three.mp h0
  obtain ⟨d, e, f, rfl⟩ := List.length_eq_three.mp h1
  have hu0 := unit_of_dot a b c hn0
  have hu1 := unit_of_dot d e f hn1
  have hdot : a * d + b * e + c * f = 0 := by
    rw [computeDotProduct_eq] at hd
    have := Except.ok.inj hd
    linarith
  rw [crossProduct_eq] at hc
  have hm2 := Except.ok.inj hc
  subst hm2
  obtain ⟨r, hr, hx, hy, hz⟩ := computeOrthogonalTransformation_spec a b c d e f hu0 hu1 hdot
  exact ⟨r, hr, hz, hx, hy⟩

/-- C23 (as stated) fails: for the orthonormal triple `m0 = (0,0,1)`,
`m1 = (1,0,0)`, `m2 = m0 x m1 = (0,1,0)` the transformation maps the X axis to
`m1`, not to `m0`. -/
theorem computeOrthogonalTransformation_xaxis :
    computeDotProduct [(0 : ℝ), 0, 1] [0, 0, 1] = .ok 1 ∧
    computeDotProduct [(1 : ℝ), 0, 0] [1, 0, 0] = .ok 1 ∧
    computeDotProduct [(0 : ℝ), 1, 0] [0, 1, 0] = .ok 1 ∧
    computeDotProduct [(0 : ℝ), 0, 1] [1, 0, 0] = .ok 0 ∧
    computeDotProduct [(0 : ℝ), 0, 1] [0, 1, 0] = .ok 0 ∧
    computeDotProduct [(1 : ℝ), 0, 0] [0, 1, 0] = .ok 0 ∧
    crossProduct [(0 : ℝ), 0, 1] [1, 0, 0] = .ok [0, 1, 0] ∧
    ∃ r : List (List ℝ),
      computeOrthogonalTransformation Real.sqrt Real.arccos Real.sin Real.cos Real.pi
        [0, 0, 1] [1, 0, 0] = .ok r ∧
      prod r XAXIS = .ok [1, 0, 0] ∧ prod r XAXIS ≠ .ok [0, 0, 1] := by
  have hdots : ∀ a b c d e f v : ℝ, 0 + a * d + b * e + c * f = v →
      computeDotProduct [a, b, c] [d, e, f] = .ok v := by
    intro a b c d e f v h
    rw [computeDotProduct_eq, h]
  refine ⟨hdots _ _ _ _ _ _ _ (by norm_num), hdots _ _ _ _ _ _ _ (by norm_num),
    hdots _ _ _ _ _ _ _ (by norm_num), hdots _ _ _ _ _ _ _ (by norm_num),
    hdots _ _ _ _ _ _ _ (by norm_num), hdots _ _ _ _ _ _ _ (by norm_num), ?_, ?_⟩
  · rw [crossProduct_eq]
    congr 1
    exact vec3_eq (by norm_num) (by norm_num) (by norm_num)
  · obtain ⟨r, hr, hx, _, _⟩ := computeOrthogonalTransformation_spec 0 0 1 1 0 0
      (by norm_num) (by norm_num) (by norm_num)
    refine ⟨r, hr, hx, ?_⟩
    rw [hx]
    intro h
    have := Except.ok.inj h
    simp at this

/-- The triple `(0,0,1)`, `(1,0,0)`, `(0,1,0)`: the transformation maps the Z
axis to the mean `(0,0,1)`. -/
theorem computeOrthogonalTransformation_axes_witness :
    ∃ r : List (List ℝ),
      computeOrthogonalTransformation Real.sqrt Real.arccos Real.sin Real.cos Real.pi
        [0, 0, 1] [1, 0, 0] = .ok r ∧
      prod r ZAXIS = .ok [0, 0, 1] ∧ prod r XAXIS = .ok [1, 0, 0] ∧
      prod r YAXIS = .ok [0, 1, 0] := by
  have hdots : ∀ a b c d e f v : ℝ, 0 + a * d + b * e + c * f = v →
      computeDotProduct [a, b, c] [d, e, f] = .ok v := by
    intro a b c d e f v h
    rw [computeDotProduct_eq, h]
  exact computeOrthogonalTransformation_axes [0, 0, 1] [1, 0, 0] [0, 1, 0] rfl rfl
    (hdots _ _ _ _ _ _ _ (by norm_num)) (hdots _ _ _ _ _ _ _ (by norm_num))
    (hdots _ _ _ _ _ _ _ (by norm_num))
    (by
      rw [crossProduct_eq]
      congr 1
      exact vec3_eq (by norm_num) (by norm_num) (by norm_num))


/-- The cross product is orthogonal to both factors. -/
theorem crossProduct_dot {α : Type} [LinearOrderedField α] (a b c d e f : α) :
    computeDotProduct [b * f - c * e, c * d - a * f, a * e - b * d] [a, b, c] = .ok 0 ∧
      computeDotProduct [b * f - c * e, c * d - a * f, a * e - b * d] [d, e, f] = .ok 0 := by
  rw [computeDotProduct_eq, computeDotProduct_eq]
  constructor
  · congr 1
    ring
  · congr 1
    ring

/-- What `generateRandomOrthogonalVectors` returns for given angles. -/
theorem generateRandomOrthogonalVectors_eq (rand : Nat → Int) (RAND_MAX : Int)
    (hR : RAND_MAX ≠ 0) :
    ∃ mean major_axis minor_axis : List ℝ,
      generateRandomOrthogonalVectors Real.sqrt Real.arccos Real.sin Real.cos Real.pi rand
        RAND_MAX = .ok (mean, major_axis, minor_axis) ∧
      mean.length = 3 ∧ major_axis.length = 3 ∧
      crossProduct mean major_axis = .ok minor_axis := by
  have hR' : (RAND_MAX : ℝ) ≠ 0 := by exact_mod_cast hR
  unfold generateRandomOrthogonalVectors
  simp only [fdiv, if_neg hR', ok_bind]
  rw [show List.replicate 3 (1 : ℝ) = [1, 1, 1] from rfl,
    show List.replicate 3 (0 : ℝ) = [0, 0, 0] from rfl]
  generalize ((rand 0 * 2 : Int) : ℝ) * Real.pi / (RAND_MAX : ℝ) = phi1
  generalize ((rand 1 : Int) : ℝ) * Real.pi / (RAND_MAX : ℝ) = theta
  generalize ((rand 2 * 2 : Int) : ℝ) * Real.pi / (RAND_MAX : ℝ) = phi
  rw [show write [(1 : ℝ), 1, 1] 1 (Real.pi / 2) = .ok [1, Real.pi / 2, 1] from rfl, ok_bind,
    show write [(1 : ℝ), Real.pi / 2, 1] 2 phi1 = .ok [1, Real.pi / 2, phi1] from rfl, ok_bind,
    spherical2cartesian_eq, ok_bind,
    show write [(1 : ℝ), Real.pi / 2, phi1] 1 theta = .ok [1, theta, phi1] from rfl, ok_bind,
    show write [(1 : ℝ), theta, phi1] 2 phi = .ok [1, theta, phi] from rfl, ok_bind,
    spherical2cartesian_eq, ok_bind]
  have hunit : (1 * Real.sin theta * Real.cos phi) ^ 2 + (1 * Real.sin theta * Real.sin phi) ^ 2
      + (1 * Real.cos theta) ^ 2 = 1 := by
    linear_combination (Real.sin theta ^ 2) * Real.sin_sq_add_cos_sq phi
      + Real.sin_sq_add_cos_sq theta
  obtain ⟨_, hne⟩ := sqrt_sq_sum_eq_one _ _ _ hunit
  obtain ⟨r0, theta', phi', hs, _⟩ := cartesian2spherical_spec _ _ _ 0 0 0 hne
  rw [align_zaxis_with_vector_eq _ r0 theta' phi' hs, ok_bind, prod_eq, ok_bind,
    crossProduct_eq, ok_bind]
  exact ⟨_, _, _, rfl, rfl, rfl, crossProduct_eq _ _ _ _ _ _⟩

/-- C27: for all 3-vectors `v1` and `v2`, `crossProduct(v1, v2)` has zero dot
product (`computeDotProduct`) with both `v1` and `v2`; consequently the minor
axis that `generateRandomOrthogonalVectors` produces as
`crossProduct(mean, major_axis)` is exactly orthogonal to the mean and to the
major axis. -/
theorem crossProduct_orthogonal {α : Type} [LinearOrderedField α] (v1 v2 : List α)
    (h1 : v1.length = 3) (h2 : v2.length = 3) :
    (∃ w : List α, crossProduct v1 v2 = .ok w ∧ w.length = 3 ∧
      computeDotProduct w v1 = .ok 0 ∧ computeDotProduct w v2 = .ok 0) ∧
    (∀ (rand : Nat → Int) (RAND_MAX : Int), RAND_MAX ≠ 0 →
      ∃ mean major_axis minor_axis : List ℝ,
        generateRandomOrthogonalVectors Real.sqrt Real.arccos Real.sin Real.cos Real.pi rand
          RAND_MAX = .ok (mean, major_axis, minor_axis) ∧
        crossProduct mean major_axis = .ok minor_axis ∧
        computeDotProduct minor_axis mean = .ok 0 ∧
        computeDotProduct minor_axis major_axis = .ok 0) := by
  constructor
  · obtain ⟨a, b, c, rfl⟩ := List.length_eq_three.mp h1
    obtain ⟨d, e, f, rfl⟩ := List.length_eq_three.mp h2
    exact ⟨_, crossProduct_eq a b c d e f, rfl, crossProduct_dot a b c d e f⟩
  · intro rand RAND_MAX hR
    obtain ⟨mean, major_axis, minor_axis, hgen, hl1, hl2, hcross⟩ :=
      generateRandomOrthogonalVectors_eq rand RAND_MAX hR
    obtain ⟨a, b, c, rfl⟩ := List.length_eq_three.mp hl1
    obtain ⟨d, e, f, rfl⟩ := List.length_eq_three.mp hl2
    rw [crossProduct_eq] at hcross
    have hm := Except.ok.inj hcross
    subst hm
    exact ⟨_, _, _, hgen, crossProduct_eq a b c d e f, crossProduct_dot a b c d e f⟩

/-- The cross product of `(1, 2, 3)` and `(4, 5, 6)` is `(-3, 6, -3)`, orthogonal
to both. -/
theorem crossProduct_orthogonal_witness :
    ∃ w : List ℚ, crossProduct [1, 2, 3] [4, 5, 6] = .ok w ∧
      computeDotProduct w [1, 2, 3] = .ok 0 ∧ computeDotProduct w [4, 5, 6] = .ok 0 := by
  obtain ⟨w, h1, _, h3, h4⟩ := (crossProduct_orthogonal [(1 : ℚ), 2, 3] [4, 5, 6] rfl rfl).1
  exact ⟨w, h1, h3, h4⟩


/-! ## `sort` -/

theorem readZ_nat {β : Type} (v : List β) (n : Nat) : readZ v (n : Int) = read v n := by
  unfold readZ
  rw [if_pos (Int.natCast_nonneg n), Int.toNat_natCast]

theorem writeZ_nat {β : Type} (v : List β) (n : Nat) (x : β) :
    writeZ v (n : Int) x = write v n x := by
  unfold writeZ
  rw [if_pos (Int.natCast_nonneg n), Int.toNat_natCast]

theorem read_getElem {β : Type} (v : List β) (i : Nat) (h : i < v.length) :
    read v i = .ok v[i] := by
  simp [read, List.getElem?_eq_getElem h]

/-- Replacing an entry by a new head: the old entry comes to the front. -/
theorem cons_set_perm {β : Type} (x : β) :
    ∀ (xs : List β) (j : Nat) (h : j < xs.length), (xs[j] :: xs.set j x).Perm (x :: xs) := by
  intro xs
  induction xs with
  | nil => intro j h; simp at h
  | cons z zs ih =>
    intro j h
    cases j with
    | zero => exact List.Perm.swap _ _ _
    | succ k =>
      have hk : k < zs.length := by simpa using h
      show (zs[k] :: z :: zs.set k x).Perm (x :: z :: zs)
      exact (List.Perm.swap _ _ _).trans (((ih k hk).cons z).trans (List.Perm.swap _ _ _))

/-- Exchanging two entries of a vector permutes it. -/
theorem swapAt_perm {β : Type} : ∀ (v : List β) (i j : Nat), (swapAt v i j).Perm v := by
  intro v
  induction v with
  | nil => intro i j; simp [swapAt]
  | cons x xs ih =>
    intro i j
    cases i with
    | zero =>
      cases j with
      | zero => simp [swapAt]
      | succ k =>
        by_cases hk : k < xs.length
        · have : swapAt (x :: xs) 0 (k + 1) = xs[k] :: xs.set k x := by
            simp [swapAt, List.getElem?_eq_getElem hk]
          rw [this]
          exact cons_set_perm x xs k hk
        · have : swapAt (x :: xs) 0 (k + 1) = x :: xs := by
            simp [swapAt, List.getElem?_eq_none (not_lt.mp hk)]
          rw [this]
    | succ m =>
      cases j with
      | zero =>
        by_cases hm : m < xs.length
        · have : swapAt (x :: xs) (m + 1) 0 = xs[m] :: xs.set m x := by
            simp [swapAt, List.getElem?_eq_getElem hm]
          rw [this]
          exact cons_set_perm x xs m hm
        · have : swapAt (x :: xs) (m + 1) 0 = x :: xs := by
            simp [swapAt, List.getElem?_eq_none (not_lt.mp hm)]
          rw [this]
      | succ k =>
        have : swapAt (x :: xs) (m + 1) (k + 1) = x :: swapAt xs m k := by
          unfold swapAt
          simp only [List.getElem?_cons_succ]
          cases xs[m]? <;> cases xs[k]? <;> simp
        rw [this]
        exact (ih m k).cons x

theorem swapAt_length {β : Type} (v : List β) (i j : Nat) :
    (swapAt v i j).length = v.length := (swapAt_perm v i j).length_eq

theorem getElem?_swapAt {β : Type} (v : List β) (i j k : Nat) (hi : i < v.length)
    (hj : j < v.length) :
    (swapAt v i j)[k]? = if k = j then v[i]? else if k = i then v[j]? else v[k]? := by
  unfold swapAt
  rw [List.getElem?_eq_getElem hi, List.getElem?_eq_getElem hj]
  dsimp only
  by_cases hkj : k = j
  · subst hkj
    rw [if_pos rfl, List.getElem?_set_self (by simpa using hj)]
  · rw [if_neg hkj, List.getElem?_set_ne (Ne.symm hkj)]
    by_cases hki : k = i
    · subst hki
      rw [if_pos rfl, List.getElem?_set_self hi]
    · rw [if_neg hki, List.getElem?_set_ne (Ne.symm hki)]

/-- The three assignments that exchange `v[i]` and `v[j]`. -/
theorem swap_run {β : Type} (v : List β) (i j : Nat) (hi : i < v.length) (hj : j < v.length)
    {γ : Type} (f : List β → Exec γ) :
    (readZ v (i : Int) >>= fun temp => readZ v (j : Int) >>= fun y =>
      writeZ v (i : Int) y >>= fun v1 => writeZ v1 (j : Int) temp >>= f)
      = f (swapAt v i j) := by
  simp only [readZ_nat, writeZ_nat]
  rw [read_getElem v i hi, ok_bind, read_getElem v j hj, ok_bind, write_ok v i _ hi, ok_bind,
    write_ok _ j _ (by simpa using hj), ok_bind]
  congr 1
  unfold swapAt
  rw [List.getElem?_eq_getElem hi, List.getElem?_eq_getElem hj]

theorem entry_swapAt {α : Type} [LinearOrderedField α] (v : List α) (i j k : Nat)
    (hi : i < v.length) (hj : j < v.length) :
    entry (swapAt v i j) k
      = if k = j then entry v i else if k = i then entry v j else entry v k := by
  unfold entry
  simp only [List.getD_eq_getElem?_getD, getElem?_swapAt v i j k hi hj]
  split_ifs <;> rfl

theorem swapAt_eq_set {α : Type} [LinearOrderedField α] (v : List α) (i j : Nat)
    (hi : i < v.length) (hj : j < v.length) :
    (v.set i (entry v j)).set j (entry v i) = swapAt v i j := by
  unfold swapAt entry
  rw [List.getElem?_eq_getElem hi, List.getElem?_eq_getElem hj,
    List.getD_eq_getElem _ _ hi, List.getD_eq_getElem _ _ hj]

/-- One pass of the loop of `partition` in terms of `swapAt`. -/
theorem partition_step {α : Type} [LinearOrderedField α] (pivotPoint : α) (lo k st : Nat)
    (L : List α) (X : List Int) (hi' : lo + k < L.length) (hst : st < L.length)
    (hX : X.length = L.length) :
    (do
      let i : Int := (lo : Int) + (k : Int)
      let li ← readZ L i
      if li < pivotPoint then do
        let temp ← readZ L i
        let ls ← readZ L (st : Int)
        let list ← writeZ L i ls
        let list ← writeZ list (st : Int) temp
        let temp_i ← readZ X i
        let is ← readZ X (st : Int)
        let index ← writeZ X i is
        let index ← writeZ index (st : Int) temp_i
        pure (({ list := list, index := index } : SortState α), (st : Int) + 1)
      else pure (({ list := L, index := X } : SortState α), (st : Int)))
      = if entry L (lo + k) < pivotPoint then
          .ok ({ list := swapAt L (lo + k) st, index := swapAt X (lo + k) st },
            ((st + 1 : Nat) : Int))
        else .ok ({ list := L, index := X }, (st : Int)) := by
  have hcast : (lo : Int) + (k : Int) = ((lo + k : Nat) : Int) := by push_cast; rfl
  dsimp only
  rw [hcast, readZ_nat, read_entry L (lo + k) hi', ok_bind]
  by_cases hlt : entry L (lo + k) < pivotPoint
  · rw [if_pos hlt, if_pos hlt, ok_bind, readZ_nat, read_entry L st hst, ok_bind, writeZ_nat,
      write_ok _ _ _ hi', ok_bind, writeZ_nat, write_ok _ _ _ (by simpa using hst), ok_bind,
      swap_run X (lo + k) st (by omega) (by omega), swapAt_eq_set L _ _ hi' hst]
    rfl
  · rw [if_neg hlt, if_neg hlt]
    rfl

/-- State of the loop of `partition` after `k` passes: the entries from `lo`
up to the store index are below the pivot, those from the store index up to
`lo + k` are not, and the rest of the vector is untouched. -/
theorem partition_loop {α : Type} [LinearOrderedField α] (s : SortState α) (lo hi : Nat)
    (hlh : lo ≤ hi) (hhi : hi < s.list.length) (hidx : s.index.length = s.list.length)
    (pivotPoint : α) :
    ∃ (L : List α) (X : List Int) (st : Nat),
      forLoop 0 (hi - lo) (fun k (r : SortState α × Int) => do
        let i : Int := (lo : Int) + (k : Int)
        let li ← readZ r.1.list i
        if li < pivotPoint then do
          let temp ← readZ r.1.list i
          let ls ← readZ r.1.list r.2
          let list ← writeZ r.1.list i ls
          let list ← writeZ list r.2 temp
          let temp_i ← readZ r.1.index i
          let is ← readZ r.1.index r.2
          let index ← writeZ r.1.index i is
          let index ← writeZ index r.2 temp_i
          pure ({ list := list, index := index }, r.2 + 1)
        else pure r) (s, (lo : Int))
        = .ok ({ list := L, index := X }, (st : Int)) ∧
      lo ≤ st ∧ st ≤ hi ∧ L.Perm s.list ∧ X.length = s.index.length ∧
      (∀ j, lo ≤ j → j < st → entry L j < pivotPoint) ∧
      (∀ j, st ≤ j → j < hi → pivotPoint ≤ entry L j) ∧
      (∀ j, j < lo ∨ hi ≤ j → L[j]? = s.list[j]?) := by
  obtain ⟨r, hr, st, hst, h1, h2, h3, h4, h5, h6, h7⟩ := forLoop_inv
    (fun k (r : SortState α × Int) => ∃ st : Nat, r.2 = (st : Int) ∧ lo ≤ st ∧ st ≤ lo + k ∧
      r.1.list.Perm s.list ∧ r.1.index.length = s.index.length ∧
      (∀ j, lo ≤ j → j < st → entry r.1.list j < pivotPoint) ∧
      (∀ j, st ≤ j → j < lo + k → pivotPoint ≤ entry r.1.list j) ∧
      (∀ j, j < lo ∨ lo + k ≤ j → r.1.list[j]? = s.list[j]?))
    0 (fun k (r : SortState α × Int) => do
        let i : Int := (lo : Int) + (k : Int)
        let li ← readZ r.1.list i
        if li < pivotPoint then do
          let temp ← readZ r.1.list i
          let ls ← readZ r.1.list r.2
          let list ← writeZ r.1.list i ls
          let list ← writeZ list r.2 temp
          let temp_i ← readZ r.1.index i
          let is ← readZ r.1.index r.2
          let index ← writeZ r.1.index i is
          let index ← writeZ index r.2 temp_i
          pure ({ list := list, index := index }, r.2 + 1)
        else pure r) (s, (lo : Int))
    ⟨lo, rfl, le_refl _, by omega, List.Perm.refl _, rfl, fun j h1 h2 => by omega,
      fun j h1 h2 => by omega, fun _ _ => rfl⟩
    (hi - lo) (Nat.zero_le _)
    (by
      rintro k ⟨⟨L, X⟩, z⟩ _ hk ⟨st, hz, h1, h2, h3, h4, h5, h6, h7⟩
      have hz' : z = (st : Int) := hz
      subst hz'
      have hlen : L.length = s.list.length := h3.length_eq
      have hi' : lo + k < L.length := by rw [hlen]; omega
      have hst : st < L.length := by omega
      have hstep := partition_step pivotPoint lo k st L X hi' hst (by
        show X.length = L.length
        rw [hlen, ← hidx]
        exact h4)
      by_cases hlt : entry L (lo + k) < pivotPoint
      · rw [if_pos hlt] at hstep
        refine ⟨({ list := swapAt L (lo + k) st, index := swapAt X (lo + k) st },
            ((st + 1 : Nat) : Int)), hstep, st + 1, rfl, by omega, by omega,
          (swapAt_perm L _ _).trans h3, (swapAt_length X _ _).trans h4, ?_, ?_, ?_⟩
        · intro j hj1 hj2
          show entry (swapAt L (lo + k) st) j < pivotPoint
          rw [entry_swapAt L _ _ j hi' hst]
          by_cases hjs : j = st
          · rw [if_pos hjs]
            exact hlt
          · rw [if_neg hjs, if_neg (by omega)]
            exact h5 j hj1 (by omega)
        · intro j hj1 hj2
          show pivotPoint ≤ entry (swapAt L (lo + k) st) j
          rw [entry_swapAt L _ _ j hi' hst, if_neg (by omega)]
          by_cases hji : j = lo + k
          · rw [if_pos hji]
            exact h6 st (le_refl _) (by omega)
          · rw [if_neg hji]
            exact h6 j (by omega) (by omega)
        · intro j hj
          show (swapAt L (lo + k) st)[j]? = _
          rw [getElem?_swapAt L _ _ j hi' hst, if_neg (by omega), if_neg (by omega)]
          exact h7 j (by omega)
      · rw [if_neg hlt] at hstep
        refine ⟨({ list := L, index := X }, (st : Int)), hstep, st, rfl, h1, by omega, h3, h4,
          h5, ?_, ?_⟩
        · intro j hj1 hj2
          by_cases hji : j = lo + k
          · subst hji
            exact not_lt.mp hlt
          · exact h6 j hj1 (by omega)
        · intro j hj
          exact h7 j (by omega))
  obtain ⟨⟨L, X⟩, z⟩ := r
  have hz' : z = (st : Int) := hst
  subst hz'
  have e : lo + (hi - lo) = hi := by omega
  rw [e] at h2 h6 h7
  exact ⟨L, X, st, hr, h1, h2, h3, h4, h5, h6, h7⟩

/-- What `partition` returns on a segment `lo..hi` of the vector. -/
theorem partition_spec {α : Type} [LinearOrderedField α] (s : SortState α) (lo hi : Nat)
    (hlh : lo ≤ hi) (hhi : hi < s.list.length) (hidx : s.index.length = s.list.length) :
    ∃ (L : List α) (X : List Int) (p : Nat),
      partition s (lo : Int) (hi : Int) = .ok ({ list := L, index := X }, (p : Int)) ∧
      lo ≤ p ∧ p ≤ hi ∧ L.Perm s.list ∧ X.length = s.index.length ∧
      (∀ j, j < lo ∨ hi < j → L[j]? = s.list[j]?) ∧
      (∀ j, lo ≤ j → j < p → entry L j < entry L p) ∧
      (∀ j, p < j → j ≤ hi → entry L p ≤ entry L j) := by
  obtain ⟨L0, X0, st, hloop, h1, h2, h3, h4, h5, h6, h7⟩ :=
    partition_loop s lo hi hlh hhi hidx (entry s.list hi)
  have hlen : L0.length = s.list.length := h3.length_eq
  have hst : st < L0.length := by omega
  have hhi0 : hi < L0.length := by omega
  have hpiv : entry L0 hi = entry s.list hi := by
    unfold entry
    rw [List.getD_eq_getElem?_getD, List.getD_eq_getElem?_getD, h7 hi (Or.inr (le_refl _))]
  have hp : entry (swapAt L0 st hi) st = entry s.list hi := by
    rw [entry_swapAt L0 st hi st hst hhi0]
    by_cases h : st = hi
    · rw [if_pos h, h, hpiv]
    · rw [if_neg h, if_pos rfl, hpiv]
  have htoNat : ((hi : Int) - (lo : Int)).toNat = hi - lo := by omega
  refine ⟨swapAt L0 st hi, swapAt X0 st hi, st, ?_, h1, h2, (swapAt_perm _ _ _).trans h3,
    (swapAt_length _ _ _).trans h4, ?_, ?_, ?_⟩
  · unfold partition
    rw [readZ_nat, read_entry s.list hi hhi, ok_bind]
    dsimp only
    rw [htoNat]
    refine (bind_congr_ok hloop _).trans ?_
    dsimp only
    rw [swap_run L0 st hi hst hhi0, swap_run X0 st hi (by omega) (by omega)]
    rfl
  · intro j hj
    rw [getElem?_swapAt L0 st hi j hst hhi0, if_neg (by omega), if_neg (by omega)]
    exact h7 j (by omega)
  · intro j hj1 hj2
    rw [hp, entry_swapAt L0 st hi j hst hhi0, if_neg (by omega), if_neg (by omega)]
    exact h5 j hj1 hj2
  · intro j hj1 hj2
    rw [hp, entry_swapAt L0 st hi j hst hhi0]
    by_cases hjh : j = hi
    · rw [if_pos hjh]
      exact h6 st (le_refl _) (by omega)
    · rw [if_neg hjh, if_neg (by omega)]
      exact h6 j (by omega) (by omega)

/-- A permutation that leaves everything outside the segment `a..b` in place
permutes the segment: every entry in the segment comes from the segment. -/
theorem segment_transfer {β : Type} (l1 l0 : List β) (a b : Nat) (hperm : l1.Perm l0)
    (hout : ∀ j, j < a ∨ b < j → l1[j]? = l0[j]?) (k : Nat) (hak : a ≤ k) (hkb : k ≤ b)
    (hk : k < l1.length) :
    ∃ k', a ≤ k' ∧ k' ≤ b ∧ l1[k]? = l0[k']? := by
  have hlen : l1.length = l0.length := hperm.length_eq
  have ht : l1.take a = l0.take a := by
    apply List.ext_getElem?
    intro j
    by_cases hj : j < a
    · rw [List.getElem?_take_of_lt hj, List.getElem?_take_of_lt hj]
      exact hout j (Or.inl hj)
    · rw [List.getElem?_eq_none (by simp; omega), List.getElem?_eq_none (by simp; omega)]
  have hd : l1.drop (b + 1) = l0.drop (b + 1) := by
    apply List.ext_getElem?
    intro j
    rw [List.getElem?_drop, List.getElem?_drop]
    exact hout _ (Or.inr (by omega))
  have hsplit : ∀ l : List β,
      l = l.take a ++ ((l.drop a).take (b + 1 - a) ++ l.drop (b + 1)) := by
    intro l
    have h1 : (l.drop a).drop (b + 1 - a) = l.drop (b + 1) := by
      rw [List.drop_drop]
      congr 1
      omega
    rw [← h1, List.take_append_drop, List.take_append_drop]
  have hmid : ((l1.drop a).take (b + 1 - a)).Perm ((l0.drop a).take (b + 1 - a)) := by
    have h := hperm
    rw [hsplit l1, hsplit l0, ht, hd] at h
    exact (List.perm_append_right_iff _).mp ((List.perm_append_left_iff _).mp h)
  have hget : ∀ (l : List β) (m : Nat), m < b + 1 - a →
      ((l.drop a).take (b + 1 - a))[m]? = l[a + m]? := by
    intro l m hm
    rw [List.getElem?_take_of_lt hm, List.getElem?_drop]
  have hmem : l1[k] ∈ (l1.drop a).take (b + 1 - a) := by
    rw [List.mem_iff_getElem?]
    refine ⟨k - a, ?_⟩
    rw [hget l1 (k - a) (by omega), List.getElem?_eq_getElem (by omega)]
    congr 2
    omega
  obtain ⟨m, hm⟩ := List.mem_iff_getElem?.mp ((hmid.mem_iff).mp hmem)
  have hmlt : m < b + 1 - a := by
    by_contra hge
    rw [List.getElem?_eq_none (by simp; omega)] at hm
    cases hm
  rw [hget l0 m hmlt] at hm
  exact ⟨a + m, by omega, by omega, by rw [List.getElem?_eq_getElem hk, hm]⟩

theorem entry_eq_of_getElem? {α : Type} [LinearOrderedField α] (l1 l0 : List α) (i j : Nat)
    (h : l1[i]? = l0[j]?) : entry l1 i = entry l0 j := by
  unfold entry
  rw [List.getD_eq_getElem?_getD, List.getD_eq_getElem?_getD, h]

/-- With enough fuel `quicksort` returns; the vector it leaves is a permutation
of the one it was given, unchanged outside `left..right` and in non-decreasing
order inside. -/
theorem quicksort_spec {α : Type} [LinearOrderedField α] :
    ∀ (fuel : Nat) (s : SortState α) (left right : Int),
      0 ≤ left → right < (s.list.length : Int) → right - left ≤ (fuel : Int) →
      s.index.length = s.list.length →
      ∃ (L : List α) (X : List Int),
        quicksort fuel s left right = .ok { list := L, index := X } ∧
        L.Perm s.list ∧ X.length = s.index.length ∧
        (∀ j : Nat, (j : Int) < left ∨ right < (j : Int) → L[j]? = s.list[j]?) ∧
        (∀ i j : Nat, left ≤ (i : Int) → i ≤ j → (j : Int) ≤ right →
          entry L i ≤ entry L j) := by
  intro fuel
  induction fuel with
  | zero =>
    intro s left right h0 hr hf hidx
    have hnot : ¬ left < right := by
      have : right - left ≤ 0 := by exact_mod_cast hf
      omega
    refine ⟨s.list, s.index, ?_, List.Perm.refl _, rfl, fun _ _ => rfl, ?_⟩
    · show (if left < right then _ else _) = _
      rw [if_neg hnot]
      rfl
    · intro i j h1 h2 h3
      have : i = j := by omega
      subst this
      exact le_refl _
  | succ n ih =>
    intro s left right h0 hr hf hidx
    by_cases hlt : left < right
    · obtain ⟨lo, rfl⟩ := Int.eq_ofNat_of_zero_le h0
      obtain ⟨hi, rfl⟩ := Int.eq_ofNat_of_zero_le (le_trans h0 (le_of_lt hlt))
      have hlh : lo < hi := by exact_mod_cast hlt
      have hhi : hi < s.list.length := by exact_mod_cast hr
      obtain ⟨L, X, p, hpart, hp1, hp2, hperm, hX, hout, hless, hge⟩ :=
        partition_spec s lo hi (le_of_lt hlh) hhi hidx
      have hlenL : L.length = s.list.length := hperm.length_eq
      obtain ⟨L1, X1, hq1, hperm1, hX1, hout1, hsort1⟩ :=
        ih { list := L, index := X } (lo : Int) ((p : Int) - 1) (Int.natCast_nonneg lo)
          (by show (p : Int) - 1 < (L.length : Int); omega)
          (by push_cast at hf; omega)
          (by show X.length = L.length; omega)
      have hlenL1 : L1.length = L.length := hperm1.length_eq
      obtain ⟨L2, X2, hq2, hperm2, hX2, hout2, hsort2⟩ :=
        ih { list := L1, index := X1 } ((p : Int) + 1) (hi : Int) (by omega)
          (by show (hi : Int) < (L1.length : Int); omega)
          (by push_cast at hf; omega)
          (by
            show X1.length = L1.length
            have : X1.length = X.length := hX1
            omega)
      have hlenL2 : L2.length = L1.length := hperm2.length_eq
      -- the pivot stays in place
      have hpiv1 : entry L1 p = entry L p :=
        entry_eq_of_getElem? _ _ _ _ (hout1 p (Or.inr (by omega)))
      have hpiv2 : entry L2 p = entry L p := by
        rw [entry_eq_of_getElem? _ _ _ _ (hout2 p (Or.inl (by omega))), hpiv1]
      -- entries left of the pivot are below it
      have hleft : ∀ j : Nat, lo ≤ j → j < p → entry L2 j < entry L p := by
        intro j hj1 hj2
        rw [entry_eq_of_getElem? _ _ _ _ (hout2 j (Or.inl (by omega)))]
        obtain ⟨j', hj'1, hj'2, hj'⟩ := segment_transfer L1 L lo (p - 1) hperm1
          (fun t ht => hout1 t (by omega)) j hj1 (by omega) (by omega)
        rw [entry_eq_of_getElem? _ _ _ _ hj']
        exact hless j' hj'1 (by omega)
      -- entries right of the pivot are not below it
      have hright : ∀ j : Nat, p < j → j ≤ hi → entry L p ≤ entry L2 j := by
        intro j hj1 hj2
        obtain ⟨j', hj'1, hj'2, hj'⟩ := segment_transfer L2 L1 (p + 1) hi hperm2
          (fun t ht => hout2 t (by omega)) j (by omega) hj2 (by omega)
        rw [entry_eq_of_getElem? _ _ _ _ hj',
          entry_eq_of_getElem? _ _ _ _ (hout1 j' (Or.inr (by omega)))]
        exact hge j' (by omega) hj'2
      refine ⟨L2, X2, ?_, (hperm2.trans hperm1).trans hperm, ?_, ?_, ?_⟩
      · show (if (lo : Int) < (hi : Int) then _ else _) = _
        rw [if_pos hlt]
        show (partition s (lo : Int) (hi : Int) >>= _) = _
        rw [hpart, ok_bind]
        dsimp only
        rw [hq1, ok_bind, hq2]
      · have h1 : X2.length = X1.length := hX2
        have h2 : X1.length = X.length := hX1
        omega
      · intro j hj
        rw [hout2 j (by omega), hout1 j (by omega)]
        exact hout j (by omega)
      · intro i j hi1 hij hj1
        have hi1' : lo ≤ i := by exact_mod_cast hi1
        have hj1' : j ≤ hi := by exact_mod_cast hj1
        rcases Nat.lt_trichotomy i p with hip | hip | hip
        · rcases Nat.lt_trichotomy j p with hjp | hjp | hjp
          · rw [entry_eq_of_getElem? _ _ _ _ (hout2 i (Or.inl (by omega))),
              entry_eq_of_getElem? _ _ _ _ (hout2 j (Or.inl (by omega)))]
            exact hsort1 i j hi1 hij (by omega)
          · subst hjp
            rw [hpiv2]
            exact le_of_lt (hleft i hi1' hip)
          · exact le_trans (le_of_lt (hleft i hi1' hip)) (hright j hjp hj1')
        · subst hip
          rcases Nat.eq_or_lt_of_le hij with h | h
          · subst h
            exact le_refl _
          · rw [hpiv2]
            exact hright j h hj1'
        · exact hsort2 i j (by omega) hij hj1
    · refine ⟨s.list, s.index, ?_, List.Perm.refl _, rfl, fun _ _ => rfl, ?_⟩
      · show (if left < right then _ else _) = _
        rw [if_neg hlt]
        rfl
      · intro i j h1 h2 h3
        have : i = j := by omega
        subst this
        exact le_refl _

/-- C20: for every list of reals, `sort(list)` terminates (with fuel for a
recursion depth of the length of the list, or more) and returns a list that
is a permutation of the input arranged in non-decreasing order; the input
list itself is left unchanged, the quicksort with right-most pivot works on a
copy. -/
theorem sort_sorted_perm {α : Type} [LinearOrderedField α] (list : List α) (extra : Nat) :
    ∃ sortedList : List α,
      sort list (list.length + extra) = .ok (list, sortedList) ∧
      sortedList.Perm list ∧ sortedList.Sorted (fun a b => a ≤ b) := by
  have hidx : forLoop 0 list.length (fun i index => write index i (i : Int))
      (List.replicate list.length (0 : Int))
      = .ok ((List.range list.length).map (fun (i : Nat) => (i : Int))) := by
    apply forLoop_tabulate list.length _ _ _ (by simp)
    intro i v hi hv
    exact write_ok v i _ (by omega)
  obtain ⟨L, X, hq, hperm, _, _, hsort⟩ := quicksort_spec (list.length + extra)
    { list := list, index := (List.range list.length).map (fun (i : Nat) => (i : Int)) }
    0 ((list.length : Int) - 1) (le_refl _)
    (by show (list.length : Int) - 1 < (list.length : Int); omega)
    (by push_cast; omega)
    (by simp)
  refine ⟨L, ?_, hperm, ?_⟩
  · unfold sort
    dsimp only
    rw [show allocate (list.length : Int) (0 : Int) = .ok (List.replicate list.length 0) by
      simp [allocate], ok_bind, hidx, ok_bind, hq]
    rfl
  · have hlen : L.length = list.length := hperm.length_eq
    rw [List.Sorted, List.pairwise_iff_getElem]
    intro i j hi hj hij
    have h := hsort i j (by omega) (le_of_lt hij) (by omega)
    unfold entry at h
    rw [List.getD_eq_getElem _ _ hi, List.getD_eq_getElem _ _ hj] at h
    exact h


/-! ## Reading a mixture file -/

theorem norm_eq_sum {α : Type} [LinearOrderedField α] (sqrt : α → α) (v : List α) :
    norm sqrt v = .ok (sqrt ((v.map (fun x => x * x)).sum)) := by
  unfold norm
  rw [forLoop_accumulate v.length _ (fun i => entry v i * entry v i) 0
    (by
      intro j c hj
      rw [read_entry v j hj, ok_bind]
      rfl)]
  rw [ok_bind, zero_add]
  have h := map_range_getD v (0 : α) (fun x => x * x) v.length rfl
  unfold entry
  rw [h]
  rfl

theorem normalize_eq_map {α : Type} [LinearOrderedField α] (sqrt : α → α) (x unit : List α)
    (hlen : unit.length = x.length) (h : sqrt ((x.map (fun x => x * x)).sum) ≠ 0) :
    normalize sqrt x unit
      = .ok (sqrt ((x.map (fun x => x * x)).sum), unitVector sqrt x) := by
  unfold normalize
  rw [norm_eq_sum, ok_bind]
  rw [forLoop_tabulate x.length _
    (fun i => entry x i / sqrt ((x.map (fun x => x * x)).sum)) unit hlen
    (by
      intro i v hi hv
      rw [read_entry x i hi, ok_bind]
      simp only [fdiv, if_neg h, ok_bind]
      rw [write_ok v i _ (by omega)])]
  rw [ok_bind]
  have h2 := map_range_getD x (0 : α) (fun y => y / sqrt ((x.map (fun x => x * x)).sum))
    x.length rfl
  unfold entry
  rw [h2]
  rfl

theorem load_mean_loop {α : Type} [LinearOrderedField α] (D : Nat) (numbers mean0 : List α)
    (hnum : D + 1 ≤ numbers.length) (hlen : mean0.length = D) :
    forLoop 1 (D + 1) (fun i mean => do
        let x ← read numbers i
        write mean (i - 1) x) mean0
      = .ok (parsedMean D numbers) := by
  obtain ⟨v, hv, hl, hI⟩ := forLoop_inv
    (fun i (v : List α) => v.length = D ∧ ∀ t, t + 1 < i → v[t]? = some (entry numbers (t + 1)))
    1 (fun i mean => do
        let x ← read numbers i
        write mean (i - 1) x) mean0 ⟨hlen, fun t ht => absurd ht (by omega)⟩ (D + 1) (by omega)
    (by
      intro i v h1 hi hI
      refine ⟨v.set (i - 1) (entry numbers i), ?_, by simp [hI.1], ?_⟩
      · show (read numbers i >>= fun x => write v (i - 1) x) = _
        rw [read_entry numbers i (by omega), ok_bind, write_ok v (i - 1) _ (by omega)]
      · intro t ht
        by_cases hti : t = i - 1
        · subst hti
          have : i - 1 + 1 = i := by omega
          rw [this]
          simp [List.getElem?_set, hI.1]
          omega
        · rw [List.getElem?_set_ne (Ne.symm hti)]
          exact hI.2 t (by omega))
  rw [hv]
  unfold parsedMean
  rw [eq_map_range_of_getElem? D (fun i => entry numbers (i + 1)) v hl
    (fun t ht => hI t (by omega))]

theorem parsedMean_length {α : Type} [LinearOrderedField α] (D : Nat) (numbers : List α) :
    (parsedMean D numbers).length = D := by
  simp [parsedMean]

theorem unitVector_length {α : Type} [LinearOrderedField α] (sqrt : α → α) (v : List α) :
    (unitVector sqrt v).length = v.length := by
  simp [unitVector]

/-- One line of the file: the pass appends the parsed weight and the component
built from the normalised mean. -/
theorem loadLine_eq {κ α : Type} [LinearOrderedField α] (sqrt : α → α)
    (parseNumber : List Char → α) (mkKent : List α → α → κ) (D : Nat)
    (line : List Char) (s : LoadState κ α)
    (hnum : (parseLine parseNumber line).length = D + 2)
    (hnorm : sqrt (((parsedMean D (parseLine parseNumber line)).map (fun x => x * x)).sum) ≠ 0)
    (hmean : s.mean.length = D) (hunit : s.unit_mean.length = D) :
    loadLine sqrt parseNumber mkKent D line s
      = .ok { K := s.K + 1,
              weights := s.weights ++ [entry (parseLine parseNumber line) 0],
              components := s.components ++
                [mkKent (unitVector sqrt (parsedMean D (parseLine parseNumber line)))
                  (entry (parseLine parseNumber line) (D + 1))],
              mean := parsedMean D (parseLine parseNumber line),
              unit_mean := unitVector sqrt (parsedMean D (parseLine parseNumber line)),
              sum_weights := s.sum_weights + entry (parseLine parseNumber line) 0 } := by
  unfold loadLine
  simp only []
  rw [read_entry _ 0 (by omega), ok_bind,
    load_mean_loop D _ s.mean (by omega) hmean, ok_bind,
    read_entry _ (D + 1) (by omega), ok_bind,
    normalize_eq_map sqrt _ s.unit_mean (by rw [hunit, parsedMean_length]) hnorm, ok_bind]
  rfl

/-- State of `Mixture::load` after the first `l` lines. -/
theorem load_lines {κ α : Type} [LinearOrderedField α] (sqrt : α → α)
    (parseNumber : List Char → α) (mkKent : List α → α → κ) (D : Nat)
    (lines : List (List Char))
    (hnum : ∀ line ∈ lines, (parseLine parseNumber line).length = D + 2)
    (hnorm : ∀ line ∈ lines,
      sqrt (((parsedMean D (parseLine parseNumber line)).map (fun x => x * x)).sum) ≠ 0) :
    ∃ s : LoadState κ α,
      forLoop 0 lines.length (fun l s => do
        let line ← read lines l
        loadLine sqrt parseNumber mkKent D line s)
        { K := 0, weights := [], components := [], mean := List.replicate D 0,
          unit_mean := List.replicate D 0, sum_weights := 0 } = .ok s ∧
      s.K = lines.length ∧
      s.weights = lines.map (fun line => entry (parseLine parseNumber line) 0) ∧
      s.components = lines.map (fun line =>
        mkKent (unitVector sqrt (parsedMean D (parseLine parseNumber line)))
          (entry (parseLine parseNumber line) (D + 1))) ∧
      s.sum_weights = (lines.map (fun line => entry (parseLine parseNumber line) 0)).sum := by
  obtain ⟨s, hs, hK, hw, hc, hsum, _, _⟩ := forLoop_inv
    (fun l (s : LoadState κ α) => s.K = l ∧
      s.weights = (lines.take l).map (fun line => entry (parseLine parseNumber line) 0) ∧
      s.components = (lines.take l).map (fun line =>
        mkKent (unitVector sqrt (parsedMean D (parseLine parseNumber line)))
          (entry (parseLine parseNumber line) (D + 1))) ∧
      s.sum_weights
        = ((lines.take l).map (fun line => entry (parseLine parseNumber line) 0)).sum ∧
      s.mean.length = D ∧ s.unit_mean.length = D)
    0 (fun l s => do
        let line ← read lines l
        loadLine sqrt parseNumber mkKent D line s)
    { K := 0, weights := [], components := [], mean := List.replicate D 0,
      unit_mean := List.replicate D 0, sum_weights := 0 }
    (by simp) lines.length (Nat.zero_le _)
    (by
      intro l s _ hl hI
      obtain ⟨hK, hw, hc, hsum, hm, hu⟩ := hI
      have hmem : lines[l] ∈ lines := List.getElem_mem hl
      have htake : lines.take (l + 1) = lines.take l ++ [lines[l]] := by
        rw [List.take_succ, List.getElem?_eq_getElem hl]
        rfl
      have hstep := loadLine_eq sqrt parseNumber mkKent D _ s (hnum _ hmem) (hnorm _ hmem) hm hu
      have hbody := (show (read lines l >>= fun line =>
          loadLine sqrt parseNumber mkKent D line s)
            = loadLine sqrt parseNumber mkKent D lines[l] s by
          rw [read_getElem lines l hl, ok_bind]).trans hstep
      refine ⟨_, hbody, ?_⟩
      · refine ⟨by simp [hK], ?_, ?_, ?_, ?_, ?_⟩
        · show s.weights ++ [_] = _
          rw [htake, List.map_append, hw]
          rfl
        · show s.components ++ [_] = _
          rw [htake, List.map_append, hc]
          rfl
        · show s.sum_weights + _ = _
          rw [htake, List.map_append, List.sum_append, hsum]
          simp
        · simp [parsedMean_length]
        · simp [unitVector_length, parsedMean_length])
  refine ⟨s, hs, hK, ?_, ?_, ?_⟩
  · simpa using hw
  · simpa using hc
  · simpa using hsum

/-- The closing loop `weights[i] /= sum_weights`. -/
theorem load_scale_loop {α : Type} [LinearOrderedField α] (ws : List α) (total : α)
    (h : total ≠ 0) :
    forLoop 0 ws.length (fun i weights => do
        let w ← read weights i
        let q ← fdiv w total
        write weights i q) ws
      = .ok (ws.map (fun w => w / total)) := by
  rw [forLoop_update (0 : α) ws.length _ (fun _ w => w / total) ws rfl
    (by
      intro i v hi hv hget
      rw [read_getD v i 0 (by omega), ok_bind]
      simp only [fdiv, if_neg h, ok_bind]
      rw [write_ok v i _ (by omega), hget])]
  rw [map_range_getD ws (0 : α) (fun w => w / total) ws.length rfl]

theorem sum_sq_pos {α : Type} [LinearOrderedField α] (v : List α)
    (h : ∃ x ∈ v, x ≠ 0) : 0 < (v.map (fun x => x * x)).sum := by
  induction v with
  | nil => simp at h
  | cons a t ih =>
    have hnn : ∀ l : List α, 0 ≤ (l.map (fun x => x * x)).sum := by
      intro l
      apply List.sum_nonneg
      intro y hy
      obtain ⟨x, _, rfl⟩ := List.mem_map.mp hy
      exact mul_self_nonneg x
    simp only [List.map_cons, List.sum_cons]
    obtain ⟨x, hx, hx0⟩ := h
    rcases List.mem_cons.mp hx with rfl | hx
    · have := mul_self_pos.mpr hx0
      have := hnn t
      linarith
    · have := ih ⟨x, hx, hx0⟩
      have := mul_self_nonneg a
      linarith

/-- A non-zero real vector divided by its norm has unit length. -/
theorem unitVector_unit (v : List ℝ) (h : ∃ x ∈ v, x ≠ 0) :
    ((unitVector Real.sqrt v).map (fun x => x * x)).sum = 1 := by
  have hpos := sum_sq_pos v h
  have hr : Real.sqrt ((v.map (fun x => x * x)).sum) * Real.sqrt ((v.map (fun x => x * x)).sum)
      = (v.map (fun x => x * x)).sum := Real.mul_self_sqrt (le_of_lt hpos)
  unfold unitVector
  generalize Real.sqrt ((v.map (fun x => x * x)).sum) = r at hr
  have hr0 : r * r ≠ 0 := by rw [hr]; exact ne_of_gt hpos
  rw [List.map_map]
  have : ((fun x => x * x) ∘ fun x => x / r) = fun x : ℝ => (x * x) / (r * r) := by
    funext x
    show x / r * (x / r) = x * x / (r * r)
    rw [div_mul_div_comm]
  rw [this]
  have h2 := sum_map_div (v.map (fun x => x * x)) (r * r)
  rw [List.map_map] at h2
  have h3 : ((fun w => w / (r * r)) ∘ fun x => x * x) = fun x : ℝ => (x * x) / (r * r) := rfl
  rw [h3] at h2
  rw [h2, hr]
  exact div_self (ne_of_gt hpos)

theorem parsedMean_nonzero {α : Type} [LinearOrderedField α] (D : Nat) (numbers : List α)
    (h : ∃ i, i < D ∧ entry numbers (i + 1) ≠ 0) : ∃ x ∈ parsedMean D numbers, x ≠ 0 := by
  obtain ⟨i, hi, h0⟩ := h
  refine ⟨entry numbers (i + 1), ?_, h0⟩
  unfold parsedMean
  exact List.mem_map.mpr ⟨i, List.mem_range.mpr hi, rfl⟩

/-- The run of `Mixture::load` on a well-formed file, up to the closing
division loop. -/
theorem load_eq {κ : Type} (parseNumber : List Char → ℝ) (mkKent : List ℝ → ℝ → κ)
    (m : Mixture κ ℝ) (lines : List (List Char)) (D : Nat)
    (hnum : ∀ line ∈ lines, (parseLine parseNumber line).length = D + 2)
    (hmean : ∀ line ∈ lines, ∃ i, i < D ∧ entry (parseLine parseNumber line) (i + 1) ≠ 0) :
    load Real.sqrt parseNumber mkKent m lines D
      = (forLoop 0 lines.length (fun i weights => do
            let w ← read weights i
            let q ← fdiv w (lines.map (fun line => entry (parseLine parseNumber line) 0)).sum
            write weights i q)
          (lines.map (fun line => entry (parseLine parseNumber line) 0)) >>= fun weights =>
          pure { m with
            sample_size := [], weights := weights,
            components := lines.map (fun line =>
              mkKent (unitVector Real.sqrt (parsedMean D (parseLine parseNumber line)))
                (entry (parseLine parseNumber line) (D + 1))),
            K := lines.length }) := by
  obtain ⟨s, hs, hK, hw, hc, hsum⟩ := load_lines Real.sqrt parseNumber mkKent D lines hnum
    (by
      intro line hl
      have := sum_sq_pos _ (parsedMean_nonzero D _ (hmean line hl))
      exact ne_of_gt (Real.sqrt_pos.mpr this))
  unfold load
  simp only []
  rw [hs, ok_bind, hK, hw, hc, hsum]

/-- C16 (as amended): for a mixture file in which every line holds `D + 2`
numbers with a non-zero mean and whose parsed weights have a non-zero total,
`load(file, D)` returns with `K` the number of lines, one component per line
built from the parsed mean divided by its Euclidean norm (a vector of unit
length) and the parsed kappa, and every parsed weight divided by the total of
the parsed weights, so that the loaded weights sum to 1. -/
theorem load_normalises {κ : Type} (parseNumber : List Char → ℝ) (mkKent : List ℝ → ℝ → κ)
    (m : Mixture κ ℝ) (lines : List (List Char)) (D : Nat)
    (hnum : ∀ line ∈ lines, (parseLine parseNumber line).length = D + 2)
    (hmean : ∀ line ∈ lines, ∃ i, i < D ∧ entry (parseLine parseNumber line) (i + 1) ≠ 0)
    (htotal : (lines.map (fun line => entry (parseLine parseNumber line) 0)).sum ≠ 0) :
    ∃ m', load Real.sqrt parseNumber mkKent m lines D = .ok m' ∧
      m'.K = lines.length ∧
      m'.components = lines.map (fun line =>
        mkKent (unitVector Real.sqrt (parsedMean D (parseLine parseNumber line)))
          (entry (parseLine parseNumber line) (D + 1))) ∧
      (∀ line ∈ lines,
        ((unitVector Real.sqrt (parsedMean D (parseLine parseNumber line))).map
          (fun x => x * x)).sum = 1) ∧
      m'.weights = lines.map (fun line => entry (parseLine parseNumber line) 0
        / (lines.map (fun line => entry (parseLine parseNumber line) 0)).sum) ∧
      m'.weights.sum = 1 := by
  have hloop := load_scale_loop (lines.map (fun line => entry (parseLine parseNumber line) 0))
    _ htotal
  rw [List.length_map] at hloop
  have hrun : load Real.sqrt parseNumber mkKent m lines D
      = .ok { m with
          sample_size := [],
          weights := (lines.map (fun line => entry (parseLine parseNumber line) 0)).map
            (fun w => w / (lines.map (fun line => entry (parseLine parseNumber line) 0)).sum),
          components := lines.map (fun line =>
            mkKent (unitVector Real.sqrt (parsedMean D (parseLine parseNumber line)))
              (entry (parseLine parseNumber line) (D + 1))),
          K := lines.length } := by
    rw [load_eq parseNumber mkKent m lines D hnum hmean, hloop, ok_bind]
    rfl
  refine ⟨_, hrun, rfl, rfl, ?_, ?_, ?_⟩
  · intro line hl
    exact unitVector_unit _ (parsedMean_nonzero D _ (hmean line hl))
  · show List.map _ (List.map _ lines) = _
    rw [List.map_map]
    rfl
  · show (List.map _ (List.map _ lines)).sum = 1
    rw [sum_map_div]
    exact div_self htotal

theorem parseLine_digitsValue {α : Type} [LinearOrderedField α] (line : List Char) :
    parseLine (digitsValue α) line
      = ((tokenize line []).map parseDigits).map (fun (n : Nat) => (n : α)) := by
  unfold parseLine
  rw [List.map_map]
  rfl

theorem parseLine_sampleLine0 {α : Type} [LinearOrderedField α] :
    parseLine (digitsValue α) sampleLine0 = [1, 3, 4, 0, 10] := by
  have h : (tokenize sampleLine0 []).map parseDigits = [1, 3, 4, 0, 10] := by decide
  rw [parseLine_digitsValue, h]
  simp

theorem parseLine_sampleLine1 {α : Type} [LinearOrderedField α] :
    parseLine (digitsValue α) sampleLine1 = [3, 0, 0, 2, 7] := by
  have h : (tokenize sampleLine1 []).map parseDigits = [3, 0, 0, 2, 7] := by decide
  rw [parseLine_digitsValue, h]
  simp

theorem parseLine_zeroWeightLine {α : Type} [LinearOrderedField α] :
    parseLine (digitsValue α) zeroWeightLine = [0, 1, 0, 0, 5] := by
  have h : (tokenize zeroWeightLine []).map parseDigits = [0, 1, 0, 0, 5] := by decide
  rw [parseLine_digitsValue, h]
  simp

/-- C16 (as stated) fails: the file with the single line `0 mu(1,0,0) kappa 5`
holds 3 + 2 numbers per line and a non-zero mean, yet the total of the parsed
weights is zero and the closing division `weights[0] /= sum_weights` is `0 / 0`;
on the empty file `load` returns with no weights, whose sum is 0. -/
theorem load_zero_total :
    (∀ line ∈ [zeroWeightLine], (parseLine (digitsValue ℝ) line).length = 3 + 2) ∧
    (∀ line ∈ [zeroWeightLine],
      ∃ i, i < 3 ∧ entry (parseLine (digitsValue ℝ) line) (i + 1) ≠ 0) ∧
    load Real.sqrt (digitsValue ℝ) (fun mu kappa => (mu, kappa))
      (blankMixture (List ℝ × ℝ) ℝ) [zeroWeightLine] 3 = .error .divByZero ∧
    ∃ m', load Real.sqrt (digitsValue ℝ) (fun mu kappa => (mu, kappa))
      (blankMixture (List ℝ × ℝ) ℝ) [] 3 = .ok m' ∧ m'.weights.sum = 0 := by
  have hnum : ∀ line ∈ [zeroWeightLine], (parseLine (digitsValue ℝ) line).length = 3 + 2 := by
    intro line hl
    rw [List.mem_singleton.mp hl, parseLine_zeroWeightLine]
    rfl
  have hmean : ∀ line ∈ [zeroWeightLine],
      ∃ i, i < 3 ∧ entry (parseLine (digitsValue ℝ) line) (i + 1) ≠ 0 := by
    intro line hl
    rw [List.mem_singleton.mp hl, parseLine_zeroWeightLine]
    exact ⟨0, by norm_num, by norm_num [entry]⟩
  refine ⟨hnum, hmean, ?_, ⟨_, rfl, rfl⟩⟩
  rw [load_eq (digitsValue ℝ) _ _ [zeroWeightLine] 3 hnum hmean]
  simp [parseLine_zeroWeightLine, entry, forLoop, read, fdiv, bind, Except.bind]

/-- The run of `load_normalises` on the two-line file `1 mu(3,4,0) kappa 10`,
`3 mu: [0, 0, 2]  kappa: 7`: two components, weights 1/4 and 3/4. -/
theorem load_normalises_witness :
    ∃ m', load Real.sqrt (digitsValue ℝ) (fun mu kappa => (mu, kappa))
        (blankMixture (List ℝ × ℝ) ℝ) [sampleLine0, sampleLine1] 3 = .ok m' ∧
      m'.K = 2 ∧ m'.weights = [1 / 4, 3 / 4] ∧ m'.weights.sum = 1 := by
  have hnum : ∀ line ∈ [sampleLine0, sampleLine1],
      (parseLine (digitsValue ℝ) line).length = 3 + 2 := by
    intro line hl
    rcases List.mem_pair.mp hl with rfl | rfl
    · rw [parseLine_sampleLine0]
      rfl
    · rw [parseLine_sampleLine1]
      rfl
  have hmean : ∀ line ∈ [sampleLine0, sampleLine1],
      ∃ i, i < 3 ∧ entry (parseLine (digitsValue ℝ) line) (i + 1) ≠ 0 := by
    intro line hl
    rcases List.mem_pair.mp hl with rfl | rfl
    · rw [parseLine_sampleLine0]
      exact ⟨0, by norm_num, by norm_num [entry]⟩
    · rw [parseLine_sampleLine1]
      exact ⟨2, by norm_num, by norm_num [entry]⟩
  have htotal : ([sampleLine0, sampleLine1].map
      (fun line => entry (parseLine (digitsValue ℝ) line) 0)).sum ≠ 0 := by
    simp only [List.map_cons, List.map_nil, parseLine_sampleLine0, parseLine_sampleLine1]
    norm_num [entry]
  obtain ⟨m', h, hK, _, _, hw, hs⟩ := load_normalises (digitsValue ℝ)
    (fun mu kappa => (mu, kappa)) (blankMixture (List ℝ × ℝ) ℝ) [sampleLine0, sampleLine1] 3
    hnum hmean htotal
  refine ⟨m', h, hK, ?_, hs⟩
  rw [hw]
  simp only [List.map_cons, List.map_nil, parseLine_sampleLine0, parseLine_sampleLine1]
  norm_num [entry]


/-! ## Jacobi eigenvalue iteration -/

theorem square_getD {β : Type} {n : Nat} {m : List (List β)} (h : Square n m) (i : Nat)
    (hi : i < n) : (m.getD i []).length = n := by
  apply h.2
  have hi2 : i < m.length := by rw [h.1]; exact hi
  rw [List.getD_eq_getElem _ _ hi2]
  exact List.getElem_mem hi2

theorem mread_ent {α : Type} [LinearOrderedField α] {n : Nat} {m : List (List α)}
    (h : Square n m) (i j : Nat) (hi : i < n) (hj : j < n) :
    mread m i j = .ok (ent m i j) := by
  unfold mread ent
  rw [read_getD m i [] (by rw [h.1]; exact hi), ok_bind,
    read_getD _ j 0 (by rw [square_getD h i hi]; exact hj)]

theorem mwrite_mset {β : Type} {n : Nat} {m : List (List β)}
    (h : Square n m) (i j : Nat) (x : β) (hi : i < n) (hj : j < n) :
    mwrite m i j x = .ok (mset m i j x) := by
  unfold mwrite mset
  rw [read_getD m i [] (by rw [h.1]; exact hi), ok_bind,
    write_ok _ j x (by rw [square_getD h i hi]; exact hj), ok_bind,
    write_ok m i _ (by rw [h.1]; exact hi)]

theorem square_mset {β : Type} {n : Nat} {m : List (List β)}
    (h : Square n m) (i j : Nat) (x : β) (hi : i < n) : Square n (mset m i j x) := by
  unfold mset
  refine ⟨by simp [h.1], ?_⟩
  intro row hrow
  rcases List.mem_or_eq_of_mem_set hrow with hmem | heq
  · exact h.2 row hmem
  · rw [heq, List.length_set]
    exact square_getD h i hi

theorem getD_mset {β : Type} {n : Nat} {m : List (List β)}
    (h : Square n m) (i j : Nat) (x : β) (hi : i < n) (a : Nat) :
    (mset m i j x).getD a [] = if a = i then (m.getD i []).set j x else m.getD a [] := by
  unfold mset
  by_cases ha : a = i
  · subst ha
    rw [if_pos rfl]
    simp [List.getD_eq_getElem?_getD, List.getElem?_set, h.1, hi]
  · rw [if_neg ha]
    simp [List.getD_eq_getElem?_getD, List.getElem?_set_ne (Ne.symm ha)]

theorem ent_mset {α : Type} [LinearOrderedField α] {n : Nat} {m : List (List α)}
    (h : Square n m) (i j : Nat) (x : α) (hi : i < n) (hj : j < n) (a b : Nat) :
    ent (mset m i j x) a b = if a = i ∧ b = j then x else ent m a b := by
  unfold ent
  rw [getD_mset h i j x hi a]
  by_cases ha : a = i
  · subst ha
    rw [if_pos rfl]
    by_cases hb : b = j
    · subst hb
      rw [if_pos ⟨rfl, rfl⟩]
      have hl := square_getD h a hi
      rw [List.getD_eq_getElem?_getD] at hl
      simp [List.getD_eq_getElem?_getD, List.getElem?_set, hl, hj]
    · rw [if_neg (fun hh => hb hh.2)]
      simp [List.getD_eq_getElem?_getD, List.getElem?_set_ne (Ne.symm hb)]
  · rw [if_neg ha, if_neg (fun hh => ha hh.1)]

theorem size2_square {β : Type} {n : Nat} {m : List (List β)} (h : Square n m)
    (hn : 0 < n) : size2 m = n := by
  unfold size2
  have := square_getD h 0 hn
  rw [List.getD_eq_getElem?_getD] at this
  rw [List.headD_eq_head?_getD, List.head?_eq_getElem?]
  exact this


theorem fdiv_ok {α : Type} [LinearOrderedField α] (x y : α) (h : y ≠ 0) :
    fdiv x y = .ok (x / y) := by
  simp [fdiv, h]

/-- The rotation computed from a non-zero pivot: a cosine `c` and a tangent
`t` with `c^2 (t^2 + 1) = 1`, the value `tau = s / (1 + c)` for the sine
`s = t c`, and `t` a root of `pivot t^2 + (m_cc - m_rr) t - pivot`. -/
theorem jacobiAngle_spec (mrr mcc mrc : ℝ) (h : mrc ≠ 0) :
    ∃ t c tau, jacobiAngle Real.sqrt mrr mcc mrc = .ok (t, t * c, tau) ∧ 0 < c ∧
      c * c * (t * t + 1) = 1 ∧ tau * (1 + c) = t * c ∧
      mrc * (t * t) + (mcc - mrr) * t - mrc = 0 := by
  have h2 : 2 * mrc ≠ 0 := mul_ne_zero two_ne_zero h
  obtain ⟨phi, hphidef⟩ : ∃ phi, phi = (mcc - mrr) / (2 * mrc) := ⟨_, rfl⟩
  have hphi : phi * (2 * mrc) = mcc - mrr := by
    rw [hphidef]
    field_simp
  obtain ⟨r, hrdef⟩ : ∃ r, r = Real.sqrt (phi * phi + 1) := ⟨_, rfl⟩
  have hpos1 : 0 < phi * phi + 1 := by nlinarith [mul_self_nonneg phi]
  have hr : r * r = phi * phi + 1 := by
    rw [hrdef]
    exact Real.mul_self_sqrt (le_of_lt hpos1)
  have hr0 : 0 < r := by
    rw [hrdef]
    exact Real.sqrt_pos.mpr hpos1
  have hd : |phi| + r ≠ 0 := ne_of_gt (add_pos_of_nonneg_of_pos (abs_nonneg phi) hr0)
  obtain ⟨t0, ht0def⟩ : ∃ t0, t0 = 1 / (|phi| + r) := ⟨_, rfl⟩
  have ht0 : t0 * (|phi| + r) = 1 := by
    rw [ht0def]
    field_simp
  have habs : |phi| * |phi| = phi * phi := abs_mul_abs_self phi
  have hq0 : t0 * t0 + 2 * |phi| * t0 - 1 = 0 := by
    linear_combination (t0 * (r - |phi|) + 1) * ht0 - t0 * t0 * hr + t0 * t0 * habs
  obtain ⟨t, htdef⟩ : ∃ t, t = if phi < 0 then -t0 else t0 := ⟨_, rfl⟩
  have hq : t * t + 2 * phi * t - 1 = 0 := by
    by_cases hneg : phi < 0
    · rw [htdef, if_pos hneg]
      rw [abs_of_neg hneg] at hq0
      linear_combination hq0
    · rw [htdef, if_neg hneg]
      rw [abs_of_nonneg (not_lt.mp hneg)] at hq0
      linear_combination hq0
  obtain ⟨r2, hr2def⟩ : ∃ r2, r2 = Real.sqrt (t * t + 1) := ⟨_, rfl⟩
  have hpos2 : 0 < t * t + 1 := by nlinarith [mul_self_nonneg t]
  have hr2 : r2 * r2 = t * t + 1 := by
    rw [hr2def]
    exact Real.mul_self_sqrt (le_of_lt hpos2)
  have hr20 : 0 < r2 := by
    rw [hr2def]
    exact Real.sqrt_pos.mpr hpos2
  have hc0 : 0 < 1 / r2 := one_div_pos.mpr hr20
  have hc1 : (1 : ℝ) + 1 / r2 ≠ 0 := ne_of_gt (by linarith)
  refine ⟨t, 1 / r2, t * (1 / r2) / (1 + 1 / r2), ?_, hc0, ?_, ?_, ?_⟩
  · unfold jacobiAngle
    simp only []
    rw [fdiv_ok _ _ h2, ok_bind, ← hphidef, ← hrdef, fdiv_ok _ _ hd, ok_bind, ← ht0def,
      ← htdef, ← hr2def, fdiv_ok _ _ (ne_of_gt hr20), ok_bind, fdiv_ok _ _ hc1, ok_bind]
    rfl
  · rw [← hr2]
    field_simp
  · field_simp
  · linear_combination mrc * hq - t * hphi


theorem forLoop_square {β : Type} (n lo hi : Nat) (body : Nat → List (List β) → Exec (List (List β)))
    (m0 : List (List β)) (h0 : Square n m0) (hle : lo ≤ hi)
    (hbody : ∀ i m, lo ≤ i → i < hi → Square n m → ∃ m', body i m = .ok m' ∧ Square n m') :
    ∃ m', forLoop lo hi body m0 = .ok m' ∧ Square n m' :=
  forLoop_inv (fun _ m => Square n m) lo body m0 h0 hi hle
    (fun i m h1 h2 hI => hbody i m h1 h2 hI)

/-- The two assignments of one pass of a loop of `jacobiRotateMatrix`. -/
theorem rotate_pair {α : Type} [LinearOrderedField α] {n : Nat} (s tau : α)
    {m : List (List α)} (h : Square n m) (a1 b1 a2 b2 : Nat)
    (ha1 : a1 < n) (hb1 : b1 < n) (ha2 : a2 < n) (hb2 : b2 < n)
    (hne : ¬(a2 = a1 ∧ b2 = b1)) :
    (do
      let temp ← mread m a1 b1
      let y ← mread m a2 b2
      let m ← mwrite m a1 b1 (temp - s * (y + tau * temp))
      let y ← mread m a2 b2
      mwrite m a2 b2 (y + s * (temp - tau * y)))
      = .ok (mset (mset m a1 b1 (ent m a1 b1 - s * (ent m a2 b2 + tau * ent m a1 b1))) a2 b2
          (ent m a2 b2 + s * (ent m a1 b1 - tau * ent m a2 b2))) := by
  have h1 := square_mset h a1 b1 (ent m a1 b1 - s * (ent m a2 b2 + tau * ent m a1 b1)) ha1
  rw [mread_ent h a1 b1 ha1 hb1, ok_bind, mread_ent h a2 b2 ha2 hb2, ok_bind,
    mwrite_mset h a1 b1 _ ha1 hb1, ok_bind, mread_ent h1 a2 b2 ha2 hb2, ok_bind,
    mwrite_mset h1 a2 b2 _ ha2 hb2, ent_mset h a1 b1 _ ha1 hb1, if_neg hne]

theorem rotate_pair_square {α : Type} [LinearOrderedField α] {n : Nat} (s tau : α)
    {m : List (List α)} (h : Square n m) (a1 b1 a2 b2 : Nat)
    (ha1 : a1 < n) (hb1 : b1 < n) (ha2 : a2 < n) (hb2 : b2 < n)
    (hne : ¬(a2 = a1 ∧ b2 = b1)) :
    ∃ m', (do
      let temp ← mread m a1 b1
      let y ← mread m a2 b2
      let m ← mwrite m a1 b1 (temp - s * (y + tau * temp))
      let y ← mread m a2 b2
      mwrite m a2 b2 (y + s * (temp - tau * y))) = .ok m' ∧ Square n m' :=
  ⟨_, rotate_pair s tau h a1 b1 a2 b2 ha1 hb1 ha2 hb2 hne,
    square_mset (square_mset h a1 b1 _ ha1) a2 b2 _ ha2⟩

/-- The second loop of `jacobiRotateMatrix` reads `m(max_row,i)` twice. -/
theorem rotate_pair_middle {α : Type} [LinearOrderedField α] {n : Nat} (s tau : α)
    {m : List (List α)} (h : Square n m) (a1 b1 a2 b2 : Nat)
    (ha1 : a1 < n) (hb1 : b1 < n) (ha2 : a2 < n) (hb2 : b2 < n)
    (hne : ¬(a2 = a1 ∧ b2 = b1)) :
    (do
      let temp ← mread m a1 b1
      let y ← mread m a2 b2
      let x ← mread m a1 b1
      let m ← mwrite m a1 b1 (temp - s * (y + tau * x))
      let y ← mread m a2 b2
      mwrite m a2 b2 (y + s * (temp - tau * y)))
      = .ok (mset (mset m a1 b1 (ent m a1 b1 - s * (ent m a2 b2 + tau * ent m a1 b1))) a2 b2
          (ent m a2 b2 + s * (ent m a1 b1 - tau * ent m a2 b2))) := by
  have h1 := square_mset h a1 b1 (ent m a1 b1 - s * (ent m a2 b2 + tau * ent m a1 b1)) ha1
  rw [mread_ent h a1 b1 ha1 hb1]
  simp only [ok_bind]
  rw [mread_ent h a2 b2 ha2 hb2]
  simp only [ok_bind]
  rw [mwrite_mset h a1 b1 _ ha1 hb1, ok_bind, mread_ent h1 a2 b2 ha2 hb2, ok_bind,
    mwrite_mset h1 a2 b2 _ ha2 hb2, ent_mset h a1 b1 _ ha1 hb1, if_neg hne]

/-- The update of the working matrix returns and keeps the shape. -/
theorem jacobiRotateWorking_square {α : Type} [LinearOrderedField α] {n : Nat} (t s tau : α)
    {m : List (List α)} (h : Square n m) (p q : Nat) (hpq : p < q) (hq : q < n) :
    ∃ m', jacobiRotateWorking t s tau m p q = .ok m' ∧ Square n m' := by
  have hp : p < n := by omega
  have h1 := square_mset h p q (0 : α) hp
  have h2 := square_mset h1 p p (ent (mset m p q 0) p p - t * ent m p q) hp
  have h3 := square_mset h2 q q
    (ent (mset (mset m p q 0) p p (ent (mset m p q 0) p p - t * ent m p q)) q q
      + t * ent m p q) hq
  obtain ⟨m4, hm4, h4⟩ := forLoop_square n 0 p (fun i m => do
      let temp ← mread m i p
      let y ← mread m i q
      let m ← mwrite m i p (temp - s * (y + tau * temp))
      let y ← mread m i q
      mwrite m i q (y + s * (temp - tau * y))) _ h3 (Nat.zero_le p)
    (fun i m _ hi hm => rotate_pair_square s tau hm i p i q (by omega) hp (by omega) hq
      (by omega))
  obtain ⟨m5, hm5, h5⟩ := forLoop_square n (p + 1) q (fun i m => do
      let temp ← mread m p i
      let y ← mread m i q
      let x ← mread m p i
      let m ← mwrite m p i (temp - s * (y + tau * x))
      let y ← mread m i q
      mwrite m i q (y + s * (temp - tau * y))) m4 h4 (by omega)
    (fun i m hi1 hi2 hm => ⟨_, rotate_pair_middle s tau hm p i i q hp (by omega) (by omega) hq
      (by omega), square_mset (square_mset hm p i _ hp) i q _ (by omega)⟩)
  obtain ⟨m6, hm6, h6⟩ := forLoop_square n (q + 1) n (fun i m => do
      let temp ← mread m p i
      let y ← mread m q i
      let m ← mwrite m p i (temp - s * (y + tau * temp))
      let y ← mread m q i
      mwrite m q i (y + s * (temp - tau * y))) m5 h5 (by omega)
    (fun i m hi1 hi2 hm => rotate_pair_square s tau hm p i q i hp hi2 hq hi2 (by omega))
  refine ⟨m6, ?_, h6⟩
  unfold jacobiRotateWorking
  rw [mread_ent h p q hp hq, ok_bind, mwrite_mset h p q _ hp hq, ok_bind,
    mread_ent h1 p p hp hp, ok_bind, mwrite_mset h1 p p _ hp hp, ok_bind,
    mread_ent h2 q q hq hq, ok_bind, mwrite_mset h2 q q _ hq hq, ok_bind,
    hm4, ok_bind, hm5, ok_bind, size2_square h5 (by omega), hm6]

/-- Row of `eigen_vectors` after `jacobiRotateMatrix`. -/
theorem jacobiRotateVectors_eq {α : Type} [LinearOrderedField α] {n : Nat} (s tau : α)
    {V : List (List α)} (h : Square n V) (p q : Nat) (hpq : p < q) (hq : q < n) :
    jacobiRotateVectors s tau V p q
      = .ok (V.map (fun row =>
          (row.set p (row.getD p 0 - s * (row.getD q 0 + tau * row.getD p 0))).set q
            (row.getD q 0 + s * (row.getD p 0 - tau * row.getD q 0)))) := by
  have hp : p < n := by omega
  unfold jacobiRotateVectors
  rw [forLoop_update ([] : List α) V.length _ (fun _ row =>
      (row.set p (row.getD p 0 - s * (row.getD q 0 + tau * row.getD p 0))).set q
        (row.getD q 0 + s * (row.getD p 0 - tau * row.getD q 0))) V rfl
    (by
      intro i v hi hv hget
      have hin : i < n := by rw [← h.1]; exact hi
      have hrow : (V.getD i []).length = n := square_getD h i hin
      show (mread v i p >>= fun temp => mread v i q >>= fun y =>
        mwrite v i p (temp - s * (y + tau * temp)) >>= fun m =>
        mread m i q >>= fun y => mwrite m i q (y + s * (temp - tau * y))) = _
      unfold mread mwrite
      rw [read_getD v i [] (by omega)]
      simp only [ok_bind]
      rw [hget, read_getD _ p 0 (by omega)]
      simp only [ok_bind]
      rw [read_getD _ q 0 (by omega)]
      simp only [ok_bind]
      rw [write_ok _ p _ (by omega), ok_bind, write_ok v i _ (by omega), ok_bind,
        read_getD _ i [] (by simp; omega)]
      simp only [ok_bind]
      have hrow1 : (v.set i ((V.getD i []).set p
          ((V.getD i []).getD p 0 - s * ((V.getD i []).getD q 0
            + tau * (V.getD i []).getD p 0)))).getD i []
          = (V.getD i []).set p ((V.getD i []).getD p 0
            - s * ((V.getD i []).getD q 0 + tau * (V.getD i []).getD p 0)) := by
        simp [List.getD_eq_getElem?_getD, List.getElem?_set, hv, hi]
      rw [hrow1, read_getD _ q 0 (by rw [List.length_set]; omega)]
      simp only [ok_bind]
      rw [write_ok _ q _ (by rw [List.length_set]; omega), ok_bind,
        write_ok _ i _ (by rw [List.length_set]; omega)]
      have hq2 : ((V.getD i []).set p ((V.getD i []).getD p 0
            - s * ((V.getD i []).getD q 0 + tau * (V.getD i []).getD p 0))).getD q 0
          = (V.getD i []).getD q 0 := by
        simp [List.getD_eq_getElem?_getD, List.getElem?_set_ne (Nat.ne_of_lt hpq)]
      rw [hq2, List.set_set])]
  exact congrArg Except.ok (map_range_getD V ([] : List α) (fun row =>
    (row.set p (row.getD p 0 - s * (row.getD q 0 + tau * row.getD p 0))).set q
      (row.getD q 0 + s * (row.getD p 0 - tau * row.getD q 0))) V.length rfl)


theorem sum_map_expand {β α : Type} [LinearOrderedField α] (V : List β)
    (f1 f2 f3 g1 g2 g3 : β → α) (A1 A2 A3 B1 B2 B3 : α) :
    (V.map (fun r => (A1 * f1 r + A2 * f2 r + A3 * f3 r)
        * (B1 * g1 r + B2 * g2 r + B3 * g3 r))).sum
      = A1 * B1 * (V.map (fun r => f1 r * g1 r)).sum
        + A1 * B2 * (V.map (fun r => f1 r * g2 r)).sum
        + A1 * B3 * (V.map (fun r => f1 r * g3 r)).sum
        + A2 * B1 * (V.map (fun r => f2 r * g1 r)).sum
        + A2 * B2 * (V.map (fun r => f2 r * g2 r)).sum
        + A2 * B3 * (V.map (fun r => f2 r * g3 r)).sum
        + A3 * B1 * (V.map (fun r => f3 r * g1 r)).sum
        + A3 * B2 * (V.map (fun r => f3 r * g2 r)).sum
        + A3 * B3 * (V.map (fun r => f3 r * g3 r)).sum := by
  induction V with
  | nil => simp
  | cons r V ih =>
    simp only [List.map_cons, List.sum_cons, ih]
    ring

/-- With `s tau = 1 - c` the two assignments to a row of `eigen_vectors` are
the plane rotation `(x, y) -> (c x - s y, s x + c y)` of its entries `p`, `q`. -/
theorem rotated_entry {α : Type} [LinearOrderedField α] {n : Nat} (c s tau : α)
    (hst : s * tau = 1 - c) (row : List α) (hlen : row.length = n) (p q a : Nat)
    (hpq : p < q) (hq : q < n) :
    ((row.set p (row.getD p 0 - s * (row.getD q 0 + tau * row.getD p 0))).set q
        (row.getD q 0 + s * (row.getD p 0 - tau * row.getD q 0))).getD a 0
      = (if a = p then c else if a = q then s else 0) * row.getD p 0
        + (if a = p then -s else if a = q then c else 0) * row.getD q 0
        + (if a = p ∨ a = q then 0 else 1) * row.getD a 0 := by
  have hp : p < n := by omega
  by_cases haq : a = q
  · subst haq
    have hap : ¬ a = p := by omega
    rw [if_neg hap, if_pos rfl, if_neg hap, if_pos rfl, if_pos (Or.inr rfl)]
    have : ((row.set p (row.getD p 0 - s * (row.getD a 0 + tau * row.getD p 0))).set a
        (row.getD a 0 + s * (row.getD p 0 - tau * row.getD a 0))).getD a 0
        = row.getD a 0 + s * (row.getD p 0 - tau * row.getD a 0) := by
      simp [List.getD_eq_getElem?_getD, List.getElem?_set, hlen, hq]
    rw [this]
    linear_combination (-(row.getD a 0)) * hst
  · by_cases hap : a = p
    · subst hap
      rw [if_pos rfl, if_pos rfl, if_pos (Or.inl rfl)]
      have : ((row.set a (row.getD a 0 - s * (row.getD q 0 + tau * row.getD a 0))).set q
          (row.getD q 0 + s * (row.getD a 0 - tau * row.getD q 0))).getD a 0
          = row.getD a 0 - s * (row.getD q 0 + tau * row.getD a 0) := by
        simp [List.getD_eq_getElem?_getD, List.getElem?_set_ne (Ne.symm haq),
          List.getElem?_set, hlen, hp]
      rw [this]
      linear_combination (-(row.getD a 0)) * hst
    · rw [if_neg hap, if_neg haq, if_neg hap, if_neg haq, if_neg (by tauto)]
      have : ((row.set p (row.getD p 0 - s * (row.getD q 0 + tau * row.getD p 0))).set q
          (row.getD q 0 + s * (row.getD p 0 - tau * row.getD q 0))).getD a 0
          = row.getD a 0 := by
        simp [List.getD_eq_getElem?_getD, List.getElem?_set_ne (Ne.symm haq),
          List.getElem?_set_ne (Ne.symm hap)]
      rw [this]
      ring

/-- A plane rotation of two columns keeps the columns orthonormal. -/
theorem rotate_orthonormal {α : Type} [LinearOrderedField α] {n : Nat} (c s tau : α)
    (hcs : c * c + s * s = 1) (hst : s * tau = 1 - c) {V : List (List α)}
    (h : Square n V) (hV : OrthonormalColumns n V) (p q : Nat) (hpq : p < q) (hq : q < n) :
    Square n (V.map (fun row =>
        (row.set p (row.getD p 0 - s * (row.getD q 0 + tau * row.getD p 0))).set q
          (row.getD q 0 + s * (row.getD p 0 - tau * row.getD q 0)))) ∧
    OrthonormalColumns n (V.map (fun row =>
        (row.set p (row.getD p 0 - s * (row.getD q 0 + tau * row.getD p 0))).set q
          (row.getD q 0 + s * (row.getD p 0 - tau * row.getD q 0)))) := by
  have hp : p < n := by omega
  constructor
  · refine ⟨by rw [List.length_map]; exact h.1, ?_⟩
    intro row hrow
    obtain ⟨r, hr, rfl⟩ := List.mem_map.mp hrow
    rw [List.length_set, List.length_set]
    exact h.2 r hr
  · intro a b ha hb
    unfold columnDot
    rw [List.map_map]
    have hcongr : V.map ((fun row : List α => row.getD a 0 * row.getD b 0) ∘ (fun row =>
          (row.set p (row.getD p 0 - s * (row.getD q 0 + tau * row.getD p 0))).set q
            (row.getD q 0 + s * (row.getD p 0 - tau * row.getD q 0))))
        = V.map (fun row =>
          ((if a = p then c else if a = q then s else 0) * row.getD p 0
            + (if a = p then -s else if a = q then c else 0) * row.getD q 0
            + (if a = p ∨ a = q then 0 else 1) * row.getD a 0)
          * ((if b = p then c else if b = q then s else 0) * row.getD p 0
            + (if b = p then -s else if b = q then c else 0) * row.getD q 0
            + (if b = p ∨ b = q then 0 else 1) * row.getD b 0)) := by
      apply List.map_congr_left
      intro row hrow
      show ((row.set p _).set q _).getD a 0 * ((row.set p _).set q _).getD b 0 = _
      rw [rotated_entry c s tau hst row (h.2 row hrow) p q a hpq hq,
        rotated_entry c s tau hst row (h.2 row hrow) p q b hpq hq]
    rw [hcongr, sum_map_expand]
    have hpp := hV p p hp hp
    have hpq2 := hV p q hp hq
    have hpb := hV p b hp hb
    have hqp := hV q p hq hp
    have hqq := hV q q hq hq
    have hqb := hV q b hq hb
    have hap := hV a p ha hp
    have haq := hV a q ha hq
    have hab := hV a b ha hb
    unfold columnDot at hpp hpq2 hpb hqp hqq hqb hap haq hab
    rw [hpp, hpq2, hpb, hqp, hqq, hqb, hap, haq, hab]
    have hne : p ≠ q := Nat.ne_of_lt hpq
    by_cases e1 : a = p
    · subst e1
      by_cases e2 : b = a
      · subst e2
        simp [hne, hne.symm]
        linear_combination hcs
      · by_cases e3 : b = q
        · subst e3
          simp [hne, hne.symm]
          ring
        · simp [e2, e3, Ne.symm e2, Ne.symm e3, hne, hne.symm]
    · by_cases e1q : a = q
      · subst e1q
        by_cases e2 : b = p
        · subst e2
          simp [hne, hne.symm]
          ring
        · by_cases e3 : b = a
          · subst e3
            simp [hne, hne.symm]
            linear_combination hcs
          · simp [e2, e3, Ne.symm e2, Ne.symm e3, hne, hne.symm]
      · by_cases e2 : b = p
        · subst e2
          simp [e1, e1q, hne, hne.symm, Ne.symm e1, Ne.symm e1q]
        · by_cases e3 : b = q
          · subst e3
            simp [e1, e1q, e2, hne, hne.symm, Ne.symm e1, Ne.symm e1q]
          · simp [e1, e1q, e2, e3, Ne.symm e1, Ne.symm e1q, Ne.symm e2, Ne.symm e3]


/-- Cosine and sine of the rotation: `c^2 + s^2 = 1` and `s tau = 1 - c`. -/
theorem angle_facts {α : Type} [LinearOrderedField α] (t c tau : α) (hc : 0 < c)
    (h1 : c * c * (t * t + 1) = 1) (h2 : tau * (1 + c) = t * c) :
    c * c + (t * c) * (t * c) = 1 ∧ (t * c) * tau = 1 - c := by
  have hcs : c * c + (t * c) * (t * c) = 1 := by linear_combination h1
  refine ⟨hcs, ?_⟩
  have h3 : (1 + c) ≠ 0 := ne_of_gt (by linarith)
  apply mul_right_cancel₀ h3
  linear_combination (t * c) * h2 + hcs

/-- One step `jacobiRotateMatrix` on a non-zero pivot above the diagonal
returns, keeps the shapes, and keeps the columns of `eigen_vectors`
orthonormal. -/
theorem jacobiRotateMatrix_orthonormal {n : Nat} {m V : List (List ℝ)}
    (hm : Square n m) (hV : Square n V) (p q : Nat) (hpq : p < q) (hq : q < n)
    (hpivot : ent m p q ≠ 0) (horth : OrthonormalColumns n V) :
    ∃ m' V', jacobiRotateMatrix Real.sqrt m V p q = .ok (m', V') ∧
      Square n m' ∧ Square n V' ∧ OrthonormalColumns n V' := by
  have hp : p < n := by omega
  obtain ⟨t, c, tau, hangle, hc, h1, h2, _⟩ :=
    jacobiAngle_spec (ent m p p) (ent m q q) (ent m p q) hpivot
  obtain ⟨hcs, hst⟩ := angle_facts t c tau hc h1 h2
  obtain ⟨m', hm', hsq⟩ := jacobiRotateWorking_square t (t * c) tau hm p q hpq hq
  have hV' := jacobiRotateVectors_eq (t * c) tau hV p q hpq hq
  obtain ⟨hsqV, horthV⟩ := rotate_orthonormal c (t * c) tau hcs hst hV horth p q hpq hq
  refine ⟨m', _, ?_, hsq, hsqV, horthV⟩
  unfold jacobiRotateMatrix
  rw [mread_ent hm q q hq hq, ok_bind, mread_ent hm p p hp hp, ok_bind,
    mread_ent hm p q hp hq, ok_bind, hangle, ok_bind]
  simp only []
  rw [hm', ok_bind, hV', ok_bind]
  rfl

/-- The search of `eigenDecomposition` returns a position above the diagonal
together with its entry or the absolute value of its entry. -/
theorem largestOffDiagonal_spec {α : Type} [LinearOrderedField α] {n : Nat}
    {m : List (List α)} (hm : Square n m) (hn : 2 ≤ n) :
    ∃ r c v, largestOffDiagonal m = .ok (r, c, v) ∧ r < c ∧ c < n ∧
      (v = ent m r c ∨ v = |ent m r c|) := by
  have hsize : size2 m = n := size2_square hm (by omega)
  obtain ⟨st, hst, hI⟩ := forLoop_inv
    (fun _ (st : Nat × Nat × α) => st.1 < st.2.1 ∧ st.2.1 < n ∧
      (st.2.2 = ent m st.1 st.2.1 ∨ st.2.2 = |ent m st.1 st.2.1|))
    0 (fun cur_row st =>
      forLoop (cur_row + 1) (size2 m) (fun cur_col st => do
        let x ← mread m cur_row cur_col
        if |x| > st.2.2 then pure (cur_row, cur_col, |x|) else pure st) st)
    (0, 1, ent m 0 1) ⟨by norm_num, by show 1 < n; omega, Or.inl rfl⟩ (m.length - 1)
    (Nat.zero_le _)
    (by
      intro i st _ hi hI
      rw [hm.1] at hi
      rw [hsize]
      exact forLoop_inv
        (fun _ (st : Nat × Nat × α) => st.1 < st.2.1 ∧ st.2.1 < n ∧
          (st.2.2 = ent m st.1 st.2.1 ∨ st.2.2 = |ent m st.1 st.2.1|))
        (i + 1) (fun cur_col st => do
          let x ← mread m i cur_col
          if |x| > st.2.2 then pure (i, cur_col, |x|) else pure st) st hI n (by omega)
        (by
          intro j st2 hj1 hj2 hI2
          show ∃ s', (mread m i j >>= fun x =>
            if |x| > st2.2.2 then pure (i, j, |x|) else pure st2) = .ok s' ∧ _
          rw [mread_ent hm i j (by omega) hj2, ok_bind]
          by_cases hgt : |ent m i j| > st2.2.2
          · rw [if_pos hgt]
            exact ⟨_, rfl, by show i < j; omega, hj2, Or.inr rfl⟩
          · rw [if_neg hgt]
            exact ⟨_, rfl, hI2⟩))
  refine ⟨st.1, st.2.1, st.2.2, ?_, hI⟩
  unfold largestOffDiagonal
  rw [mread_ent hm 0 1 (by omega) (by omega), ok_bind]
  exact hst

/-- A value above a non-negative tolerance found by the search marks a
non-zero pivot. -/
theorem pivot_ne_zero {α : Type} [LinearOrderedField α] (ZERO v x : α) (hZ : 0 ≤ ZERO)
    (hv : v = x ∨ v = |x|) (h : ¬ v ≤ ZERO) : x ≠ 0 := by
  intro hx
  apply h
  rcases hv with hv | hv
  · rw [hv, hx]
    exact hZ
  · rw [hv, hx, abs_zero]
    exact hZ

/-- Invariant rule for the iteration of `eigenDecomposition`: a property of
the working matrix and `eigen_vectors` kept by every rotation on a non-zero
pivot above the diagonal holds when the iteration stops. -/
theorem jacobiIterations_inv {n : Nat} (hn : 2 ≤ n) (ZERO : ℝ) (hZ : 0 ≤ ZERO)
    (Inv : List (List ℝ) → List (List ℝ) → Prop)
    (hshape : ∀ m V, Inv m V → Square n m)
    (hstep : ∀ m V p q, Inv m V → p < q → q < n → ent m p q ≠ 0 →
      ∃ m' V', jacobiRotateMatrix Real.sqrt m V p q = .ok (m', V') ∧ Inv m' V') :
    ∀ k m V, Inv m V →
      ∃ m' V', jacobiIterations Real.sqrt ZERO k m V = .ok (m', V') ∧ Inv m' V' := by
  intro k
  induction k with
  | zero =>
    intro m V h
    exact ⟨m, V, rfl, h⟩
  | succ k ih =>
    intro m V h
    obtain ⟨r, c, v, hfound, hrc, hc, hv⟩ := largestOffDiagonal_spec (hshape m V h) hn
    unfold jacobiIterations
    rw [hfound, ok_bind]
    by_cases hstop : v ≤ ZERO
    · rw [if_pos hstop]
      exact ⟨m, V, rfl, h⟩
    · rw [if_neg hstop]
      obtain ⟨m1, V1, hrot, h1⟩ := hstep m V r c h hrc hc (pivot_ne_zero ZERO v _ hZ hv hstop)
      obtain ⟨m2, V2, hrest, h2⟩ := ih m1 V1 h1
      refine ⟨m2, V2, ?_, h2⟩
      show (jacobiRotateMatrix Real.sqrt m V r c >>= fun r =>
        jacobiIterations Real.sqrt ZERO k r.1 r.2) = _
      rw [hrot, ok_bind]
      exact hrest

/-- The validation of `eigenDecomposition` passes on a symmetric matrix when
the tolerance is positive. -/
theorem symmetric_check {α : Type} [LinearOrderedField α] {n : Nat} (ZERO : α)
    (hZ : 0 < ZERO) {m : List (List α)} (hm : Square n m)
    (hsym : ∀ i j, i < n → j < n → ent m i j = ent m j i) :
    forLoop 0 n (fun i (_ : Unit) =>
      forLoop 0 n (fun j (_ : Unit) => do
        let a ← mread m i j
        let b ← mread m j i
        assert (!decide (|a - b| ≥ ZERO))) ()) () = .ok () := by
  obtain ⟨u, hu, _⟩ := forLoop_inv (fun _ (_ : Unit) => True) 0 (fun i (_ : Unit) =>
      forLoop 0 n (fun j (_ : Unit) => do
        let a ← mread m i j
        let b ← mread m j i
        assert (!decide (|a - b| ≥ ZERO))) ()) () trivial n (Nat.zero_le n)
    (by
      intro i _ _ hi _
      exact forLoop_inv (fun _ (_ : Unit) => True) 0 (fun j (_ : Unit) => do
          let a ← mread m i j
          let b ← mread m j i
          assert (!decide (|a - b| ≥ ZERO))) () trivial n (Nat.zero_le n)
        (by
          intro j _ _ hj _
          refine ⟨(), ?_, trivial⟩
          show (mread m i j >>= fun a => mread m j i >>= fun b =>
            assert (!decide (|a - b| ≥ ZERO))) = _
          rw [mread_ent hm i j hi hj, ok_bind, mread_ent hm j i hj hi, ok_bind,
            hsym i j hi hj, sub_self, abs_zero]
          have : ¬ (0 ≥ ZERO) := not_le.mpr hZ
          simp [assert, this]))
  exact hu

/-- The run of `eigenDecomposition` on a symmetric matrix: the iteration is
run from the given `eigen_vectors`, and `eigen_values` receives the diagonal
of the working matrix it leaves. -/
theorem eigenDecomposition_eq {n : Nat} (hn : 2 ≤ n) (ZERO : ℝ) (hZ : 0 < ZERO)
    (Inv : List (List ℝ) → List (List ℝ) → Prop)
    (hshape : ∀ m V, Inv m V → Square n m)
    (hstep : ∀ m V p q, Inv m V → p < q → q < n → ent m p q ≠ 0 →
      ∃ m' V', jacobiRotateMatrix Real.sqrt m V p q = .ok (m', V') ∧ Inv m' V')
    (m V : List (List ℝ)) (ev0 : List ℝ) (hev : ev0.length = n) (h0 : Inv m V)
    (hsym : ∀ i j, i < n → j < n → ent m i j = ent m j i) :
    ∃ w V', jacobiIterations Real.sqrt ZERO 100 m V = .ok (w, V') ∧ Inv w V' ∧
      eigenDecomposition Real.sqrt ZERO m ev0 V
        = .ok ((List.range n).map (fun i => ent w i i), V') := by
  obtain ⟨w, V', hrun, hI⟩ := jacobiIterations_inv hn ZERO (le_of_lt hZ) Inv hshape hstep
    100 m V h0
  have hm := hshape m V h0
  have hw := hshape w V' hI
  refine ⟨w, V', hrun, hI, ?_⟩
  unfold eigenDecomposition
  simp only []
  rw [size2_square hm (by omega), hm.1]
  rw [show assert (n == n) = .ok () by simp [assert], ok_bind,
    symmetric_check ZERO hZ hm hsym, ok_bind, hrun, ok_bind]
  simp only []
  rw [forLoop_tabulate n _ (fun i => ent w i i) ev0 hev
    (by
      intro i v hi hv
      rw [mread_ent hw i i hi hi, ok_bind, write_ok v i _ (by omega)])]
  rfl

theorem sum_range_indicator {α : Type} [LinearOrderedField α] (n a : Nat) (x : α) :
    ((List.range n).map (fun i => if i = a then x else 0)).sum = if a < n then x else 0 := by
  induction n with
  | zero => simp
  | succ n ih =>
    rw [List.range_succ, List.map_append, List.sum_append, ih]
    by_cases h1 : a < n
    · have h2 : ¬ n = a := by omega
      simp [h1, h2, Nat.lt_succ_of_lt h1]
    · by_cases h2 : n = a
      · subst h2
        simp
      · have h3 : ¬ a < n + 1 := by omega
        simp [h1, h2, h3]

theorem identity_square {α : Type} [LinearOrderedField α] (n : Nat) :
    Square n (IdentityMatrix n : List (List α)) := by
  unfold IdentityMatrix
  refine ⟨by simp, ?_⟩
  intro row hrow
  obtain ⟨i, _, rfl⟩ := List.mem_map.mp hrow
  simp

theorem identity_orthonormal {α : Type} [LinearOrderedField α] (n : Nat) :
    OrthonormalColumns n (IdentityMatrix n : List (List α)) := by
  intro a b ha hb
  unfold columnDot IdentityMatrix
  rw [List.map_map]
  have hcongr : (List.range n).map ((fun row : List α => row.getD a 0 * row.getD b 0) ∘
        (fun i => (List.range n).map (fun j => if i = j then (1 : α) else 0)))
      = (List.range n).map (fun i => if i = a then (if a = b then (1 : α) else 0) else 0) := by
    apply List.map_congr_left
    intro i _
    show ((List.range n).map (fun j => if i = j then (1 : α) else 0)).getD a 0
      * ((List.range n).map (fun j => if i = j then (1 : α) else 0)).getD b 0 = _
    have e1 := entry_map_range n (fun j => if i = j then (1 : α) else 0) a ha
    have e2 := entry_map_range n (fun j => if i = j then (1 : α) else 0) b hb
    unfold entry at e1 e2
    rw [e1, e2]
    by_cases h1 : i = a
    · subst h1
      simp
    · simp [h1]
  rw [hcongr, sum_range_indicator, if_pos ha]


/-! ## Reconstruction from the Jacobi iteration (3 by 3) -/

theorem square3_of_literal {β : Type} (a b c d e f g h k : β) :
    Square 3 [[a, b, c], [d, e, f], [g, h, k]] := by
  refine ⟨rfl, ?_⟩
  intro row hrow
  simp only [List.mem_cons, List.mem_singleton, List.not_mem_nil, or_false] at hrow
  rcases hrow with rfl | rfl | rfl <;> rfl

theorem symmetric3 {α : Type} [LinearOrderedField α] (a b c d e f : α) :
    ∀ i j, i < 3 → j < 3 →
      ent [[a, b, c], [b, d, e], [c, e, f]] i j = ent [[a, b, c], [b, d, e], [c, e, f]] j i := by
  intro i j hi hj
  interval_cases i <;> interval_cases j <;> rfl

/-- C26: each `jacobiRotateMatrix` step on a non-zero pivot above the diagonal
returns and keeps the columns of `eigen_vectors` orthonormal; hence for every
symmetric `n` by `n` matrix (`n` at least 2) and positive tolerance,
`eigenDecomposition` started from the identity returns with `eigen_vectors`
having columns of unit norm that are pairwise orthogonal. -/
theorem jacobi_columns_orthonormal :
    (∀ (n : Nat) (m V : List (List ℝ)) (p q : Nat), Square n m → Square n V → p < q → q < n →
      ent m p q ≠ 0 → OrthonormalColumns n V →
      ∃ m' V', jacobiRotateMatrix Real.sqrt m V p q = .ok (m', V') ∧
        OrthonormalColumns n V') ∧
    (∀ (n : Nat) (ZERO : ℝ) (m : List (List ℝ)) (ev0 : List ℝ), 2 ≤ n → 0 < ZERO →
      Square n m → (∀ i j, i < n → j < n → ent m i j = ent m j i) → ev0.length = n →
      ∃ ev V, eigenDecomposition Real.sqrt ZERO m ev0 (IdentityMatrix n) = .ok (ev, V) ∧
        OrthonormalColumns n V) := by
  constructor
  · intro n m V p q hm hV hpq hq hpivot horth
    obtain ⟨m', V', hstep, _, _, h⟩ :=
      jacobiRotateMatrix_orthonormal hm hV p q hpq hq hpivot horth
    exact ⟨m', V', hstep, h⟩
  · intro n ZERO m ev0 hn hZ hm hsym hev
    obtain ⟨w, V, _, hI, hdec⟩ := eigenDecomposition_eq hn ZERO hZ
      (fun w V => Square n w ∧ Square n V ∧ OrthonormalColumns n V)
      (fun _ _ h => h.1)
      (by
        intro m V p q hI hpq hq hpivot
        obtain ⟨m', V', hstep, h1, h2, h3⟩ :=
          jacobiRotateMatrix_orthonormal hI.1 hI.2.1 p q hpq hq hpivot hI.2.2
        exact ⟨m', V', hstep, h1, h2, h3⟩)
      m (IdentityMatrix n) ev0 hev ⟨hm, identity_square n, identity_orthonormal n⟩ hsym
    exact ⟨_, V, hdec, hI.2.2⟩

/-- The statements of `jacobi_columns_orthonormal` on the symmetric matrix
with rows `2 1 0`, `1 2 0`, `0 0 3`: the rotation on the pivot `(0, 1)` from
the identity, and the whole decomposition with tolerance `1/1000000`. -/
theorem jacobi_columns_orthonormal_witness :
    (∃ m' V', jacobiRotateMatrix Real.sqrt [[2, 1, 0], [1, 2, 0], [0, 0, 3]]
        (IdentityMatrix 3) 0 1 = .ok (m', V') ∧ OrthonormalColumns 3 V') ∧
    (∃ ev V, eigenDecomposition Real.sqrt (1 / 1000000) [[2, 1, 0], [1, 2, 0], [0, 0, 3]]
        [0, 0, 0] (IdentityMatrix 3) = .ok (ev, V) ∧ OrthonormalColumns 3 V) :=
  ⟨jacobi_columns_orthonormal.1 3 [[2, 1, 0], [1, 2, 0], [0, 0, 3]] (IdentityMatrix 3) 0 1
      (square3_of_literal _ _ _ _ _ _ _ _ _) (identity_square 3) (by norm_num) (by norm_num)
      (by show (1 : ℝ) ≠ 0; norm_num) (identity_orthonormal 3),
    jacobi_columns_orthonormal.2 3 (1 / 1000000) [[2, 1, 0], [1, 2, 0], [0, 0, 3]] [0, 0, 0]
      (by norm_num) (by norm_num) (square3_of_literal _ _ _ _ _ _ _ _ _)
      (symmetric3 2 1 0 2 0 3) rfl⟩

end FisherBingham
